import Mathlib

/-!
# GraphAligner: word-slice arithmetic

A shallow embedding of the bit-parallel word-slice arithmetic of
src/WordSlice.h and of GraphAligner::getNextSlice (src/GraphAligner.h).

Conventions of the embedding:
* Word is uint64_t: a natural number below 2^64; every arithmetic operation
  that can leave that range is reduced modulo 2^64 explicitly.
* ScoreType is a signed integer; scores are modelled as unbounded Int
  (overflow of scores is not modelled).
* RowConfirmation.rows (a char) and int rows are modelled as Int.
* A shift whose count is outside 0..63 is undefined in C++; the embedding
  takes the count modulo 64 (the x86-64 behaviour).
* The field RowConfirmation::partial is named partialRow, since the
  source name is a reserved word.
* The assert statements of the source are debugging checks and are not part
  of the embedding; several of them are proved as theorems instead. The one
  exception is assert(false) in the default case of a switch, which stops a
  build that has assertions enabled: the embedding of
  CommonUtils::ReverseComplement keeps it under the flag assertsEnabled.
-/

namespace WordConfiguration

def WordSize : Nat := 64
def ChunkBits : Nat := 8
def AllZeros : Nat := 0x0000000000000000
def AllOnes : Nat := 0xFFFFFFFFFFFFFFFF
def SignMask : Nat := 0x8080808080808080
def PrefixSumMultiplierConstant : Nat := 0x0101010101010101
def LSBMask : Nat := 0x0101010101010101

/-- Number of values of a Word. -/
def wordMod : Nat := 18446744073709551616

/-- Operator ~ on uint64_t. -/
def wnot (x : Nat) : Nat := AllOnes ^^^ x
/-- Operator + on uint64_t. -/
def wadd (x y : Nat) : Nat := (x + y) % wordMod
/-- Operator - on uint64_t. -/
def wsub (x y : Nat) : Nat := (x + (wordMod - y % wordMod)) % wordMod
/-- Operator * on uint64_t. -/
def wmul (x y : Nat) : Nat := (x * y) % wordMod
/-- Shift count as the hardware takes it. -/
def shiftCount (n : Int) : Nat := (n % 64).toNat
/-- Operator << on uint64_t. -/
def wshl (x : Nat) (n : Int) : Nat := (x <<< shiftCount n) % wordMod
/-- Operator >> on uint64_t. -/
def wshr (x : Nat) (n : Int) : Nat := x >>> shiftCount n

/-- WordConfiguration<uint64_t>::ChunkPopcounts. -/
def ChunkPopcounts (value : Nat) : Nat :=
  let x := value
  let x := wsub x ((x >>> 1) &&& 0x5555555555555555)
  let x := wadd (x &&& 0x3333333333333333) ((x >>> 2) &&& 0x3333333333333333)
  let x := (wadd x (x >>> 4)) &&& 0x0f0f0f0f0f0f0f0f
  x

/-- WordConfiguration<uint64_t>::popcount. -/
def popcount (x : Nat) : Nat :=
  let x := wsub x ((x >>> 1) &&& 0x5555555555555555)
  let x := wadd (x &&& 0x3333333333333333) ((x >>> 2) &&& 0x3333333333333333)
  let x := (wadd x (x >>> 4)) &&& 0x0f0f0f0f0f0f0f0f
  (wmul x 0x0101010101010101) >>> 56

end WordConfiguration

open WordConfiguration

/-- Class RowConfirmation of src/WordSlice.h. -/
structure RowConfirmation where
  rows : Int
  partialRow : Bool
  deriving DecidableEq, Repr

namespace RowConfirmation

/-- RowConfirmation::operator>. -/
def gt (a other : RowConfirmation) : Bool :=
  decide (a.rows > other.rows) || (decide (a.rows = other.rows) && a.partialRow && !other.partialRow)

/-- RowConfirmation::operator<. -/
def lt (a other : RowConfirmation) : Bool :=
  decide (a.rows < other.rows) || (decide (a.rows = other.rows) && !a.partialRow && other.partialRow)

/-- RowConfirmation::operator==. -/
def eq (a other : RowConfirmation) : Bool :=
  decide (a.rows = other.rows) && (a.partialRow == other.partialRow)

end RowConfirmation

/-- Class WordSlice of src/WordSlice.h, with Word = uint64_t. -/
structure WordSlice where
  VP : Nat
  VN : Nat
  scoreEnd : Int
  scoreBeforeStart : Int
  confirmedRows : RowConfirmation
  scoreBeforeExists : Bool
  scoreEndExists : Bool
  deriving DecidableEq, Repr

namespace WordSlice

/-- The default constructor WordSlice(). -/
def default : WordSlice :=
  { VP := 0, VN := 0, scoreEnd := 0, scoreBeforeStart := 0,
    confirmedRows := ⟨0, false⟩, scoreBeforeExists := false, scoreEndExists := true }

/-- The six-argument constructor of WordSlice. -/
def mk6 (VP VN : Nat) (scoreEnd scoreBeforeStart : Int) (confirmedRows : Int)
    (scoreBeforeExists : Bool) : WordSlice :=
  { VP := VP, VN := VN, scoreEnd := scoreEnd, scoreBeforeStart := scoreBeforeStart,
    confirmedRows := ⟨confirmedRows, false⟩, scoreBeforeExists := scoreBeforeExists,
    scoreEndExists := true }

/-- The mask of rows 0..row that WordSlice::getValue builds. -/
def rowMask (row : Nat) : Nat :=
  if row < WordSize - 1 then wnot (wshl AllOnes (row + 1)) else AllOnes

/-- WordSlice::getValue. -/
def getValue (s : WordSlice) (row : Nat) : Int :=
  let mask := rowMask row
  s.scoreBeforeStart + (popcount (s.VP &&& mask) : Int) - (popcount (s.VN &&& mask) : Int)

end WordSlice

namespace WordConfiguration

/-- WordConfiguration<uint64_t>::BitPosition(number, rank). The comparison of
the int rank with an unsigned value converts rank to unsigned. -/
def BitPosition1 (number : Nat) (rank : Int) : Int :=
  let bytes := ChunkPopcounts number
  let cumulative := wmul bytes PrefixSumMultiplierConstant
  if (rank % (wordMod : Int)).toNat ≥ cumulative >>> 56 then
    64 + (rank - ((cumulative >>> 56 : Nat) : Int))
  else
    let rankFinder := wmul (((rank + 1).toNat) &&& 0xFF) PrefixSumMultiplierConstant
    let rankMask := wsub (cumulative ||| SignMask) rankFinder
    let smallerBytes : Nat :=
      wsub 8 ((wmul ((rankMask &&& SignMask) >>> 7) PrefixSumMultiplierConstant) >>> 56)
    let interestingByte := (wshr number ((smallerBytes * 8 : Nat) : Int)) &&& 0xFF
    let rank : Int :=
      if smallerBytes > 0 then
        rank - (((wshr cumulative (((smallerBytes : Int) - 1) * 8)) &&& 0xFF : Nat) : Int)
      else rank
    let spreadBits :=
      (wmul ((wmul interestingByte 0x0000040010004001) &&& 0x0003000300030003)
        0x0000000000000081) &&& 0x0101010101010101
    let cumulativeBits := wmul spreadBits PrefixSumMultiplierConstant
    let bitRankFinder := wmul (((rank + 1).toNat) &&& 0xFF) PrefixSumMultiplierConstant
    let bitRankMask := wsub (cumulativeBits ||| SignMask) bitRankFinder
    let smallerBits : Nat :=
      wsub 8 ((wmul ((bitRankMask &&& SignMask) >>> 7) PrefixSumMultiplierConstant) >>> 56)
    ((smallerBytes * 8 + smallerBits : Nat) : Int)

/-- WordConfiguration<uint64_t>::BitPosition(low, high, rank). -/
def BitPosition (low high : Nat) (rank : Int) : Int :=
  let result := BitPosition1 low rank
  if result < 64 then result else 64 + BitPosition1 high (result - 64)

/-- One operand of WordConfiguration<uint64_t>::Interleave, spread to the even bits. -/
def spreadEven (x : Nat) : Nat :=
  let x := (x ||| wshl x 16) &&& 0x0000FFFF0000FFFF
  let x := (x ||| wshl x 8) &&& 0x00FF00FF00FF00FF
  let x := (x ||| wshl x 4) &&& 0x0F0F0F0F0F0F0F0F
  let x := (x ||| wshl x 2) &&& 0x3333333333333333
  let x := (x ||| wshl x 1) &&& 0x5555555555555555
  x

/-- WordConfiguration<uint64_t>::Interleave. -/
def Interleave (x y : Nat) : Nat := spreadEven x ||| wshl (spreadEven y) 1

/-- WordConfiguration<uint64_t>::MortonHigh. -/
def MortonHigh (left right : Nat) : Nat := Interleave (left >>> 32) (right >>> 32)

/-- WordConfiguration<uint64_t>::MortonLow. -/
def MortonLow (left right : Nat) : Nat := Interleave (left &&& 0xFFFFFFFF) (right &&& 0xFFFFFFFF)

end WordConfiguration

namespace WordSlice

/-- A bit test as C++ converts a masked word to bool. -/
def bitSet (x mask : Nat) : Bool := decide (x &&& mask ≠ 0)

/-- The score array of the general path of WordSlice::setValue, rows 0..n,
before the minimum with the new value is taken. -/
def setValueScores (s : WordSlice) : Nat → Int
  | 0 => s.scoreBeforeStart + ((s.VP &&& 1 : Nat) : Int) - ((s.VN &&& 1 : Nat) : Int)
  | i + 1 =>
    if ((i + 1 : Nat) : Int) ≤ s.confirmedRows.rows then
      setValueScores s i + (if bitSet s.VP (wshl 1 (i + 1 : Nat)) then 1 else 0)
        - (if bitSet s.VN (wshl 1 (i + 1 : Nat)) then 1 else 0)
    else setValueScores s i + 1

/-- The switch on a score step in WordSlice::setValue: writes bit mask of (VP, VN). -/
def setStep (VP VN mask : Nat) (step : Int) : Nat × Nat :=
  if step = 0 then (VP &&& wnot mask, VN ||| mask)
  else if step = 1 then (VP &&& wnot mask, VN &&& wnot mask)
  else if step = 2 then (VP ||| mask, VN &&& wnot mask)
  else (VP, VN)

/-- The last loop of WordSlice::setValue over rows 1..n. -/
def setValueBits (scores : Nat → Int) : Nat → Nat × Nat → Nat × Nat
  | 0, vpvn => vpvn
  | i + 1, vpvn =>
    let r := setValueBits scores i vpvn
    setStep r.1 r.2 (wshl 1 (i + 1 : Nat)) (scores (i + 1) + 1 - scores i)

/-- WordSlice::setValue (row in 0..63). -/
def setValue (s : WordSlice) (row : Nat) (value : Int) : WordSlice :=
  if !s.confirmedRows.partialRow then
    { s with
      confirmedRows := ⟨row, true⟩
      scoreBeforeStart := value + row + 1
      VN := if row < WordSize - 1 then wnot (wshl AllOnes (row + 1 : Nat)) else AllOnes
      VP := if row < WordSize - 1 then wshl AllOnes (row + 1 : Nat) else AllZeros
      scoreEnd := value + WordSize - row - 1 }
  else if s.confirmedRows.rows = (row : Int) - 1 then
    let oldscore := s.scoreEnd - ((WordSize : Int) - s.confirmedRows.rows - 1)
    let mask := wshl 1 row
    let step := value + 1 - oldscore
    let r : Nat × Nat × Int :=
      if step = 0 then (s.VP &&& wnot mask, s.VN ||| mask, s.scoreEnd - 2)
      else if step = 1 then (s.VP &&& wnot mask, s.VN &&& wnot mask, s.scoreEnd - 1)
      else if step = 2 then (s.VP ||| mask, s.VN &&& wnot mask, s.scoreEnd)
      else (s.VP, s.VN, s.scoreEnd)
    { s with VP := r.1, VN := r.2.1, scoreEnd := r.2.2,
             confirmedRows := ⟨row, s.confirmedRows.partialRow⟩ }
  else
    let scores : Nat → Int := fun i => min (setValueScores s i) (value + row - i)
    let first := setStep s.VP s.VN 1 (scores 0 + 1 - s.scoreBeforeStart)
    let r := setValueBits scores row first
    { s with VP := r.1, VN := r.2, scoreEnd := scores row + WordSize - 1 - row,
             confirmedRows := ⟨row, s.confirmedRows.partialRow⟩ }

end WordSlice

/-- GraphAligner::getNextSlice. The debug assertions are not part of the
function; the one on the word invariant is getNextSliceAssertion. -/
def getNextSlice (Eq : Nat) (slice : WordSlice)
    (upInsideBand upleftInsideBand diagonalInsideBand previousEq : Bool)
    (previous : WordSlice) : WordSlice :=
  let oldValue := slice.scoreBeforeStart
  let rows := slice.confirmedRows.rows
  let confirmedMask := wshl 1 rows
  let prevConfirmedMask := wshl 1 (rows - 1)
  let Eq := if !slice.scoreBeforeExists then Eq &&& wnot 1 else Eq
  let Eq := if !diagonalInsideBand then Eq &&& wnot 1 else Eq
  let lastBitMask := wshl 1 ((WordSize : Int) - 1)
  let sbs : Int :=
    if !upleftInsideBand then slice.scoreBeforeStart + 1
    else min (slice.scoreBeforeStart + 1)
      (previous.scoreEnd - (if WordSlice.bitSet previous.VP lastBitMask then 1 else 0)
        + (if WordSlice.bitSet previous.VN lastBitMask then 1 else 0)
        + (if previousEq then 0 else 1))
  let hin := sbs - oldValue
  let Xv := Eq ||| slice.VN
  let Eq := if hin < 0 then Eq ||| 1 else Eq
  let Xh := ((wadd (Eq &&& slice.VP) slice.VP) ^^^ slice.VP) ||| Eq
  let Ph := slice.VN ||| wnot (Xh ||| slice.VP)
  let Mh := slice.VP &&& Xh
  let diagonalDiff : Int :=
    if rows > 0 then
      (if WordSlice.bitSet Ph prevConfirmedMask then 1 else 0)
        - (if WordSlice.bitSet Mh prevConfirmedMask then 1 else 0)
    else hin
  let confirm1 : Bool :=
    if decide (rows > 0) && WordSlice.bitSet Mh prevConfirmedMask then true
    else if decide (rows = 0) && decide (hin = -1) then true
    else false
  let scoreEnd : Int :=
    if WordSlice.bitSet Ph lastBitMask then slice.scoreEnd + 1
    else if WordSlice.bitSet Mh lastBitMask then slice.scoreEnd - 1
    else slice.scoreEnd
  let confirm2 : Bool :=
    if slice.confirmedRows.partialRow && WordSlice.bitSet (wnot Ph) confirmedMask then true
    else confirm1
  let Ph := wshl Ph 1
  let Mh := wshl Mh 1
  let Mh := if hin < 0 then Mh ||| 1 else Mh
  let Ph := if hin < 0 then Ph else if hin > 0 then Ph ||| 1 else Ph
  let VP := Mh ||| wnot (Xv ||| Ph)
  let VN := Ph &&& Xv
  let diagonalDiff := diagonalDiff
    + (if WordSlice.bitSet VP confirmedMask then 1 else 0)
    - (if WordSlice.bitSet VN confirmedMask then 1 else 0)
  let confirmOneMore : Bool :=
    if diagonalDiff ≤ 0 then true
    else if WordSlice.bitSet VN confirmedMask then true
    else confirm2
  let confirmedRows : RowConfirmation :=
    if confirmOneMore then
      ⟨if rows + 1 ≤ (WordSize : Int) then rows + 1 else rows, false⟩
    else if !slice.confirmedRows.partialRow && decide (rows < (WordSize : Int)) then
      ⟨rows, true⟩
    else slice.confirmedRows
  { VP := VP, VN := VN, scoreEnd := scoreEnd, scoreBeforeStart := sbs,
    confirmedRows := confirmedRows, scoreBeforeExists := upInsideBand,
    scoreEndExists := slice.scoreEndExists }

/-- The assertion on the word invariant inside getNextSlice and assertSliceCorrectness. -/
def sliceInvariant (s : WordSlice) : Prop :=
  s.scoreEnd = s.scoreBeforeStart + (popcount s.VP : Int) - (popcount s.VN : Int)

instance (s : WordSlice) : Decidable (sliceInvariant s) := by
  unfold sliceInvariant; exact inferInstance

/-- The per-vertex body of GraphAligner::finalizeAlternateSlice: the words of
one vertex are finalized; the result is the new words and the vertex minimum. -/
def finalizeAlternateNode (words : List WordSlice) (uninitializedValue : Int)
    (bandwidth : Int) : List WordSlice × Int :=
  let minScore0 : Int := (words.head?.map (fun w => w.scoreEnd)).getD 0
  let words1 := words.map (fun word =>
    { word with
      scoreEndExists := decide (word.confirmedRows.rows = (WordSize : Int) - 1)
      confirmedRows := ⟨WordSize, false⟩ })
  let minScore := words.foldl (fun m word => min m word.scoreEnd) minScore0
  let fill : Int := minScore + (words.length : Int) + bandwidth + 1
  let words2 := words1.map (fun word =>
    if word.scoreEnd = uninitializedValue then
      { word with scoreEnd := fill, scoreBeforeStart := fill }
    else word)
  (words2, minScore)

namespace WordSlice

/-- WordSlice::bytePrefixSums. -/
def bytePrefixSums (value : Nat) (addition : Int) : Nat :=
  let value := wshl value (ChunkBits : Int)
  let value := wadd value (addition % (wordMod : Int)).toNat
  wmul value PrefixSumMultiplierConstant

/-- WordSlice::byteVPVNSum. -/
def byteVPVNSum (prefixSumVP prefixSumVN : Nat) : Nat :=
  let result := SignMask
  let result := wadd result prefixSumVP
  let result := wsub result prefixSumVN
  result ^^^ SignMask

/-- The state of the loop of WordSlice::differenceMasks. -/
structure DiffState where
  difference : Nat
  leftVP : Nat
  leftVN : Nat
  rightVP : Nat
  rightVN : Nat
  resultLeftSmallerThanRight : Nat
  resultRightSmallerThanLeft : Nat
  deriving DecidableEq, Repr

/-- One iteration of the loop of WordSlice::differenceMasks. -/
def differenceMasksStep (bit : Nat) (st : DiffState) : DiffState :=
  let signmask := SignMask
  let lsbmask := LSBMask
  let difference := st.difference
  let signsBefore := difference &&& signmask
  let difference := difference &&& wnot signmask
  let difference := wadd difference (st.leftVP &&& lsbmask)
  let difference := wadd difference (st.rightVN &&& lsbmask)
  let difference := difference ^^^ signsBefore
  let signsBefore := difference &&& signmask
  let difference := difference ||| signmask
  let difference := wsub difference (st.leftVN &&& lsbmask)
  let difference := wsub difference (st.rightVP &&& lsbmask)
  let signsBefore := signsBefore ^^^ (signmask &&& wnot difference)
  let difference := difference &&& wnot signmask
  let difference := difference ||| signsBefore
  let negative := difference &&& signmask
  let notEqualToZero := (wsub (difference ||| signmask) lsbmask) &&& signmask
  { difference := difference
    leftVN := st.leftVN >>> 1
    leftVP := st.leftVP >>> 1
    rightVN := st.rightVN >>> 1
    rightVP := st.rightVP >>> 1
    resultLeftSmallerThanRight :=
      st.resultLeftSmallerThanRight ||| (negative >>> (ChunkBits - 1 - bit))
    resultRightSmallerThanLeft :=
      st.resultRightSmallerThanLeft |||
        ((notEqualToZero &&& wnot negative) >>> (ChunkBits - 1 - bit)) }

/-- The loop of WordSlice::differenceMasks: iterations bit = 0 .. n-1. -/
def differenceMasksLoop : Nat → DiffState → DiffState
  | 0, st => st
  | n + 1, st => differenceMasksStep n (differenceMasksLoop n st)

/-- WordSlice::differenceMasks. -/
def differenceMasks (leftVP leftVN rightVP rightVN : Nat) (scoreDifference : Int) :
    Nat × Nat :=
  let signmask := SignMask
  let lsbmask := LSBMask
  let VPcommon := wnot (leftVP &&& rightVP)
  let VNcommon := wnot (leftVN &&& rightVN)
  let leftVP := leftVP &&& VPcommon
  let leftVN := leftVN &&& VNcommon
  let rightVP := rightVP &&& VPcommon
  let rightVN := rightVN &&& VNcommon
  if scoreDifference > (popcount rightVN : Int) + (popcount leftVP : Int) then
    (AllOnes, AllZeros)
  else if scoreDifference = 128 ∧ rightVN = AllOnes ∧ leftVP = AllOnes then
    (AllOnes ^^^ (wshl 1 ((WordSize : Int) - 1)), AllZeros)
  else if scoreDifference = 0 ∧ rightVN = AllOnes ∧ leftVP = AllOnes then
    (0, AllOnes)
  else
    let byteVPVNSumLeft :=
      byteVPVNSum (bytePrefixSums (ChunkPopcounts leftVP) 0)
        (bytePrefixSums (ChunkPopcounts leftVN) 0)
    let byteVPVNSumRight :=
      byteVPVNSum (bytePrefixSums (ChunkPopcounts rightVP) scoreDifference)
        (bytePrefixSums (ChunkPopcounts rightVN) 0)
    let difference := byteVPVNSumLeft
    let smearmask :=
      wmul ((byteVPVNSumRight &&& signmask) >>> (ChunkBits - 1))
        (wsub (wshl 1 ((ChunkBits : Int) - 1)) 1)
    let deductions := wnot smearmask &&& byteVPVNSumRight &&& wnot signmask
    let additions := wadd (smearmask &&& wnot byteVPVNSumRight) (smearmask &&& lsbmask)
    let signsBefore := difference &&& signmask
    let difference := difference &&& wnot signmask
    let difference := wadd difference additions
    let difference := difference ^^^ signsBefore
    let signsBefore := difference &&& signmask
    let difference := difference ||| signmask
    let difference := wsub difference deductions
    let signsBefore := signsBefore ^^^ (signmask &&& wnot difference)
    let difference := difference &&& wnot signmask
    let difference := difference ||| signsBefore
    let st := differenceMasksLoop ChunkBits
      { difference := difference, leftVP := leftVP, leftVN := leftVN,
        rightVP := rightVP, rightVN := rightVN,
        resultLeftSmallerThanRight := 0, resultRightSmallerThanLeft := 0 }
    (st.resultLeftSmallerThanRight, st.resultRightSmallerThanLeft)

/-- WordSlice::confirmedRowsInMerged after its two opening lines: left has the
larger confirmation. -/
def confirmedRowsInMergedOrdered (left right : WordSlice) : RowConfirmation :=
  let lrows := left.confirmedRows.rows
  let rrows := right.confirmedRows.rows
  let confirmedMask := wnot (wshl AllOnes rrows)
  let leftScore : Int := left.scoreBeforeStart
    + (popcount (left.VP &&& confirmedMask) : Int) - (popcount (left.VN &&& confirmedMask) : Int)
  let rightScore : Int := right.scoreBeforeStart
    + (popcount (right.VP &&& confirmedMask) : Int)
    - (popcount (right.VN &&& confirmedMask) : Int)
  if rrows = lrows then
    let mask := wshl 1 lrows
    let rightScore := rightScore - 1
    if bitSet left.VP mask then ⟨lrows, decide (leftScore ≤ rightScore)⟩
    else ⟨lrows, decide (leftScore - 1 ≤ rightScore)⟩
  else
    let premask := wshl 1 rrows
    let leftScore := leftScore + (if bitSet left.VP premask then 1 else 0)
      - (if bitSet left.VN premask then 1 else 0)
    let rightScore :=
      if right.confirmedRows.partialRow && bitSet right.VP premask then rightScore
      else rightScore - 1
    if leftScore = rightScore + 1 then ⟨rrows, true⟩
    else if leftScore > rightScore + 1 then right.confirmedRows
    else
      let tail (leftScore rightScore : Int) : RowConfirmation :=
        if !left.confirmedRows.partialRow then left.confirmedRows
        else
          let postmask := wshl 1 lrows
          let rightScore := rightScore - 1
          if bitSet left.VP postmask then
            if leftScore ≤ rightScore then left.confirmedRows else ⟨lrows, false⟩
          else left.confirmedRows
      if lrows > rrows + 1 then
        let partiallyConfirmedMask : Nat :=
          if lrows < (WordSize : Int) then wshl AllOnes lrows else 0
        let partiallyConfirmedMask := wnot partiallyConfirmedMask
        let partiallyConfirmedMask := partiallyConfirmedMask &&& wshl AllOnes (rrows + 1)
        let low := left.VP &&& partiallyConfirmedMask
        let high := wnot left.VN &&& partiallyConfirmedMask
        let mortonLow := MortonLow low high
        let mortonHigh := MortonHigh low high
        let pos := BitPosition mortonLow mortonHigh (rightScore - leftScore)
        if pos / 2 < lrows then
          let nextpos := BitPosition mortonLow mortonHigh (rightScore - leftScore + 1)
          ⟨pos / 2, decide (nextpos / 2 > pos / 2)⟩
        else
          tail
            (leftScore + (popcount (left.VP &&& partiallyConfirmedMask) : Int)
              - (popcount (left.VN &&& partiallyConfirmedMask) : Int))
            (rightScore - (lrows - rrows - 1))
      else tail leftScore rightScore

/-- WordSlice::confirmedRowsInMerged. -/
def confirmedRowsInMerged (left right : WordSlice) : RowConfirmation :=
  if left.confirmedRows.eq right.confirmedRows then left.confirmedRows
  else if right.confirmedRows.gt left.confirmedRows then confirmedRowsInMergedOrdered right left
  else confirmedRowsInMergedOrdered left right

/-- WordSlice::mergeTwoSlices after the operands are ordered by scoreBeforeStart. -/
def mergeOrdered (left right : WordSlice) : WordSlice :=
  let newConfirmedRows := confirmedRowsInMerged left right
  let masks := differenceMasks left.VP left.VN right.VP right.VN
    (right.scoreBeforeStart - left.scoreBeforeStart)
  let leftSmaller := masks.1
  let rightSmaller := masks.2
  let mask := (rightSmaller ||| (wsub (leftSmaller ||| rightSmaller) (wshl rightSmaller 1)))
    &&& wnot leftSmaller
  let leftReduction := leftSmaller &&& (wshl rightSmaller 1)
  let rightReduction := rightSmaller &&& (wshl leftSmaller 1)
  let rightReduction :=
    if bitSet rightSmaller 1 && decide (left.scoreBeforeStart < right.scoreBeforeStart)
    then rightReduction ||| 1 else rightReduction
  let leftVN := left.VN &&& wnot leftReduction
  let rightVN := right.VN &&& wnot rightReduction
  { VN := (leftVN &&& wnot mask) ||| (rightVN &&& mask)
    VP := (left.VP &&& wnot mask) ||| (right.VP &&& mask)
    scoreBeforeStart := min left.scoreBeforeStart right.scoreBeforeStart
    scoreEnd := min left.scoreEnd right.scoreEnd
    scoreBeforeExists :=
      if left.scoreBeforeStart < right.scoreBeforeStart then left.scoreBeforeExists
      else if right.scoreBeforeStart < left.scoreBeforeStart then right.scoreBeforeExists
      else left.scoreBeforeExists || right.scoreBeforeExists
    confirmedRows := newConfirmedRows
    scoreEndExists := WordSlice.default.scoreEndExists }

/-- WordSlice::mergeTwoSlices. -/
def mergeTwoSlices (left right : WordSlice) : WordSlice :=
  if left.scoreBeforeStart > right.scoreBeforeStart then mergeOrdered right left
  else mergeOrdered left right

/-- WordSlice::mergeWith. -/
def mergeWith (s other : WordSlice) : WordSlice := mergeTwoSlices s other

/-- The two word invariants every live WordSlice has, for words of 64 bits. -/
def Valid (s : WordSlice) : Prop :=
  s.VP < wordMod ∧ s.VN < wordMod ∧ s.VP &&& s.VN = 0

instance (s : WordSlice) : Decidable (Valid s) := by
  unfold Valid; exact inferInstance

end WordSlice
/-! ## Characters: the match predicate and the reverse complement -/

/-- GraphAligner::characterMatch. The result none is the default branch of the
switch, which ends the program (assert(false); std::abort()). The opening assertion
on graphCharacter is a debugging check and is left out. -/
def characterMatch (sequenceCharacter graphCharacter : Char) : Option Bool :=
  match sequenceCharacter with
  | 'A' | 'a' => some (graphCharacter == 'A')
  | 'T' | 't' => some (graphCharacter == 'T')
  | 'C' | 'c' => some (graphCharacter == 'C')
  | 'G' | 'g' => some (graphCharacter == 'G')
  | 'N' | 'n' => some true
  | 'R' | 'r' => some (graphCharacter == 'A' || graphCharacter == 'G')
  | 'Y' | 'y' => some (graphCharacter == 'C' || graphCharacter == 'T')
  | 'K' | 'k' => some (graphCharacter == 'G' || graphCharacter == 'T')
  | 'M' | 'm' => some (graphCharacter == 'C' || graphCharacter == 'A')
  | 'S' | 's' => some (graphCharacter == 'C' || graphCharacter == 'G')
  | 'W' | 'w' => some (graphCharacter == 'A' || graphCharacter == 'T')
  | 'B' | 'b' => some (graphCharacter == 'C' || graphCharacter == 'G' || graphCharacter == 'T')
  | 'D' | 'd' => some (graphCharacter == 'A' || graphCharacter == 'G' || graphCharacter == 'T')
  | 'H' | 'h' => some (graphCharacter == 'A' || graphCharacter == 'C' || graphCharacter == 'T')
  | 'V' | 'v' => some (graphCharacter == 'A' || graphCharacter == 'C' || graphCharacter == 'G')
  | _ => none

/-- The IUPAC set of a read character as the specification lists it; the lower
case letters stand for the same sets, every other character for the empty set. -/
def IUPAC (r : Char) : List Char :=
  match r.toUpper with
  | 'A' => ['A']
  | 'C' => ['C']
  | 'G' => ['G']
  | 'T' => ['T']
  | 'R' => ['A', 'G']
  | 'Y' => ['C', 'T']
  | 'K' => ['G', 'T']
  | 'M' => ['A', 'C']
  | 'S' => ['C', 'G']
  | 'W' => ['A', 'T']
  | 'B' => ['C', 'G', 'T']
  | 'D' => ['A', 'G', 'T']
  | 'H' => ['A', 'C', 'T']
  | 'V' => ['A', 'C', 'G']
  | 'N' => ['A', 'C', 'G', 'T']
  | _ => []

/-- The read characters of the IUPAC claim, in upper and lower case. -/
def iupacReadCharacters : List Char :=
  ['A', 'C', 'G', 'T', 'N', 'R', 'Y', 'K', 'M', 'S', 'W', 'B', 'D', 'H', 'V',
   'a', 'c', 'g', 't', 'n', 'r', 'y', 'k', 'm', 's', 'w', 'b', 'd', 'h', 'v']

/-- The characters a graph sequence may hold. -/
def graphCharacters : List Char := ['A', 'C', 'G', 'T']

/-- One round of the switch of CommonUtils::ReverseComplement: the characters
appended to the result for the character c, or none when assert(false) stops the
program. The case of H and h has no break statement and runs on into the default
case; assertsEnabled is false for a build with NDEBUG, where assert does nothing. -/
def reverseComplementCase (assertsEnabled : Bool) (c : Char) : Option (List Char) :=
  match c with
  | 'A' | 'a' => some ['T']
  | 'C' | 'c' => some ['G']
  | 'T' | 't' => some ['A']
  | 'G' | 'g' => some ['C']
  | 'N' | 'n' => some ['N']
  | 'U' | 'u' => some ['A']
  | 'R' | 'r' => some ['Y']
  | 'Y' | 'y' => some ['R']
  | 'K' | 'k' => some ['M']
  | 'M' | 'm' => some ['K']
  | 'S' | 's' => some ['S']
  | 'W' | 'w' => some ['W']
  | 'B' | 'b' => some ['V']
  | 'V' | 'v' => some ['B']
  | 'D' | 'd' => some ['H']
  | 'H' | 'h' => if assertsEnabled then none else some ['D']
  | _ => if assertsEnabled then none else some []

/-- The loop of CommonUtils::ReverseComplement over the characters still to be
read (the string from its last character to its first). -/
def reverseComplementLoop (assertsEnabled : Bool) : List Char → List Char → Option (List Char)
  | [], result => some result
  | c :: rest, result =>
    match reverseComplementCase assertsEnabled c with
    | none => none
    | some out => reverseComplementLoop assertsEnabled rest (result ++ out)

/-- CommonUtils::ReverseComplement, on the list of the characters of the string. -/
def ReverseComplement (assertsEnabled : Bool) (str : List Char) : Option (List Char) :=
  reverseComplementLoop assertsEnabled str.reverse []

/-! ## The command line driver -/

/-- The fields of AlignerParams that main of AlignerMain.cpp sets. -/
structure AlignerParams where
  graphFile : String
  fastqFile : String
  alignmentFile : String
  auggraphFile : String
  seedFile : String
  numThreads : Int
  initialBandwidth : Int
  rampBandwidth : Int
  dynamicRowStart : Int
  deriving DecidableEq, Repr

/-- How a run of main ends: std::exit with a status, or the call of alignReads
followed by return 0. -/
inductive MainEnd where
  | exited (status : Int)
  | alignReadsCalled
  deriving DecidableEq, Repr

/-- What main does: the lines written to std::cerr and the way it ends. -/
structure MainRun where
  cerr : List String
  ending : MainEnd
  deriving DecidableEq, Repr

/-- The values main gives to params before it reads the options. -/
def initialParams : AlignerParams :=
  { graphFile := "", fastqFile := "", alignmentFile := "", auggraphFile := "", seedFile := "",
    numThreads := 0, initialBandwidth := 0, rampBandwidth := 0, dynamicRowStart := 64 }

/-- One round of the getopt loop of main: the option letter c with its argument,
which std::stoi has turned into the number value for the options t, b, B and d. -/
def applyOption (state : AlignerParams × Bool) (c : Char) (optarg : String) (value : Int) :
    AlignerParams × Bool :=
  match c with
  | 'g' => ({ state.1 with graphFile := optarg }, state.2)
  | 'f' => ({ state.1 with fastqFile := optarg }, state.2)
  | 'a' => ({ state.1 with alignmentFile := optarg }, state.2)
  | 't' => ({ state.1 with numThreads := value }, state.2)
  | 'b' => ({ state.1 with initialBandwidth := value }, state.2)
  | 'B' => ({ state.1 with rampBandwidth := value }, state.2)
  | 'A' => ({ state.1 with auggraphFile := optarg }, state.2)
  | 'i' => (state.1, true)
  | 's' => ({ state.1 with seedFile := optarg }, state.2)
  | 'd' => ({ state.1 with dynamicRowStart := value }, state.2)
  | _ => state

/-- The part of main after the getopt loop: the five checks in their order, each
of which writes one line and calls std::exit(0), and then alignReads. The operator
% of C++ on int is the remainder of the division that truncates. -/
def mainChecks (params : AlignerParams) (initialFullBand : Bool) : MainRun :=
  if params.dynamicRowStart.tmod 64 ≠ 0 then
    ⟨["dynamic row start has to be a multiple of 64"], .exited 0⟩
  else if params.numThreads < 1 then
    ⟨["number of threads must be >= 1"], .exited 0⟩
  else if params.initialBandwidth < 2 then
    ⟨["bandwidth must be >= 2"], .exited 0⟩
  else if params.rampBandwidth ≠ 0 ∧ params.rampBandwidth ≤ params.initialBandwidth then
    ⟨["backup bandwidth must be higher than initial bandwidth"], .exited 0⟩
  else if !initialFullBand ∧ params.seedFile = "" then
    ⟨["either initial full band or seed file must be set"], .exited 0⟩
  else
    ⟨[], .alignReadsCalled⟩

namespace AlignerMain

/-- The function main of AlignerMain.cpp, on the options that getopt hands out one
after the other. -/
def main (options : List (Char × String × Int)) : MainRun :=
  let state := options.foldl (fun s o => applyOption s o.1 o.2.1 o.2.2) (initialParams, false)
  mainChecks state.1 state.2

end AlignerMain
/-! ## The driver: slices, tables and the choice of the method

The headers AlignmentGraph.h, NodeSlice.h, AlignmentCorrectnessEstimation.h and
GraphAlignerCommon.h are not among the sources at hand. The state of the correctness
estimator is a type parameter κ, a BacktraceOverride a type parameter β, an alignment
record of vg a type parameter α. Values of LengthType and ScoreType are modelled as Int;
the limits of the two types are the fields of TypeLimits. A result none stands for
undefined behaviour of the C++ program (back() or pop_back() on an empty vector). -/

/-- Modelled from the spec: the Graph (AlignmentGraph.h is not among the sources), with
vertices numbered from 0, the length of each vertex in base pairs and its list of
out-neighbours. -/
structure AlignmentGraph where
  nodeCount : Nat
  NodeLength : Nat → Nat
  outNeighbors : Nat → List Nat

/-- Modelled from the spec: one vertex of a NodeSlice (NodeSlice.h is not among the
sources), with the array of WordSlice of the vertex and its minScore record. -/
structure NodeSliceItem where
  node : Nat
  words : List WordSlice
  minScore : Int
  deriving DecidableEq, Repr

/-- Modelled from the spec: NodeSlice, the sparse association from vertices to arrays of
WordSlice, as the list of its vertices in the order in which the code walks through it. -/
abbrev NodeSlice := List NodeSliceItem

/-- The values std::numeric_limits gives for the template types ScoreType and LengthType. -/
structure TypeLimits where
  scoreTypeMin : Int
  scoreTypeMax : Int
  lengthTypeMax : Int
  deriving DecidableEq, Repr

/-- Class GraphAligner::DPSlice. -/
structure DPSlice (κ : Type) where
  minScore : Int
  minScoreIndex : List Nat
  scores : NodeSlice
  nodes : List Nat
  correctness : κ
  j : Int
  cellsProcessed : Nat
  numCells : Nat
  deriving DecidableEq, Repr

/-- The constructors DPSlice() and DPSlice(vectorMap); the default value of κ stands for
the default-constructed estimator state. -/
def DPSlice.default {κ : Type} [Inhabited κ] (limits : TypeLimits) : DPSlice κ :=
  { minScore := limits.scoreTypeMin, minScoreIndex := [], scores := [], nodes := [],
    correctness := Inhabited.default, j := limits.lengthTypeMax, cellsProcessed := 0,
    numCells := 0 }

/-- Class GraphAligner::DPTable. -/
structure DPTable (κ β : Type) where
  slices : List (DPSlice κ)
  samplingFrequency : Nat
  bandwidthPerSlice : List Int
  correctness : List κ
  backtraceOverrides : List β

/-- The constructor DPTable(). -/
def DPTable.default {κ β : Type} : DPTable κ β :=
  { slices := [], samplingFrequency := 0, bandwidthPerSlice := [], correctness := [],
    backtraceOverrides := [] }

/-- Class GraphAligner::NodeCalculationResult. -/
structure NodeCalculationResult where
  minScore : Int
  minScoreIndex : List Nat
  cellsProcessed : Nat
  deriving DecidableEq, Repr

/-- The two ways in which pickMethodAndExtendFill fills a block. -/
inductive FillMethod where
  | bitvector
  | alternate
  deriving DecidableEq, Repr

/-- The functions that pickMethodAndExtendFill calls and that are not embedded here: the
band function, the insertion of a vertex into a NodeSlice, the two slice calculators
(each returns its result and the NodeSlice it has filled) and the step of the
estimator; and the two values it reads, the vertex lengths and AlternateMethodCutoff.
The scratch arguments partOfComponent, calculables, processed and nodesliceMap, which
hold no value between two calls, are left out. -/
structure FillCalls (κ : Type) where
  NodeLength : Nat → Nat
  AlternateMethodCutoff : Nat
  rowBandFunction : DPSlice κ → List Bool → Int → List Nat
  addNode : NodeSlice → Nat → Nat → NodeSlice
  calculateSlice : List Char → Int → NodeSlice → NodeSlice → List Nat → List Bool → List Bool →
    NodeCalculationResult × NodeSlice
  calculateSliceAlternate : List Char → Int → NodeSlice → DPSlice κ → Int →
    NodeCalculationResult × NodeSlice
  NextState : κ → Int → Int → κ

/-- What pickMethodAndExtendFill hands back: the new slice and the vector currentBand it
has changed; method records which of its two blocks ran and is no part of the C++ value. -/
structure FillResult (κ : Type) where
  method : FillMethod
  slice : DPSlice κ
  currentBand : List Bool

/-- GraphAligner::extendDPSlice. -/
def extendDPSlice {κ : Type} [Inhabited κ] (limits : TypeLimits) (calls : FillCalls κ)
    (previous : DPSlice κ) (previousBand : List Bool) (bandwidth : Int) : DPSlice κ :=
  let result : DPSlice κ := DPSlice.default limits
  let result := { result with j := previous.j + (WordSize : Int) }
  let result := { result with correctness := previous.correctness }
  { result with nodes := calls.rowBandFunction previous previousBand bandwidth }

/-- GraphAligner::fillDPSlice. -/
def fillDPSlice {κ : Type} (calls : FillCalls κ) (sequence : List Char) (slice : DPSlice κ)
    (previousSlice : DPSlice κ) (previousBand currentBand : List Bool) : DPSlice κ :=
  let sliceResult := calls.calculateSlice sequence slice.j slice.scores previousSlice.scores
    slice.nodes currentBand previousBand
  let slice := { slice with scores := sliceResult.2 }
  let slice := { slice with cellsProcessed := sliceResult.1.cellsProcessed }
  let slice := { slice with minScoreIndex := sliceResult.1.minScoreIndex }
  let slice := { slice with minScore := sliceResult.1.minScore }
  let correctness :=
    calls.NextState slice.correctness (slice.minScore - previousSlice.minScore) (WordSize : Int)
  { slice with correctness := correctness }

/-- GraphAligner::finalizeAlternateSlice; the body of its loop over the words of a vertex
is finalizeAlternateNode. -/
def finalizeAlternateSlice {κ : Type} (slice : DPSlice κ) (currentBand : List Bool)
    (uninitializedValue : Int) (bandwidth : Int) : DPSlice κ × List Bool :=
  let items := slice.scores.map (fun item =>
    let r := finalizeAlternateNode item.words uninitializedValue bandwidth
    { item with words := r.1, minScore := r.2 })
  ({ slice with
      nodes := slice.nodes ++ slice.scores.map (fun item => item.node)
      scores := items
      numCells := slice.numCells + (slice.scores.map (fun item => item.words.length)).sum },
   slice.scores.foldl (fun band item => band.set item.node true) currentBand)

/-- The first block of pickMethodAndExtendFill, for a band below the cutoff: the vertices
of the band are put into the NodeSlice and into currentBand, and fillDPSlice fills the
slice by calculateSlice. -/
def fillBitvector {κ : Type} [Inhabited κ] (limits : TypeLimits) (calls : FillCalls κ)
    (sequence : List Char) (previous : DPSlice κ) (previousBand currentBand : List Bool)
    (bandwidth : Int) : DPSlice κ × List Bool :=
  let bandTest := extendDPSlice limits calls previous previousBand bandwidth
  let cells := (bandTest.nodes.map calls.NodeLength).sum
  let scores := bandTest.nodes.foldl
    (fun scores node => calls.addNode scores node (calls.NodeLength node)) bandTest.scores
  let currentBand := bandTest.nodes.foldl (fun band node => band.set node true) currentBand
  let bandTest := { bandTest with scores := scores }
  let bandTest := fillDPSlice calls sequence bandTest previous previousBand currentBand
  let bandTest := { bandTest with numCells := cells }
  (bandTest, currentBand)

/-- The second block of pickMethodAndExtendFill: calculateSliceAlternate fills a new
slice, which finalizeAlternateSlice then completes. -/
def fillAlternate {κ : Type} [Inhabited κ] (limits : TypeLimits) (calls : FillCalls κ)
    (sequence : List Char) (previous : DPSlice κ) (currentBand : List Bool)
    (bandwidth : Int) : DPSlice κ × List Bool :=
  let result : DPSlice κ := DPSlice.default limits
  let result := { result with j := previous.j + (WordSize : Int) }
  let result := { result with correctness := previous.correctness }
  let sliceResult := calls.calculateSliceAlternate sequence result.j result.scores previous
    bandwidth
  let result := { result with scores := sliceResult.2 }
  let result := { result with cellsProcessed := sliceResult.1.cellsProcessed }
  let result := { result with minScoreIndex := sliceResult.1.minScoreIndex }
  let result := { result with minScore := sliceResult.1.minScore }
  let correctness :=
    calls.NextState result.correctness (result.minScore - previous.minScore) (WordSize : Int)
  let result := { result with correctness := correctness }
  finalizeAlternateSlice result currentBand (sequence.length : Int) bandwidth

/-- GraphAligner::pickMethodAndExtendFill. -/
def pickMethodAndExtendFill {κ : Type} [Inhabited κ] (limits : TypeLimits) (calls : FillCalls κ)
    (sequence : List Char) (previous : DPSlice κ) (previousBand currentBand : List Bool)
    (bandwidth : Int) : FillResult κ :=
  let bandTest := extendDPSlice limits calls previous previousBand bandwidth
  let cells := (bandTest.nodes.map calls.NodeLength).sum
  if cells < calls.AlternateMethodCutoff then
    let filled := fillBitvector limits calls sequence previous previousBand currentBand bandwidth
    { method := FillMethod.bitvector, slice := filled.1, currentBand := filled.2 }
  else
    let filled := fillAlternate limits calls sequence previous currentBand bandwidth
    { method := FillMethod.alternate, slice := filled.1, currentBand := filled.2 }

/-- The loop of getSqrtSlices that is to drop the temporary slices of a backtrace override
above lastSlice.j, at a ramp retry inside a backtrace-override run:
while (temps.size() > 0 && temps.back().j > lastSlice.j) with the body
DPSlice tmp; std::swap(temps.back(), tmp). The count fuel bounds the rounds; none
says that the loop is still running when the fuel is used up. -/
def shortenBacktraceOverrideTemps {κ : Type} [Inhabited κ] (limits : TypeLimits) :
    Nat → List (DPSlice κ) → Int → Option (List (DPSlice κ))
  | 0, _, _ => none
  | fuel + 1, backtraceOverrideTemps, lastSliceJ =>
    match backtraceOverrideTemps.getLast? with
    | none => some backtraceOverrideTemps
    | some back =>
      if back.j > lastSliceJ then
        shortenBacktraceOverrideTemps limits fuel
          (backtraceOverrideTemps.dropLast ++ [DPSlice.default limits]) lastSliceJ
      else some backtraceOverrideTemps

/-- The record AlignmentResult, as AlignOneWay and emptyAlignment fill it: the four
values of its initializer list, and the two positions AlignOneWay stores afterwards
(none while they are not stored). -/
structure AlignmentResult (α : Type) where
  alignment : α
  alignmentFailed : Bool
  cellsProcessed : Nat
  elapsedMilliseconds : Nat
  alignmentStart : Option Int
  alignmentEnd : Option Int

/-- The functions the full-start alignment calls and that are not embedded here: the two
queries of the estimator, the driver getSqrtSlices, the loop of getTraceFromTable that
follows its two early returns, traceToAlignment, and the record that emptyAlignment
builds with the score set to the maximum. -/
structure FullStartCalls (κ β α : Type) where
  CurrentlyCorrect : κ → Bool
  FalseFromCorrect : κ → Bool
  getSqrtSlices : List Char → DPSlice κ → Nat → Nat → DPTable κ β
  traceFromSlices : List Char → DPTable κ β → Int × List (Int × Int)
  traceToAlignment : String → List Char → Int → List (Int × Int) → Nat → AlignmentResult α
  emptyRecord : α

/-- GraphAligner::emptyAlignment. -/
def emptyAlignment {κ β α : Type} (calls : FullStartCalls κ β α)
    (elapsedMilliseconds cellsProcessed : Nat) : AlignmentResult α :=
  { alignment := calls.emptyRecord, alignmentFailed := true, cellsProcessed := cellsProcessed,
    elapsedMilliseconds := elapsedMilliseconds, alignmentStart := none, alignmentEnd := none }

/-- The first loop of removeWronglyAlignedEnd, on the vectors correctness and
bandwidthPerSlice from their last entries to their first, entered with currentlyCorrect
false: pop both, stop when correctness is empty, else read FalseFromCorrect of the new
last state. -/
def popWronglyAligned {κ : Type} (FalseFromCorrect : κ → Bool) :
    List κ → List Int → Option (List κ × List Int)
  | [], _ => none
  | _ :: _, [] => none
  | _ :: correctness, _ :: bandwidths =>
    match correctness with
    | [] => some ([], bandwidths)
    | state :: _ =>
      if FalseFromCorrect state then some (correctness, bandwidths)
      else popWronglyAligned FalseFromCorrect correctness bandwidths

/-- The last loop of removeWronglyAlignedEnd, on the slices from the last to the first:
while (slices.size() > 1 && slices.back().j >= correctness.size() * WordSize) pop_back. -/
def popSlicesAbove {κ : Type} (bound : Int) : List (DPSlice κ) → List (DPSlice κ)
  | [] => []
  | [slice] => [slice]
  | slice :: rest => if slice.j ≥ bound then popSlicesAbove bound rest else slice :: rest

/-- GraphAligner::removeWronglyAlignedEnd. -/
def removeWronglyAlignedEnd {κ β α : Type} (calls : FullStartCalls κ β α)
    (table : DPTable κ β) : Option (DPTable κ β) :=
  match table.correctness.reverse with
  | [] => none
  | last :: earlier =>
    let popped : Option (List κ × List Int) :=
      if calls.CurrentlyCorrect last then some (last :: earlier, table.bandwidthPerSlice.reverse)
      else popWronglyAligned calls.FalseFromCorrect (last :: earlier)
        table.bandwidthPerSlice.reverse
    match popped with
    | none => none
    | some (correctness, bandwidths) =>
      let slices := if correctness.length = 0 then [] else table.slices
      let slices :=
        (popSlicesAbove ((correctness.length : Int) * (WordSize : Int)) slices.reverse).reverse
      some { table with
        correctness := correctness.reverse, bandwidthPerSlice := bandwidths.reverse,
        slices := slices }

/-- GraphAligner::getTraceFromTable: its two early returns; the rest of the function is
the call traceFromSlices. -/
def getTraceFromTable {κ β α : Type} (limits : TypeLimits) (calls : FullStartCalls κ β α)
    (sequence : List Char) (slice : DPTable κ β) : Int × List (Int × Int) :=
  if slice.slices.length = 0 then (limits.scoreTypeMax, [])
  else if slice.bandwidthPerSlice.length = 0 then (limits.scoreTypeMax, [])
  else calls.traceFromSlices sequence slice

/-- The loop of getBacktraceFullStart that drops the rows of the padding, on the trace
from its last position to its first:
while (trace.back().second >= sequence.size() - padding) trace.pop_back(). -/
def popPaddedRows (bound : Int) : List (Int × Int) → Option (List (Int × Int))
  | [] => none
  | position :: rest =>
    if position.2 ≥ bound then popPaddedRows bound rest else some (position :: rest)

/-- The slice startSlice that getBacktraceFullStart builds over all vertices. -/
def fullStartSlice {κ : Type} [Inhabited κ] (limits : TypeLimits) (graph : AlignmentGraph) :
    DPSlice κ :=
  let startSlice : DPSlice κ := DPSlice.default limits
  { startSlice with
    scores := (List.range graph.nodeCount).map (fun i =>
      { node := i, words := List.replicate (graph.NodeLength i) (WordSlice.mk6 0 0 0 0 64 false),
        minScore := 0 })
    j := if graph.nodeCount = 0 then startSlice.j else -(WordSize : Int)
    nodes := List.range graph.nodeCount }

/-- GraphAligner::getSamplingFrequency. -/
def getSamplingFrequency (sequenceLen : Nat) : Nat := Nat.sqrt (sequenceLen / WordSize)

/-- The sequence of getBacktraceFullStart after its first loop: the read with the letter
N added up to a multiple of WordSize. -/
def padSequence (sequence : List Char) : List Char :=
  sequence ++ List.replicate ((WordSize - sequence.length % WordSize) % WordSize) 'N'

/-- The table that getBacktraceFullStart hands to getTraceFromTable: the result of
getSqrtSlices on the padded read, cut by removeWronglyAlignedEnd. -/
def fullStartTable {κ β α : Type} [Inhabited κ] (limits : TypeLimits)
    (calls : FullStartCalls κ β α) (graph : AlignmentGraph) (sequence : List Char) :
    Option (DPTable κ β) :=
  let startSlice : DPSlice κ := fullStartSlice limits graph
  let samplingFrequency := getSamplingFrequency (padSequence sequence).length
  let slice := calls.getSqrtSlices (padSequence sequence) startSlice
    ((padSequence sequence).length / WordSize) samplingFrequency
  removeWronglyAlignedEnd calls slice

/-- GraphAligner::getBacktraceFullStart. -/
def getBacktraceFullStart {κ β α : Type} [Inhabited κ] (limits : TypeLimits)
    (calls : FullStartCalls κ β α) (graph : AlignmentGraph) (sequence : List Char) :
    Option (Int × List (Int × Int) × Nat) :=
  let padding := (WordSize - sequence.length % WordSize) % WordSize
  match fullStartTable limits calls graph sequence with
  | none => none
  | some slice =>
    let backtraceresult := getTraceFromTable limits calls (padSequence sequence) slice
    match popPaddedRows (((padSequence sequence).length : Int) - (padding : Int))
        backtraceresult.2.reverse with
    | none => none
    | some trace => some (backtraceresult.1, trace.reverse, 0)

/-- GraphAligner::AlignOneWay without seeds (the function does not read its argument
dynamicRowStart); the two readings of the clock are the arguments time and timeEnd. -/
def AlignOneWay {κ β α : Type} [Inhabited κ] (limits : TypeLimits)
    (calls : FullStartCalls κ β α) (graph : AlignmentGraph) (seq_id : String)
    (sequence : List Char) (_dynamicRowStart : Int) (time timeEnd : Nat) :
    Option (AlignmentResult α) :=
  match getBacktraceFullStart limits calls graph sequence with
  | none => none
  | some trace =>
    if trace.1 = limits.scoreTypeMax then some (emptyAlignment calls time trace.2.2)
    else if trace.2.1.length = 0 then some (emptyAlignment calls time trace.2.2)
    else
      let result := calls.traceToAlignment seq_id sequence trace.1 trace.2.1 trace.2.2
      some { result with
        alignmentStart := trace.2.1.head?.map (fun position => position.2)
        alignmentEnd := trace.2.1.getLast?.map (fun position => position.2)
        elapsedMilliseconds := timeEnd }

/-! ## The band function -/

/-- The three values projectForwardFromMinScore reads for a vertex of
previousSlice.scores: pair.first, pair.second.minScore() and
pair.second.back().scoreEnd. -/
structure BandEntry where
  node : Nat
  minScore : Int
  endScore : Int
  deriving DecidableEq, Repr

/-- The local variables of projectForwardFromMinScore: the map distances, the vector
result, the entries of the priority queue (vertex and priority) and currentWidth. -/
structure ProjectState where
  distances : Nat → Option Int
  result : List Nat
  queue : List (Nat × Int)
  currentWidth : Nat

/-- The statement at which a run of projectForwardFromMinScore ends: one of the two
return statements inside the loops, taken when currentWidth reaches
AlternateMethodCutoff, or the return statement at the end; outOfFuel says that the
while loop is still running when the fuel is used up. -/
inductive ProjectEnd where
  | atCutoff
  | atEnd
  | outOfFuel
  deriving DecidableEq, Repr

/-- A run of projectForwardFromMinScore: its last state and the way it ended. -/
structure ProjectRun where
  state : ProjectState
  ending : ProjectEnd

/-- The assignment distances[node] = value. -/
def setDistance (distances : Nat → Option Int) (node : Nat) (value : Int) : Nat → Option Int :=
  fun n => if n = node then some value else distances n

/-- The test distances.count(node) == 1 && distances[node] <= priority. -/
def distanceAtMost (distances : Nat → Option Int) (node : Nat) (priority : Int) : Bool :=
  match distances node with
  | some d => decide (d ≤ priority)
  | none => false

/-- The first loop of projectForwardFromMinScore, over the vertices of the previous
slice; the Boolean result says that the loop returned at the cutoff. -/
def projectSeeds (graph : AlignmentGraph) (AlternateMethodCutoff : Nat) (minScore : Int)
    (bandwidth : Int) : List BandEntry → ProjectState → ProjectState × Bool
  | [], s => (s, false)
  | pair :: rest, s =>
    if pair.minScore ≤ minScore + bandwidth then
      let s := { s with
        distances := setDistance s.distances pair.node 0
        result := s.result ++ [pair.node]
        currentWidth := s.currentWidth + graph.NodeLength pair.node }
      if s.currentWidth ≥ AlternateMethodCutoff then (s, true)
      else if pair.endScore > minScore + (bandwidth + (WordSize : Int)) then
        projectSeeds graph AlternateMethodCutoff minScore bandwidth rest s
      else
        projectSeeds graph AlternateMethodCutoff minScore bandwidth rest
          { s with queue := s.queue ++
              (graph.outNeighbors pair.node).map (fun neighbor =>
                (neighbor, pair.endScore - minScore + 1)) }
    else projectSeeds graph AlternateMethodCutoff minScore bandwidth rest s

/-- The while loop of projectForwardFromMinScore. The entry on top of the
std::priority_queue is top round queue: an entry of least priority, where the library
is free in its choice among several; round counts the rounds of the loop. -/
def projectLoop (graph : AlignmentGraph) (AlternateMethodCutoff : Nat) (bandwidth : Int)
    (top : Nat → List (Nat × Int) → Nat × Int) : Nat → Nat → ProjectState → ProjectRun
  | 0, _, s => ⟨s, ProjectEnd.outOfFuel⟩
  | fuel + 1, round, s =>
    if s.queue.isEmpty then ⟨s, ProjectEnd.atEnd⟩
    else
      let t := top round s.queue
      if t.2 > bandwidth + (WordSize : Int) then ⟨s, ProjectEnd.atEnd⟩
      else
        let s := { s with queue := s.queue.erase t }
        if distanceAtMost s.distances t.1 t.2 then
          projectLoop graph AlternateMethodCutoff bandwidth top fuel (round + 1) s
        else
          let s := { s with
            currentWidth := s.currentWidth + graph.NodeLength t.1
            distances := setDistance s.distances t.1 t.2
            result := s.result ++ [t.1] }
          if s.currentWidth ≥ AlternateMethodCutoff then ⟨s, ProjectEnd.atCutoff⟩
          else
            projectLoop graph AlternateMethodCutoff bandwidth top fuel (round + 1)
              { s with queue := s.queue ++
                  (graph.outNeighbors t.1).map (fun neighbor =>
                    (neighbor, t.2 + (graph.NodeLength t.1 : Int))) }

/-- A run of GraphAligner::projectForwardFromMinScore on the entries of
previousSlice.scores (the argument previousBand is not read by the function). The
comparison of a stored distance (a size_t) with a priority (an int) is made on Int; the
two agree as long as no priority is negative, which the assertion
endscore >= minScore of the source stands for. -/
def projectForwardRun (graph : AlignmentGraph) (AlternateMethodCutoff : Nat)
    (top : Nat → List (Nat × Int) → Nat × Int) (fuel : Nat) (minScore : Int)
    (previousSlice : List BandEntry) (bandwidth : Int) : ProjectRun :=
  let seeds := projectSeeds graph AlternateMethodCutoff minScore bandwidth previousSlice
    { distances := fun _ => none, result := [], queue := [], currentWidth := 0 }
  if seeds.2 then ⟨seeds.1, ProjectEnd.atCutoff⟩
  else projectLoop graph AlternateMethodCutoff bandwidth top fuel 0 seeds.1

/-- GraphAligner::projectForwardFromMinScore: the vector it returns. -/
def projectForwardFromMinScore (graph : AlignmentGraph) (AlternateMethodCutoff : Nat)
    (top : Nat → List (Nat × Int) → Nat × Int) (fuel : Nat) (minScore : Int)
    (previousSlice : List BandEntry) (bandwidth : Int) : List Nat :=
  (projectForwardRun graph AlternateMethodCutoff top fuel minScore previousSlice
    bandwidth).state.result

/-- An entry of least priority of a queue, the first of them in the list. -/
def leastEntry : List (Nat × Int) → Nat × Int
  | [] => (0, 0)
  | [e] => e
  | e :: rest => if e.2 ≤ (leastEntry rest).2 then e else leastEntry rest

/-- What the code may rely on for the top of a std::priority_queue ordered by
std::greater: it is an entry of the queue, and no entry has a lower priority. -/
def TopIsLeast (top : Nat → List (Nat × Int) → Nat × Int) : Prop :=
  ∀ (round : Nat) (queue : List (Nat × Int)), queue ≠ [] →
    top round queue ∈ queue ∧ ∀ e ∈ queue, (top round queue).2 ≤ e.2
/-! ## The alternate method: cells written one at a time -/

/-- Modelled from the spec: NodeSlice::hasNode, whether the vertex is present in the
sparse association. -/
def NodeSlice.hasNode (slice : NodeSlice) (node : Nat) : Bool :=
  slice.any (fun item => decide (item.node = node))

/-- Modelled from the spec: NodeSlice::addNode, which makes a vertex present with an array
of size cells. -/
def NodeSlice.addNode (slice : NodeSlice) (node size : Nat) : NodeSlice :=
  slice ++ [{ node := node, words := List.replicate size WordSlice.default, minScore := 0 }]

/-- Modelled from the spec: NodeSlice::node, the array of cells of a vertex; for a vertex
that is not present the array is empty. -/
def NodeSlice.node : NodeSlice → Nat → List WordSlice
  | [], _ => []
  | item :: rest, node => if item.node = node then item.words else NodeSlice.node rest node

/-- Modelled from the spec: the writes through the view that NodeSlice::node hands out;
the array of the vertex becomes words. -/
def NodeSlice.setNode : NodeSlice → Nat → List WordSlice → NodeSlice
  | [], _, _ => []
  | item :: rest, node, words =>
    if item.node = node then { item with words := words } :: rest
    else item :: NodeSlice.setNode rest node words

namespace GraphAligner

/-- The cell that GraphAligner::setValue writes into every column of a vertex it has just
added: {0, 0, uninitializedValue, uninitializedValue, 0, false}, then
confirmedRows.partial = false. -/
def uninitializedCell (uninitializedValue : Int) : WordSlice :=
  let cell := WordSlice.mk6 0 0 uninitializedValue uninitializedValue 0 false
  { cell with confirmedRows := { cell.confirmedRows with partialRow := false } }

/-- GraphAligner::setValue: a vertex that is not in the slice yet is added with all its
cells uninitialized, then the cell index of the vertex takes the value at the row. -/
def setValue (NodeLength : Nat → Nat) (slice : NodeSlice) (node index row : Nat)
    (value uninitializedValue : Int) : NodeSlice :=
  let slice :=
    if !NodeSlice.hasNode slice node then
      let slice := NodeSlice.addNode slice node (NodeLength node)
      NodeSlice.setNode slice node
        ((NodeSlice.node slice node).map (fun _ => uninitializedCell uninitializedValue))
    else slice
  NodeSlice.setNode slice node
    ((NodeSlice.node slice node).modify (fun word => word.setValue row value) index)

end GraphAligner

/-- A run of calls of WordSlice::setValue on one cell, in the order of the list; each
entry is a row and the value for it. -/
def setValues (cell : WordSlice) (calls : List (Nat × Int)) : WordSlice :=
  calls.foldl (fun word call => word.setValue call.1 call.2) cell

/-! ## The step of the backtrace -/

/-- Modelled from the spec: what the backtrace reads from the graph (AlignmentGraph.h is
not among the sources): the vertex of a base position, the first position of a vertex and
the position after its last, the in-neighbours of a vertex and the base at a position. -/
structure GraphIndex where
  IndexToNode : Int → Nat
  NodeStart : Nat → Int
  NodeEnd : Nat → Int
  inNeighbors : Nat → List Nat
  NodeSequences : Int → Char

namespace GraphAligner

/-- GraphAligner::getValue(params, slice, j, w), the overload for a DPSlice. -/
def getValue {κ : Type} (graph : GraphIndex) (slice : DPSlice κ) (j w : Int) : Int :=
  let node := graph.IndexToNode w
  let word := (NodeSlice.node slice.scores node).getD (w - graph.NodeStart node).toNat
    WordSlice.default
  let off := j % (WordSize : Int)
  word.getValue off.toNat

/-- GraphAligner::getValueOrMax(params, slice, j, w, max), the overload for a DPSlice. -/
def getValueOrMax {κ : Type} (graph : GraphIndex) (slice : DPSlice κ) (j w : Int)
    (max : Int) : Int :=
  let node := graph.IndexToNode w
  if !NodeSlice.hasNode slice.scores node then max
  else
    let word := (NodeSlice.node slice.scores node).getD (w - graph.NodeStart node).toNat
      WordSlice.default
    let off := j % (WordSize : Int)
    word.getValue off.toNat

/-- The value diagonalScore of pickBacktracePredecessor for the column u. -/
def diagonalScore {κ : Type} (graph : GraphIndex) (sequence : List Char)
    (slice previousSlice : DPSlice κ) (pos : Int × Int) (u : Int) : Int :=
  if pos.2 = slice.j then
    getValueOrMax graph previousSlice ((WordSize : Int) - 1) u sequence.length
  else getValueOrMax graph slice (pos.2 - 1 - slice.j) u sequence.length

/-- The test of the diagonal predecessor in the column u, which both branches of
pickBacktracePredecessor make after the horizontal one: none is the abort inside
characterMatch (or a read past the end of the sequence), some none says that the
function goes on, some (some p) that it returns p. -/
def pickDiagonal {κ : Type} (graph : GraphIndex) (sequence : List Char)
    (slice previousSlice : DPSlice κ) (pos : Int × Int) (scoreHere : Int) (u : Int) :
    Option (Option (Int × Int)) :=
  let diagonal := diagonalScore graph sequence slice previousSlice pos u
  match sequence.get? pos.2.toNat with
  | none => none
  | some c =>
    match characterMatch c (graph.NodeSequences pos.1) with
    | none => none
    | some true => if diagonal = scoreHere then some (some (u, pos.2 - 1)) else some none
    | some false => if diagonal = scoreHere - 1 then some (some (u, pos.2 - 1)) else some none

/-- The loop of pickBacktracePredecessor over the in-neighbours of the vertex, for a
position at the first base of the vertex. -/
def pickFromNeighbors {κ : Type} (graph : GraphIndex) (sequence : List Char)
    (slice previousSlice : DPSlice κ) (pos : Int × Int) (scoreHere : Int) :
    List Nat → Option (Option (Int × Int))
  | [] => some none
  | neighbor :: rest =>
    let u := graph.NodeEnd neighbor - 1
    let horizontalScore := getValueOrMax graph slice (pos.2 - slice.j) u sequence.length
    if horizontalScore = scoreHere - 1 then some (some (u, pos.2))
    else
      match pickDiagonal graph sequence slice previousSlice pos scoreHere u with
      | none => none
      | some (some p) => some (some p)
      | some none => pickFromNeighbors graph sequence slice previousSlice pos scoreHere rest

/-- GraphAligner::pickBacktracePredecessor; none is an abort: the std::abort() at the
end, when no predecessor fits, or the one inside characterMatch. -/
def pickBacktracePredecessor {κ : Type} (graph : GraphIndex) (sequence : List Char)
    (slice : DPSlice κ) (pos : Int × Int) (previousSlice : DPSlice κ) : Option (Int × Int) :=
  let nodeIndex := graph.IndexToNode pos.1
  let scoreHere := getValue graph slice (pos.2 - slice.j) pos.1
  if pos.2 = 0 ∧ NodeSlice.hasNode previousSlice.scores nodeIndex = true
      ∧ (scoreHere = 0 ∨ scoreHere = 1) then
    some (pos.1, pos.2 - 1)
  else
    let sideways : Option (Option (Int × Int)) :=
      if pos.1 = graph.NodeStart nodeIndex then
        pickFromNeighbors graph sequence slice previousSlice pos scoreHere
          (graph.inNeighbors nodeIndex)
      else
        let horizontalScore :=
          getValueOrMax graph slice (pos.2 - slice.j) (pos.1 - 1) sequence.length
        if horizontalScore = scoreHere - 1 then some (some (pos.1 - 1, pos.2))
        else pickDiagonal graph sequence slice previousSlice pos scoreHere (pos.1 - 1)
    match sideways with
    | none => none
    | some (some p) => some p
    | some none =>
      let scoreUp :=
        if pos.2 = slice.j then
          getValueOrMax graph previousSlice ((WordSize : Int) - 1) pos.1 sequence.length
        else getValueOrMax graph slice (pos.2 - 1 - slice.j) pos.1 sequence.length
      if scoreUp = scoreHere - 1 then some (pos.1, pos.2 - 1) else none

end GraphAligner

/-! ## The zero row of a component

In forceComponentZeroRow the vectors currentBand, previousBand and partOfComponent, which
are indexed by the vertex, are functions of the vertex; the in-neighbours of the graph
are an argument of their own. The argument sequenceLen is not read by the function. -/

namespace GraphAligner

/-- The assignment words[index].scoreBeforeStart = value. -/
def setBefore (words : List WordSlice) (index : Nat) (value : Int) : List WordSlice :=
  words.modify (fun word => { word with scoreBeforeStart := value }) index

/-- One round of the loop of forceComponentZeroRow over the in-neighbours of node: the
first cell of node takes the minimum with the end of a neighbour outside the component,
in the current and in the previous slice. -/
def seedNeighbor (previousSlice : NodeSlice)
    (currentBand previousBand : Nat → Bool) (componentIndex : Nat)
    (partOfComponent : Nat → Nat) (node : Nat) (currentSlice : NodeSlice) (neighbor : Nat) :
    NodeSlice :=
  if !currentBand neighbor && !previousBand neighbor then currentSlice
  else if partOfComponent neighbor = componentIndex then currentSlice
  else
    let currentSlice :=
      if currentBand neighbor then
        let newSlice := NodeSlice.node currentSlice node
        NodeSlice.setNode currentSlice node (setBefore newSlice 0
          (min (newSlice.headD WordSlice.default).scoreBeforeStart
            (((NodeSlice.node currentSlice neighbor).getLastD
              WordSlice.default).scoreBeforeStart + 1)))
      else currentSlice
    if previousBand neighbor then
      let newSlice := NodeSlice.node currentSlice node
      NodeSlice.setNode currentSlice node (setBefore newSlice 0
        (min (newSlice.headD WordSlice.default).scoreBeforeStart
          (((NodeSlice.node previousSlice neighbor).getLastD WordSlice.default).scoreEnd + 1)))
    else currentSlice

/-- The loop of forceComponentZeroRow over the cells 1, 2, ... of a vertex: each takes the
value of the cell before plus one, and for a vertex of the previous band the minimum of
that with the scoreEnd of the old cell; before is the value of the cell before, and
oldSlice and the last argument start at the cell in turn. -/
def seedColumns (previousBandNode : Bool) : Int → List WordSlice → List WordSlice →
    List WordSlice
  | _, _, [] => []
  | before, oldSlice, word :: rest =>
    let value := before + 1
    let value :=
      if previousBandNode then min value (oldSlice.headD WordSlice.default).scoreEnd else value
    { word with scoreBeforeStart := value }
      :: seedColumns previousBandNode value oldSlice.tail rest

/-- The body of the first loop of forceComponentZeroRow for the vertex node; the state is
currentSlice and the entries of the priority queue. A vertex without cells, for which
newSlice[0] does not exist, is left as it is. -/
def seedNode (graph : AlignmentGraph) (inNeighbors : Nat → List Nat) (limits : TypeLimits)
    (previousSlice : NodeSlice) (currentBand previousBand : Nat → Bool) (componentIndex : Nat)
    (partOfComponent : Nat → Nat) (state : NodeSlice × List (Nat × Int)) (node : Nat) :
    NodeSlice × List (Nat × Int) :=
  let currentSlice := state.1
  let oldSlice :=
    if previousBand node then NodeSlice.node previousSlice node
    else NodeSlice.node currentSlice node
  let newSlice := (NodeSlice.node currentSlice node).map
    (fun word => { word with scoreBeforeStart := limits.scoreTypeMax })
  let newSlice :=
    if previousBand node then
      setBefore newSlice 0 (oldSlice.headD WordSlice.default).scoreEnd
    else newSlice
  let currentSlice := NodeSlice.setNode currentSlice node newSlice
  let currentSlice := (inNeighbors node).foldl
    (seedNeighbor previousSlice currentBand previousBand componentIndex partOfComponent
      node) currentSlice
  match NodeSlice.node currentSlice node with
  | [] => (currentSlice, state.2)
  | first :: rest =>
    if first.scoreBeforeStart = limits.scoreTypeMax then (currentSlice, state.2)
    else
      let newSlice := first
        :: seedColumns (previousBand node) first.scoreBeforeStart oldSlice.tail rest
      (NodeSlice.setNode currentSlice node newSlice,
       state.2 ++ ((graph.outNeighbors node).filter
          (fun neighbor => decide (partOfComponent neighbor = componentIndex))).map
        (fun neighbor => (neighbor, (newSlice.getLastD WordSlice.default).scoreBeforeStart + 1)))

/-- The loop over the cells of a vertex inside the while loop of forceComponentZeroRow:
the cells take the values score, score + 1, ... up to the first cell that has at most
the value in turn; the result is the cells, the flag endUpdated and the last score. -/
def relaxColumns : Int → List WordSlice → List WordSlice × Bool × Int
  | score, [] => ([], true, score)
  | score, word :: rest =>
    if word.scoreBeforeStart ≤ score then (word :: rest, false, score)
    else
      let r := relaxColumns (score + 1) rest
      ({ word with scoreBeforeStart := score } :: r.1, r.2.1, r.2.2)

/-- One round of the while loop of forceComponentZeroRow. The entry on top of the
std::priority_queue is top round queue. -/
def relaxStep (graph : AlignmentGraph) (componentIndex : Nat) (partOfComponent : Nat → Nat)
    (top : Nat → List (Nat × Int) → Nat × Int) (round : Nat)
    (state : NodeSlice × List (Nat × Int)) : NodeSlice × List (Nat × Int) :=
  let t := top round state.2
  let queue := state.2.erase t
  let r := relaxColumns t.2 (NodeSlice.node state.1 t.1)
  let currentSlice := NodeSlice.setNode state.1 t.1 r.1
  if r.2.1 then
    (currentSlice, queue ++ ((graph.outNeighbors t.1).filter
        (fun neighbor => decide (partOfComponent neighbor = componentIndex))).map
      (fun neighbor => (neighbor, r.2.2)))
  else (currentSlice, queue)

/-- The while loop of forceComponentZeroRow; the count fuel bounds the rounds, and none
says that the loop is still running when the fuel is used up. -/
def relaxLoop (graph : AlignmentGraph) (componentIndex : Nat) (partOfComponent : Nat → Nat)
    (top : Nat → List (Nat × Int) → Nat × Int) : Nat → Nat → NodeSlice × List (Nat × Int) →
    Option NodeSlice
  | 0, _, _ => none
  | fuel + 1, round, state =>
    if state.2.isEmpty then some state.1
    else relaxLoop graph componentIndex partOfComponent top fuel (round + 1)
      (relaxStep graph componentIndex partOfComponent top round state)

/-- The inner loop of the last loop of forceComponentZeroRow: every cell becomes the
six-argument WordSlice with VP all ones and VN zero around its scoreBeforeStart;
oldSlice and the last argument start at the cell in turn. -/
def placeholderCells (previousBandNode : Bool) : List WordSlice → List WordSlice →
    List WordSlice
  | _, [] => []
  | oldSlice, word :: rest =>
    WordSlice.mk6 AllOnes 0 (word.scoreBeforeStart + (WordSize : Int)) word.scoreBeforeStart 0
      (previousBandNode
        && decide ((oldSlice.headD WordSlice.default).scoreEnd = word.scoreBeforeStart)
        && (oldSlice.headD WordSlice.default).scoreEndExists)
      :: placeholderCells previousBandNode oldSlice.tail rest

/-- The body of the last loop of forceComponentZeroRow for the vertex node. -/
def placeholderNode (previousSlice : NodeSlice) (previousBand : Nat → Bool)
    (currentSlice : NodeSlice) (node : Nat) : NodeSlice :=
  let oldSlice :=
    if previousBand node then NodeSlice.node previousSlice node
    else NodeSlice.node currentSlice node
  NodeSlice.setNode currentSlice node
    (placeholderCells (previousBand node) oldSlice (NodeSlice.node currentSlice node))

/-- GraphAligner::forceComponentZeroRow: the new currentSlice, or none when the fuel does
not suffice for the while loop. -/
def forceComponentZeroRow (graph : AlignmentGraph) (inNeighbors : Nat → List Nat)
    (limits : TypeLimits) (top : Nat → List (Nat × Int) → Nat × Int) (fuel : Nat)
    (currentSlice previousSlice : NodeSlice) (currentBand previousBand : Nat → Bool)
    (component : List Nat) (componentIndex : Nat) (partOfComponent : Nat → Nat) :
    Option NodeSlice :=
  let seeded := component.foldl
    (seedNode graph inNeighbors limits previousSlice currentBand previousBand componentIndex
      partOfComponent) (currentSlice, [])
  match relaxLoop graph componentIndex partOfComponent top fuel 0 seeded with
  | none => none
  | some relaxed => some (component.foldl (placeholderNode previousSlice previousBand) relaxed)

end GraphAligner

/-! The strongly connected components of the band (src/GraphAligner.h,
getStronglyConnectedComponents and getStronglyConnectedComponentsRec). The two unordered
maps are functions to Option, the unordered set a function to Bool; a vector that is used
as a stack is the list of its elements from back() to front; an iterator into an
out-neighbour list is the rest of the list from the iterator on. The assertions are
checks without effect and are left out. A result none stands for undefined behaviour
(back() on an empty vector, dereferencing an end iterator) or for the fuel running out. -/

namespace GraphAligner

/-- Class ComponentAlgorithmCallStack. -/
structure ComponentAlgorithmCallStack where
  nodeIndex : Nat
  state : Int
  neighborIterator : List Nat
  deriving DecidableEq, Repr

/-- The variables that getStronglyConnectedComponents hands by reference to
getStronglyConnectedComponentsRec: index, lowLink, stackindex, onStack, stack, result. -/
structure ComponentState where
  index : Nat → Option Nat
  lowLink : Nat → Option Nat
  stackindex : Nat
  onStack : Nat → Bool
  stack : List Nat
  result : List (List Nat)

/-- The do-while loop of getStronglyConnectedComponentsRec that moves the vertices from
the stack to the new component until it has moved nodeIndex. -/
def popComponent (nodeIndex : Nat) :
    List Nat → (Nat → Bool) → List Nat → Option (List Nat × (Nat → Bool) × List Nat)
  | [], _, _ => none
  | back :: stack, onStack, component =>
    let component := component ++ [back]
    let onStack := fun v => if v = back then false else onStack v
    if back ≠ nodeIndex then popComponent nodeIndex stack onStack component
    else some (stack, onStack, component)

/-- The code of getStronglyConnectedComponentsRec from the label end on. -/
def finishNode (nodeIndex : Nat) (s : ComponentState) : Option ComponentState :=
  if (s.lowLink nodeIndex).getD 0 = (s.index nodeIndex).getD 0 then
    (popComponent nodeIndex s.stack s.onStack []).map (fun popped =>
      { s with stack := popped.1, onStack := popped.2.1, result := s.result ++ [popped.2.2] })
  else some s

/-- The assignment lowLink[nodeIndex] = std::min(lowLink[nodeIndex], value). -/
def lowerLink (nodeIndex value : Nat) (s : ComponentState) : ComponentState :=
  { s with lowLink := fun v =>
      if v = nodeIndex then some (min ((s.lowLink nodeIndex).getD 0) value) else s.lowLink v }

/-- The code of getStronglyConnectedComponentsRec from the label startloop on, with the
iterator at the head of the given list: the result is the call stack and the variables
at the end of this iteration of the while loop. -/
def scanNeighbors (currentBand : Nat → Bool) (nodeIndex : Nat) :
    List Nat → ComponentState → List ComponentAlgorithmCallStack →
      Option (List ComponentAlgorithmCallStack × ComponentState)
  | [], s, callStack => (finishNode nodeIndex s).map (fun s => (callStack, s))
  | neighbor :: rest, s, callStack =>
    if !currentBand neighbor then scanNeighbors currentBand nodeIndex rest s callStack
    else if (s.index neighbor).isNone then
      some ({ nodeIndex := neighbor, state := 0, neighborIterator := [] }
        :: { nodeIndex := nodeIndex, state := 1, neighborIterator := neighbor :: rest }
        :: callStack, s)
    else
      scanNeighbors currentBand nodeIndex rest
        (if s.onStack neighbor then lowerLink nodeIndex ((s.index neighbor).getD 0) s else s)
        callStack

/-- The case 0 of the switch up to the label startloop: the vertex gets its index and
goes onto the stack. -/
def enterNode (nodeIndex : Nat) (s : ComponentState) : ComponentState :=
  { index := fun v => if v = nodeIndex then some s.stackindex else s.index v
    lowLink := fun v => if v = nodeIndex then some s.stackindex else s.lowLink v
    stackindex := (s.stackindex + 1) % WordConfiguration.wordMod
    onStack := fun v => if v = nodeIndex then true else s.onStack v
    stack := nodeIndex :: s.stack
    result := s.result }

/-- One iteration of the while loop of getStronglyConnectedComponentsRec, for the call
stack with back() = top. -/
def componentStep (graph : AlignmentGraph) (currentBand : Nat → Bool)
    (top : ComponentAlgorithmCallStack) (callStack : List ComponentAlgorithmCallStack)
    (s : ComponentState) : Option (List ComponentAlgorithmCallStack × ComponentState) :=
  if top.state = 0 then
    scanNeighbors currentBand top.nodeIndex (graph.outNeighbors top.nodeIndex)
      (enterNode top.nodeIndex s) callStack
  else if top.state = 1 then
    match top.neighborIterator with
    | [] => none
    | neighbor :: rest =>
      scanNeighbors currentBand top.nodeIndex rest
        (lowerLink top.nodeIndex ((s.lowLink neighbor).getD 0) s) callStack
  else some (callStack, s)

/-- The while loop of getStronglyConnectedComponentsRec. -/
def componentLoop (graph : AlignmentGraph) (currentBand : Nat → Bool) :
    Nat → List ComponentAlgorithmCallStack → ComponentState → Option ComponentState
  | _, [], s => some s
  | 0, _ :: _, _ => none
  | fuel + 1, top :: callStack, s =>
    (componentStep graph currentBand top callStack s).bind
      (fun next => componentLoop graph currentBand fuel next.1 next.2)

/-- GraphAligner::getStronglyConnectedComponentsRec. -/
def getStronglyConnectedComponentsRec (graph : AlignmentGraph) (fuel : Nat) (start : Nat)
    (currentBand : Nat → Bool) (s : ComponentState) : Option ComponentState :=
  componentLoop graph currentBand fuel
    [{ nodeIndex := start, state := 0, neighborIterator := [] }] s

/-- The loop over nodes of getStronglyConnectedComponents. -/
def componentsFrom (graph : AlignmentGraph) (fuel : Nat) (currentBand : Nat → Bool) :
    List Nat → ComponentState → Option ComponentState
  | [], s => some s
  | node :: nodes, s =>
    if (s.index node).isNone then
      (getStronglyConnectedComponentsRec graph fuel node currentBand s).bind
        (fun s => componentsFrom graph fuel currentBand nodes s)
    else componentsFrom graph fuel currentBand nodes s

/-- GraphAligner::getStronglyConnectedComponents. -/
def getStronglyConnectedComponents (graph : AlignmentGraph) (fuel : Nat) (nodes : List Nat)
    (currentBand : Nat → Bool) : Option (List (List Nat)) :=
  (componentsFrom graph fuel currentBand nodes
    { index := fun _ => none, lowLink := fun _ => none, stackindex := 0,
      onStack := fun _ => false, stack := [], result := [] }).map (fun s => s.result)

/-- The values that the loop variable component takes in the loop of calculateSlice over
the components, in the order of the iterations: it starts at components.size() - 1, the
loop goes on while it is below components.size(), and it is decremented, all in size_t. -/
def componentOrderLoop : Nat → Nat → Nat → Option (List Nat)
  | 0, _, _ => none
  | fuel + 1, size, component =>
    if component < size then
      (componentOrderLoop fuel size (WordConfiguration.wsub component 1)).map
        (fun order => component :: order)
    else some []

/-- The order in which calculateSlice goes through components.size() components. -/
def componentOrder (fuel size : Nat) : Option (List Nat) :=
  componentOrderLoop fuel size (WordConfiguration.wsub size 1)

end GraphAligner

/-! ## The bandwidth of a block -/

/-- The bandwidth that getSqrtSlices chooses for a block:
int bandwidth = (rampUntil >= slice) ? params.rampBandwidth : params.initialBandwidth.
The two parameters are the values main has checked. -/
def sliceBandwidth (params : AlignerParams) (rampUntil slice : Nat) : Int :=
  if rampUntil ≥ slice then params.rampBandwidth else params.initialBandwidth

/-- The bandwidth of the first round of the loop of getSqrtSlices, which begins with
slice = 0 and rampUntil = 0. -/
def firstBandwidth (params : AlignerParams) : Int := sliceBandwidth params 0 0

/-- The number of buckets of calculateSliceAlternate: calculables.resize(bandwidth+1),
the int converted to size_t. -/
def alternateBuckets (bandwidth : Int) : Nat := ((bandwidth + 1) % (wordMod : Int)).toNat


/-! ## The equality vector of calculateSlice -/

namespace GraphAligner

/-- Class GraphAligner::EqVector. -/
structure EqVector where
  BA : Nat
  BT : Nat
  BC : Nat
  BG : Nat
  deriving DecidableEq, Repr

/-- EqVector::getEq. For a character without a case the function stops at assert(false)
(none); assertsEnabled is false for a build with NDEBUG, where it returns 0. -/
def EqVector.getEq (assertsEnabled : Bool) (v : EqVector) (c : Char) : Option Nat :=
  match c with
  | 'A' | 'a' => some v.BA
  | 'T' | 't' => some v.BT
  | 'C' | 'c' => some v.BC
  | 'G' | 'g' => some v.BG
  | _ => if assertsEnabled then none else some 0

/-- The loop of calculateSlice that fills BA, BT, BC and BG
(for (int i = 0; i < WordSize && j+i < sequence.size(); i++)), from the round i on;
rounds is the number of values of i that are still below WordSize. The result none is
the abort inside characterMatch. -/
def eqVectorLoop (sequence : List Char) (j : Nat) : Nat → Nat → EqVector → Option EqVector
  | 0, _, v => some v
  | rounds + 1, i, v =>
    if j + i < sequence.length then
      match sequence.get? (j + i) with
      | none => none
      | some c =>
        match characterMatch c 'A', characterMatch c 'C', characterMatch c 'T',
            characterMatch c 'G' with
        | some a, some cc, some t, some g =>
          let mask := wshl 1 (i : Int)
          eqVectorLoop sequence j rounds (i + 1)
            { BA := if a then v.BA ||| mask else v.BA
              BC := if cc then v.BC ||| mask else v.BC
              BT := if t then v.BT ||| mask else v.BT
              BG := if g then v.BG ||| mask else v.BG }
        | _, _, _, _ => none
    else some v

/-- The equality vector EqV {BA, BT, BC, BG} that calculateSlice builds for the block that
starts at row j. -/
def calculateSliceEqVector (sequence : List Char) (j : Nat) : Option EqVector :=
  eqVectorLoop sequence j WordSize 0
    { BA := AllZeros, BT := AllZeros, BC := AllZeros, BG := AllZeros }

end GraphAligner

/-! ## From a trace to the mappings of an alignment -/

/-- Modelled from the spec: what traceToAlignment reads from the graph beside the fields
of GraphIndex (AlignmentGraph.h is not among the sources): the two dummy vertices and,
per vertex, the identifier nodeIDs[v] and the bit reverse[v]. -/
structure GraphNames where
  dummyNodeStart : Nat
  dummyNodeEnd : Nat
  nodeIDs : List Int
  reverse : List Bool

/-- Modelled from the spec: an edit of a mapping (vg.pb.h is not among the sources), with
the fields from_length, to_length and sequence. -/
structure Edit where
  from_length : Int
  to_length : Int
  sequence : List Char
  deriving DecidableEq, Repr

/-- Modelled from the spec: a mapping of the path of an alignment with its rank, its
position (node_id, is_reverse, offset) and its edits; a field that is never set is 0. -/
structure Mapping where
  rank : Int
  node_id : Int
  is_reverse : Bool
  offset : Int
  edits : List Edit
  deriving DecidableEq, Repr

/-- The part of the AlignmentResult of traceToAlignment that depends on the trace: the
flag alignmentFailed and the mappings of the path. -/
structure TraceAlignment where
  alignmentFailed : Bool
  mappings : List Mapping
  deriving DecidableEq, Repr

/-- A size_t expression handed to a setter with a 32 bit signed parameter. -/
def toInt32 (x : Int) : Int := (x + 2147483648) % 4294967296 - 2147483648

/-- The value of a size_t expression. -/
def sizeValue (x : Int) : Nat := (x % (wordMod : Int)).toNat

/-- The call std::string::substr(pos, len): none is the exception for a pos behind the
end of the string. -/
def substr (s : List Char) (pos len : Nat) : Option (List Char) :=
  if s.length < pos then none else some ((s.drop pos).take len)

namespace GraphAligner

/-- The local variables of traceToAlignment in its for loop; finished holds the mappings
of the path before vgmapping. -/
structure TraceState where
  oldNode : Nat
  btNodeStart : Int × Int
  btNodeEnd : Int × Int
  btBeforeNode : Int × Int
  rank : Int
  finished : List Mapping
  vgmapping : Mapping

/-- The three setters of traceToAlignment after add_edit: set_from_length with the given
argument, set_to_length and set_sequence. -/
def traceEdit (sequence : List Char) (fromLength : Int)
    (btNodeStart btNodeEnd btBeforeNode : Int × Int) : Option Edit :=
  match substr sequence (sizeValue btNodeStart.2) (sizeValue (btNodeEnd.2 - btBeforeNode.2)) with
  | none => none
  | some s =>
    some { from_length := toInt32 fromLength
           to_length := toInt32 (btNodeEnd.2 - btBeforeNode.2)
           sequence := s }

/-- The mapping that traceToAlignment adds to the path for the vertex oldNode, before its
offset is set: rank, node_id = nodeIDs[oldNode] and is_reverse = reverse[oldNode]. -/
def traceMapping (names : GraphNames) (rank : Int) (oldNode : Nat) : Option Mapping :=
  match names.nodeIDs.get? oldNode, names.reverse.get? oldNode with
  | some id, some rev =>
    some { rank := rank, node_id := id, is_reverse := rev, offset := 0, edits := [] }
  | _, _ => none

/-- The while loop of traceToAlignment that skips the positions of dummyNodeStart, at the
position p = trace[pos] with the positions after it; previous is trace[pos-1]. The result
some none is the return of emptyAlignment, none a failed assertion. -/
def skipDummyNodeStart (assertsEnabled : Bool) (graph : GraphIndex) (names : GraphNames) :
    Option (Int × Int) → Int × Int → List (Int × Int) →
      Option (Option (Option (Int × Int) × (Int × Int) × List (Int × Int)))
  | previous, p, rest =>
    if graph.IndexToNode p.1 = names.dummyNodeStart then
      match rest with
      | [] => some none
      | q :: more =>
        if assertsEnabled && !(decide (p.2 ≤ q.2)) then none
        else if assertsEnabled && !(decide (graph.IndexToNode q.1 < names.nodeIDs.length))
        then none
        else skipDummyNodeStart assertsEnabled graph names (some p) q more
    else some (some (previous, p, rest))

/-- The for loop of traceToAlignment over the positions trace[pos], trace[pos+1], ...;
previous is trace[pos-1]. The result none is a failed assertion, an index outside nodeIDs
or reverse, or the exception of substr. -/
def traceToAlignmentLoop (assertsEnabled : Bool) (graph : GraphIndex) (names : GraphNames)
    (sequence : List Char) : Option (Int × Int) → List (Int × Int) → TraceState →
      Option TraceState
  | _, [], st => some st
  | previous, p :: rest, st =>
    if graph.IndexToNode p.1 = names.dummyNodeEnd then some st
    else if graph.IndexToNode p.1 = st.oldNode then
      traceToAlignmentLoop assertsEnabled graph names sequence (some p) rest
        { st with btNodeEnd := p }
    else
      match previous with
      | none => none
      | some q =>
        if assertsEnabled && !(decide (q.2 ≤ p.2)) then none
        else if assertsEnabled && !(decide (graph.IndexToNode st.btNodeEnd.1
            = graph.IndexToNode st.btNodeStart.1)) then none
        else if assertsEnabled && !(decide (st.btNodeStart.2 ≤ st.btNodeEnd.2)) then none
        else if assertsEnabled && !(decide (st.btNodeStart.1 ≤ st.btNodeEnd.1)) then none
        else
          match traceEdit sequence (st.btNodeEnd.1 - st.btNodeStart.1 + 1) st.btNodeStart
              st.btNodeEnd st.btBeforeNode,
            traceMapping names (st.rank + 1) (graph.IndexToNode p.1) with
          | some edit, some next =>
            traceToAlignmentLoop assertsEnabled graph names sequence (some p) rest
              { oldNode := graph.IndexToNode p.1
                btNodeStart := p
                btNodeEnd := p
                btBeforeNode := st.btNodeEnd
                rank := st.rank + 1
                finished := st.finished
                  ++ [{ st.vgmapping with edits := st.vgmapping.edits ++ [edit] }]
                vgmapping := next }
          | _, _ => none

/-- The end of traceToAlignment after its for loop: the edit of the last mapping, with
set_from_length(btNodeEnd.first - btNodeStart.first), and the mappings of the path. -/
def traceToAlignmentEnd (sequence : List Char) (st : TraceState) : Option TraceAlignment :=
  match traceEdit sequence (st.btNodeEnd.1 - st.btNodeStart.1) st.btNodeStart st.btNodeEnd
      st.btBeforeNode with
  | none => none
  | some edit =>
    some { alignmentFailed := false
           mappings := st.finished
             ++ [{ st.vgmapping with edits := st.vgmapping.edits ++ [edit] }] }

/-- GraphAligner::traceToAlignment, the flag alignmentFailed and the mappings of its
result; the name, the score and the counters of the result are left out. -/
def traceToAlignment (assertsEnabled : Bool) (graph : GraphIndex) (names : GraphNames)
    (sequence : List Char) (trace : List (Int × Int)) : Option TraceAlignment :=
  match trace with
  | [] => some { alignmentFailed := true, mappings := [] }
  | first :: others =>
    match skipDummyNodeStart assertsEnabled graph names none first others with
    | none => none
    | some none => some { alignmentFailed := true, mappings := [] }
    | some (some (previous, p, rest)) =>
      let oldNode := graph.IndexToNode p.1
      if oldNode = names.dummyNodeEnd then some { alignmentFailed := true, mappings := [] }
      else
        match traceMapping names 0 oldNode with
        | none => none
        | some header =>
          match traceToAlignmentLoop assertsEnabled graph names sequence previous (p :: rest)
              { oldNode := oldNode
                btNodeStart := p
                btNodeEnd := p
                btBeforeNode := p
                rank := 0
                finished := []
                vgmapping := { header with
                  offset := p.1 - graph.NodeStart oldNode } } with
          | none => none
          | some st => traceToAlignmentEnd sequence st

end GraphAligner

/-! ## The backtrace loops inside a block -/

/-- How a loop of the backtrace inside a block ends: the fuel of the model is used up
while the loop is still running, the program aborts (a failed assertion or an abort inside
pickBacktracePredecessor), or the function returns its trace. -/
inductive TraceEnd where
  | outOfFuel
  | aborted
  | returned (trace : List (Int × Int))
  deriving DecidableEq, Repr

namespace GraphAligner

/-- The while loop of getTraceFromSlice with the assertion after it, for at most fuel
tests of the loop condition. The assertions inside pickBacktracePredecessor are not part
of its model. -/
def getTraceFromSliceLoop {κ : Type} (assertsEnabled : Bool) (graph : GraphIndex)
    (sequence : List Char) (slice : DPSlice κ) : Nat → Int × Int → List (Int × Int) → TraceEnd
  | 0, _, _ => TraceEnd.outOfFuel
  | fuel + 1, pos, result =>
    if pos.2 = slice.j then
      if assertsEnabled && !NodeSlice.hasNode slice.scores (graph.IndexToNode pos.1) then
        TraceEnd.aborted
      else TraceEnd.returned result
    else if assertsEnabled && !NodeSlice.hasNode slice.scores (graph.IndexToNode pos.1) then
      TraceEnd.aborted
    else
      match pickBacktracePredecessor graph sequence slice pos slice with
      | none => TraceEnd.aborted
      | some p => getTraceFromSliceLoop assertsEnabled graph sequence slice fuel p (result ++ [p])

/-- GraphAligner::getTraceFromSlice. -/
def getTraceFromSlice {κ : Type} (assertsEnabled : Bool) (graph : GraphIndex)
    (sequence : List Char) (slice : DPSlice κ) (fuel : Nat) (pos : Int × Int) : TraceEnd :=
  if assertsEnabled && !(decide (slice.j ≤ pos.2)) then TraceEnd.aborted
  else if assertsEnabled && !(decide (pos.2 < slice.j + (WordSize : Int))) then TraceEnd.aborted
  else getTraceFromSliceLoop assertsEnabled graph sequence slice fuel pos []

/-- The while loop of getSliceBoundaryTrace with the assertion after it, for at most fuel
tests of the loop condition. -/
def getSliceBoundaryTraceLoop {κ : Type} (assertsEnabled : Bool) (graph : GraphIndex)
    (sequence : List Char) (after before : DPSlice κ) :
    Nat → Int × Int → List (Int × Int) → TraceEnd
  | 0, _, _ => TraceEnd.outOfFuel
  | fuel + 1, pos, result =>
    if pos.2 = after.j then
      if assertsEnabled && !NodeSlice.hasNode after.scores (graph.IndexToNode pos.1) then
        TraceEnd.aborted
      else
        match pickBacktracePredecessor graph sequence after pos before with
        | none => TraceEnd.aborted
        | some p =>
          getSliceBoundaryTraceLoop assertsEnabled graph sequence after before fuel p
            (result ++ [p])
    else if assertsEnabled && !NodeSlice.hasNode before.scores (graph.IndexToNode pos.1) then
      TraceEnd.aborted
    else TraceEnd.returned result

/-- GraphAligner::getSliceBoundaryTrace. -/
def getSliceBoundaryTrace {κ : Type} (assertsEnabled : Bool) (graph : GraphIndex)
    (sequence : List Char) (after before : DPSlice κ) (fuel : Nat) (afterColumn : Int) :
    TraceEnd :=
  if assertsEnabled && !(decide (after.j = before.j + (WordSize : Int))) then TraceEnd.aborted
  else getSliceBoundaryTraceLoop assertsEnabled graph sequence after before fuel
    (afterColumn, after.j) []

end GraphAligner

/-! ## Auxiliary definitions for the proofs -/

/-- Number of set bits of x at the positions below n. -/
def bitCount (x : Nat) : Nat → Nat
  | 0 => 0
  | n + 1 => bitCount x n + (if x.testBit n then 1 else 0)

/-- First step of the population count, with mask m, in exact arithmetic. -/
def pcStep1 (m x : Nat) : Nat := x - ((x / 2) &&& m)
/-- Second step of the population count, with mask m, in exact arithmetic. -/
def pcStep2 (m x : Nat) : Nat := (x &&& m) + ((x / 4) &&& m)
/-- Third step of the population count, with mask m, in exact arithmetic. -/
def pcStep3 (m x : Nat) : Nat := (x + x / 16) &&& m
/-- The three steps on one byte. -/
def pcByte (b : Nat) : Nat := pcStep3 0x0f (pcStep2 0x33 (pcStep1 0x55 b))
/-- The mask of n bytes, each equal to c. -/
def byteMask (c : Nat) : Nat → Nat
  | 0 => 0
  | n + 1 => c + 256 * byteMask c n
/-- The word whose n bytes are the population counts of the bytes of x. -/
def byteCounts : Nat → Nat → Nat
  | 0, _ => 0
  | n + 1, x => bitCount (x % 256) 8 + 256 * byteCounts n (x / 256)


/-- The carry into bit i of the sum a + b. -/
def addCarry (a b : Nat) : Nat → Bool
  | 0 => false
  | i + 1 => (a.testBit i && b.testBit i) || (a.testBit i && addCarry a b i)
      || (b.testBit i && addCarry a b i)

/-- A boolean as the integer 0 or 1. -/
def boolInt (b : Bool) : Int := if b then 1 else 0

/-- The equality mask of getNextSlice after its bit 0 is cleared. -/
def nsEq (Eq : Nat) (slice : WordSlice) (diagonalInsideBand : Bool) : Nat :=
  let Eq := if !slice.scoreBeforeExists then Eq &&& wnot 1 else Eq
  if !diagonalInsideBand then Eq &&& wnot 1 else Eq

/-- The new scoreBeforeStart of getNextSlice. -/
def nsScoreBeforeStart (slice previous : WordSlice) (upleftInsideBand previousEq : Bool) : Int :=
  if !upleftInsideBand then slice.scoreBeforeStart + 1
  else min (slice.scoreBeforeStart + 1)
    (previous.scoreEnd
      - (if WordSlice.bitSet previous.VP (wshl 1 ((WordSize : Int) - 1)) then 1 else 0)
      + (if WordSlice.bitSet previous.VN (wshl 1 ((WordSize : Int) - 1)) then 1 else 0)
      + (if previousEq then 0 else 1))

/-- The word Xh of getNextSlice. -/
def nsXh (Eq VP : Nat) (hin : Int) : Nat :=
  ((wadd ((if hin < 0 then Eq ||| 1 else Eq) &&& VP) VP) ^^^ VP)
    ||| (if hin < 0 then Eq ||| 1 else Eq)

/-- The word Ph of getNextSlice, before the shift. -/
def nsPh (Eq VP VN : Nat) (hin : Int) : Nat := VN ||| wnot (nsXh Eq VP hin ||| VP)

/-- The word Mh of getNextSlice, before the shift. -/
def nsMh (Eq VP : Nat) (hin : Int) : Nat := VP &&& nsXh Eq VP hin

/-- The word Ph of getNextSlice, after the shift. -/
def nsPhShift (Eq VP VN : Nat) (hin : Int) : Nat :=
  if hin < 0 then wshl (nsPh Eq VP VN hin) 1
  else if hin > 0 then wshl (nsPh Eq VP VN hin) 1 ||| 1
  else wshl (nsPh Eq VP VN hin) 1

/-- The word Mh of getNextSlice, after the shift. -/
def nsMhShift (Eq VP : Nat) (hin : Int) : Nat :=
  if hin < 0 then wshl (nsMh Eq VP hin) 1 ||| 1 else wshl (nsMh Eq VP hin) 1

/-- The new VP of getNextSlice. -/
def nsVP (Eq VP VN : Nat) (hin : Int) : Nat :=
  nsMhShift Eq VP hin ||| wnot ((Eq ||| VN) ||| nsPhShift Eq VP VN hin)

/-- The new VN of getNextSlice. -/
def nsVN (Eq VP VN : Nat) (hin : Int) : Nat :=
  nsPhShift Eq VP VN hin &&& (Eq ||| VN)

/-- The horizontal step into row i: hin for row 0, the step out of row i-1 above. -/
def nsH (Eq VP VN : Nat) (hin : Int) : Nat → Int
  | 0 => hin
  | i + 1 => boolInt ((nsPh Eq VP VN hin).testBit i) - boolInt ((nsMh Eq VP hin).testBit i)

/-- The value in the row before r: scoreBeforeStart for row 0. -/
def valueBefore (s : WordSlice) (r : Nat) : Int :=
  if r = 0 then s.scoreBeforeStart else s.getValue (r - 1)

/-- Byte c of the word x (a lane of the chunked arithmetic). -/
def lane (x c : Nat) : Nat := (x >>> (8 * c)) % 256

/-- The part of x below byte c. -/
def low (x c : Nat) : Nat := x % 256 ^ c

/-- One byte of WordSlice::byteVPVNSum. -/
def laneVPVNSum (p n : Nat) : Nat := (128 + p - n) ^^^ 128

/-- One byte of the block of differenceMasks that subtracts the right sums
from the left sums. -/
def laneInit (L R : Nat) : Nat :=
  let smear := (R &&& 128) / 128 * 127
  let deductions := (255 - smear) &&& R &&& 127
  let additions := (smear &&& (255 - R)) + (smear &&& 1)
  let sb := L &&& 128
  let d := L &&& 127
  let d := d + additions
  let d := d ^^^ sb
  let sb := d &&& 128
  let d := d ||| 128
  let d := d - deductions
  let sb := sb ^^^ (128 &&& (255 - d))
  let d := d &&& 127
  d ||| sb

/-- One byte of the difference update in the loop of differenceMasks. -/
def laneStep (b p1 p2 n1 n2 : Nat) : Nat :=
  let sb := b &&& 128
  let d := b &&& 127
  let d := d + p1
  let d := d + p2
  let d := d ^^^ sb
  let sb := d &&& 128
  let d := d ||| 128
  let d := d - n1
  let d := d - n2
  let sb := sb ^^^ (128 &&& (255 - d))
  let d := d &&& 127
  d ||| sb

/-- The block of differenceMasks that subtracts the right sums from the left sums. -/
def dmInit (byteVPVNSumLeft byteVPVNSumRight : Nat) : Nat :=
  let signmask := SignMask
  let lsbmask := LSBMask
  let difference := byteVPVNSumLeft
  let smearmask :=
    wmul ((byteVPVNSumRight &&& signmask) >>> (ChunkBits - 1))
      (wsub (wshl 1 ((ChunkBits : Int) - 1)) 1)
  let deductions := wnot smearmask &&& byteVPVNSumRight &&& wnot signmask
  let additions := wadd (smearmask &&& wnot byteVPVNSumRight) (smearmask &&& lsbmask)
  let signsBefore := difference &&& signmask
  let difference := difference &&& wnot signmask
  let difference := wadd difference additions
  let difference := difference ^^^ signsBefore
  let signsBefore := difference &&& signmask
  let difference := difference ||| signmask
  let difference := wsub difference deductions
  let signsBefore := signsBefore ^^^ (signmask &&& wnot difference)
  let difference := difference &&& wnot signmask
  difference ||| signsBefore

/-- The word W is below 2^64 and its byte k is f k, for the eight bytes. -/
def LaneWise (W : Nat) (f : Nat → Nat) : Prop := W < wordMod ∧ ∀ k < 8, lane W k = f k

/-- The difference left - right of the row values before row j (so after row j - 1),
for a left column (lVP, lVN) starting d below the right column (rVP, rVN). -/
def rowDiff (lVP lVN rVP rVN : Nat) (d : Int) (j : Nat) : Int :=
  -d + (bitCount lVP j : Int) - (bitCount lVN j : Int)
    - (bitCount rVP j : Int) + (bitCount rVN j : Int)

/-- The byte that holds the integer z in two's complement. -/
def tcByte (z : Int) : Nat := (z % 256).toNat

/-- The selection mask of mergeTwoSlices: the rows taken from the right operand. -/
def mergeMask (ls rs : Nat) : Nat := (rs ||| wsub (ls ||| rs) (wshl rs 1)) &&& wnot ls

/-- The word leftReduction of mergeTwoSlices. -/
def mergeLeftReduction (ls rs : Nat) : Nat := ls &&& wshl rs 1

/-- The word rightReduction of mergeTwoSlices; lt says left.scoreBeforeStart is the smaller. -/
def mergeRightReduction (ls rs : Nat) (lt : Bool) : Nat :=
  if WordSlice.bitSet rs 1 && lt then (rs &&& wshl ls 1) ||| 1 else rs &&& wshl ls 1

/-- The map distances holds for the vertex v a value of at most p. -/
def distLE (distances : Nat → Option Int) (v : Nat) (p : Int) : Prop :=
  ∃ d, distances v = some d ∧ d ≤ p

/-- The vertex v is a start vertex of the band function: a vertex of the previous slice
whose minScore is within the bandwidth of the minimum. -/
def isStartVertex (entries : List BandEntry) (minScore bandwidth : Int) (v : Nat) : Prop :=
  ∃ e ∈ entries, e.node = v ∧ e.minScore ≤ minScore + bandwidth

/-- What holds of the state of projectForwardFromMinScore between two rounds of its
loops, once the vertices of the list done have been read. -/
structure BandInv (graph : AlignmentGraph) (done : List BandEntry) (minScore bandwidth : Int)
    (s : ProjectState) : Prop where
  start : ∀ e ∈ done, e.minScore ≤ minScore + bandwidth → s.distances e.node = some 0
  startPush : ∀ e ∈ done, e.minScore ≤ minScore + bandwidth →
    e.endScore ≤ minScore + (bandwidth + (WordSize : Int)) →
    ∀ n ∈ graph.outNeighbors e.node,
      (n, e.endScore - minScore + 1) ∈ s.queue ∨ distLE s.distances n (e.endScore - minScore + 1)
  push : ∀ u d, s.distances u = some d → ¬ isStartVertex done minScore bandwidth u →
    ∀ n ∈ graph.outNeighbors u,
      (n, d + (graph.NodeLength u : Int)) ∈ s.queue
        ∨ distLE s.distances n (d + (graph.NodeLength u : Int))
  inResult : ∀ v d, s.distances v = some d → v ∈ s.result
  positive : ∀ e ∈ s.queue, 1 ≤ e.2

/-- What holds of the last state of a run of projectForwardFromMinScore that ends at its
last return statement: every entry within the width has been taken off the queue. -/
structure BandClosed (graph : AlignmentGraph) (entries : List BandEntry)
    (minScore bandwidth : Int) (s : ProjectState) : Prop where
  start : ∀ e ∈ entries, e.minScore ≤ minScore + bandwidth → distLE s.distances e.node 0
  startPush : ∀ e ∈ entries, e.minScore ≤ minScore + bandwidth →
    e.endScore ≤ minScore + (bandwidth + (WordSize : Int)) →
    ∀ n ∈ graph.outNeighbors e.node,
      e.endScore - minScore + 1 ≤ bandwidth + (WordSize : Int) →
      distLE s.distances n (e.endScore - minScore + 1)
  push : ∀ u d, s.distances u = some d → ¬ isStartVertex entries minScore bandwidth u →
    ∀ n ∈ graph.outNeighbors u,
      d + (graph.NodeLength u : Int) ≤ bandwidth + (WordSize : Int) →
      distLE s.distances n (d + (graph.NodeLength u : Int))
  inResult : ∀ v d, s.distances v = some d → v ∈ s.result

/-- What a run with the smaller bandwidth keeps true with respect to the last state
final of the run with the larger bandwidth. -/
structure BandSim (final : ProjectState) (done : List BandEntry) (minScore bandwidth wide : Int)
    (s : ProjectState) : Prop where
  inResult : ∀ v ∈ s.result, v ∈ final.result
  queued : ∀ e ∈ s.queue, e.2 ≤ wide + (WordSize : Int) → distLE final.distances e.1 e.2
  start : ∀ e ∈ done, e.minScore ≤ minScore + bandwidth → s.distances e.node = some 0
  positive : ∀ e ∈ s.queue, 1 ≤ e.2
/-- The step that the switch of WordSlice::setValue sees at row i: the score of the row
plus one minus the score before it. -/
def stepAt (scores : Nat → Int) (sbs : Int) (i : Nat) : Int :=
  scores i + 1 - (if i = 0 then sbs else scores (i - 1))

/-- The state of a cell of the alternate method after its row rows was set: the words
are disjoint, the rows above are filled with steps of plus one, and scoreEnd and
scoreBeforeStart agree with the value of the row. -/
structure CellInv (s : WordSlice) (rows : Nat) : Prop where
  valid : s.Valid
  rows_le : rows ≤ 63
  confirmed : s.confirmedRows = ⟨(rows : Int), true⟩
  above : ∀ i, rows < i → i < 64 → s.VP.testBit i = true ∧ s.VN.testBit i = false
  scoreEnd_eq : s.scoreEnd = s.getValue rows + (63 - (rows : Int))
  before_le : s.scoreBeforeStart ≤ s.getValue rows + rows + 1

/-- A block of the alternate method, for a read of 64 base pairs, in which one cell was
reached: the vertex 0 of length 1, whose cell GraphAligner::setValue has set at row 0 to
the value 1, with uninitializedValue = 64 as calculateSliceAlternate passes it. -/
def reachedCellBlock : DPSlice Unit :=
  { minScore := 1, minScoreIndex := [], scores := GraphAligner.setValue (fun _ => 1) [] 0 0 0 1 64,
    nodes := [], correctness := (), j := 0, cellsProcessed := 1, numCells := 0 }

/-- A candidate for the predecessor of a cell in the backtrace: its position, the value
the table holds for it, and the value it must have to be taken. -/
structure BacktraceCandidate where
  position : Int × Int
  value : Int
  wanted : Int

/-- The horizontal and the diagonal candidate in the column u, in this order; isMatch
says whether the base of the read at the row matches the base of the graph at the
column of the cell. -/
def sidewaysCandidates {κ : Type} (graph : GraphIndex) (sequence : List Char)
    (slice previousSlice : DPSlice κ) (pos : Int × Int) (isMatch : Bool) (u : Int) :
    List BacktraceCandidate :=
  let scoreHere := GraphAligner.getValue graph slice (pos.2 - slice.j) pos.1
  [{ position := (u, pos.2)
     value := GraphAligner.getValueOrMax graph slice (pos.2 - slice.j) u sequence.length
     wanted := scoreHere - 1 },
   { position := (u, pos.2 - 1)
     value := GraphAligner.diagonalScore graph sequence slice previousSlice pos u
     wanted := if isMatch then scoreHere else scoreHere - 1 }]

/-- The candidates of a cell in the order in which the amended claim C28 tries them: for
an inner base of a vertex the horizontal and the diagonal one of the column before; for
the first base of a vertex the in-neighbours in their order, each with its horizontal
and then its diagonal candidate at its last base; at the end the vertical candidate. -/
def backtraceCandidates {κ : Type} (graph : GraphIndex) (sequence : List Char)
    (slice previousSlice : DPSlice κ) (pos : Int × Int) (isMatch : Bool) :
    List BacktraceCandidate :=
  let nodeIndex := graph.IndexToNode pos.1
  let scoreHere := GraphAligner.getValue graph slice (pos.2 - slice.j) pos.1
  let columns : List Int :=
    if pos.1 = graph.NodeStart nodeIndex then
      (graph.inNeighbors nodeIndex).map (fun neighbor => graph.NodeEnd neighbor - 1)
    else [pos.1 - 1]
  columns.flatMap (sidewaysCandidates graph sequence slice previousSlice pos isMatch)
    ++ [{ position := (pos.1, pos.2 - 1)
          value := GraphAligner.diagonalScore graph sequence slice previousSlice pos pos.1
          wanted := scoreHere - 1 }]

/-- The choice of the predecessor as the amended claim C28 states it: at row 0 of the
read, for a vertex of the previous slice and a score of 0 or 1, the cell above; else the
first candidate that has the value it must have, none when there is no such candidate. -/
def pickBySpec {κ : Type} (graph : GraphIndex) (sequence : List Char)
    (slice : DPSlice κ) (pos : Int × Int) (previousSlice : DPSlice κ) (isMatch : Bool) :
    Option (Int × Int) :=
  let scoreHere := GraphAligner.getValue graph slice (pos.2 - slice.j) pos.1
  if pos.2 = 0 ∧ NodeSlice.hasNode previousSlice.scores (graph.IndexToNode pos.1) = true
      ∧ (scoreHere = 0 ∨ scoreHere = 1) then
    some (pos.1, pos.2 - 1)
  else
    ((backtraceCandidates graph sequence slice previousSlice pos isMatch).find?
      (fun c => decide (c.value = c.wanted))).map (fun c => c.position)

/-- The graph of one vertex with the two bases A and C. -/
def twoBaseGraph : GraphIndex :=
  { IndexToNode := fun _ => 0, NodeStart := fun _ => 0, NodeEnd := fun _ => 2,
    inNeighbors := fun _ => [], NodeSequences := fun w => if w = 0 then 'A' else 'C' }

/-- The slice before the first block on twoBaseGraph: both columns hold the score 0. -/
def twoBaseStart : DPSlice Unit :=
  { minScore := 0, minScoreIndex := [], nodes := [0], correctness := (), j := -64,
    cellsProcessed := 0, numCells := 2,
    scores := [{ node := 0, minScore := 0,
                 words := [WordSlice.mk6 0 0 0 0 64 false, WordSlice.mk6 0 0 0 0 64 false] }] }

/-- The first block on twoBaseGraph for the read of 64 times A: row 0 holds the score 0
in the column of the base A and the score 1 in the column of the base C. -/
def twoBaseBlock : DPSlice Unit :=
  { minScore := 0, minScoreIndex := [], nodes := [0], correctness := (), j := 0,
    cellsProcessed := 2, numCells := 2,
    scores := [{ node := 0, minScore := 0,
                 words := [WordSlice.mk6 (AllOnes - 1) 0 63 0 64 false,
                           WordSlice.mk6 (AllOnes - 2) 0 63 0 64 false] }] }

/-- The scoreBeforeStart of the first cell of an array of cells. -/
def firstBefore (words : List WordSlice) : Int :=
  (words.headD WordSlice.default).scoreBeforeStart

/-- The scoreBeforeStart of the last cell of an array of cells. -/
def lastBefore (words : List WordSlice) : Int :=
  (words.getLastD WordSlice.default).scoreBeforeStart

/-- Along an array of cells scoreBeforeStart grows by at most one per cell. -/
def UnitSteps (words : List WordSlice) : Prop :=
  List.Chain' (fun a b : WordSlice => b.scoreBeforeStart ≤ a.scoreBeforeStart + 1) words

/-- The measure that falls in the while loop of forceComponentZeroRow: the sum over the
vertices of the slice of the distance of the first cell above the bound low. -/
def relaxMeasure (low : Int) (slice : NodeSlice) : Nat :=
  (slice.map (fun item => (firstBefore item.words - low).toNat)).sum

/-- The number of cells of the vertices of a list. -/
def lengthSum (lengths : Nat → Nat) (nodes : List Nat) : Nat :=
  (nodes.map lengths).sum

/-- What holds between two rounds of the while loop of forceComponentZeroRow: the
vertices of the list reached have cells up to a bound, the other vertices of the
component still have the largest score in every cell; along the cells of a vertex the
score grows by at most one; and an edge inside the component out of a reached vertex is
obeyed by the scores or still has its entry in the queue. -/
structure RelaxInv (graph : AlignmentGraph) (component : List Nat) (maxScore bound low : Int)
    (lengths : Nat → Nat) (reached : List Nat) (state : NodeSlice × List (Nat × Int)) :
    Prop where
  reached_nodup : reached.Nodup
  reached_sub : ∀ n ∈ reached, n ∈ component
  length_eq : ∀ n ∈ component, (NodeSlice.node state.1 n).length = lengths n
  steps : ∀ n ∈ component, UnitSteps (NodeSlice.node state.1 n)
  unset : ∀ n ∈ component, n ∉ reached →
    ∀ w ∈ NodeSlice.node state.1 n, w.scoreBeforeStart = maxScore
  bounded : ∀ n ∈ reached, ∀ w ∈ NodeSlice.node state.1 n,
    w.scoreBeforeStart ≤ bound + (lengthSum lengths reached : Int) - 1
  queue_node : ∀ e ∈ state.2, e.1 ∈ component
  queue_le : ∀ e ∈ state.2, e.2 ≤ bound + (lengthSum lengths reached : Int)
  queue_ge : ∀ e ∈ state.2, low ≤ e.2
  covered : ∀ u ∈ reached, ∀ v ∈ graph.outNeighbors u, v ∈ component →
    firstBefore (NodeSlice.node state.1 v) ≤ lastBefore (NodeSlice.node state.1 u) + 1
    ∨ ∃ e ∈ state.2, e.1 = v ∧ e.2 ≤ lastBefore (NodeSlice.node state.1 u) + 1

/-- The value that one round of the loop over the in-neighbours gives the first cell of a
vertex of the component, from the value before; original is currentSlice as it is
outside the component. -/
def seedValue (original previousSlice : NodeSlice) (currentBand previousBand : Nat → Bool)
    (componentIndex : Nat) (partOfComponent : Nat → Nat) (value : Int) (neighbor : Nat) : Int :=
  if !currentBand neighbor && !previousBand neighbor then value
  else if partOfComponent neighbor = componentIndex then value
  else
    let value :=
      if currentBand neighbor then
        min value (lastBefore (NodeSlice.node original neighbor) + 1)
      else value
    if previousBand neighbor then
      min value (((NodeSlice.node previousSlice neighbor).getLastD WordSlice.default).scoreEnd + 1)
    else value

/-- The cells of a vertex after the first statements of the first loop of
forceComponentZeroRow: every scoreBeforeStart is the largest score, except that the
first cell of a vertex of the previous band has the scoreEnd of its old first cell. -/
def seedStart (limits : TypeLimits) (previousSlice : NodeSlice) (previousBand : Nat → Bool)
    (currentSlice : NodeSlice) (node : Nat) : List WordSlice :=
  if previousBand node then
    GraphAligner.setBefore ((NodeSlice.node currentSlice node).map
        (fun word => { word with scoreBeforeStart := limits.scoreTypeMax })) 0
      ((if previousBand node then NodeSlice.node previousSlice node
        else NodeSlice.node currentSlice node).headD WordSlice.default).scoreEnd
  else (NodeSlice.node currentSlice node).map
    (fun word => { word with scoreBeforeStart := limits.scoreTypeMax })

/-- The value of the first cell of a vertex of the component after the loop over its
in-neighbours. -/
def seedScore (inNeighbors : Nat → List Nat) (limits : TypeLimits)
    (original previousSlice : NodeSlice) (currentBand previousBand : Nat → Bool)
    (componentIndex : Nat) (partOfComponent : Nat → Nat) (node : Nat) : Int :=
  (inNeighbors node).foldl
    (seedValue original previousSlice currentBand previousBand componentIndex partOfComponent)
    (if previousBand node then
      ((NodeSlice.node previousSlice node).headD WordSlice.default).scoreEnd
    else limits.scoreTypeMax)

/-- What holds during the first loop of forceComponentZeroRow, when the vertices of the
list done have had their turn: the vertices of the list reached have a first cell below
the largest score and have put their out-neighbours inside the component into the
queue; the other vertices of done have the largest score in every cell. -/
structure SeedInv (graph : AlignmentGraph) (component : List Nat) (limits : TypeLimits)
    (bound : Int) (lengths : Nat → Nat) (componentIndex : Nat) (partOfComponent : Nat → Nat)
    (score : Nat → Int) (original : NodeSlice) (done reached : List Nat)
    (state : NodeSlice × List (Nat × Int)) : Prop where
  reached_nodup : reached.Nodup
  reached_sub : ∀ n ∈ reached, n ∈ done
  outside : ∀ m, partOfComponent m ≠ componentIndex →
    NodeSlice.node state.1 m = NodeSlice.node original m
  length_eq : ∀ n ∈ component, (NodeSlice.node state.1 n).length = lengths n
  steps : ∀ n ∈ done, UnitSteps (NodeSlice.node state.1 n)
  unset : ∀ n ∈ done, n ∉ reached →
    ∀ w ∈ NodeSlice.node state.1 n, w.scoreBeforeStart = limits.scoreTypeMax
  bounded : ∀ n ∈ reached, ∀ w ∈ NodeSlice.node state.1 n,
    w.scoreBeforeStart ≤ bound + (lengths n : Int) - 1
  queue_node : ∀ e ∈ state.2, e.1 ∈ component
  queue_from : ∀ e ∈ state.2,
    ∃ u ∈ reached, e.2 = lastBefore (NodeSlice.node state.1 u) + 1
  covered : ∀ u ∈ reached, ∀ v ∈ graph.outNeighbors u, v ∈ component →
    (v, lastBefore (NodeSlice.node state.1 u) + 1) ∈ state.2
  sourced : ∀ n ∈ done, score n ≠ limits.scoreTypeMax → n ∈ reached

/-- A graph of two vertices of two base pairs each, with the edges 0 -> 1 and 1 -> 0. -/
def cycleGraph : AlignmentGraph :=
  { nodeCount := 2, NodeLength := fun _ => 2,
    outNeighbors := fun n => if n = 0 then [1] else if n = 1 then [0] else [] }

/-- The in-neighbours of cycleGraph. -/
def cycleInNeighbors : Nat → List Nat :=
  fun n => if n = 0 then [1] else if n = 1 then [0] else []

/-- A current slice on cycleGraph before forceComponentZeroRow: both vertices are present
with two cells each. -/
def cycleCurrent : NodeSlice :=
  [{ node := 0, words := [WordSlice.default, WordSlice.default], minScore := 0 },
   { node := 1, words := [WordSlice.default, WordSlice.default], minScore := 0 }]

/-- A previous slice on cycleGraph that holds the vertex 0 only, with the end scores 5
and 9. -/
def cyclePrevious : NodeSlice :=
  [{ node := 0, words := [WordSlice.mk6 0 0 5 5 64 false, WordSlice.mk6 0 0 9 9 64 false],
     minScore := 5 }]

/-- The smaller of two confirmations in the order of RowConfirmation::operator<,
as std::min picks it. -/
def smallerConfirmation (a b : RowConfirmation) : RowConfirmation := if b.lt a then b else a

/-- The larger of two confirmations in the order of RowConfirmation::operator<,
as std::max picks it. -/
def largerConfirmation (a b : RowConfirmation) : RowConfirmation := if a.lt b then b else a

namespace GraphAligner

/-- The recursive reading of the label startloop: where the loop of
getStronglyConnectedComponentsRec pushes two frames and comes back to the vertex later,
this function calls visit for the neighbour and goes on. -/
def scanRec (visit : Nat → ComponentState → Option ComponentState)
    (currentBand : Nat → Bool) (nodeIndex : Nat) :
    List Nat → ComponentState → Option ComponentState
  | [], s => finishNode nodeIndex s
  | neighbor :: rest, s =>
    if !currentBand neighbor then scanRec visit currentBand nodeIndex rest s
    else if (s.index neighbor).isNone then
      (visit neighbor s).bind (fun s =>
        scanRec visit currentBand nodeIndex rest
          (lowerLink nodeIndex ((s.lowLink neighbor).getD 0) s))
    else
      scanRec visit currentBand nodeIndex rest
        (if s.onStack neighbor then lowerLink nodeIndex ((s.index neighbor).getD 0) s else s)

/-- The depth-first search that the loop of getStronglyConnectedComponentsRec unrolls,
with the recursion depth bounded by the fuel. -/
def dfsRec (graph : AlignmentGraph) (currentBand : Nat → Bool) :
    Nat → Nat → ComponentState → Option ComponentState
  | 0, _, _ => none
  | fuel + 1, nodeIndex, s =>
    scanRec (dfsRec graph currentBand fuel) currentBand nodeIndex
      (graph.outNeighbors nodeIndex) (enterNode nodeIndex s)

/-- An edge of the subgraph that the band induces. -/
def BandEdge (graph : AlignmentGraph) (currentBand : Nat → Bool) (u v : Nat) : Prop :=
  currentBand u = true ∧ currentBand v = true ∧ v ∈ graph.outNeighbors u

/-- Reachability along edges whose endpoints are all in the band. -/
def BandReach (graph : AlignmentGraph) (currentBand : Nat → Bool) (u v : Nat) : Prop :=
  Relation.ReflTransGen (BandEdge graph currentBand) u v

/-- The index of a vertex as the code reads it. -/
def indexOf (s : ComponentState) (v : Nat) : Nat := (s.index v).getD 0

/-- The number of entries of nodes that have no index yet. -/
def whiteCount (nodes : List Nat) (s : ComponentState) : Nat :=
  (nodes.filter (fun v => (s.index v).isNone)).length

/-- The lowLink of a vertex as the code reads it. -/
def lowOf (s : ComponentState) (v : Nat) : Nat := (s.lowLink v).getD 0

/-- The invariant of the depth-first search between two visits; gray lists the vertices
whose visit has begun and not ended. -/
structure ComponentInv (graph : AlignmentGraph) (currentBand : Nat → Bool) (nodes : List Nat)
    (s : ComponentState) (gray : List Nat) : Prop where
  visited_band : ∀ v, s.index v ≠ none → currentBand v = true
  index_lt : ∀ v i, s.index v = some i → i < s.stackindex
  index_inj : ∀ u v i, s.index u = some i → s.index v = some i → u = v
  count : s.stackindex + whiteCount nodes s ≤ nodes.length
  result_count : s.result.length + s.stack.length ≤ s.stackindex
  onStack_iff : ∀ v, s.onStack v = true ↔ v ∈ s.stack
  stack_sorted : s.stack.Pairwise (fun a b => indexOf s b < indexOf s a)
  stack_visited : ∀ v ∈ s.stack, s.index v ≠ none
  visited_split : ∀ v, s.index v ≠ none → v ∈ s.stack ∨ ∃ c ∈ s.result, v ∈ c
  result_visited : ∀ c ∈ s.result, ∀ v ∈ c, s.index v ≠ none ∧ v ∉ s.stack
  result_scc : ∀ c ∈ s.result, ∀ u ∈ c, ∀ v,
    v ∈ c ↔ (BandReach graph currentBand u v ∧ BandReach graph currentBand v u)
  result_nodup : ∀ c ∈ s.result, c.Nodup
  result_disjoint : s.result.Pairwise (fun c d => ∀ v ∈ c, v ∉ d)
  result_closed : ∀ i c, s.result[i]? = some c → ∀ u ∈ c, ∀ v,
    BandEdge graph currentBand u v →
      ∃ (j : Nat) (d : List Nat), j ≤ i ∧ s.result[j]? = some d ∧ v ∈ d
  gray_stack : ∀ z ∈ gray, z ∈ s.stack
  stack_reach : ∀ y ∈ s.stack, ∃ z ∈ gray, indexOf s z ≤ indexOf s y
    ∧ BandReach graph currentBand y z
  black_white : ∀ u v, BandEdge graph currentBand u v → s.index u ≠ none → u ∉ gray →
    s.index v ≠ none

/-- What the visit of x changes, from the state s before the visit to the state s1 after
it. -/
structure ComponentPost (graph : AlignmentGraph) (currentBand : Nat → Bool)
    (s : ComponentState) (x : Nat) (s1 : ComponentState) : Prop where
  index_ext : ∀ v i, s.index v = some i → s1.index v = some i
  index_new : ∀ v i, s.index v = none → s1.index v = some i → s.stackindex ≤ i
  lowLink_old : ∀ v, s.index v ≠ none → s1.lowLink v = s.lowLink v
  visited : s1.index x ≠ none
  result_ext : ∃ rs, s1.result = s.result ++ rs
  stack_ext : ∃ new, s1.stack = new ++ s.stack
    ∧ (∀ u ∈ new, s.index u = none ∧ BandReach graph currentBand x u)
    ∧ (∀ u ∈ new, ∀ w ∈ s.stack, BandEdge graph currentBand u w → lowOf s1 x ≤ indexOf s1 w)
    ∧ (new ≠ [] → lowOf s1 x < indexOf s1 x
        ∧ ∃ y ∈ s.stack, indexOf s1 y = lowOf s1 x ∧ BandReach graph currentBand x y)
    ∧ (new = [] → lowOf s1 x = indexOf s1 x)

/-- The invariant of the loop over the out-neighbours of x, after the neighbours in done;
s0 is the state before the visit of x. -/
structure ScanInv (graph : AlignmentGraph) (currentBand : Nat → Bool) (nodes : List Nat)
    (s0 : ComponentState) (gray : List Nat) (x : Nat) (done : List Nat)
    (s : ComponentState) : Prop where
  inv : ComponentInv graph currentBand nodes s (x :: gray)
  index_ext : ∀ v i, s0.index v = some i → s.index v = some i
  index_new : ∀ v i, s0.index v = none → s.index v = some i → s0.stackindex ≤ i
  lowLink_old : ∀ v, s0.index v ≠ none → s.lowLink v = s0.lowLink v
  index_x : s.index x = some s0.stackindex
  white_x : s0.index x = none
  result_ext : ∃ rs, s.result = s0.result ++ rs
  low_le : lowOf s x ≤ s0.stackindex
  low_reach : ∃ y ∈ s.stack, indexOf s y = lowOf s x ∧ BandReach graph currentBand x y
  stack_ext : ∃ new, s.stack = new ++ x :: s0.stack
    ∧ (∀ u ∈ new, s0.index u = none ∧ u ≠ x ∧ BandReach graph currentBand x u)
    ∧ (∀ u ∈ new, ∀ w ∈ x :: s0.stack, BandEdge graph currentBand u w →
        lowOf s x ≤ indexOf s w)
  processed : ∀ w ∈ done, currentBand w = true →
    s.index w ≠ none ∧ (w ∈ s.stack → lowOf s x ≤ indexOf s w)

/-- A band of eight vertices with three cycles and a self-loop; vertex 7 also has an
out-neighbour outside the band. -/
def sccGraph : AlignmentGraph :=
  { nodeCount := 10, NodeLength := fun _ => 1
    outNeighbors := fun n =>
      if n = 0 then [1] else if n = 1 then [2, 4] else if n = 2 then [0, 3]
      else if n = 3 then [5] else if n = 4 then [5, 6] else if n = 5 then [3]
      else if n = 6 then [4, 7] else if n = 7 then [7, 9] else [] }

/-- The band of sccGraph: the vertices 0 to 7. -/
def sccBand : Nat → Bool := fun v => decide (v < 8)

end GraphAligner

/-- The word whose bit r is set exactly for the rows r below n that satisfy p. -/
def maskOfRows (p : Nat → Bool) (n : Nat) : Nat :=
  (List.range n).foldl (fun mask r => if p r then mask ||| 2 ^ r else mask) 0

/-- The value of row r of a column as the specification counts it: the start value plus
the number of set bits of VP minus the number of set bits of VN at the positions 0..r. -/
def rowValue (VP VN : Nat) (start : Int) (r : Nat) : Int :=
  start + (((List.range (r + 1)).filter (fun i => VP.testBit i)).length : Int)
    - (((List.range (r + 1)).filter (fun i => VN.testBit i)).length : Int)

/-- The cell-by-cell definition of the two masks of differenceMasks: row r is in the first
mask when the left value is below the right value, and in the second when the right value
is below the left value; the left column starts at 0, the right one at scoreDifference. -/
def differenceMasksCellByCell (leftVP leftVN rightVP rightVN : Nat) (scoreDifference : Int) :
    Nat × Nat :=
  (maskOfRows (fun r => decide (rowValue leftVP leftVN 0 r
      < rowValue rightVP rightVN scoreDifference r)) 64,
   maskOfRows (fun r => decide (rowValue rightVP rightVN scoreDifference r
      < rowValue leftVP leftVN 0 r)) 64)

/-- The single character of ReverseComplement applied to the one-letter string x; none
when the function stops at its assertion or returns another number of characters. -/
def singleComplement (assertsEnabled : Bool) (x : Char) : Option Char :=
  match ReverseComplement assertsEnabled [x] with
  | some [c] => some c
  | _ => none


/-! ## Statement of the equality vector -/

/-- Whether the read character c matches the graph character g, false when characterMatch
does not return. -/
def matchBit (c g : Char) : Bool := decide (characterMatch c g = some true)

/-- The invariant of the loop of calculateSlice over the read characters: below the round
i the bits of the four words are the matches of the rows, from i on they are 0. -/
def EqVectorInv (sequence : List Char) (j i : Nat) (v : GraphAligner.EqVector) : Prop :=
  ∀ k, (v.BA.testBit k = (decide (k < i) && matchBit (sequence.getD (j + k) 'N') 'A'))
    ∧ (v.BC.testBit k = (decide (k < i) && matchBit (sequence.getD (j + k) 'N') 'C'))
    ∧ (v.BT.testBit k = (decide (k < i) && matchBit (sequence.getD (j + k) 'N') 'T'))
    ∧ (v.BG.testBit k = (decide (k < i) && matchBit (sequence.getD (j + k) 'N') 'G'))


/-! ## Runs of a trace inside one vertex -/

/-- A maximal run of consecutive trace positions inside one vertex: the vertex, the first
position of the run and the positions after it. -/
structure VertexRun where
  vertex : Nat
  first : Int × Int
  others : List (Int × Int)

/-- The positions of a run. -/
def VertexRun.positions (r : VertexRun) : List (Int × Int) := r.first :: r.others

/-- The last position of a run. -/
def VertexRun.last (r : VertexRun) : Int × Int := r.others.getLastD r.first

/-- What the statement about the edits asks of one run of a trace, with before the trace
position that precedes the run (the first position of the run itself for the first run):
the rows are rows of the read, do not decrease and rise by at most one from a position to
the next, and the run ends at or behind the graph position where it starts. -/
structure RunOk (sequence : List Char) (before : Int × Int) (r : VertexRun) : Prop where
  rowBefore : 0 ≤ before.2
  rowFirst : before.2 ≤ r.first.2
  rowStep : r.first.2 ≤ before.2 + 1
  rowLast : r.first.2 ≤ r.last.2
  rowRead : r.last.2 < sequence.length
  column : r.first.1 ≤ r.last.1
  columnRange : r.last.1 - r.first.1 + 1 < 2147483648

/-- The conditions on the run cur of a trace and the runs after it: every run is RunOk,
the runs after cur are runs of vertices with an entry in nodeIDs and in reverse, none of
them the dummy end vertex, and two neighbouring runs are runs of different vertices. -/
def RunsOk (graph : GraphIndex) (names : GraphNames) (sequence : List Char) :
    Int × Int → VertexRun → List VertexRun → Prop
  | before, cur, [] => RunOk sequence before cur
  | before, cur, r :: rs =>
    RunOk sequence before cur ∧ r.vertex ≠ cur.vertex ∧ r.vertex ≠ names.dummyNodeEnd
      ∧ r.vertex < names.nodeIDs.length ∧ r.vertex < names.reverse.length
      ∧ (∀ p ∈ r.positions, graph.IndexToNode p.1 = r.vertex)
      ∧ RunsOk graph names sequence cur.last r rs

/-- The edit of a run with from_length = last - first + extra, to_length the rows from the
position before the run to its last position, and as many characters of the read from the
row of the first position on. -/
def runEdit (sequence : List Char) (before : Int × Int) (r : VertexRun) (extra : Int) :
    Edit :=
  { from_length := r.last.1 - r.first.1 + extra
    to_length := r.last.2 - before.2
    sequence := (sequence.drop r.first.2.toNat).take (r.last.2 - before.2).toNat }

/-- The mapping of a run of the vertex v without its edit and with the offset 0. -/
def runHeader (names : GraphNames) (rank : Int) (v : Nat) : Mapping :=
  { rank := rank
    node_id := names.nodeIDs.getD v 0
    is_reverse := names.reverse.getD v false
    offset := 0
    edits := [] }

/-- The mappings of the run cur, whose mapping without its edit is m, and of the runs
after it: the edit of every run but the last has extra = 1, the edit of the last run has
extra = 0. -/
def runMappings (names : GraphNames) (sequence : List Char) :
    Int × Int → VertexRun → Mapping → List VertexRun → List Mapping
  | before, cur, m, [] => [{ m with edits := m.edits ++ [runEdit sequence before cur 0] }]
  | before, cur, m, r :: rs =>
    { m with edits := m.edits ++ [runEdit sequence before cur 1] }
      :: runMappings names sequence cur.last r (runHeader names (m.rank + 1) r.vertex) rs

/-- A graph of two vertices of two bases each, the vertices 0 and 1 of the index; the
dummy vertices are 2 and 3. -/
def twoRunGraph : GraphIndex :=
  { IndexToNode := fun w => if w < 2 then 0 else 1
    NodeStart := fun v => if v = 0 then 0 else 2
    NodeEnd := fun v => if v = 0 then 2 else 4
    inNeighbors := fun v => if v = 1 then [0] else []
    NodeSequences := fun w => ['A', 'C', 'G', 'T'].getD w.toNat 'N' }

/-- The names of the vertices of twoRunGraph. -/
def twoRunNames : GraphNames :=
  { dummyNodeStart := 2, dummyNodeEnd := 3, nodeIDs := [2, 4], reverse := [false, false] }

/-- The run of the trace (0,0), (1,1), (2,2), (3,3) inside the vertex 0 of twoRunGraph. -/
def twoRunFirst : VertexRun := { vertex := 0, first := (0, 0), others := [(1, 1)] }

/-- The run of the trace (0,0), (1,1), (2,2), (3,3) inside the vertex 1 of twoRunGraph. -/
def twoRunSecond : VertexRun := { vertex := 1, first := (2, 2), others := [(3, 3)] }


/-! ## Order of the priorities in the band function -/

/-- What holds of the state of projectForwardFromMinScore between two rounds of its loops,
with lo the priority of the last entry taken off the queue (0 before the first): result
holds no vertex twice, every vertex of result has a recorded distance, no recorded
distance is above lo and no priority in the queue is below lo. -/
structure BandOrder (lo : Int) (s : ProjectState) : Prop where
  nodup : s.result.Nodup
  recorded : ∀ v ∈ s.result, ∃ d, s.distances v = some d
  below : ∀ v d, s.distances v = some d → d ≤ lo
  above : ∀ e ∈ s.queue, lo ≤ e.2

/-- The number of vertices of the graph without a recorded distance. -/
def unvisited (graph : AlignmentGraph) (s : ProjectState) : Nat :=
  ((List.range graph.nodeCount).filter (fun v => (s.distances v).isNone)).length

/-- A graph of three vertices of one base each with the edges 0 -> 1, 0 -> 2, 1 -> 2 and
2 -> 0. -/
def triangleGraph : AlignmentGraph :=
  { nodeCount := 3
    NodeLength := fun _ => 1
    outNeighbors := fun v => if v = 0 then [1, 2] else if v = 1 then [2] else [0] }


/-! ## Theorems -/

open WordSlice

theorem testBit_allOnes (i : Nat) : AllOnes.testBit i = decide (i < 64) := by
  have : AllOnes = 2 ^ 64 - 1 := by decide
  rw [this, Nat.testBit_two_pow_sub_one]

theorem testBit_of_lt_wordMod {x : Nat} (h : x < wordMod) {i : Nat} (hi : 64 ≤ i) :
    x.testBit i = false := by
  apply Nat.testBit_lt_two_pow
  calc x < 2 ^ 64 := h
    _ ≤ 2 ^ i := Nat.pow_le_pow_right (by decide) hi

theorem and_wnot_self {x : Nat} (h : x < wordMod) : x &&& wnot x = 0 := by
  apply Nat.eq_of_testBit_eq
  intro i
  simp only [wnot, Nat.testBit_and, Nat.testBit_xor, testBit_allOnes, Nat.zero_testBit]
  by_cases hi : i < 64
  · simp [hi]
  · simp [hi, testBit_of_lt_wordMod h (Nat.le_of_not_lt hi)]

theorem and_allOnes {x : Nat} (h : x < wordMod) : x &&& AllOnes = x := by
  have : AllOnes = 2 ^ 64 - 1 := by decide
  rw [this]
  exact Nat.and_pow_two_sub_one_of_lt_two_pow h

theorem differenceMasks_self {vp vn : Nat} (hp : vp < wordMod) (hn : vn < wordMod) :
    differenceMasks vp vn vp vn 0 = (0, 0) := by
  have h0 : differenceMasks 0 0 0 0 0 = (0, 0) := by decide
  unfold differenceMasks
  simp only [Nat.and_self, and_wnot_self hp, and_wnot_self hn]
  unfold differenceMasks at h0
  simpa using h0

/-- C7 (amended): for every slice a whose words are valid, a.mergeWith(a) equals a in
VP, VN, scoreBeforeStart, scoreEnd, confirmedRows and scoreBeforeExists, and its
scoreEndExists is true. -/
theorem mergeWith_self (a : WordSlice) (h : a.Valid) :
    a.mergeWith a = { a with scoreEndExists := true } := by
  obtain ⟨hp, hn, _⟩ := h
  have hw : wnot 0 = AllOnes := by decide
  have hm : (0 ||| wsub (0 ||| 0) (wshl 0 1)) &&& wnot 0 = 0 := by decide
  have hr : (0 : Nat) &&& wshl 0 1 = 0 := by decide
  simp only [mergeWith, mergeTwoSlices, mergeOrdered, sub_self, differenceMasks_self hp hn,
    confirmedRowsInMerged, RowConfirmation.eq, WordSlice.default, hm, hr, hw, and_allOnes hp,
    and_allOnes hn]
  have hs : wsub 0 (wshl 0 1) = 0 := by decide
  simp [bitSet, hs, hw, and_allOnes hp, and_allOnes hn]

/-- C7 (counterexample): for the default slice with scoreEndExists cleared, which
satisfies both invariants, mergeWith of the slice with itself is not the slice:
the merged slice has scoreEndExists set. -/
theorem mergeWith_self_counterexample :
    ({ WordSlice.default with scoreEndExists := false } : WordSlice).Valid
    ∧ sliceInvariant { WordSlice.default with scoreEndExists := false }
    ∧ ({ WordSlice.default with scoreEndExists := false } : WordSlice).mergeWith
        { WordSlice.default with scoreEndExists := false }
      ≠ { WordSlice.default with scoreEndExists := false } := by
  decide

/-- C7 (witness): mergeWith_self at a concrete slice. -/
theorem mergeWith_self_witness :
    (WordSlice.mk6 5 2 4 3 7 true).mergeWith (WordSlice.mk6 5 2 4 3 7 true)
      = { WordSlice.mk6 5 2 4 3 7 true with scoreEndExists := true } :=
  mergeWith_self (WordSlice.mk6 5 2 4 3 7 true) (by decide)

theorem getNextSlice_confirmedRows (Eq : Nat) (slice : WordSlice)
    (upInsideBand upleftInsideBand diagonalInsideBand previousEq : Bool) (previous : WordSlice) :
    ∃ c : Bool, (getNextSlice Eq slice upInsideBand upleftInsideBand diagonalInsideBand
      previousEq previous).confirmedRows =
      (if c then
        ⟨if slice.confirmedRows.rows + 1 ≤ (WordSize : Int) then slice.confirmedRows.rows + 1
          else slice.confirmedRows.rows, false⟩
      else if !slice.confirmedRows.partialRow && decide (slice.confirmedRows.rows < (WordSize : Int))
        then ⟨slice.confirmedRows.rows, true⟩
      else slice.confirmedRows) :=
  ⟨_, rfl⟩

/-- C10: confirmedRows.rows stays within 0..64: getNextSlice keeps rows or adds one
(then partialRow is false) and never exceeds 64; setValue(row, v) sets rows to row,
which lies in 0..63; finalizeAlternateSlice sets rows to 64 in every word. -/
theorem confirmedRows_range (Eq : Nat) (slice previous : WordSlice)
    (upInsideBand upleftInsideBand diagonalInsideBand previousEq : Bool)
    (s : WordSlice) (row : Nat) (value : Int)
    (words : List WordSlice) (uninitializedValue bandwidth : Int)
    (h0 : 0 ≤ slice.confirmedRows.rows) (h64 : slice.confirmedRows.rows ≤ 64)
    (hrow : row ≤ 63) :
    ((getNextSlice Eq slice upInsideBand upleftInsideBand diagonalInsideBand previousEq
          previous).confirmedRows.rows = slice.confirmedRows.rows ∨
      ((getNextSlice Eq slice upInsideBand upleftInsideBand diagonalInsideBand previousEq
          previous).confirmedRows.rows = slice.confirmedRows.rows + 1 ∧
       (getNextSlice Eq slice upInsideBand upleftInsideBand diagonalInsideBand previousEq
          previous).confirmedRows.partialRow = false)) ∧
    0 ≤ (getNextSlice Eq slice upInsideBand upleftInsideBand diagonalInsideBand previousEq
          previous).confirmedRows.rows ∧
    (getNextSlice Eq slice upInsideBand upleftInsideBand diagonalInsideBand previousEq
          previous).confirmedRows.rows ≤ 64 ∧
    (s.setValue row value).confirmedRows.rows = row ∧
    0 ≤ (s.setValue row value).confirmedRows.rows ∧
    (s.setValue row value).confirmedRows.rows ≤ 63 ∧
    ∀ w ∈ (finalizeAlternateNode words uninitializedValue bandwidth).1,
      w.confirmedRows.rows = 64 := by
  have hset : (s.setValue row value).confirmedRows.rows = row := by
    unfold WordSlice.setValue
    split_ifs <;> rfl
  obtain ⟨c, hc⟩ := getNextSlice_confirmedRows Eq slice upInsideBand upleftInsideBand
    diagonalInsideBand previousEq previous
  rw [hc]
  refine ⟨?_, ?_, ?_, hset, ?_, ?_, ?_⟩
  · cases c <;> simp only [WordSize] <;> split_ifs <;> simp_all
  · cases c <;> simp only [WordSize] <;> split_ifs <;> simp_all <;> omega
  · cases c <;> simp only [WordSize] <;> split_ifs <;> simp_all
  · rw [hset]; omega
  · rw [hset]; omega
  · intro w hw
    simp only [finalizeAlternateNode, List.mem_map] at hw
    obtain ⟨w1, ⟨w0, _, rfl⟩, rfl⟩ := hw
    split_ifs <;> simp [WordSize]

/-- C10 (witness): confirmedRows_range at concrete inputs. -/
theorem confirmedRows_range_witness :
    (getNextSlice 6 (WordSlice.mk6 5 2 4 3 64 true) true false true false
        WordSlice.default).confirmedRows.rows ≤ 64
    ∧ ((WordSlice.mk6 5 2 4 3 7 true).setValue 9 4).confirmedRows.rows = 9 :=
  have h := confirmedRows_range 6 (WordSlice.mk6 5 2 4 3 64 true) WordSlice.default
    true false true false (WordSlice.mk6 5 2 4 3 7 true) 9 4 [WordSlice.default] 100 3
    (by decide) (by decide) (by decide)
  ⟨h.2.2.1, h.2.2.2.1⟩

/-! ## The population count -/

theorem and_split (k a b m : Nat) (ha : a < 2 ^ k) :
    (2 ^ k * b + a) &&& m = 2 ^ k * (b &&& (m / 2 ^ k)) + (a &&& (m % 2 ^ k)) := by
  have hlt : a &&& (m % 2 ^ k) < 2 ^ k := Nat.and_lt_two_pow _ (Nat.mod_lt _ (by positivity))
  have hm : m = 2 ^ k * (m / 2 ^ k) + m % 2 ^ k := (Nat.div_add_mod m (2 ^ k)).symm
  apply Nat.eq_of_testBit_eq
  intro i
  rw [Nat.testBit_and, Nat.testBit_mul_pow_two_add _ ha, Nat.testBit_mul_pow_two_add _ hlt]
  conv_lhs => rw [hm, Nat.testBit_mul_pow_two_add _ (Nat.mod_lt _ (by positivity))]
  by_cases hi : i < k <;> simp [hi, Nat.testBit_and]

theorem and_byte (a b m : Nat) (ha : a < 256) :
    (a + 256 * b) &&& m = (a &&& (m % 256)) + 256 * (b &&& (m / 256)) := by
  have h := and_split 8 a b m (by omega)
  norm_num at h
  rw [Nat.add_comm a, h]
  omega

set_option maxRecDepth 100000 in
theorem pcStep1_byte (m b y : Nat) (hb : b < 256) :
    pcStep1 (0x55 + 256 * m) (b + 256 * y) = pcStep1 0x55 b + 256 * pcStep1 m y := by
  have hbyte : ∀ b < 256, ∀ t < 2, (b / 2 + 128 * t) &&& 0x55 = (b / 2) &&& 0x55 := by decide
  have h1 : (b + 256 * y) / 2 = (b / 2 + 128 * (y % 2)) + 256 * (y / 2) := by omega
  have h2 : (0x55 + 256 * m) % 256 = 0x55 := by omega
  have h3 : (0x55 + 256 * m) / 256 = m := by omega
  have h4 : (b / 2) &&& 0x55 ≤ b / 2 := Nat.and_le_left
  have h5 : (y / 2) &&& m ≤ y / 2 := Nat.and_le_left
  unfold pcStep1
  rw [h1, and_byte _ _ _ (by omega), h2, h3, hbyte b hb (y % 2) (by omega)]
  omega

set_option maxRecDepth 100000 in
theorem pcStep2_byte (m b y : Nat) (hb : b < 256) :
    pcStep2 (0x33 + 256 * m) (b + 256 * y) = pcStep2 0x33 b + 256 * pcStep2 m y := by
  have hbyte : ∀ b < 256, ∀ t < 4, (b / 4 + 64 * t) &&& 0x33 = (b / 4) &&& 0x33 := by decide
  have h1 : (b + 256 * y) / 4 = (b / 4 + 64 * (y % 4)) + 256 * (y / 4) := by omega
  have h2 : (0x33 + 256 * m) % 256 = 0x33 := by omega
  have h3 : (0x33 + 256 * m) / 256 = m := by omega
  unfold pcStep2
  rw [h1, and_byte _ _ _ hb, and_byte _ _ _ (by omega), h2, h3, hbyte b hb (y % 4) (by omega)]
  omega

theorem pcStep3_byte (m b y : Nat) (hb : b + b / 16 + 16 * (y % 16) < 256) :
    pcStep3 (0x0f + 256 * m) (b + 256 * y) = pcStep3 0x0f b + 256 * pcStep3 m y := by
  have h1 : (b + 256 * y) + (b + 256 * y) / 16
      = (b + b / 16 + 16 * (y % 16)) + 256 * (y + y / 16) := by omega
  have h2 : (0x0f + 256 * m) % 256 = 0x0f := by omega
  have h3 : (0x0f + 256 * m) / 256 = m := by omega
  have h15 : ∀ z : Nat, z &&& 0x0f = z % 16 := fun z =>
    Nat.and_pow_two_sub_one_eq_mod z 4
  unfold pcStep3
  rw [h1, and_byte _ _ _ hb, h2, h3, h15, h15]
  omega

set_option maxRecDepth 100000 in
theorem pcStep2_nibble (n y : Nat) :
    pcStep2 (byteMask 0x33 n) (pcStep1 (byteMask 0x55 n) y) % 16 ≤ 4 := by
  have hbyte : ∀ b < 256, pcStep2 0x33 (pcStep1 0x55 b) % 16 ≤ 4 := by decide
  cases n with
  | zero => simp [byteMask, pcStep2]
  | succ n =>
    have hy : y = y % 256 + 256 * (y / 256) := by omega
    have hlt : pcStep1 0x55 (y % 256) < 256 := by
      unfold pcStep1; omega
    rw [hy, byteMask, byteMask, pcStep1_byte _ _ _ (by omega), pcStep2_byte _ _ _ hlt]
    have := hbyte (y % 256) (by omega)
    omega

set_option maxRecDepth 100000 in
theorem pcSteps_eq_byteCounts (n : Nat) : ∀ x : Nat,
    pcStep3 (byteMask 0x0f n) (pcStep2 (byteMask 0x33 n) (pcStep1 (byteMask 0x55 n) x))
      = byteCounts n x := by
  have hbyte : ∀ b < 256, pcStep3 0x0f (pcStep2 0x33 (pcStep1 0x55 b)) = bitCount b 8
      ∧ pcStep2 0x33 (pcStep1 0x55 b) ≤ 0x44 := by decide
  induction n with
  | zero => intro x; simp [byteMask, pcStep3, byteCounts]
  | succ n ih =>
    intro x
    have hx : x = x % 256 + 256 * (x / 256) := by omega
    have hlt : pcStep1 0x55 (x % 256) < 256 := by
      unfold pcStep1; omega
    have hb := hbyte (x % 256) (by omega)
    have hnib := pcStep2_nibble n (x / 256)
    conv_lhs => rw [hx]
    rw [byteMask, byteMask, byteMask, pcStep1_byte _ _ _ (by omega), pcStep2_byte _ _ _ hlt,
      pcStep3_byte _ _ _ (by omega), ih, byteCounts, hb.1]
theorem bitCount_le (x n : Nat) : bitCount x n ≤ n := by
  induction n with
  | zero => simp [bitCount]
  | succ n ih => rw [bitCount]; split_ifs <;> omega

theorem bitCount_add (x k n : Nat) :
    bitCount x (k + n) = bitCount x k + bitCount (x >>> k) n := by
  induction n with
  | zero => simp [bitCount]
  | succ n ih => rw [← Nat.add_assoc, bitCount, bitCount, ih, Nat.testBit_shiftRight]; omega

theorem bitCount_mod (x k n : Nat) : bitCount (x % 2 ^ k) n = bitCount x (min n k) := by
  induction n with
  | zero => simp [bitCount]
  | succ n ih =>
    rw [bitCount, ih, Nat.testBit_mod_two_pow]
    by_cases h : n < k
    · rw [Nat.min_eq_left (by omega), Nat.min_eq_left (by omega), bitCount]; simp [h]
    · rw [Nat.min_eq_right (by omega), Nat.min_eq_right (by omega)]; simp [h]

theorem bitCount_byte_split (x n : Nat) :
    bitCount x (8 + n) = bitCount (x % 256) 8 + bitCount (x / 256) n := by
  have h := bitCount_mod x 8 8
  rw [bitCount_add, Nat.shiftRight_eq_div_pow]
  norm_num at h ⊢
  rw [h]

theorem ChunkPopcounts_eq (x : Nat) (hx : x < wordMod) : ChunkPopcounts x = byteCounts 8 x := by
  have e55 : byteMask 0x55 8 = 0x5555555555555555 := by decide
  have e33 : byteMask 0x33 8 = 0x3333333333333333 := by decide
  have e0f : byteMask 0x0f 8 = 0x0f0f0f0f0f0f0f0f := by decide
  rw [← pcSteps_eq_byteCounts, e55, e33, e0f]
  unfold ChunkPopcounts pcStep1 pcStep2 pcStep3 wsub wadd
  simp only [Nat.shiftRight_eq_div_pow]
  unfold wordMod at hx ⊢
  have ht : (x / 2 ^ 1) &&& 0x5555555555555555 ≤ x / 2 ^ 1 := Nat.and_le_left
  have h1 : (x + (18446744073709551616 - ((x / 2 ^ 1) &&& 0x5555555555555555)
      % 18446744073709551616)) % 18446744073709551616
      = x - ((x / 2) &&& 0x5555555555555555) := by
    norm_num at ht ⊢; omega
  rw [h1]
  generalize x - ((x / 2) &&& 0x5555555555555555) = s1
  have ha : s1 &&& 0x3333333333333333 ≤ 0x3333333333333333 := Nat.and_le_right
  have hb : (s1 / 2 ^ 2) &&& 0x3333333333333333 ≤ 0x3333333333333333 := Nat.and_le_right
  have h2 : ((s1 &&& 0x3333333333333333) + ((s1 / 2 ^ 2) &&& 0x3333333333333333))
      % 18446744073709551616
      = (s1 &&& 0x3333333333333333) + ((s1 / 4) &&& 0x3333333333333333) := by
    norm_num at hb ⊢; omega
  rw [h2]
  have hb4 : (s1 / 4) &&& 0x3333333333333333 ≤ 0x3333333333333333 := Nat.and_le_right
  generalize hs2 : (s1 &&& 0x3333333333333333) + ((s1 / 4) &&& 0x3333333333333333) = s2
  have h3 : (s2 + s2 / 2 ^ 4) % 18446744073709551616 = s2 + s2 / 16 := by
    norm_num; omega
  rw [h3]

theorem popcount_eq_bitCount (x : Nat) (hx : x < wordMod) : popcount x = bitCount x 64 := by
  have h : popcount x = (wmul (ChunkPopcounts x) 0x0101010101010101) >>> 56 := rfl
  rw [h, ChunkPopcounts_eq x hx]
  have e : bitCount x 64 = bitCount x (8 + (8 + (8 + (8 + (8 + (8 + (8 + (8 + 0)))))))) := rfl
  rw [e]
  simp only [bitCount_byte_split, byteCounts, wmul, wordMod, Nat.shiftRight_eq_div_pow]
  have b0 := bitCount_le (x % 256) 8
  have b1 := bitCount_le (x / 256 % 256) 8
  have b2 := bitCount_le (x / 256 / 256 % 256) 8
  have b3 := bitCount_le (x / 256 / 256 / 256 % 256) 8
  have b4 := bitCount_le (x / 256 / 256 / 256 / 256 % 256) 8
  have b5 := bitCount_le (x / 256 / 256 / 256 / 256 / 256 % 256) 8
  have b6 := bitCount_le (x / 256 / 256 / 256 / 256 / 256 / 256 % 256) 8
  have b7 := bitCount_le (x / 256 / 256 / 256 / 256 / 256 / 256 / 256 % 256) 8
  generalize bitCount (x % 256) 8 = c0 at *
  generalize bitCount (x / 256 % 256) 8 = c1 at *
  generalize bitCount (x / 256 / 256 % 256) 8 = c2 at *
  generalize bitCount (x / 256 / 256 / 256 % 256) 8 = c3 at *
  generalize bitCount (x / 256 / 256 / 256 / 256 % 256) 8 = c4 at *
  generalize bitCount (x / 256 / 256 / 256 / 256 / 256 % 256) 8 = c5 at *
  generalize bitCount (x / 256 / 256 / 256 / 256 / 256 / 256 % 256) 8 = c6 at *
  generalize bitCount (x / 256 / 256 / 256 / 256 / 256 / 256 / 256 % 256) 8 = c7 at *
  simp only [bitCount]
  have hq : ((c0 + 256 * (c1 + 256 * (c2 + 256 * (c3 + 256 * (c4 + 256 * (c5 + 256 *
      (c6 + 256 * c7))))))) * 0x0101010101010101) / 18446744073709551616
      = c1 + 257 * c2 + 65793 * c3 + 16843009 * c4 + 4311810305 * c5 + 1103823438081 * c6
        + 282578800148737 * c7 := by
    omega
  norm_num at hq ⊢
  omega
set_option maxRecDepth 100000 in
theorem rowMask_eq (r : Nat) (hr : r ≤ 63) : rowMask r = 2 ^ (r + 1) - 1 := by
  have h : ∀ r < 64, rowMask r = 2 ^ (r + 1) - 1 := by decide
  exact h r (by omega)

theorem popcount_and_rowMask (x r : Nat) (hr : r ≤ 63) :
    popcount (x &&& rowMask r) = bitCount x (r + 1) := by
  rw [rowMask_eq r hr, Nat.and_pow_two_sub_one_eq_mod]
  have hlt : x % 2 ^ (r + 1) < wordMod :=
    calc x % 2 ^ (r + 1) < 2 ^ (r + 1) := Nat.mod_lt _ (by positivity)
      _ ≤ 2 ^ 64 := Nat.pow_le_pow_right (by decide) (by omega)
  rw [popcount_eq_bitCount _ hlt, bitCount_mod, Nat.min_eq_right (by omega)]

theorem getValue_eq (w : WordSlice) (r : Nat) (hr : r ≤ 63) :
    w.getValue r = w.scoreBeforeStart + (bitCount w.VP (r + 1) : Int)
      - (bitCount w.VN (r + 1) : Int) := by
  unfold getValue
  simp only [popcount_and_rowMask _ _ hr]

theorem bitCount_step (x n : Nat) :
    bitCount x (n + 1) = bitCount x n ∨ bitCount x (n + 1) = bitCount x n + 1 := by
  rw [bitCount]; split_ifs <;> simp

/-- C9: the row query is a prefix sum with unit steps: getValue(r) is scoreBeforeStart
plus the number of set bits of VP at positions 0..r minus the number of set bits of VN
at positions 0..r; consecutive rows differ by at most one, row 0 differs from
scoreBeforeStart by at most one, and getValue(63) is scoreEnd under the invariant. -/
theorem getValue_prefix_sum (w : WordSlice) (hv : w.Valid) (r : Nat) (hr : r ≤ 63) :
    w.getValue r = w.scoreBeforeStart + (bitCount w.VP (r + 1) : Int)
        - (bitCount w.VN (r + 1) : Int)
    ∧ (1 ≤ r → |w.getValue r - w.getValue (r - 1)| ≤ 1)
    ∧ |w.getValue 0 - w.scoreBeforeStart| ≤ 1
    ∧ (w.scoreEnd = w.scoreBeforeStart + (popcount w.VP : Int) - (popcount w.VN : Int) →
        w.getValue 63 = w.scoreEnd) := by
  refine ⟨getValue_eq w r hr, ?_, ?_, ?_⟩
  · intro h1
    obtain ⟨k, rfl⟩ : ∃ k, r = k + 1 := ⟨r - 1, by omega⟩
    rw [getValue_eq w (k + 1) hr, Nat.add_sub_cancel, getValue_eq w k (by omega), abs_le]
    rcases bitCount_step w.VP (k + 1) with h | h <;>
      rcases bitCount_step w.VN (k + 1) with h' | h' <;> omega
  · rw [getValue_eq w 0 (by omega), abs_le]
    have h := bitCount_le w.VP (0 + 1)
    have h' := bitCount_le w.VN (0 + 1)
    omega
  · intro hinv
    rw [getValue_eq w 63 (by omega), hinv, popcount_eq_bitCount _ hv.1,
      popcount_eq_bitCount _ hv.2.1]

/-- C9 (witness): getValue_prefix_sum at a concrete slice and row. -/
theorem getValue_prefix_sum_witness :
    (WordSlice.mk6 5 2 7 6 0 false).getValue 2
      = 6 + (bitCount 5 3 : Int) - (bitCount 2 3 : Int) :=
  (getValue_prefix_sum (WordSlice.mk6 5 2 7 6 0 false) (by decide) 2 (by decide)).1
theorem carry_eq_addCarry (a b i : Nat) :
    BitVec.carry i (BitVec.ofNat 64 a) (BitVec.ofNat 64 b) false
      = addCarry (a % 2 ^ 64) (b % 2 ^ 64) i := by
  induction i with
  | zero => simp [addCarry]
  | succ i ih =>
    rw [BitVec.carry_succ, ih, addCarry]
    simp [BitVec.getLsbD, Bool.atLeastTwo]

theorem testBit_wadd (a b i : Nat) (ha : a < wordMod) (hb : b < wordMod) (hi : i < 64) :
    (wadd a b).testBit i = xor (a.testBit i) (xor (b.testBit i) (addCarry a b i)) := by
  have ha' : a % 2 ^ 64 = a := Nat.mod_eq_of_lt ha
  have hb' : b % 2 ^ 64 = b := Nat.mod_eq_of_lt hb
  have h := BitVec.getLsbD_add hi (BitVec.ofNat 64 a) (BitVec.ofNat 64 b)
  rw [carry_eq_addCarry] at h
  simp only [BitVec.getLsbD, BitVec.toNat_add, BitVec.toNat_ofNat, ha', hb'] at h
  exact h

theorem testBit_wnot (x i : Nat) (hi : i < 64) : (wnot x).testBit i = !x.testBit i := by
  simp [wnot, testBit_allOnes, hi]

theorem wnot_lt (x : Nat) (hx : x < wordMod) : wnot x < wordMod := by
  have h : AllOnes < 2 ^ 64 := by decide
  exact Nat.xor_lt_two_pow h hx

theorem testBit_wshl_one (x i : Nat) (hi : i < 64) :
    (wshl x 1).testBit i = (decide (1 ≤ i) && x.testBit (i - 1)) := by
  have h1 : shiftCount 1 = 1 := by decide
  simp [wshl, h1, wordMod, Nat.testBit_mod_two_pow, hi, Nat.testBit_shiftLeft]
  have : (18446744073709551616 : Nat) = 2 ^ 64 := by norm_num
  rw [this, Nat.testBit_mod_two_pow]
  simp [hi]

theorem wshl_lt (x : Nat) (n : Int) : wshl x n < wordMod := Nat.mod_lt _ (by decide)

theorem bitSet_two_pow (x i : Nat) : bitSet x (2 ^ i) = x.testBit i := by
  unfold bitSet
  rw [Nat.and_two_pow]
  cases x.testBit i <;> simp

theorem testBit_one (i : Nat) : Nat.testBit 1 i = decide (i = 0) := by
  cases i with
  | zero => rfl
  | succ i => simp [Nat.testBit_succ]
theorem getNextSlice_words (Eq : Nat) (slice : WordSlice)
    (up upleft diag prevEq : Bool) (previous : WordSlice) :
    (getNextSlice Eq slice up upleft diag prevEq previous).VP
        = nsVP (nsEq Eq slice diag) slice.VP slice.VN
            (nsScoreBeforeStart slice previous upleft prevEq - slice.scoreBeforeStart)
    ∧ (getNextSlice Eq slice up upleft diag prevEq previous).VN
        = nsVN (nsEq Eq slice diag) slice.VP slice.VN
            (nsScoreBeforeStart slice previous upleft prevEq - slice.scoreBeforeStart)
    ∧ (getNextSlice Eq slice up upleft diag prevEq previous).scoreBeforeStart
        = nsScoreBeforeStart slice previous upleft prevEq
    ∧ (getNextSlice Eq slice up upleft diag prevEq previous).scoreEnd
        = (if bitSet (nsPh (nsEq Eq slice diag) slice.VP slice.VN
            (nsScoreBeforeStart slice previous upleft prevEq - slice.scoreBeforeStart))
              (wshl 1 ((WordSize : Int) - 1)) then slice.scoreEnd + 1
          else if bitSet (nsMh (nsEq Eq slice diag) slice.VP
            (nsScoreBeforeStart slice previous upleft prevEq - slice.scoreBeforeStart))
              (wshl 1 ((WordSize : Int) - 1)) then slice.scoreEnd - 1
          else slice.scoreEnd) := by
  refine ⟨?_, ?_, rfl, rfl⟩
  · simp only [getNextSlice, nsVP, nsMhShift, nsPhShift, nsPh, nsMh, nsXh, nsEq,
      nsScoreBeforeStart]
  · simp only [getNextSlice, nsVN, nsMhShift, nsPhShift, nsPh, nsMh, nsXh, nsEq,
      nsScoreBeforeStart]

theorem row_step : ∀ vp vn e Hp Hm : Bool, (vp && vn) = false → (Hp && Hm) = false →
    (((vn || !((e || Hm) || vp)) && (vp && (e || Hm))) = false)
    ∧ (((Hm || !((e || vn) || Hp)) && (Hp && (e || vn))) = false)
    ∧ boolInt (Hm || !((e || vn) || Hp)) - boolInt (Hp && (e || vn))
        = boolInt vp - boolInt vn
          + (boolInt (vn || !((e || Hm) || vp)) - boolInt (vp && (e || Hm)))
          - (boolInt Hp - boolInt Hm)
    ∧ boolInt (vn || !((e || Hm) || vp)) - boolInt (vp && (e || Hm))
        = min ((boolInt Hp - boolInt Hm) - (boolInt vp - boolInt vn) + 1)
            (min 1 (-(boolInt vp - boolInt vn) + 1 - boolInt e)) := by
  decide

theorem or_lt_wordMod {x y : Nat} (hx : x < wordMod) (hy : y < wordMod) : x ||| y < wordMod := by
  have h : wordMod = 2 ^ 64 := by decide
  rw [h] at hx hy ⊢
  exact Nat.or_lt_two_pow hx hy

theorem and_lt_wordMod (x : Nat) {y : Nat} (hy : y < wordMod) : x &&& y < wordMod := by
  have h : wordMod = 2 ^ 64 := by decide
  rw [h] at hy ⊢
  exact Nat.and_lt_two_pow _ hy

theorem testBit_or_one (x i : Nat) : (x ||| 1).testBit i = (x.testBit i || decide (i = 0)) := by
  rw [Nat.testBit_or, testBit_one]

theorem nsXh_testBit (E VP : Nat) (hin : Int) (hE : E < wordMod) (hVP : VP < wordMod)
    (i : Nat) (hi : i < 64) :
    (nsXh E VP hin).testBit i
      = ((if hin < 0 then E ||| 1 else E).testBit i
          || addCarry ((if hin < 0 then E ||| 1 else E) &&& VP) VP i) := by
  have hE2 : (if hin < 0 then E ||| 1 else E) < wordMod := by
    split_ifs
    · exact or_lt_wordMod hE (by decide)
    · exact hE
  have ha : (if hin < 0 then E ||| 1 else E) &&& VP < wordMod := and_lt_wordMod _ hVP
  unfold nsXh
  rw [Nat.testBit_or, Nat.testBit_xor, testBit_wadd _ _ _ ha hVP hi, Nat.testBit_and]
  cases (if hin < 0 then E ||| 1 else E).testBit i <;> cases VP.testBit i <;>
    cases addCarry ((if hin < 0 then E ||| 1 else E) &&& VP) VP i <;> rfl

theorem testBit_shiftBit (x : Nat) (b : Bool) (i : Nat) (hi : i < 64) :
    (if b then wshl x 1 ||| 1 else wshl x 1).testBit i
      = if i = 0 then b else x.testBit (i - 1) := by
  cases b
  · rw [if_neg (by simp), testBit_wshl_one _ _ hi]
    cases i <;> simp
  · rw [if_pos rfl, testBit_or_one, testBit_wshl_one _ _ hi]
    cases i <;> simp

theorem nsMhShift_testBit (E VP : Nat) (hin : Int) (i : Nat) (hi : i < 64) :
    (nsMhShift E VP hin).testBit i
      = if i = 0 then decide (hin < 0) else (nsMh E VP hin).testBit (i - 1) := by
  rw [← testBit_shiftBit _ _ _ hi]
  by_cases h : hin < 0 <;> simp [nsMhShift, h]

theorem nsPhShift_testBit (E VP VN : Nat) (hin : Int) (i : Nat) (hi : i < 64) :
    (nsPhShift E VP VN hin).testBit i
      = if i = 0 then decide (hin > 0) else (nsPh E VP VN hin).testBit (i - 1) := by
  rw [← testBit_shiftBit _ _ _ hi]
  by_cases h1 : hin < 0
  · have h2 : ¬ 0 < hin := by omega
    simp [nsPhShift, h1, h2]
  · by_cases h2 : 0 < hin <;> simp [nsPhShift, h1, h2]

theorem nsXh_eq (E VP : Nat) (hin : Int) (hE : E < wordMod) (hVP : VP < wordMod)
    (i : Nat) (hi : i < 64) :
    (nsXh E VP hin).testBit i = (E.testBit i || (nsMhShift E VP hin).testBit i) := by
  rw [nsXh_testBit E VP hin hE hVP i hi, nsMhShift_testBit E VP hin i hi]
  cases i with
  | zero =>
    simp only [addCarry, Bool.or_false, if_true]
    split_ifs with h <;> simp [testBit_or_one, h]
  | succ k =>
    have hx := nsXh_testBit E VP hin hE hVP k (by omega)
    have he : (if hin < 0 then E ||| 1 else E).testBit (k + 1) = E.testBit (k + 1) := by
      split_ifs <;> simp [testBit_or_one, testBit_one]
    simp only [addCarry, Nat.testBit_and, he, nsMh, Nat.add_sub_cancel, Nat.succ_ne_zero,
      if_false, hx]
    cases (if hin < 0 then E ||| 1 else E).testBit k <;> cases VP.testBit k <;>
      cases addCarry ((if hin < 0 then E ||| 1 else E) &&& VP) VP k <;> simp

theorem testBit_disjoint {x y : Nat} (h : x &&& y = 0) (i : Nat) :
    (x.testBit i && y.testBit i) = false := by
  rw [← Nat.testBit_and, h, Nat.zero_testBit]

theorem nsPh_testBit (E VP VN : Nat) (hin : Int) (i : Nat) (hi : i < 64) :
    (nsPh E VP VN hin).testBit i
      = (VN.testBit i || !((nsXh E VP hin).testBit i || VP.testBit i)) := by
  simp only [nsPh, Nat.testBit_or, testBit_wnot _ _ hi]

theorem nsMh_testBit (E VP : Nat) (hin : Int) (i : Nat) :
    (nsMh E VP hin).testBit i = (VP.testBit i && (nsXh E VP hin).testBit i) := by
  simp only [nsMh, Nat.testBit_and]

theorem nsPhMh_excl (E VP VN : Nat) (hin : Int) (hdisj : VP &&& VN = 0)
    (k : Nat) (hk : k < 64) :
    ((nsPh E VP VN hin).testBit k && (nsMh E VP hin).testBit k) = false := by
  have hd := testBit_disjoint hdisj k
  rw [nsPh_testBit _ _ _ _ _ hk, nsMh_testBit]
  revert hd
  cases VP.testBit k <;> cases VN.testBit k <;> cases (nsXh E VP hin).testBit k <;> simp

theorem nsShift_excl (E VP VN : Nat) (hin : Int) (hdisj : VP &&& VN = 0)
    (i : Nat) (hi : i < 64) :
    ((nsPhShift E VP VN hin).testBit i && (nsMhShift E VP hin).testBit i) = false := by
  rw [nsPhShift_testBit _ _ _ _ _ hi, nsMhShift_testBit _ _ _ _ hi]
  cases i with
  | zero =>
    simp only [if_true]
    by_cases h1 : hin < 0
    · have h2 : ¬ hin > 0 := by omega
      simp [h1, h2]
    · simp [h1]
  | succ k =>
    simp only [Nat.succ_ne_zero, if_false, Nat.add_sub_cancel]
    exact nsPhMh_excl E VP VN hin hdisj k (by omega)

theorem nsH_eq (E VP VN : Nat) (hin : Int) (hh : hin = -1 ∨ hin = 0 ∨ hin = 1)
    (i : Nat) (hi : i < 64) :
    nsH E VP VN hin i = boolInt ((nsPhShift E VP VN hin).testBit i)
      - boolInt ((nsMhShift E VP hin).testBit i) := by
  rw [nsPhShift_testBit _ _ _ _ _ hi, nsMhShift_testBit _ _ _ _ hi]
  cases i with
  | zero => rcases hh with h | h | h <;> subst h <;> rfl
  | succ k => simp only [Nat.succ_ne_zero, if_false, Nat.add_sub_cancel, nsH]

theorem myers_row (E VP VN : Nat) (hin : Int) (hE : E < wordMod) (hVP : VP < wordMod)
    (hdisj : VP &&& VN = 0) (hh : hin = -1 ∨ hin = 0 ∨ hin = 1) (i : Nat) (hi : i < 64) :
    ((nsVP E VP VN hin).testBit i && (nsVN E VP VN hin).testBit i) = false
    ∧ boolInt ((nsVP E VP VN hin).testBit i) - boolInt ((nsVN E VP VN hin).testBit i)
        = boolInt (VP.testBit i) - boolInt (VN.testBit i)
          + nsH E VP VN hin (i + 1) - nsH E VP VN hin i
    ∧ nsH E VP VN hin (i + 1)
        = min (nsH E VP VN hin i - (boolInt (VP.testBit i) - boolInt (VN.testBit i)) + 1)
            (min 1 (-(boolInt (VP.testBit i) - boolInt (VN.testBit i)) + 1
              - boolInt (E.testBit i))) := by
  have hrow := row_step (VP.testBit i) (VN.testBit i) (E.testBit i)
    ((nsPhShift E VP VN hin).testBit i) ((nsMhShift E VP hin).testBit i)
    (testBit_disjoint hdisj i) (nsShift_excl E VP VN hin hdisj i hi)
  have hVP' : (nsVP E VP VN hin).testBit i
      = ((nsMhShift E VP hin).testBit i
          || !((E.testBit i || VN.testBit i) || (nsPhShift E VP VN hin).testBit i)) := by
    simp only [nsVP, Nat.testBit_or, testBit_wnot _ _ hi]
  have hVN' : (nsVN E VP VN hin).testBit i
      = ((nsPhShift E VP VN hin).testBit i && (E.testBit i || VN.testBit i)) := by
    simp only [nsVN, Nat.testBit_or, Nat.testBit_and]
  have hH1 : nsH E VP VN hin (i + 1)
      = boolInt ((nsPh E VP VN hin).testBit i) - boolInt ((nsMh E VP hin).testBit i) := rfl
  rw [hVP', hVN', hH1, nsH_eq E VP VN hin hh i hi, nsPh_testBit _ _ _ _ _ hi, nsMh_testBit,
    nsXh_eq E VP hin hE hVP i hi]
  obtain ⟨_, h2, h3, h4⟩ := hrow
  refine ⟨h2, ?_, h4⟩
  rw [h3]

theorem getValue_zero (w : WordSlice) :
    w.getValue 0 = w.scoreBeforeStart + boolInt (w.VP.testBit 0) - boolInt (w.VN.testBit 0) := by
  rw [getValue_eq w 0 (by omega)]
  simp only [bitCount, boolInt]
  split_ifs <;> simp

theorem getValue_succ (w : WordSlice) (r : Nat) (hr : r + 1 ≤ 63) :
    w.getValue (r + 1)
      = w.getValue r + boolInt (w.VP.testBit (r + 1)) - boolInt (w.VN.testBit (r + 1)) := by
  have e1 : bitCount w.VP (r + 1 + 1)
      = bitCount w.VP (r + 1) + (if w.VP.testBit (r + 1) then 1 else 0) := rfl
  have e2 : bitCount w.VN (r + 1 + 1)
      = bitCount w.VN (r + 1) + (if w.VN.testBit (r + 1) then 1 else 0) := rfl
  rw [getValue_eq w (r + 1) hr, getValue_eq w r (by omega), e1, e2]
  simp only [boolInt]
  split_ifs <;> push_cast <;> omega

theorem nsEq_lt (Eq : Nat) (slice : WordSlice) (diag : Bool) (hEq : Eq < wordMod) :
    nsEq Eq slice diag < wordMod := by
  have h : Eq &&& wnot 1 ≤ Eq := Nat.and_le_left
  have h2 : Eq &&& wnot 1 &&& wnot 1 ≤ Eq &&& wnot 1 := Nat.and_le_left
  simp only [nsEq]
  split_ifs <;> omega

theorem nsEq_testBit (Eq : Nat) (slice : WordSlice) (diag : Bool) (r : Nat) (hr : r < 64) :
    (nsEq Eq slice diag).testBit r
      = if r = 0 then (Eq.testBit 0 && slice.scoreBeforeExists && diag) else Eq.testBit r := by
  have hw : (wnot 1).testBit r = !decide (r = 0) := by rw [testBit_wnot _ _ hr, testBit_one]
  by_cases h0 : r = 0 <;> cases hs : slice.scoreBeforeExists <;> cases diag <;>
    simp [nsEq, hs, Nat.testBit_and, hw, h0, show wnot 1 % 2 = 0 by decide]

theorem getNextSlice_getValue (Eq : Nat) (slice : WordSlice)
    (up upleft diag prevEq : Bool) (previous : WordSlice)
    (hEq : Eq < wordMod) (hv : slice.Valid)
    (hh : (getNextSlice Eq slice up upleft diag prevEq previous).scoreBeforeStart
            - slice.scoreBeforeStart = -1
        ∨ (getNextSlice Eq slice up upleft diag prevEq previous).scoreBeforeStart
            - slice.scoreBeforeStart = 0
        ∨ (getNextSlice Eq slice up upleft diag prevEq previous).scoreBeforeStart
            - slice.scoreBeforeStart = 1)
    (r : Nat) (hr : r ≤ 63) :
    (getNextSlice Eq slice up upleft diag prevEq previous).getValue r
      = slice.getValue r + nsH (nsEq Eq slice diag) slice.VP slice.VN
          ((getNextSlice Eq slice up upleft diag prevEq previous).scoreBeforeStart
            - slice.scoreBeforeStart) (r + 1) := by
  obtain ⟨hVP, hVN, hS, _⟩ := getNextSlice_words Eq slice up upleft diag prevEq previous
  rw [hS] at hh ⊢
  induction r with
  | zero =>
    have hrow := (myers_row _ slice.VP slice.VN _ (nsEq_lt Eq slice diag hEq) hv.1 hv.2.2 hh
      0 (by omega)).2.1
    rw [getValue_zero, getValue_zero, hVP, hVN, hS]
    simp only [nsH] at hrow ⊢
    omega
  | succ k ih =>
    have hrow := (myers_row _ slice.VP slice.VN _ (nsEq_lt Eq slice diag hEq) hv.1 hv.2.2 hh
      (k + 1) (by omega)).2.1
    rw [getValue_succ _ k hr, getValue_succ _ k hr, ih (by omega), hVP, hVN]
    omega
theorem nsScoreBeforeStart_step (slice previous : WordSlice) (upleft prevEq : Bool)
    (hprev : upleft = true → slice.scoreBeforeStart ≤ previous.scoreEnd) :
    nsScoreBeforeStart slice previous upleft prevEq - slice.scoreBeforeStart = -1
    ∨ nsScoreBeforeStart slice previous upleft prevEq - slice.scoreBeforeStart = 0
    ∨ nsScoreBeforeStart slice previous upleft prevEq - slice.scoreBeforeStart = 1 := by
  unfold nsScoreBeforeStart
  cases upleft
  · simp
  · have h := hprev rfl
    simp only [Bool.not_true, Bool.false_eq_true, if_false, min_def]
    split_ifs <;> omega

/-- C2: getNextSlice implements the edit-distance column step: when the boundary step
hin = out.scoreBeforeStart - s.scoreBeforeStart lies in -1, 0, 1, every row r of the
result satisfies out(r) = min(out(r-1) + 1, s(r) + 1, s(r-1) + (e_r ? 0 : 1)), where
row -1 is scoreBeforeStart and e_0 is bit 0 of Eq forced to 0 when scoreBeforeExists
or diagonalInsideBand is false. -/
theorem getNextSlice_recurrence (Eq : Nat) (slice : WordSlice)
    (up upleft diag prevEq : Bool) (previous : WordSlice)
    (hEq : Eq < wordMod) (hv : slice.Valid)
    (hh : (getNextSlice Eq slice up upleft diag prevEq previous).scoreBeforeStart
            - slice.scoreBeforeStart = -1
        ∨ (getNextSlice Eq slice up upleft diag prevEq previous).scoreBeforeStart
            - slice.scoreBeforeStart = 0
        ∨ (getNextSlice Eq slice up upleft diag prevEq previous).scoreBeforeStart
            - slice.scoreBeforeStart = 1)
    (r : Nat) (hr : r ≤ 63) :
    (getNextSlice Eq slice up upleft diag prevEq previous).getValue r
      = min (valueBefore (getNextSlice Eq slice up upleft diag prevEq previous) r + 1)
          (min (slice.getValue r + 1)
            (valueBefore slice r
              + (if (if r = 0 then (Eq.testBit 0 && slice.scoreBeforeExists && diag)
                      else Eq.testBit r) then 0 else 1))) := by
  have hval := getNextSlice_getValue Eq slice up upleft diag prevEq previous hEq hv hh r hr
  have hrow := (myers_row _ slice.VP slice.VN _ (nsEq_lt Eq slice diag hEq) hv.1 hv.2.2 hh
      r (by omega)).2.2
  rw [nsEq_testBit Eq slice diag r (by omega)] at hrow
  have hb : valueBefore (getNextSlice Eq slice up upleft diag prevEq previous) r
      = valueBefore slice r + nsH (nsEq Eq slice diag) slice.VP slice.VN
          ((getNextSlice Eq slice up upleft diag prevEq previous).scoreBeforeStart
            - slice.scoreBeforeStart) r := by
    cases r with
    | zero => simp only [valueBefore, if_true, nsH]; omega
    | succ k =>
      simp only [valueBefore, Nat.succ_ne_zero, if_false, Nat.add_sub_cancel]
      exact getNextSlice_getValue Eq slice up upleft diag prevEq previous hEq hv hh k (by omega)
  have hs : slice.getValue r = valueBefore slice r
      + (boolInt (slice.VP.testBit r) - boolInt (slice.VN.testBit r)) := by
    cases r with
    | zero => simp only [valueBefore, if_true, getValue_zero]; omega
    | succ k =>
      simp only [valueBefore, Nat.succ_ne_zero, if_false, Nat.add_sub_cancel]
      rw [getValue_succ _ k hr]; omega
  have he : ∀ b : Bool, (if b then (0 : Int) else 1) = 1 - boolInt b := by
    intro b; cases b <;> rfl
  rw [hval, hb, hrow, hs, he]
  simp only [min_def]
  split_ifs <;> omega

theorem getNextSlice_valid (Eq : Nat) (slice : WordSlice)
    (up upleft diag prevEq : Bool) (previous : WordSlice)
    (hEq : Eq < wordMod) (hv : slice.Valid)
    (hh : (getNextSlice Eq slice up upleft diag prevEq previous).scoreBeforeStart
            - slice.scoreBeforeStart = -1
        ∨ (getNextSlice Eq slice up upleft diag prevEq previous).scoreBeforeStart
            - slice.scoreBeforeStart = 0
        ∨ (getNextSlice Eq slice up upleft diag prevEq previous).scoreBeforeStart
            - slice.scoreBeforeStart = 1) :
    (getNextSlice Eq slice up upleft diag prevEq previous).Valid := by
  obtain ⟨hVP, hVN, hS, _⟩ := getNextSlice_words Eq slice up upleft diag prevEq previous
  rw [hS] at hh
  have hE := nsEq_lt Eq slice diag hEq
  have hPhS : ∀ h : Int, nsPhShift (nsEq Eq slice diag) slice.VP slice.VN h < wordMod := by
    intro h; unfold nsPhShift
    split_ifs <;> first | exact wshl_lt _ _ | exact or_lt_wordMod (wshl_lt _ _) (by decide)
  have hMhS : ∀ h : Int, nsMhShift (nsEq Eq slice diag) slice.VP h < wordMod := by
    intro h; unfold nsMhShift
    split_ifs <;> first | exact wshl_lt _ _ | exact or_lt_wordMod (wshl_lt _ _) (by decide)
  have hVNlt : ∀ h : Int, nsVN (nsEq Eq slice diag) slice.VP slice.VN h < wordMod := by
    intro h; exact and_lt_wordMod _ (or_lt_wordMod hE hv.2.1)
  refine ⟨?_, ?_, ?_⟩
  · rw [hVP]
    exact or_lt_wordMod (hMhS _) (wnot_lt _ (or_lt_wordMod (or_lt_wordMod hE hv.2.1) (hPhS _)))
  · rw [hVN]; exact hVNlt _
  · rw [hVP, hVN]
    apply Nat.eq_of_testBit_eq
    intro i
    rw [Nat.testBit_and, Nat.zero_testBit]
    by_cases hi : i < 64
    · exact (myers_row _ slice.VP slice.VN _ hE hv.1 hv.2.2 hh i hi).1
    · rw [testBit_of_lt_wordMod (hVNlt _) (by omega), Bool.and_false]

/-- C3: getNextSlice preserves the WordSlice invariants: from a valid input slice with
scoreEnd = scoreBeforeStart + popcount(VP) - popcount(VN) (and, when upleftInsideBand,
a valid previous slice with slice.scoreBeforeStart <= previous.scoreEnd), the result
again has VP & VN = 0 and satisfies the asserted scoreEnd equation. -/
theorem getNextSlice_invariant (Eq : Nat) (slice : WordSlice)
    (up upleft diag prevEq : Bool) (previous : WordSlice)
    (hEq : Eq < wordMod) (hv : slice.Valid) (hinv : sliceInvariant slice)
    (hprev : upleft = true → previous.Valid ∧ sliceInvariant previous
      ∧ slice.scoreBeforeStart ≤ previous.scoreEnd) :
    (getNextSlice Eq slice up upleft diag prevEq previous).Valid
    ∧ sliceInvariant (getNextSlice Eq slice up upleft diag prevEq previous) := by
  obtain ⟨hVP, hVN, hS, hEnd⟩ := getNextSlice_words Eq slice up upleft diag prevEq previous
  have hh := nsScoreBeforeStart_step slice previous upleft prevEq (fun h => (hprev h).2.2)
  rw [← hS] at hh
  have hvalid := getNextSlice_valid Eq slice up upleft diag prevEq previous hEq hv hh
  refine ⟨hvalid, ?_⟩
  have hval := getNextSlice_getValue Eq slice up upleft diag prevEq previous hEq hv hh 63
    (by omega)
  have h63 : wshl 1 ((WordSize : Int) - 1) = 2 ^ 63 := by decide
  have hex := nsPhMh_excl (nsEq Eq slice diag) slice.VP slice.VN
    ((getNextSlice Eq slice up upleft diag prevEq previous).scoreBeforeStart
      - slice.scoreBeforeStart) hv.2.2 63 (by omega)
  rw [getValue_eq _ 63 (by omega), getValue_eq _ 63 (by omega),
    ← popcount_eq_bitCount _ hvalid.1, ← popcount_eq_bitCount _ hvalid.2.1,
    ← popcount_eq_bitCount _ hv.1, ← popcount_eq_bitCount _ hv.2.1] at hval
  unfold sliceInvariant at hinv ⊢
  rw [hEnd, h63, bitSet_two_pow, bitSet_two_pow, ← hS]
  simp only [nsH] at hval
  revert hex hval
  cases (nsPh (nsEq Eq slice diag) slice.VP slice.VN
    ((getNextSlice Eq slice up upleft diag prevEq previous).scoreBeforeStart
      - slice.scoreBeforeStart)).testBit 63 <;>
  cases (nsMh (nsEq Eq slice diag) slice.VP
    ((getNextSlice Eq slice up upleft diag prevEq previous).scoreBeforeStart
      - slice.scoreBeforeStart)).testBit 63 <;>
  simp [boolInt] <;> intros <;> omega

/-- C2 (witness): getNextSlice_recurrence at a concrete slice, mask and row. -/
theorem getNextSlice_recurrence_witness :
    (getNextSlice 6 (WordSlice.mk6 5 2 4 3 0 true) true true true false
        (WordSlice.mk6 3 0 5 3 0 true)).getValue 2
      = min (valueBefore (getNextSlice 6 (WordSlice.mk6 5 2 4 3 0 true) true true true false
          (WordSlice.mk6 3 0 5 3 0 true)) 2 + 1)
          (min ((WordSlice.mk6 5 2 4 3 0 true).getValue 2 + 1)
            (valueBefore (WordSlice.mk6 5 2 4 3 0 true) 2
              + (if (if 2 = 0 then (Nat.testBit 6 0 && (WordSlice.mk6 5 2 4 3 0 true).scoreBeforeExists
                      && true) else Nat.testBit 6 2) then 0 else 1))) :=
  getNextSlice_recurrence 6 (WordSlice.mk6 5 2 4 3 0 true) true true true false
    (WordSlice.mk6 3 0 5 3 0 true) (by decide) (by decide) (by decide) 2 (by decide)

/-- C3 (witness): getNextSlice_invariant at a concrete slice and mask. -/
theorem getNextSlice_invariant_witness :
    (getNextSlice 6 (WordSlice.mk6 5 2 4 3 0 true) true true true false
        (WordSlice.mk6 3 0 5 3 0 true)).Valid
    ∧ sliceInvariant (getNextSlice 6 (WordSlice.mk6 5 2 4 3 0 true) true true true false
        (WordSlice.mk6 3 0 5 3 0 true)) :=
  getNextSlice_invariant 6 (WordSlice.mk6 5 2 4 3 0 true) true true true false
    (WordSlice.mk6 3 0 5 3 0 true) (by decide) (by decide) (by decide)
    (fun _ => ⟨by decide, by decide, by decide⟩)
theorem wordMod_eq : wordMod = 2 ^ 64 := by decide

theorem lane_lt (x c : Nat) : lane x c < 256 := Nat.mod_lt _ (by decide)

theorem lane_testBit (x c j : Nat) :
    (lane x c).testBit j = (decide (j < 8) && x.testBit (8 * c + j)) := by
  have h : (256 : Nat) = 2 ^ 8 := by norm_num
  rw [lane, h, Nat.testBit_mod_two_pow, Nat.testBit_shiftRight]

theorem lane_and (x y c : Nat) : lane (x &&& y) c = lane x c &&& lane y c := by
  apply Nat.eq_of_testBit_eq
  intro j
  simp only [lane_testBit, Nat.testBit_and]
  cases decide (j < 8) <;> simp

theorem lane_or (x y c : Nat) : lane (x ||| y) c = lane x c ||| lane y c := by
  apply Nat.eq_of_testBit_eq
  intro j
  simp only [lane_testBit, Nat.testBit_or]
  cases decide (j < 8) <;> simp

theorem lane_xor (x y c : Nat) : lane (x ^^^ y) c = lane x c ^^^ lane y c := by
  apply Nat.eq_of_testBit_eq
  intro j
  simp only [lane_testBit, Nat.testBit_xor]
  cases decide (j < 8) <;> simp

set_option maxRecDepth 100000 in
theorem lane_wnot (x c : Nat) (hc : c < 8) : lane (wnot x) c = 255 - lane x c := by
  have hb : ∀ b < 256, 255 ^^^ b = 255 - b := by decide
  have h1 : ∀ c < 8, lane AllOnes c = 255 := by decide
  rw [wnot, lane_xor, h1 c hc, hb _ (lane_lt x c)]

theorem wnot_eq_sub (x : Nat) (hx : x < wordMod) : wnot x = AllOnes - x := by
  have h : AllOnes - x = 2 ^ 64 - (x + 1) := by
    have : AllOnes = 2 ^ 64 - 1 := by decide
    omega
  rw [h]
  apply Nat.eq_of_testBit_eq
  intro i
  rw [Nat.testBit_two_pow_sub_succ (wordMod_eq ▸ hx), wnot, Nat.testBit_xor, testBit_allOnes]
  by_cases hi : i < 64
  · simp [hi]
  · simp [hi, testBit_of_lt_wordMod hx (Nat.le_of_not_lt hi)]

theorem wsub_eq (x y : Nat) (hx : x < wordMod) (hy : y < wordMod) :
    wsub x y = wnot (wadd (wnot x) y) := by
  have h1 := wnot_eq_sub x hx
  have h2 := wnot_eq_sub (wadd (wnot x) y) (Nat.mod_lt _ (by decide))
  rw [h2]
  unfold wadd wsub
  rw [h1]
  unfold wordMod AllOnes at *
  omega

theorem lane_eq_div (x c : Nat) : lane x c = x / 256 ^ c % 256 := by
  have h : (256 : Nat) ^ c = 2 ^ (8 * c) := by
    rw [pow_mul]; norm_num
  rw [lane, Nat.shiftRight_eq_div_pow, h]

theorem low_lt (x c : Nat) : low x c < 256 ^ c := Nat.mod_lt _ (by positivity)

theorem low_succ (x c : Nat) : low x (c + 1) = low x c + 256 ^ c * lane x c := by
  rw [low, low, lane_eq_div, pow_succ, Nat.mod_mul]

theorem lane_of_low (x c : Nat) : lane x c = low x (c + 1) / 256 ^ c := by
  rw [low_succ, Nat.add_mul_div_left _ _ (by positivity), Nat.div_eq_of_lt (low_lt x c),
    Nat.zero_add]

theorem pow256_dvd_wordMod (n : Nat) (hn : n ≤ 8) : 256 ^ n ∣ wordMod := by
  have h : wordMod = 256 ^ 8 := by decide
  rw [h]
  exact pow_dvd_pow 256 hn

theorem low_wadd (x y n : Nat) (hn : n ≤ 8) :
    low (wadd x y) n = (low x n + low y n) % 256 ^ n := by
  rw [low, wadd, Nat.mod_mod_of_dvd _ (pow256_dvd_wordMod n hn), Nat.add_mod]
  rfl

theorem low_add_lt (x y c : Nat) (h : ∀ k < c, lane x k + lane y k < 256) :
    low x c + low y c < 256 ^ c := by
  induction c with
  | zero => simp [low, Nat.mod_one]
  | succ c ih =>
    have h1 := ih (fun k hk => h k (by omega))
    have h2 := h c (by omega)
    have h3 : 256 ^ c * (lane x c + lane y c) ≤ 256 ^ c * 255 :=
      Nat.mul_le_mul_left _ (by omega)
    rw [low_succ, low_succ, pow_succ]
    rw [Nat.mul_add] at h3
    omega

theorem lane_wadd (x y c : Nat) (hc : c < 8) (h : ∀ k ≤ c, lane x k + lane y k < 256) :
    lane (wadd x y) c = lane x c + lane y c := by
  have h1 := low_add_lt x y (c + 1) (fun k hk => h k (by omega))
  have h2 := low_add_lt x y c (fun k hk => h k (by omega))
  rw [lane_of_low, low_wadd x y (c + 1) (by omega), Nat.mod_eq_of_lt h1, low_succ, low_succ]
  have e : low x c + 256 ^ c * lane x c + (low y c + 256 ^ c * lane y c)
      = (low x c + low y c) + 256 ^ c * (lane x c + lane y c) := by ring
  rw [e, Nat.add_mul_div_left _ _ (by positivity), Nat.div_eq_of_lt h2, Nat.zero_add]

theorem lane_wsub (x y c : Nat) (hx : x < wordMod) (hy : y < wordMod) (hc : c < 8)
    (h : ∀ k ≤ c, lane y k ≤ lane x k) :
    lane (wsub x y) c = lane x c - lane y c := by
  have hl : ∀ k ≤ c, lane (wnot x) k + lane y k < 256 := by
    intro k hk
    have := h k hk
    have := lane_lt x k
    rw [lane_wnot x k (by omega)]
    omega
  have := h c (Nat.le_refl c)
  have := lane_lt x c
  rw [wsub_eq x y hx hy, lane_wnot _ c hc, lane_wadd _ _ c hc hl, lane_wnot x c hc]
  omega

set_option maxRecDepth 100000 in
theorem lane_consts (c : Nat) (hc : c < 8) :
    lane SignMask c = 128 ∧ lane LSBMask c = 1 ∧ lane (wnot SignMask) c = 127
      ∧ lane PrefixSumMultiplierConstant c = 1 := by
  have h : ∀ c < 8, lane SignMask c = 128 ∧ lane LSBMask c = 1 ∧ lane (wnot SignMask) c = 127
      ∧ lane PrefixSumMultiplierConstant c = 1 := by decide
  exact h c hc

set_option maxRecDepth 100000 in
theorem byte_sign (b : Nat) (hb : b < 256) : b.testBit 7 = decide (128 ≤ b) := by
  have h : ∀ b < 256, b.testBit 7 = decide (128 ≤ b) := by decide
  exact h b hb

theorem lane_sign (x c : Nat) : x.testBit (8 * c + 7) = decide (128 ≤ lane x c) := by
  rw [← byte_sign _ (lane_lt x c), lane_testBit]
  simp
theorem lane_pack8 (p0 p1 p2 p3 p4 p5 p6 p7 : Nat)
    (h0 : p0 < 256) (h1 : p1 < 256) (h2 : p2 < 256) (h3 : p3 < 256)
    (h4 : p4 < 256) (h5 : p5 < 256) (h6 : p6 < 256) (h7 : p7 < 256) :
    let w := p0 + 256 * (p1 + 256 * (p2 + 256 * (p3 + 256 * (p4 + 256 * (p5 + 256 *
      (p6 + 256 * p7))))))
    lane w 0 = p0 ∧ lane w 1 = p1 ∧ lane w 2 = p2 ∧ lane w 3 = p3 ∧ lane w 4 = p4
      ∧ lane w 5 = p5 ∧ lane w 6 = p6 ∧ lane w 7 = p7 := by
  intro w
  simp only [lane_eq_div]
  norm_num
  omega

theorem bitCount_lane (x k : Nat) :
    bitCount x (8 * k + 8) = bitCount x (8 * k) + bitCount (x / 256 ^ k % 256) 8 := by
  have h : (256 : Nat) ^ k = 2 ^ (8 * k) := by rw [pow_mul]; norm_num
  have h2 := bitCount_mod (x >>> (8 * k)) 8 8
  rw [bitCount_add, h, ← Nat.shiftRight_eq_div_pow]
  norm_num at h2 ⊢
  rw [h2]

theorem wmul_lsb_pack (p0 p1 p2 p3 p4 p5 p6 p7 : Nat)
    (h : p0 + p1 + p2 + p3 + p4 + p5 + p6 + p7 < 256) :
    wmul (p0 + 256 * (p1 + 256 * (p2 + 256 * (p3 + 256 * (p4 + 256 * (p5 + 256 *
      (p6 + 256 * p7))))))) PrefixSumMultiplierConstant
    = p0 + 256 * ((p0 + p1) + 256 * ((p0 + p1 + p2) + 256 * ((p0 + p1 + p2 + p3)
      + 256 * ((p0 + p1 + p2 + p3 + p4) + 256 * ((p0 + p1 + p2 + p3 + p4 + p5)
      + 256 * ((p0 + p1 + p2 + p3 + p4 + p5 + p6)
      + 256 * (p0 + p1 + p2 + p3 + p4 + p5 + p6 + p7))))))) := by
  unfold wmul wordMod PrefixSumMultiplierConstant
  have hq : ((p0 + 256 * (p1 + 256 * (p2 + 256 * (p3 + 256 * (p4 + 256 * (p5 + 256 *
      (p6 + 256 * p7))))))) * 0x0101010101010101) / 18446744073709551616
      = p1 + 257 * p2 + 65793 * p3 + 16843009 * p4 + 4311810305 * p5 + 1103823438081 * p6
        + 282578800148737 * p7 := by
    omega
  omega

set_option maxHeartbeats 1000000 in
theorem shl8_add_pack (c0 c1 c2 c3 c4 c5 c6 c7 add : Nat) (hadd : add < 256)
    (h0 : c0 < 256) (h1 : c1 < 256) (h2 : c2 < 256) (h3 : c3 < 256) (h4 : c4 < 256)
    (h5 : c5 < 256) (h6 : c6 < 256) :
    ((c0 + 256 * (c1 + 256 * (c2 + 256 * (c3 + 256 * (c4 + 256 * (c5 + 256 *
      (c6 + 256 * c7))))))) * 256 % wordMod + add) % wordMod
      = add + 256 * (c0 + 256 * (c1 + 256 * (c2 + 256 * (c3 + 256 * (c4 + 256 *
        (c5 + 256 * c6)))))) := by
  unfold wordMod
  have hq : ((c0 + 256 * (c1 + 256 * (c2 + 256 * (c3 + 256 * (c4 + 256 * (c5 + 256 *
      (c6 + 256 * c7))))))) * 256) / 18446744073709551616 = c7 := by
    omega
  omega

theorem prefix_core (c0 c1 c2 c3 c4 c5 c6 c7 add : Nat)
    (h : add + c0 + c1 + c2 + c3 + c4 + c5 + c6 < 256) (h7 : c7 < 256) :
    let w := wmul (((c0 + 256 * (c1 + 256 * (c2 + 256 * (c3 + 256 * (c4 + 256 * (c5 + 256 *
      (c6 + 256 * c7))))))) * 256 % wordMod + add) % wordMod) PrefixSumMultiplierConstant
    lane w 0 = add ∧ lane w 1 = add + c0 ∧ lane w 2 = add + c0 + c1
      ∧ lane w 3 = add + c0 + c1 + c2 ∧ lane w 4 = add + c0 + c1 + c2 + c3
      ∧ lane w 5 = add + c0 + c1 + c2 + c3 + c4 ∧ lane w 6 = add + c0 + c1 + c2 + c3 + c4 + c5
      ∧ lane w 7 = add + c0 + c1 + c2 + c3 + c4 + c5 + c6 := by
  intro w
  have hs := shl8_add_pack c0 c1 c2 c3 c4 c5 c6 c7 add (by omega) (by omega) (by omega)
    (by omega) (by omega) (by omega) (by omega) (by omega)
  have hw : w = wmul (add + 256 * (c0 + 256 * (c1 + 256 * (c2 + 256 * (c3 + 256 * (c4 + 256 *
        (c5 + 256 * c6))))))) PrefixSumMultiplierConstant := by
    show wmul _ _ = _
    rw [hs]
  rw [hw, wmul_lsb_pack _ _ _ _ _ _ _ _ (by omega)]
  have hp := lane_pack8 add (add + c0) (add + c0 + c1)
    (add + c0 + c1 + c2) (add + c0 + c1 + c2 + c3) (add + c0 + c1 + c2 + c3 + c4)
    (add + c0 + c1 + c2 + c3 + c4 + c5) (add + c0 + c1 + c2 + c3 + c4 + c5 + c6)
    (by omega) (by omega) (by omega) (by omega) (by omega) (by omega) (by omega) (by omega)
  exact hp

theorem bitCount_bytes (x : Nat) :
    bitCount x (8 * 0) = 0
    ∧ bitCount x (8 * 1) = bitCount (x % 256) 8
    ∧ bitCount x (8 * 2) = bitCount (x % 256) 8 + bitCount (x / 256 % 256) 8
    ∧ bitCount x (8 * 3) = bitCount (x % 256) 8 + bitCount (x / 256 % 256) 8
      + bitCount (x / 256 / 256 % 256) 8
    ∧ bitCount x (8 * 4) = bitCount (x % 256) 8 + bitCount (x / 256 % 256) 8
      + bitCount (x / 256 / 256 % 256) 8 + bitCount (x / 256 / 256 / 256 % 256) 8
    ∧ bitCount x (8 * 5) = bitCount (x % 256) 8 + bitCount (x / 256 % 256) 8
      + bitCount (x / 256 / 256 % 256) 8 + bitCount (x / 256 / 256 / 256 % 256) 8
      + bitCount (x / 256 / 256 / 256 / 256 % 256) 8
    ∧ bitCount x (8 * 6) = bitCount (x % 256) 8 + bitCount (x / 256 % 256) 8
      + bitCount (x / 256 / 256 % 256) 8 + bitCount (x / 256 / 256 / 256 % 256) 8
      + bitCount (x / 256 / 256 / 256 / 256 % 256) 8
      + bitCount (x / 256 / 256 / 256 / 256 / 256 % 256) 8
    ∧ bitCount x (8 * 7) = bitCount (x % 256) 8 + bitCount (x / 256 % 256) 8
      + bitCount (x / 256 / 256 % 256) 8 + bitCount (x / 256 / 256 / 256 % 256) 8
      + bitCount (x / 256 / 256 / 256 / 256 % 256) 8
      + bitCount (x / 256 / 256 / 256 / 256 / 256 % 256) 8
      + bitCount (x / 256 / 256 / 256 / 256 / 256 / 256 % 256) 8 := by
  have z : ∀ y : Nat, bitCount y 0 = 0 := fun _ => rfl
  refine ⟨rfl, ?_, ?_, ?_, ?_, ?_, ?_, ?_⟩
  · show bitCount x (8 + 0) = _
    simp only [bitCount_byte_split, z] <;> omega
  · show bitCount x (8 + (8 + 0)) = _
    simp only [bitCount_byte_split, z] <;> omega
  · show bitCount x (8 + (8 + (8 + 0))) = _
    simp only [bitCount_byte_split, z] <;> omega
  · show bitCount x (8 + (8 + (8 + (8 + 0)))) = _
    simp only [bitCount_byte_split, z] <;> omega
  · show bitCount x (8 + (8 + (8 + (8 + (8 + 0))))) = _
    simp only [bitCount_byte_split, z] <;> omega
  · show bitCount x (8 + (8 + (8 + (8 + (8 + (8 + 0)))))) = _
    simp only [bitCount_byte_split, z] <;> omega
  · show bitCount x (8 + (8 + (8 + (8 + (8 + (8 + (8 + 0))))))) = _
    simp only [bitCount_byte_split, z] <;> omega

theorem bytePrefixSums_lanes (x : Nat) (hx : x < wordMod) (add : Nat)
    (hadd : add + bitCount x 56 < 256) (c : Nat) (hc : c < 8) :
    lane (bytePrefixSums (ChunkPopcounts x) (add : Int)) c = add + bitCount x (8 * c) := by
  obtain ⟨e0, e1, e2, e3, e4, e5, e6, e7⟩ := bitCount_bytes x
  have e56 : bitCount x 56 = bitCount x (8 * 7) := rfl
  rw [e56, e7] at hadd
  have hadd' : ((add : Int) % (wordMod : Int)).toNat = add := by
    unfold wordMod
    omega
  have hsc : shiftCount (ChunkBits : Int) = 8 := by decide
  have hcore := prefix_core (bitCount (x % 256) 8) (bitCount (x / 256 % 256) 8)
    (bitCount (x / 256 / 256 % 256) 8) (bitCount (x / 256 / 256 / 256 % 256) 8)
    (bitCount (x / 256 / 256 / 256 / 256 % 256) 8)
    (bitCount (x / 256 / 256 / 256 / 256 / 256 % 256) 8)
    (bitCount (x / 256 / 256 / 256 / 256 / 256 / 256 % 256) 8)
    (bitCount (x / 256 / 256 / 256 / 256 / 256 / 256 / 256 % 256) 8) add (by omega)
    (by have := bitCount_le (x / 256 / 256 / 256 / 256 / 256 / 256 / 256 % 256) 8; omega)
  have hword : bytePrefixSums (ChunkPopcounts x) (add : Int) = wmul
      (((bitCount (x % 256) 8 + 256 * (bitCount (x / 256 % 256) 8
        + 256 * (bitCount (x / 256 / 256 % 256) 8
        + 256 * (bitCount (x / 256 / 256 / 256 % 256) 8
        + 256 * (bitCount (x / 256 / 256 / 256 / 256 % 256) 8
        + 256 * (bitCount (x / 256 / 256 / 256 / 256 / 256 % 256) 8
        + 256 * (bitCount (x / 256 / 256 / 256 / 256 / 256 / 256 % 256) 8
        + 256 * bitCount (x / 256 / 256 / 256 / 256 / 256 / 256 / 256 % 256) 8)))))))
        * 256 % wordMod + add) % wordMod) PrefixSumMultiplierConstant := by
    unfold bytePrefixSums
    rw [ChunkPopcounts_eq x hx, hadd']
    simp only [byteCounts, wshl, hsc, wadd, Nat.shiftLeft_eq]
    norm_num
  rw [hword]
  obtain ⟨l0, l1, l2, l3, l4, l5, l6, l7⟩ := hcore
  interval_cases c
  · rw [l0, e0] <;> omega
  · rw [l1, e1] <;> omega
  · rw [l2, e2] <;> omega
  · rw [l3, e3] <;> omega
  · rw [l4, e4] <;> omega
  · rw [l5, e5] <;> omega
  · rw [l6, e6] <;> omega
  · rw [l7, e7] <;> omega
set_option maxRecDepth 100000 in
theorem byte_and128 (x : Nat) (hx : x < 256) :
    (x &&& 128 = 0 ∧ x < 128) ∨ (x &&& 128 = 128 ∧ 128 ≤ x) := by
  have h : ∀ x < 256, (x &&& 128 = 0 ∧ x < 128) ∨ (x &&& 128 = 128 ∧ 128 ≤ x) := by decide
  exact h x hx

set_option maxRecDepth 100000 in
theorem byte_128and (x : Nat) (hx : x < 256) :
    (128 &&& x = 0 ∧ x < 128) ∨ (128 &&& x = 128 ∧ 128 ≤ x) := by
  rw [Nat.and_comm]; exact byte_and128 x hx

set_option maxRecDepth 100000 in
theorem byte_xor_sign (x s : Nat) (hx : x < 256) (hs : s = 0 ∨ s = 128) :
    (s = 0 ∧ x ^^^ s = x) ∨ (s = 128 ∧ x < 128 ∧ x ^^^ s = x + 128)
      ∨ (s = 128 ∧ 128 ≤ x ∧ x ^^^ s = x - 128) := by
  have h : ∀ x < 256, (x < 128 ∧ x ^^^ 128 = x + 128) ∨ (128 ≤ x ∧ x ^^^ 128 = x - 128) := by
    decide
  rcases hs with rfl | rfl
  · left; simp
  · right; simpa using h x hx

set_option maxRecDepth 100000 in
theorem byte_or128 (x : Nat) (hx : x < 256) : x ||| 128 = x % 128 + 128 := by
  have h : ∀ x < 256, x ||| 128 = x % 128 + 128 := by decide
  exact h x hx

theorem byte_and127 (x : Nat) : x &&& 127 = x % 128 :=
  Nat.and_pow_two_sub_one_eq_mod x 7

theorem byte_or_sign (d s : Nat) (hd : d < 128) (hs : s = 0 ∨ s = 128) : d ||| s = d + s := by
  rcases hs with rfl | rfl
  · simp
  · rw [byte_or128 d (by omega)]; omega

theorem laneStep_gen (b p1 p2 n1 n2 : Nat) (hb : b < 256) (hp : p1 + p2 ≤ 128)
    (hn : n1 + n2 ≤ 127) :
    laneStep b p1 p2 n1 n2 = (b + p1 + p2 + 256 - n1 - n2) % 256 := by
  unfold laneStep
  simp only [byte_and127]
  have h1 := byte_and128 b hb
  generalize b &&& 128 = sb at h1 ⊢
  have h2 := byte_xor_sign (b % 128 + p1 + p2) sb (by omega) (by omega)
  generalize (b % 128 + p1 + p2) ^^^ sb = d2 at h2 ⊢
  have hd2 : d2 < 256 := by omega
  have h3 := byte_and128 d2 hd2
  generalize d2 &&& 128 = sb2 at h3 ⊢
  rw [byte_or128 d2 hd2]
  have h4 := byte_128and (255 - (d2 % 128 + 128 - n1 - n2)) (by omega)
  generalize 128 &&& (255 - (d2 % 128 + 128 - n1 - n2)) = s3 at h4 ⊢
  have h5 := byte_xor_sign sb2 s3 (by omega) (by omega)
  generalize sb2 ^^^ s3 = sb3 at h5 ⊢
  rw [byte_or_sign _ sb3 (Nat.mod_lt _ (by decide)) (by omega)]
  omega

set_option maxRecDepth 100000 in
theorem laneInit_eq (L R : Nat) (hL : L < 256) (hR : R < 256) :
    laneInit L R = (L + 256 - R) % 256 := by
  have h : ∀ R < 256,
      ((255 - (R &&& 128) / 128 * 127) &&& R &&& 127 = if R < 128 then R else 0)
      ∧ (((R &&& 128) / 128 * 127 &&& (255 - R)) + ((R &&& 128) / 128 * 127 &&& 1)
          = if R < 128 then 0 else 256 - R) := by decide
  have e : laneInit L R = laneStep L
      ((((R &&& 128) / 128 * 127) &&& (255 - R)) + (((R &&& 128) / 128 * 127) &&& 1)) 0
      ((255 - (R &&& 128) / 128 * 127) &&& R &&& 127) 0 := rfl
  rw [e, (h R hR).1, (h R hR).2]
  split_ifs with hlt
  · rw [laneStep_gen _ _ _ _ _ hL (by omega) (by omega)]; omega
  · rw [laneStep_gen _ _ _ _ _ hL (by omega) (by omega)]; omega
theorem xor_lt_wordMod {x y : Nat} (hx : x < wordMod) (hy : y < wordMod) :
    x ^^^ y < wordMod := by
  rw [wordMod_eq] at hx hy ⊢
  exact Nat.xor_lt_two_pow hx hy

theorem LaneWise.of_word {W : Nat} (h : W < wordMod) : LaneWise W (lane W) :=
  ⟨h, fun _ _ => rfl⟩

theorem LaneWise.congr {W : Nat} {f g : Nat → Nat} (h : LaneWise W f)
    (hfg : ∀ k < 8, f k = g k) : LaneWise W g :=
  ⟨h.1, fun k hk => (h.2 k hk).trans (hfg k hk)⟩

theorem LaneWise.and {A B : Nat} {f g : Nat → Nat} (ha : LaneWise A f) (hb : LaneWise B g) :
    LaneWise (A &&& B) (fun k => f k &&& g k) :=
  ⟨and_lt_wordMod _ hb.1, fun k hk => by rw [lane_and, ha.2 k hk, hb.2 k hk]⟩

theorem LaneWise.or {A B : Nat} {f g : Nat → Nat} (ha : LaneWise A f) (hb : LaneWise B g) :
    LaneWise (A ||| B) (fun k => f k ||| g k) :=
  ⟨or_lt_wordMod ha.1 hb.1, fun k hk => by rw [lane_or, ha.2 k hk, hb.2 k hk]⟩

theorem LaneWise.xor {A B : Nat} {f g : Nat → Nat} (ha : LaneWise A f) (hb : LaneWise B g) :
    LaneWise (A ^^^ B) (fun k => f k ^^^ g k) :=
  ⟨xor_lt_wordMod ha.1 hb.1, fun k hk => by rw [lane_xor, ha.2 k hk, hb.2 k hk]⟩

theorem LaneWise.wnot {A : Nat} {f : Nat → Nat} (ha : LaneWise A f) :
    LaneWise (wnot A) (fun k => 255 - f k) :=
  ⟨wnot_lt _ ha.1, fun k hk => by rw [lane_wnot _ k hk, ha.2 k hk]⟩

theorem LaneWise.wadd {A B : Nat} {f g : Nat → Nat} (ha : LaneWise A f) (hb : LaneWise B g)
    (h : ∀ k < 8, f k + g k < 256) : LaneWise (wadd A B) (fun k => f k + g k) :=
  ⟨Nat.mod_lt _ (by decide), fun k hk => by
    rw [lane_wadd A B k hk (fun j hj => by
      rw [ha.2 j (by omega), hb.2 j (by omega)]; exact h j (by omega)),
      ha.2 k hk, hb.2 k hk]⟩

theorem LaneWise.wsub {A B : Nat} {f g : Nat → Nat} (ha : LaneWise A f) (hb : LaneWise B g)
    (h : ∀ k < 8, g k ≤ f k) : LaneWise (wsub A B) (fun k => f k - g k) :=
  ⟨Nat.mod_lt _ (by decide), fun k hk => by
    rw [lane_wsub A B k ha.1 hb.1 hk (fun j hj => by
      rw [ha.2 j (by omega), hb.2 j (by omega)]; exact h j (by omega)),
      ha.2 k hk, hb.2 k hk]⟩

theorem LaneWise.sign : LaneWise SignMask (fun _ => 128) :=
  ⟨by decide, fun k hk => (lane_consts k hk).1⟩

theorem LaneWise.lsb : LaneWise LSBMask (fun _ => 1) :=
  ⟨by decide, fun k hk => (lane_consts k hk).2.1⟩

theorem lane_high (x k : Nat) (hx : x < wordMod) (hk : 8 ≤ k) : lane x k = 0 := by
  have h : x < 2 ^ (8 * k) :=
    calc x < 2 ^ 64 := wordMod_eq ▸ hx
      _ ≤ 2 ^ (8 * k) := Nat.pow_le_pow_right (by decide) (by omega)
  rw [lane, Nat.shiftRight_eq_div_pow, Nat.div_eq_of_lt h]

theorem lane_shr7 (y c : Nat) :
    lane (y >>> 7) c = lane y c / 128 + (lane y (c + 1) % 128) * 2 := by
  have e1 : y >>> 7 = y / 128 := by rw [Nat.shiftRight_eq_div_pow]
  have e2 : y / 128 / 256 ^ c = y / 256 ^ c / 128 := by
    rw [Nat.div_div_eq_div_mul, Nat.div_div_eq_div_mul, Nat.mul_comm]
  have e3 : y / 256 ^ (c + 1) = y / 256 ^ c / 256 := by
    rw [pow_succ, Nat.div_div_eq_div_mul]
  rw [lane_eq_div, lane_eq_div, lane_eq_div, e1, e2, e3]
  omega

theorem LaneWise.shr7 {A : Nat} {f : Nat → Nat} (ha : LaneWise A f)
    (h : ∀ k < 8, f k % 128 = 0) : LaneWise (A >>> 7) (fun k => f k / 128) := by
  have hle : A >>> 7 ≤ A := by
    rw [Nat.shiftRight_eq_div_pow]; exact Nat.div_le_self _ _
  refine ⟨lt_of_le_of_lt hle ha.1, fun k hk => ?_⟩
  rw [lane_shr7, ha.2 k hk]
  by_cases h8 : k + 1 < 8
  · rw [ha.2 (k + 1) h8, h (k + 1) h8]; simp
  · rw [lane_high A (k + 1) ha.1 (by omega)]; simp

theorem low_wmul (t m n : Nat) (hn : n ≤ 8) :
    low (wmul t m) n = (low t n * m) % 256 ^ n := by
  rw [low, wmul, Nat.mod_mod_of_dvd _ (pow256_dvd_wordMod n hn), low, Nat.mod_mul_mod]

theorem low_mul_lt (t m c : Nat) (h : ∀ k < c, lane t k * m < 256) :
    low t c * m < 256 ^ c := by
  induction c with
  | zero => simp [low, Nat.mod_one]
  | succ c ih =>
    have h1 := ih (fun k hk => h k (by omega))
    have h2 := h c (by omega)
    have h3 : 256 ^ c * (lane t c * m) ≤ 256 ^ c * 255 := Nat.mul_le_mul_left _ (by omega)
    rw [low_succ, pow_succ, Nat.add_mul, Nat.mul_assoc]
    omega

theorem lane_wmul (t m c : Nat) (hc : c < 8) (h : ∀ k ≤ c, lane t k * m < 256) :
    lane (wmul t m) c = lane t c * m := by
  have h1 := low_mul_lt t m (c + 1) (fun k hk => h k (by omega))
  have h2 := low_mul_lt t m c (fun k hk => h k (by omega))
  rw [lane_of_low, low_wmul t m (c + 1) (by omega), Nat.mod_eq_of_lt h1, low_succ,
    Nat.add_mul, Nat.mul_assoc, Nat.add_mul_div_left _ _ (by positivity),
    Nat.div_eq_of_lt h2, Nat.zero_add]

theorem LaneWise.wmul {A : Nat} {f : Nat → Nat} (ha : LaneWise A f) (m : Nat)
    (h : ∀ k < 8, f k * m < 256) : LaneWise (wmul A m) (fun k => f k * m) :=
  ⟨Nat.mod_lt _ (by decide), fun k hk => by
    rw [lane_wmul A m k hk (fun j hj => by rw [ha.2 j (by omega)]; exact h j (by omega)),
      ha.2 k hk]⟩
theorem LaneWise.lt {W : Nat} {f : Nat → Nat} (h : LaneWise W f) (k : Nat) (hk : k < 8) :
    f k < 256 := by
  rw [← h.2 k hk]; exact lane_lt W k

theorem laneWise_byteVPVNSum {P N : Nat} {f g : Nat → Nat} (hp : LaneWise P f)
    (hn : LaneWise N g) (h1 : ∀ k < 8, f k < 128) (h2 : ∀ k < 8, g k ≤ 128) :
    LaneWise (byteVPVNSum P N) (fun k => laneVPVNSum (f k) (g k)) :=
  ((LaneWise.sign.wadd hp (fun k hk => by have := h1 k hk; omega)).wsub hn
    (fun k hk => by have := h2 k hk; omega)).xor LaneWise.sign

theorem laneVPVNSum_eq (p n : Nat) (hp : p < 128) (hn : n ≤ 128) :
    laneVPVNSum p n = (p + 256 - n) % 256 := by
  unfold laneVPVNSum
  have h := byte_xor_sign (128 + p - n) 128 (by omega) (by omega)
  omega

theorem laneWise_dmInit {L R : Nat} {l r : Nat → Nat} (hL : LaneWise L l)
    (hR : LaneWise R r) : LaneWise (dmInit L R) (fun k => laneInit (l k) (r k)) := by
  have e7 : ChunkBits - 1 = 7 := by decide
  have e127 : wsub (wshl 1 ((ChunkBits : Int) - 1)) 1 = 127 := by decide
  have hb : ∀ k < 8, (r k &&& 128) / 128 * 127 ≤ 127 := by
    intro k hk
    rcases byte_and128 (r k) (hR.lt k hk) with h | h <;> rw [h.1]
    · norm_num
  have hsm : LaneWise (wmul ((R &&& SignMask) >>> 7) 127)
      (fun k => (r k &&& 128) / 128 * 127) :=
    ((hR.and LaneWise.sign).shr7 (fun k hk => by
      rcases byte_and128 (r k) (hR.lt k hk) with h | h <;> simp only [h.1])).wmul 127
      (fun k hk => by have := hb k hk; omega)
  have hded := (hsm.wnot.and hR).and LaneWise.sign.wnot
  have hadd := (hsm.and hR.wnot).wadd (hsm.and LaneWise.lsb) (fun k hk => by
    have h1 : (r k &&& 128) / 128 * 127 &&& (255 - r k) ≤ (r k &&& 128) / 128 * 127 :=
      Nat.and_le_left
    have h2 : (r k &&& 128) / 128 * 127 &&& 1 ≤ 1 := Nat.and_le_right
    have := hb k hk
    omega)
  have hd2 := (hL.and LaneWise.sign.wnot).wadd hadd (fun k hk => by
    have h0 : l k &&& (255 - 128) ≤ 255 - 128 := Nat.and_le_right
    have h1 : (r k &&& 128) / 128 * 127 &&& (255 - r k) ≤ (r k &&& 128) / 128 * 127 :=
      Nat.and_le_left
    have h2 : (r k &&& 128) / 128 * 127 &&& 1 ≤ 1 := Nat.and_le_right
    have := hb k hk
    omega)
  have hd3 := hd2.xor (hL.and LaneWise.sign)
  have hd5 := (hd3.or LaneWise.sign).wsub hded (fun k hk => by
    have h0 : (255 - (r k &&& 128) / 128 * 127 &&& r k) &&& (255 - 128) ≤ 255 - 128 :=
      Nat.and_le_right
    have h1 := byte_or128 _ (hd3.lt k hk)
    beta_reduce at h1
    omega)
  have hres := (hd5.and LaneWise.sign.wnot).or
    ((hd3.and LaneWise.sign).xor (LaneWise.sign.and hd5.wnot))
  unfold dmInit
  simp only [e7, e127]
  exact hres.congr (fun k hk => rfl)
set_option maxRecDepth 100000 in
theorem testBit_signMask (j : Nat) : SignMask.testBit j = decide (j < 64 ∧ j % 8 = 7) := by
  have h : ∀ j < 64, SignMask.testBit j = decide (j % 8 = 7) := by decide
  by_cases hj : j < 64
  · rw [h j hj]; simp [hj]
  · rw [testBit_of_lt_wordMod (by decide) (Nat.le_of_not_lt hj)]; simp [hj]

theorem lane_and_lsb (x k : Nat) :
    lane (x &&& LSBMask) k = if k < 8 ∧ x.testBit (8 * k) then 1 else 0 := by
  by_cases hk : k < 8
  · rw [lane_and, (lane_consts k hk).2.1, Nat.and_one_is_mod]
    have h := lane_testBit x k 0
    rw [Nat.testBit_zero, Nat.add_zero] at h
    have h2 : lane x k % 2 < 2 := Nat.mod_lt _ (by decide)
    cases hx : x.testBit (8 * k) <;> simp [hx, hk] at h ⊢ <;> omega
  · rw [lane_high _ k (and_lt_wordMod _ (by decide)) (by omega)]
    simp [hk]

theorem laneWise_step (st : DiffState) (d : Nat → Nat) (bit : Nat)
    (hD : LaneWise st.difference d) :
    LaneWise (differenceMasksStep bit st).difference
      (fun k => laneStep (d k) (lane (st.leftVP &&& LSBMask) k)
        (lane (st.rightVN &&& LSBMask) k) (lane (st.leftVN &&& LSBMask) k)
        (lane (st.rightVP &&& LSBMask) k)) := by
  have hl : ∀ x k, lane (x &&& LSBMask) k ≤ 1 := by
    intro x k; rw [lane_and_lsb]; split_ifs <;> omega
  have hw : ∀ x, LaneWise (x &&& LSBMask) (lane (x &&& LSBMask)) :=
    fun x => LaneWise.of_word (and_lt_wordMod _ (by decide))
  have hd2 := (hD.and LaneWise.sign.wnot).wadd (hw st.leftVP) (fun k hk => by
    have h0 : d k &&& (255 - 128) ≤ 255 - 128 := Nat.and_le_right
    have := hl st.leftVP k
    omega)
  have hd3 := hd2.wadd (hw st.rightVN) (fun k hk => by
    have h0 : d k &&& (255 - 128) ≤ 255 - 128 := Nat.and_le_right
    have := hl st.leftVP k
    have := hl st.rightVN k
    omega)
  have hd4 := hd3.xor (hD.and LaneWise.sign)
  have hd6 := (hd4.or LaneWise.sign).wsub (hw st.leftVN) (fun k hk => by
    have h1 := byte_or128 _ (hd4.lt k hk)
    beta_reduce at h1
    have := hl st.leftVN k
    omega)
  have hd7 := hd6.wsub (hw st.rightVP) (fun k hk => by
    have h1 := byte_or128 _ (hd4.lt k hk)
    beta_reduce at h1
    have := hl st.leftVN k
    have := hl st.rightVP k
    omega)
  have hres := (hd7.and LaneWise.sign.wnot).or
    ((hd4.and LaneWise.sign).xor (LaneWise.sign.and hd7.wnot))
  exact hres.congr (fun k hk => rfl)
theorem step_resL_testBit (st : DiffState) (bit : Nat) (hbit : bit ≤ 7) (i : Nat) :
    (differenceMasksStep bit st).resultLeftSmallerThanRight.testBit i
      = (st.resultLeftSmallerThanRight.testBit i
          || (decide (i < 64 ∧ i % 8 = bit)
              && decide (128 ≤ lane (differenceMasksStep bit st).difference (i / 8)))) := by
  have e : (differenceMasksStep bit st).resultLeftSmallerThanRight
      = st.resultLeftSmallerThanRight
        ||| (((differenceMasksStep bit st).difference &&& SignMask) >>> (ChunkBits - 1 - bit)) :=
    rfl
  rw [e, Nat.testBit_or, Nat.testBit_shiftRight, Nat.testBit_and, testBit_signMask]
  by_cases h : i < 64 ∧ i % 8 = bit
  · have e2 : ChunkBits - 1 - bit + i = 8 * (i / 8) + 7 := by unfold ChunkBits; omega
    rw [e2, lane_sign]
    have h3 : 8 * (i / 8) + 7 < 64 ∧ (8 * (i / 8) + 7) % 8 = 7 := by omega
    simp [h, h3]
  · have h3 : ¬ (ChunkBits - 1 - bit + i < 64 ∧ (ChunkBits - 1 - bit + i) % 8 = 7) := by
      unfold ChunkBits; omega
    simp [h, h3]

theorem step_resR_testBit (st : DiffState) (bit : Nat) (hbit : bit ≤ 7) (i : Nat)
    (d : Nat → Nat) (hD : LaneWise (differenceMasksStep bit st).difference d) :
    (differenceMasksStep bit st).resultRightSmallerThanLeft.testBit i
      = (st.resultRightSmallerThanLeft.testBit i
          || (decide (i < 64 ∧ i % 8 = bit)
              && decide (0 < d (i / 8) ∧ d (i / 8) < 128))) := by
  have e : (differenceMasksStep bit st).resultRightSmallerThanLeft
      = st.resultRightSmallerThanLeft
        ||| ((((wsub ((differenceMasksStep bit st).difference ||| SignMask) LSBMask)
                &&& SignMask)
              &&& wnot ((differenceMasksStep bit st).difference &&& SignMask))
            >>> (ChunkBits - 1 - bit)) :=
    rfl
  have hsub := (hD.or LaneWise.sign).wsub LaneWise.lsb (fun k hk => by
    have h1 := byte_or128 _ (hD.lt k hk)
    omega)
  rw [e, Nat.testBit_or, Nat.testBit_shiftRight, Nat.testBit_and, Nat.testBit_and,
    testBit_signMask]
  by_cases h : i < 64 ∧ i % 8 = bit
  · have e2 : ChunkBits - 1 - bit + i = 8 * (i / 8) + 7 := by unfold ChunkBits; omega
    have h3 : 8 * (i / 8) + 7 < 64 ∧ (8 * (i / 8) + 7) % 8 = 7 := by omega
    have hk : i / 8 < 8 := by omega
    have h4 := byte_or128 _ (hD.lt (i / 8) hk)
    rw [e2, testBit_wnot _ _ h3.1, Nat.testBit_and, testBit_signMask, lane_sign, lane_sign,
      hsub.2 _ hk, hD.2 _ hk]
    beta_reduce
    rw [h4]
    have hlt := hD.lt (i / 8) hk
    simp only [h, h3, and_self, decide_True, Bool.and_true, Bool.true_and]
    congr 1
    by_cases hd : 0 < d (i / 8) ∧ d (i / 8) < 128
    · have h5 : 128 ≤ d (i / 8) % 128 + 128 - 1 := by omega
      have h6 : ¬ 128 ≤ d (i / 8) := by omega
      simp [hd, h5, h6] <;> omega
    · by_cases h6 : 128 ≤ d (i / 8)
      · simp [hd, h6] <;> omega
      · have h5 : ¬ 128 ≤ d (i / 8) % 128 + 128 - 1 := by omega
        simp [hd, h5] <;> omega
  · have h3 : ¬ (ChunkBits - 1 - bit + i < 64 ∧ (ChunkBits - 1 - bit + i) % 8 = 7) := by
      unfold ChunkBits; omega
    simp [h, h3]
theorem rowDiff_succ (lVP lVN rVP rVN : Nat) (d : Int) (j : Nat) :
    rowDiff lVP lVN rVP rVN d (j + 1) = rowDiff lVP lVN rVP rVN d j
      + boolInt (lVP.testBit j) - boolInt (lVN.testBit j)
      - boolInt (rVP.testBit j) + boolInt (rVN.testBit j) := by
  unfold rowDiff boolInt
  simp only [bitCount]
  split_ifs <;> push_cast <;> omega

theorem tcByte_lt (z : Int) : tcByte z < 256 := by
  unfold tcByte; omega

theorem loop_inv (lVP lVN rVP rVN : Nat) (d : Int) (D0 : Nat)
    (hD0 : LaneWise D0 (fun k => tcByte (rowDiff lVP lVN rVP rVN d (8 * k))))
    (hrange : ∀ j ≤ 64, -128 ≤ rowDiff lVP lVN rVP rVN d j ∧ rowDiff lVP lVN rVP rVN d j ≤ 127)
    (n : Nat) (hn : n ≤ 8) :
    (differenceMasksLoop n ⟨D0, lVP, lVN, rVP, rVN, 0, 0⟩).leftVP = lVP >>> n
    ∧ (differenceMasksLoop n ⟨D0, lVP, lVN, rVP, rVN, 0, 0⟩).leftVN = lVN >>> n
    ∧ (differenceMasksLoop n ⟨D0, lVP, lVN, rVP, rVN, 0, 0⟩).rightVP = rVP >>> n
    ∧ (differenceMasksLoop n ⟨D0, lVP, lVN, rVP, rVN, 0, 0⟩).rightVN = rVN >>> n
    ∧ LaneWise (differenceMasksLoop n ⟨D0, lVP, lVN, rVP, rVN, 0, 0⟩).difference
        (fun k => tcByte (rowDiff lVP lVN rVP rVN d (8 * k + n)))
    ∧ (∀ i, (differenceMasksLoop n
          ⟨D0, lVP, lVN, rVP, rVN, 0, 0⟩).resultLeftSmallerThanRight.testBit i
        = decide (i < 64 ∧ i % 8 < n ∧ rowDiff lVP lVN rVP rVN d (i + 1) < 0))
    ∧ (∀ i, (differenceMasksLoop n
          ⟨D0, lVP, lVN, rVP, rVN, 0, 0⟩).resultRightSmallerThanLeft.testBit i
        = decide (i < 64 ∧ i % 8 < n ∧ 0 < rowDiff lVP lVN rVP rVN d (i + 1))) := by
  induction n with
  | zero =>
    refine ⟨rfl, rfl, rfl, rfl, hD0, ?_, ?_⟩ <;> intro i <;>
      simp [differenceMasksLoop]
  | succ n ih =>
    obtain ⟨h1, h2, h3, h4, hL, hl, hr⟩ := ih (by omega)
    clear ih
    have hstep := laneWise_step _ _ n hL
    have hnew : LaneWise (differenceMasksLoop (n + 1)
        ⟨D0, lVP, lVN, rVP, rVN, 0, 0⟩).difference
        (fun k => tcByte (rowDiff lVP lVN rVP rVN d (8 * k + (n + 1)))) := by
      refine hstep.congr (fun k hk => ?_)
      have hb := tcByte_lt (rowDiff lVP lVN rVP rVN d (8 * k + n))
      simp only [lane_and_lsb, h1, h2, h3, h4, Nat.testBit_shiftRight, hk, true_and]
      rw [laneStep_gen _ _ _ _ _ hb (by split_ifs <;> omega) (by split_ifs <;> omega)]
      have hs := rowDiff_succ lVP lVN rVP rVN d (8 * k + n)
      have e : n + 8 * k = 8 * k + n := by omega
      rw [e]
      rw [show 8 * k + (n + 1) = 8 * k + n + 1 by omega, hs]
      unfold tcByte boolInt
      split_ifs <;> omega
    refine ⟨?_, ?_, ?_, ?_, hnew, ?_, ?_⟩
    · show (differenceMasksLoop n _).leftVP >>> 1 = _
      rw [h1, Nat.shiftRight_add]
    · show (differenceMasksLoop n _).leftVN >>> 1 = _
      rw [h2, Nat.shiftRight_add]
    · show (differenceMasksLoop n _).rightVP >>> 1 = _
      rw [h3, Nat.shiftRight_add]
    · show (differenceMasksLoop n _).rightVN >>> 1 = _
      rw [h4, Nat.shiftRight_add]
    · intro i
      have hs := step_resL_testBit (differenceMasksLoop n ⟨D0, lVP, lVN, rVP, rVN, 0, 0⟩) n
        (by omega) i
      rw [differenceMasksLoop, hs, hl i]
      by_cases hc : i < 64 ∧ i % 8 = n
      · have hk : i / 8 < 8 := by omega
        have hlane : lane (differenceMasksStep n (differenceMasksLoop n
            ⟨D0, lVP, lVN, rVP, rVN, 0, 0⟩)).difference (i / 8)
            = tcByte (rowDiff lVP lVN rVP rVN d (i + 1)) := by
          have h0 := hnew.2 (i / 8) hk
          beta_reduce at h0
          rw [show 8 * (i / 8) + (n + 1) = i + 1 by omega] at h0
          exact h0
        rw [hlane]
        have hrg := hrange (i + 1) (by omega)
        rw [Bool.eq_iff_iff]
        simp only [Bool.or_eq_true, Bool.and_eq_true, decide_eq_true_eq]
        unfold tcByte
        omega
      · rw [Bool.eq_iff_iff]
        simp only [Bool.or_eq_true, Bool.and_eq_true, decide_eq_true_eq]
        omega
    · intro i
      have hlane' : LaneWise (differenceMasksStep n
          (differenceMasksLoop n ⟨D0, lVP, lVN, rVP, rVN, 0, 0⟩)).difference
          (fun k => tcByte (rowDiff lVP lVN rVP rVN d (8 * k + (n + 1)))) := hnew
      have hs := step_resR_testBit (differenceMasksLoop n ⟨D0, lVP, lVN, rVP, rVN, 0, 0⟩) n
        (by omega) i _ hlane'
      rw [differenceMasksLoop, hs, hr i]
      by_cases hc : i < 64 ∧ i % 8 = n
      · have hrg := hrange (i + 1) (by omega)
        beta_reduce
        rw [show 8 * (i / 8) + (n + 1) = i + 1 by omega]
        rw [Bool.eq_iff_iff]
        simp only [Bool.or_eq_true, Bool.and_eq_true, decide_eq_true_eq]
        unfold tcByte
        omega
      · rw [Bool.eq_iff_iff]
        simp only [Bool.or_eq_true, Bool.and_eq_true, decide_eq_true_eq]
        omega
theorem bitCount_mono (x : Nat) {m n : Nat} (h : m ≤ n) : bitCount x m ≤ bitCount x n := by
  obtain ⟨k, rfl⟩ := Nat.exists_eq_add_of_le h
  rw [bitCount_add]; omega

theorem bitCount_tail (x j : Nat) (hj : j ≤ 64) : bitCount x 64 ≤ bitCount x j + (64 - j) := by
  have h := bitCount_add x j (64 - j)
  have h2 := bitCount_le (x >>> j) (64 - j)
  rw [show j + (64 - j) = 64 by omega] at h
  omega

theorem bitCount_disjoint {x y : Nat} (h : x &&& y = 0) (n : Nat) :
    bitCount x n + bitCount y n ≤ n := by
  induction n with
  | zero => simp [bitCount]
  | succ n ih =>
    have hd := testBit_disjoint h n
    rw [bitCount, bitCount]
    cases hx : x.testBit n <;> cases hy : y.testBit n <;> simp_all <;> omega

theorem testBit_of_bitCount_full (x n : Nat) (h : bitCount x n = n) :
    ∀ i < n, x.testBit i = true := by
  induction n with
  | zero => intro i hi; omega
  | succ n ih =>
    have hle := bitCount_le x n
    rw [bitCount] at h
    intro i hi
    by_cases hb : x.testBit n = true
    · rw [if_pos hb] at h
      rcases Nat.lt_succ_iff_lt_or_eq.mp hi with h1 | h1
      · exact ih (by omega) i h1
      · rw [h1]; exact hb
    · rw [if_neg hb] at h; omega

theorem eq_allOnes_of_bitCount (x : Nat) (hx : x < wordMod) (h : bitCount x 64 = 64) :
    x = AllOnes := by
  apply Nat.eq_of_testBit_eq
  intro i
  rw [testBit_allOnes]
  by_cases hi : i < 64
  · rw [testBit_of_bitCount_full x 64 h i hi]; simp [hi]
  · rw [testBit_of_lt_wordMod hx (by omega)]; simp [hi]

theorem bitCount_reduce (x y : Nat) (n : Nat) (hn : n ≤ 64) :
    (bitCount (x &&& wnot (x &&& y)) n : Int) - bitCount (y &&& wnot (x &&& y)) n
      = (bitCount x n : Int) - bitCount y n := by
  induction n with
  | zero => simp [bitCount]
  | succ n ih =>
    have h := ih (by omega)
    simp only [bitCount, Nat.testBit_and, testBit_wnot _ _ (show n < 64 by omega)]
    cases x.testBit n <;> cases y.testBit n <;> simp <;> omega

theorem and_wnot_and_disjoint (x y : Nat) (hx : x < wordMod) :
    (x &&& wnot (x &&& y)) &&& (y &&& wnot (x &&& y)) = 0 := by
  apply Nat.eq_of_testBit_eq
  intro i
  by_cases hi : i < 64
  · simp only [Nat.testBit_and, testBit_wnot _ _ hi, Nat.zero_testBit]
    cases x.testBit i <;> cases y.testBit i <;> rfl
  · simp only [Nat.testBit_and, testBit_of_lt_wordMod hx (Nat.le_of_not_lt hi),
      Nat.zero_testBit, Bool.false_and]

theorem and_mask_disjoint {x y : Nat} (h : x &&& y = 0) (m n : Nat) :
    (x &&& m) &&& (y &&& n) = 0 := by
  apply Nat.eq_of_testBit_eq
  intro i
  have hd := testBit_disjoint h i
  simp only [Nat.testBit_and, Nat.zero_testBit]
  cases hx : x.testBit i <;> cases hy : y.testBit i <;> simp_all
theorem bytePrefixSums_lt (v : Nat) (a : Int) : bytePrefixSums v a < wordMod :=
  Nat.mod_lt _ (by decide)

theorem laneWise_sums (vp vn : Nat) (hvp : vp < wordMod) (hvn : vn < wordMod) (add : Nat)
    (hadd : add + bitCount vp 56 < 128) :
    LaneWise (byteVPVNSum (bytePrefixSums (ChunkPopcounts vp) (add : Int))
        (bytePrefixSums (ChunkPopcounts vn) ((0 : Nat) : Int)))
      (fun k => tcByte ((add : Int) + bitCount vp (8 * k) - bitCount vn (8 * k))) := by
  have hn56 := bitCount_le vn 56
  have h1 : LaneWise (bytePrefixSums (ChunkPopcounts vp) (add : Int))
      (fun k => add + bitCount vp (8 * k)) :=
    ⟨bytePrefixSums_lt _ _, fun k hk => bytePrefixSums_lanes vp hvp add (by omega) k hk⟩
  have h2 : LaneWise (bytePrefixSums (ChunkPopcounts vn) ((0 : Nat) : Int))
      (fun k => 0 + bitCount vn (8 * k)) :=
    ⟨bytePrefixSums_lt _ _, fun k hk => bytePrefixSums_lanes vn hvn 0 (by omega) k hk⟩
  have hm : ∀ k < 8, bitCount vp (8 * k) ≤ bitCount vp 56 :=
    fun k hk => bitCount_mono vp (by omega)
  have hm2 : ∀ k < 8, bitCount vn (8 * k) ≤ 56 :=
    fun k hk => le_trans (bitCount_le vn (8 * k)) (by omega)
  refine (laneWise_byteVPVNSum h1 h2 (fun k hk => by have := hm k hk; omega)
    (fun k hk => by have := hm2 k hk; omega)).congr (fun k hk => ?_)
  have := hm k hk
  have := hm2 k hk
  rw [laneVPVNSum_eq _ _ (by omega) (by omega)]
  unfold tcByte
  omega

theorem differenceMasks_general (lVP lVN rVP rVN : Nat) (dn : Nat)
    (h1 : lVP < wordMod) (h2 : lVN < wordMod) (h3 : rVP < wordMod) (h4 : rVN < wordMod)
    (hG : dn + bitCount rVP 56 < 128)
    (hrange : ∀ j ≤ 64, -128 ≤ rowDiff lVP lVN rVP rVN dn j
      ∧ rowDiff lVP lVN rVP rVN dn j ≤ 127) (i : Nat) :
    (differenceMasksLoop ChunkBits
      ⟨dmInit (byteVPVNSum (bytePrefixSums (ChunkPopcounts lVP) 0)
          (bytePrefixSums (ChunkPopcounts lVN) 0))
        (byteVPVNSum (bytePrefixSums (ChunkPopcounts rVP) (dn : Int))
          (bytePrefixSums (ChunkPopcounts rVN) 0)),
        lVP, lVN, rVP, rVN, 0, 0⟩).resultLeftSmallerThanRight.testBit i
      = decide (i < 64 ∧ rowDiff lVP lVN rVP rVN dn (i + 1) < 0)
    ∧ (differenceMasksLoop ChunkBits
      ⟨dmInit (byteVPVNSum (bytePrefixSums (ChunkPopcounts lVP) 0)
          (bytePrefixSums (ChunkPopcounts lVN) 0))
        (byteVPVNSum (bytePrefixSums (ChunkPopcounts rVP) (dn : Int))
          (bytePrefixSums (ChunkPopcounts rVN) 0)),
        lVP, lVN, rVP, rVN, 0, 0⟩).resultRightSmallerThanLeft.testBit i
      = decide (i < 64 ∧ 0 < rowDiff lVP lVN rVP rVN dn (i + 1)) := by
  have hl56 := bitCount_le lVP 56
  have hL := laneWise_sums lVP lVN h1 h2 0 (by omega)
  have hR := laneWise_sums rVP rVN h3 h4 dn hG
  have hD0 : LaneWise (dmInit (byteVPVNSum (bytePrefixSums (ChunkPopcounts lVP) 0)
          (bytePrefixSums (ChunkPopcounts lVN) 0))
        (byteVPVNSum (bytePrefixSums (ChunkPopcounts rVP) (dn : Int))
          (bytePrefixSums (ChunkPopcounts rVN) 0)))
      (fun k => tcByte (rowDiff lVP lVN rVP rVN dn (8 * k))) := by
    refine (laneWise_dmInit hL hR).congr (fun k hk => ?_)
    rw [laneInit_eq _ _ (tcByte_lt _) (tcByte_lt _)]
    unfold tcByte rowDiff
    push_cast
    omega
  obtain ⟨_, _, _, _, _, hl, hr⟩ := loop_inv lVP lVN rVP rVN dn _ hD0 hrange 8 (by omega)
  have e8 : ChunkBits = 8 := rfl
  rw [e8, hl i, hr i]
  have hi8 : i % 8 < 8 := Nat.mod_lt _ (by decide)
  simp [hi8]
theorem bitCount_allOnes (j : Nat) (hj : j ≤ 64) : bitCount AllOnes j = j := by
  induction j with
  | zero => rfl
  | succ n ih =>
    rw [bitCount, ih (by omega), testBit_allOnes]
    simp [show n < 64 by omega]

theorem bitCount_zero_word (j : Nat) : bitCount 0 j = 0 := by
  induction j with
  | zero => rfl
  | succ n ih => rw [bitCount, ih]; simp

theorem eq_zero_of_allOnes_disjoint {x y : Nat} (hy : y < wordMod) (hx : x = AllOnes)
    (h : x &&& y = 0) : y = 0 := by
  rw [hx, Nat.and_comm, and_allOnes hy] at h
  exact h

theorem rowDiff_reduce (lVP lVN rVP rVN : Nat) (d : Int) (j : Nat) (hj : j ≤ 64) :
    rowDiff (lVP &&& wnot (lVP &&& rVP)) (lVN &&& wnot (lVN &&& rVN))
      (rVP &&& wnot (lVP &&& rVP)) (rVN &&& wnot (lVN &&& rVN)) d j
      = rowDiff lVP lVN rVP rVN d j := by
  have h1 := bitCount_reduce lVP rVP j hj
  have h2 := bitCount_reduce lVN rVN j hj
  unfold rowDiff
  omega

theorem differenceMasks_unfold (lVP lVN rVP rVN : Nat) (d : Int) :
    differenceMasks lVP lVN rVP rVN d
      = if d > (popcount (rVN &&& wnot (lVN &&& rVN)) : Int)
            + (popcount (lVP &&& wnot (lVP &&& rVP)) : Int) then (AllOnes, AllZeros)
        else if d = 128 ∧ rVN &&& wnot (lVN &&& rVN) = AllOnes
            ∧ lVP &&& wnot (lVP &&& rVP) = AllOnes then
          (AllOnes ^^^ (wshl 1 ((WordSize : Int) - 1)), AllZeros)
        else if d = 0 ∧ rVN &&& wnot (lVN &&& rVN) = AllOnes
            ∧ lVP &&& wnot (lVP &&& rVP) = AllOnes then (0, AllOnes)
        else
          ((differenceMasksLoop ChunkBits
            ⟨dmInit (byteVPVNSum (bytePrefixSums (ChunkPopcounts (lVP &&& wnot (lVP &&& rVP))) 0)
                (bytePrefixSums (ChunkPopcounts (lVN &&& wnot (lVN &&& rVN))) 0))
              (byteVPVNSum (bytePrefixSums (ChunkPopcounts (rVP &&& wnot (lVP &&& rVP))) d)
                (bytePrefixSums (ChunkPopcounts (rVN &&& wnot (lVN &&& rVN))) 0)),
              lVP &&& wnot (lVP &&& rVP), lVN &&& wnot (lVN &&& rVN),
              rVP &&& wnot (lVP &&& rVP), rVN &&& wnot (lVN &&& rVN), 0,
              0⟩).resultLeftSmallerThanRight,
           (differenceMasksLoop ChunkBits
            ⟨dmInit (byteVPVNSum (bytePrefixSums (ChunkPopcounts (lVP &&& wnot (lVP &&& rVP))) 0)
                (bytePrefixSums (ChunkPopcounts (lVN &&& wnot (lVN &&& rVN))) 0))
              (byteVPVNSum (bytePrefixSums (ChunkPopcounts (rVP &&& wnot (lVP &&& rVP))) d)
                (bytePrefixSums (ChunkPopcounts (rVN &&& wnot (lVN &&& rVN))) 0)),
              lVP &&& wnot (lVP &&& rVP), lVN &&& wnot (lVN &&& rVN),
              rVP &&& wnot (lVP &&& rVP), rVN &&& wnot (lVN &&& rVN), 0,
              0⟩).resultRightSmallerThanLeft) := by
  rfl

theorem differenceMasks_spec (lVP lVN rVP rVN : Nat)
    (h1 : lVP < wordMod) (h2 : lVN < wordMod) (h3 : rVP < wordMod) (h4 : rVN < wordMod)
    (hl : lVP &&& lVN = 0) (hr : rVP &&& rVN = 0) (d : Int) (hd : 0 ≤ d) (i : Nat) :
    (differenceMasks lVP lVN rVP rVN d).1.testBit i
      = decide (i < 64 ∧ rowDiff lVP lVN rVP rVN d (i + 1) < 0)
    ∧ (differenceMasks lVP lVN rVP rVN d).2.testBit i
      = decide (i < 64 ∧ 0 < rowDiff lVP lVN rVP rVN d (i + 1)) := by
  obtain ⟨dn, rfl⟩ := Int.eq_ofNat_of_zero_le hd
  have hred := rowDiff_reduce lVP lVN rVP rVN dn
  have b1 : lVP &&& wnot (lVP &&& rVP) < wordMod := lt_of_le_of_lt Nat.and_le_left h1
  have b2 : lVN &&& wnot (lVN &&& rVN) < wordMod := lt_of_le_of_lt Nat.and_le_left h2
  have b3 : rVP &&& wnot (lVP &&& rVP) < wordMod := lt_of_le_of_lt Nat.and_le_left h3
  have b4 : rVN &&& wnot (lVN &&& rVN) < wordMod := lt_of_le_of_lt Nat.and_le_left h4
  have d1 : (lVP &&& wnot (lVP &&& rVP)) &&& (lVN &&& wnot (lVN &&& rVN)) = 0 :=
    and_mask_disjoint hl _ _
  have d2 : (rVP &&& wnot (lVP &&& rVP)) &&& (rVN &&& wnot (lVN &&& rVN)) = 0 :=
    and_mask_disjoint hr _ _
  have d3 : (lVP &&& wnot (lVP &&& rVP)) &&& (rVP &&& wnot (lVP &&& rVP)) = 0 :=
    and_wnot_and_disjoint lVP rVP h1
  have d4 : (lVN &&& wnot (lVN &&& rVN)) &&& (rVN &&& wnot (lVN &&& rVN)) = 0 :=
    and_wnot_and_disjoint lVN rVN h2
  rw [differenceMasks_unfold]
  rw [popcount_eq_bitCount _ b4, popcount_eq_bitCount _ b1]
  generalize lVP &&& wnot (lVP &&& rVP) = lVP' at *
  generalize lVN &&& wnot (lVN &&& rVN) = lVN' at *
  generalize rVP &&& wnot (lVP &&& rVP) = rVP' at *
  generalize rVN &&& wnot (lVN &&& rVN) = rVN' at *
  have hA64 := bitCount_le lVP' 64
  have hE64 := bitCount_le rVN' 64
  split_ifs with c1 c2 c3
  · by_cases hi : i < 64
    · have hj : i + 1 ≤ 64 := by omega
      have hA := bitCount_mono lVP' hj
      have hE := bitCount_mono rVN' hj
      have hneg : rowDiff lVP' lVN' rVP' rVN' dn (i + 1) < 0 := by
        unfold rowDiff; omega
      rw [← hred (i + 1) hj]
      simp [hi, testBit_allOnes, AllZeros, hneg]
      omega
    · simp [hi, testBit_allOnes, AllZeros]
  · obtain ⟨c21, c22, c23⟩ := c2
    by_cases hi : i < 64
    · have hj : i + 1 ≤ 64 := by omega
      have z1 := eq_zero_of_allOnes_disjoint b2 c23 d1
      have z2 := eq_zero_of_allOnes_disjoint b3 c23 d3
      have e63 : wshl 1 ((WordSize : Int) - 1) = 2 ^ 63 := by decide
      have hrd : rowDiff lVP' lVN' rVP' rVN' dn (i + 1) = 2 * ((i : Int) + 1) - 128 := by
        unfold rowDiff
        rw [c22, c23, z1, z2, bitCount_allOnes _ hj, bitCount_zero_word]
        push_cast; omega
      rw [← hred (i + 1) hj, hrd, e63]
      simp only [Nat.testBit_xor, testBit_allOnes, Nat.testBit_two_pow, hi, AllZeros,
        Nat.zero_testBit, true_and, decide_True, Bool.true_xor]
      constructor
      · by_cases h63 : i = 63
        · subst h63; decide
        · have : ¬ (63 = i) := fun h => h63 h.symm
          simp [this]; omega
      · simp; omega
    · simp only [hi, false_and, decide_False, AllZeros, Nat.zero_testBit, and_true]
      exact testBit_of_lt_wordMod (xor_lt_wordMod (by decide) (wshl_lt _ _))
        (Nat.le_of_not_lt hi)
  · obtain ⟨c31, c32, c33⟩ := c3
    by_cases hi : i < 64
    · have hj : i + 1 ≤ 64 := by omega
      have z1 := eq_zero_of_allOnes_disjoint b2 c33 d1
      have z2 := eq_zero_of_allOnes_disjoint b3 c33 d3
      have hrd : rowDiff lVP' lVN' rVP' rVN' dn (i + 1) = 2 * ((i : Int) + 1) := by
        unfold rowDiff
        rw [c32, c33, z1, z2, bitCount_allOnes _ hj, bitCount_zero_word]
        push_cast; omega
      rw [← hred (i + 1) hj, hrd]
      simp [hi, testBit_allOnes]
      omega
    · simp [hi, testBit_allOnes]
  · have hP1 := bitCount_disjoint d2 64
    have hP2 := bitCount_disjoint d3 64
    have hP56 : bitCount rVP' 56 ≤ bitCount rVP' 64 := bitCount_mono rVP' (by omega)
    have hG : dn + bitCount rVP' 56 < 128 := by
      by_contra hcon
      have hall : bitCount rVN' 64 = 64 ∧ bitCount lVP' 64 = 64 ∧ (dn : Int) = 128 := by omega
      exact c2 ⟨hall.2.2, eq_allOnes_of_bitCount _ b4 hall.1,
        eq_allOnes_of_bitCount _ b1 hall.2.1⟩
    have hrange : ∀ j ≤ 64, -128 ≤ rowDiff lVP' lVN' rVP' rVN' dn j
        ∧ rowDiff lVP' lVN' rVP' rVN' dn j ≤ 127 := by
      intro j hj
      have t1 := bitCount_tail lVP' j hj
      have t2 := bitCount_tail rVN' j hj
      have m1 := bitCount_mono lVP' hj
      have m2 := bitCount_mono rVN' hj
      have l1 := bitCount_le lVN' j
      have l2 := bitCount_le rVP' j
      unfold rowDiff
      refine ⟨by omega, ?_⟩
      by_contra hcon
      have hall : bitCount rVN' 64 = 64 ∧ bitCount lVP' 64 = 64 ∧ (dn : Int) = 0 := by omega
      exact c3 ⟨hall.2.2, eq_allOnes_of_bitCount _ b4 hall.1,
        eq_allOnes_of_bitCount _ b1 hall.2.1⟩
    have hgen := differenceMasks_general lVP' lVN' rVP' rVN' dn b1 b2 b3 b4 hG hrange i
    by_cases hi : i < 64
    · rw [← hred (i + 1) (by omega)]
      exact hgen
    · rw [hgen.1, hgen.2]
      simp [hi]
set_option maxHeartbeats 4000000 in
theorem merge_row_core (lvp lvn rvp rvn c : Bool) (lp rp Dp Dc : Int)
    (hl : (lvp && lvn) = false) (hr : (rvp && rvn) = false)
    (hDp : Dp = lp - rp)
    (hDc : Dc = Dp + (boolInt lvp - boolInt lvn) - (boolInt rvp - boolInt rvn))
    (hc1 : (decide (0 < Dp) && c) = false)
    (hc2 : (decide (0 < Dp) || c) = true → 0 ≤ Dp)
    (hc3 : (decide (0 < Dp) || c) = false → Dp ≤ 0) :
    boolInt ((lvp && !((decide (0 < Dc) || !((!(decide (Dc < 0) || decide (0 < Dc)))
            ^^ (decide (0 < Dp) ^^ c))) && !decide (Dc < 0)))
          || (rvp && ((decide (0 < Dc) || !((!(decide (Dc < 0) || decide (0 < Dc)))
            ^^ (decide (0 < Dp) ^^ c))) && !decide (Dc < 0))))
      - boolInt (((lvn && !(decide (Dc < 0) && decide (0 < Dp)))
            && !((decide (0 < Dc) || !((!(decide (Dc < 0) || decide (0 < Dc)))
              ^^ (decide (0 < Dp) ^^ c))) && !decide (Dc < 0)))
          || ((rvn && !(decide (0 < Dc) && decide (Dp < 0)))
            && ((decide (0 < Dc) || !((!(decide (Dc < 0) || decide (0 < Dc)))
              ^^ (decide (0 < Dp) ^^ c))) && !decide (Dc < 0))))
      = min (lp + (boolInt lvp - boolInt lvn)) (rp + (boolInt rvp - boolInt rvn)) - min lp rp
    ∧ (((lvp && !((decide (0 < Dc) || !((!(decide (Dc < 0) || decide (0 < Dc)))
            ^^ (decide (0 < Dp) ^^ c))) && !decide (Dc < 0)))
          || (rvp && ((decide (0 < Dc) || !((!(decide (Dc < 0) || decide (0 < Dc)))
            ^^ (decide (0 < Dp) ^^ c))) && !decide (Dc < 0))))
        && (((lvn && !(decide (Dc < 0) && decide (0 < Dp)))
            && !((decide (0 < Dc) || !((!(decide (Dc < 0) || decide (0 < Dc)))
              ^^ (decide (0 < Dp) ^^ c))) && !decide (Dc < 0)))
          || ((rvn && !(decide (0 < Dc) && decide (Dp < 0)))
            && ((decide (0 < Dc) || !((!(decide (Dc < 0) || decide (0 < Dc)))
              ^^ (decide (0 < Dp) ^^ c))) && !decide (Dc < 0))))) = false := by
  by_cases h1 : Dp < 0 <;> by_cases h2 : 0 < Dp <;> by_cases h3 : Dc < 0 <;>
    by_cases h4 : 0 < Dc <;>
    cases lvp <;> cases lvn <;> cases rvp <;> cases rvn <;> cases c <;>
    simp [boolInt, min_def, h1, h2, h3, h4] at hl hr hDc hc1 hc2 hc3 ⊢ <;>
    (try split_ifs) <;> omega
theorem merge_carry_inv (ls rs : Nat) (D : Nat → Int)
    (hls : ∀ i < 64, ls.testBit i = decide (D (i + 1) < 0))
    (hrs : ∀ i < 64, rs.testBit i = decide (0 < D (i + 1)))
    (hD0 : D 0 ≤ 0) (i : Nat) (hi : i < 64) :
    (wshl rs 1).testBit i = decide (0 < D i)
    ∧ (decide (0 < D i) && addCarry (wnot (ls ||| rs)) (wshl rs 1) i) = false
    ∧ ((decide (0 < D i) || addCarry (wnot (ls ||| rs)) (wshl rs 1) i) = true → 0 ≤ D i)
    ∧ ((decide (0 < D i) || addCarry (wnot (ls ||| rs)) (wshl rs 1) i) = false → D i ≤ 0) := by
  induction i with
  | zero =>
    have h0 : ¬ 0 < D 0 := by omega
    refine ⟨?_, ?_, ?_, ?_⟩
    · rw [testBit_wshl_one _ _ hi]; simp [h0]
    · simp [addCarry, h0]
    · simp [addCarry, h0]
    · simp [addCarry, h0, hD0]
  | succ k ih =>
    obtain ⟨hB, h1, h2, h3⟩ := ih (by omega)
    have hk : k < 64 := by omega
    have hB' : (wshl rs 1).testBit (k + 1) = decide (0 < D (k + 1)) := by
      rw [testBit_wshl_one _ _ hi, Nat.add_sub_cancel, hrs k hk]; simp
    refine ⟨hB', ?_⟩
    rw [addCarry, testBit_wnot _ _ hk, Nat.testBit_or, hls k hk, hrs k hk, hB]
    by_cases p1 : D (k + 1) < 0 <;> by_cases p2 : 0 < D (k + 1) <;>
      by_cases p3 : 0 < D k <;>
      cases hc : addCarry (wnot (ls ||| rs)) (wshl rs 1) k <;>
      simp [p1, p2, p3, hc] at h1 h2 h3 ⊢ <;> omega

theorem valueBefore_eq (w : WordSlice) (i : Nat) (hi : i ≤ 64) :
    valueBefore w i = w.scoreBeforeStart + (bitCount w.VP i : Int) - (bitCount w.VN i : Int) := by
  unfold valueBefore
  cases i with
  | zero => simp [bitCount]
  | succ k => rw [if_neg (Nat.succ_ne_zero k), Nat.add_sub_cancel, getValue_eq w k (by omega)]

theorem getValue_eq_before (w : WordSlice) (i : Nat) (hi : i < 64) :
    w.getValue i = valueBefore w i
      + (boolInt (w.VP.testBit i) - boolInt (w.VN.testBit i)) := by
  rw [valueBefore_eq w i (by omega), getValue_eq w i (by omega), bitCount, bitCount]
  unfold boolInt
  split_ifs <;> push_cast <;> omega

theorem testBit_wsub (x y i : Nat) (hx : x < wordMod) (hy : y < wordMod) (hi : i < 64) :
    (wsub x y).testBit i
      = !((!x.testBit i) ^^ (y.testBit i ^^ addCarry (wnot x) y i)) := by
  rw [wsub_eq x y hx hy, testBit_wnot _ _ hi, testBit_wadd _ _ _ (wnot_lt x hx) hy hi,
    testBit_wnot _ _ hi]

theorem mergeOrdered_fields (L R : WordSlice) :
    (mergeOrdered L R).VP
      = (L.VP &&& wnot (mergeMask
            (differenceMasks L.VP L.VN R.VP R.VN (R.scoreBeforeStart - L.scoreBeforeStart)).1
            (differenceMasks L.VP L.VN R.VP R.VN (R.scoreBeforeStart - L.scoreBeforeStart)).2))
        ||| (R.VP &&& mergeMask
            (differenceMasks L.VP L.VN R.VP R.VN (R.scoreBeforeStart - L.scoreBeforeStart)).1
            (differenceMasks L.VP L.VN R.VP R.VN (R.scoreBeforeStart - L.scoreBeforeStart)).2)
    ∧ (mergeOrdered L R).VN
      = ((L.VN &&& wnot (mergeLeftReduction
            (differenceMasks L.VP L.VN R.VP R.VN (R.scoreBeforeStart - L.scoreBeforeStart)).1
            (differenceMasks L.VP L.VN R.VP R.VN (R.scoreBeforeStart - L.scoreBeforeStart)).2))
          &&& wnot (mergeMask
            (differenceMasks L.VP L.VN R.VP R.VN (R.scoreBeforeStart - L.scoreBeforeStart)).1
            (differenceMasks L.VP L.VN R.VP R.VN (R.scoreBeforeStart - L.scoreBeforeStart)).2))
        ||| ((R.VN &&& wnot (mergeRightReduction
            (differenceMasks L.VP L.VN R.VP R.VN (R.scoreBeforeStart - L.scoreBeforeStart)).1
            (differenceMasks L.VP L.VN R.VP R.VN (R.scoreBeforeStart - L.scoreBeforeStart)).2
            (decide (L.scoreBeforeStart < R.scoreBeforeStart))))
          &&& mergeMask
            (differenceMasks L.VP L.VN R.VP R.VN (R.scoreBeforeStart - L.scoreBeforeStart)).1
            (differenceMasks L.VP L.VN R.VP R.VN (R.scoreBeforeStart - L.scoreBeforeStart)).2)
    ∧ (mergeOrdered L R).scoreBeforeStart = min L.scoreBeforeStart R.scoreBeforeStart
    ∧ (mergeOrdered L R).scoreEnd = min L.scoreEnd R.scoreEnd
    ∧ (mergeOrdered L R).scoreEndExists = true
    ∧ (mergeOrdered L R).confirmedRows = confirmedRowsInMerged L R :=
  ⟨rfl, rfl, rfl, rfl, rfl, rfl⟩

theorem lt_wordMod_of_testBit (x : Nat) (h : ∀ i, 64 ≤ i → x.testBit i = false) :
    x < wordMod := by
  rw [wordMod_eq]
  exact Nat.lt_pow_two_of_testBit x h

theorem merge_bits (ls rs : Nat) (D : Nat → Int) (lt : Bool)
    (hls : ∀ i, ls.testBit i = decide (i < 64 ∧ D (i + 1) < 0))
    (hrs : ∀ i, rs.testBit i = decide (i < 64 ∧ 0 < D (i + 1)))
    (hD0 : D 0 ≤ 0) (hlt : lt = decide (D 0 < 0)) (i : Nat) (hi : i < 64) :
    (mergeMask ls rs).testBit i
      = ((decide (0 < D (i + 1)) || !((!(decide (D (i + 1) < 0) || decide (0 < D (i + 1))))
          ^^ (decide (0 < D i) ^^ addCarry (wnot (ls ||| rs)) (wshl rs 1) i)))
          && !decide (D (i + 1) < 0))
    ∧ (mergeLeftReduction ls rs).testBit i = (decide (D (i + 1) < 0) && decide (0 < D i))
    ∧ (mergeRightReduction ls rs lt).testBit i = (decide (0 < D (i + 1)) && decide (D i < 0)) := by
  have hls' : ∀ i < 64, ls.testBit i = decide (D (i + 1) < 0) := by
    intro j hj; rw [hls j]; simp [hj]
  have hrs' : ∀ i < 64, rs.testBit i = decide (0 < D (i + 1)) := by
    intro j hj; rw [hrs j]; simp [hj]
  have hlsb : ls < wordMod := lt_wordMod_of_testBit ls (fun j hj => by
    rw [hls j]; simp; omega)
  have hrsb : rs < wordMod := lt_wordMod_of_testBit rs (fun j hj => by
    rw [hrs j]; simp; omega)
  obtain ⟨hB, _, _, _⟩ := merge_carry_inv ls rs D hls' hrs' hD0 i hi
  have hBl : (wshl ls 1).testBit i = (decide (1 ≤ i) && decide (D i < 0)) := by
    rw [testBit_wshl_one _ _ hi]
    cases i with
    | zero => simp
    | succ k => rw [Nat.add_sub_cancel, hls' k (by omega)]
  refine ⟨?_, ?_, ?_⟩
  · rw [mergeMask, Nat.testBit_and, Nat.testBit_or, testBit_wnot _ _ hi,
      testBit_wsub _ _ _ (or_lt_wordMod hlsb hrsb) (wshl_lt _ _) hi, Nat.testBit_or,
      hls' i hi, hrs' i hi, hB]
  · rw [mergeLeftReduction, Nat.testBit_and, hls' i hi, hB]
  · have h1 : bitSet rs 1 = rs.testBit 0 := bitSet_two_pow rs 0
    unfold mergeRightReduction
    rw [h1, hrs' 0 (by omega), hlt]
    by_cases c1 : (decide (0 < D (0 + 1)) && decide (D 0 < 0)) = true
    · rw [if_pos c1, testBit_or_one, Nat.testBit_and, hrs' i hi, hBl]
      cases i with
      | zero => simpa using c1
      | succ k => simp
    · rw [if_neg c1, Nat.testBit_and, hrs' i hi, hBl]
      cases i with
      | zero =>
        simp only [Bool.not_eq_true] at c1
        simp only [Nat.le_zero_eq, Nat.one_ne_zero, decide_False, Bool.false_and,
          Bool.and_false]
        exact c1.symm
      | succ k => simp

theorem merge_row (L R : WordSlice) (hL : L.Valid) (hR : R.Valid)
    (hle : L.scoreBeforeStart ≤ R.scoreBeforeStart) (i : Nat) (hi : i < 64) :
    boolInt ((mergeOrdered L R).VP.testBit i) - boolInt ((mergeOrdered L R).VN.testBit i)
      = min (L.getValue i) (R.getValue i) - min (valueBefore L i) (valueBefore R i)
    ∧ ((mergeOrdered L R).VP.testBit i && (mergeOrdered L R).VN.testBit i) = false := by
  obtain ⟨hVP, hVN, -⟩ := mergeOrdered_fields L R
  have hspec := differenceMasks_spec L.VP L.VN R.VP R.VN hL.1 hL.2.1 hR.1 hR.2.1 hL.2.2 hR.2.2
    (R.scoreBeforeStart - L.scoreBeforeStart) (by omega)
  have hD0 : rowDiff L.VP L.VN R.VP R.VN (R.scoreBeforeStart - L.scoreBeforeStart) 0 ≤ 0 := by
    simp only [rowDiff, bitCount]; push_cast; omega
  have hlt : decide (L.scoreBeforeStart < R.scoreBeforeStart)
      = decide (rowDiff L.VP L.VN R.VP R.VN (R.scoreBeforeStart - L.scoreBeforeStart) 0 < 0) := by
    simp only [rowDiff, bitCount]; push_cast
    apply decide_eq_decide.mpr; constructor <;> intro h <;> omega
  obtain ⟨hm, hlr, hrr⟩ := merge_bits _ _
    (rowDiff L.VP L.VN R.VP R.VN (R.scoreBeforeStart - L.scoreBeforeStart)) _
    (fun j => (hspec j).1) (fun j => (hspec j).2) hD0 hlt i hi
  obtain ⟨-, hc1, hc2, hc3⟩ := merge_carry_inv _ _
    (rowDiff L.VP L.VN R.VP R.VN (R.scoreBeforeStart - L.scoreBeforeStart))
    (fun j hj => by rw [(hspec j).1]; simp [hj]) (fun j hj => by rw [(hspec j).2]; simp [hj])
    hD0 i hi
  have hl : (L.VP.testBit i && L.VN.testBit i) = false := by
    rw [← Nat.testBit_and, hL.2.2]; simp
  have hr : (R.VP.testBit i && R.VN.testBit i) = false := by
    rw [← Nat.testBit_and, hR.2.2]; simp
  have hDp : rowDiff L.VP L.VN R.VP R.VN (R.scoreBeforeStart - L.scoreBeforeStart) i
      = valueBefore L i - valueBefore R i := by
    rw [valueBefore_eq L i (by omega), valueBefore_eq R i (by omega)]
    unfold rowDiff; omega
  have hDc : rowDiff L.VP L.VN R.VP R.VN (R.scoreBeforeStart - L.scoreBeforeStart) (i + 1)
      = rowDiff L.VP L.VN R.VP R.VN (R.scoreBeforeStart - L.scoreBeforeStart) i
        + (boolInt (L.VP.testBit i) - boolInt (L.VN.testBit i))
        - (boolInt (R.VP.testBit i) - boolInt (R.VN.testBit i)) := by
    rw [rowDiff_succ]; omega
  rw [hVP, hVN, getValue_eq_before L i hi, getValue_eq_before R i hi]
  simp only [Nat.testBit_or, Nat.testBit_and, testBit_wnot _ _ hi, hm, hlr, hrr]
  exact merge_row_core _ _ _ _ _ (valueBefore L i) (valueBefore R i) _ _ hl hr hDp hDc
    hc1 hc2 hc3
theorem mergeOrdered_valueBefore (L R : WordSlice) (hL : L.Valid) (hR : R.Valid)
    (hle : L.scoreBeforeStart ≤ R.scoreBeforeStart) (i : Nat) (hi : i ≤ 64) :
    valueBefore (mergeOrdered L R) i = min (valueBefore L i) (valueBefore R i) := by
  induction i with
  | zero => rfl
  | succ k ih =>
    have hk : k < 64 := by omega
    have h1 := (merge_row L R hL hR hle k hk).1
    have h2 := getValue_eq_before (mergeOrdered L R) k hk
    have h3 := ih (by omega)
    have e : ∀ w : WordSlice, valueBefore w (k + 1) = w.getValue k := by
      intro w; unfold valueBefore; rw [if_neg (Nat.succ_ne_zero k), Nat.add_sub_cancel]
    rw [e, e, e, h2, h3]
    omega

theorem mergeOrdered_getValue (L R : WordSlice) (hL : L.Valid) (hR : R.Valid)
    (hle : L.scoreBeforeStart ≤ R.scoreBeforeStart) (r : Nat) (hr : r < 64) :
    (mergeOrdered L R).getValue r = min (L.getValue r) (R.getValue r) := by
  have h := mergeOrdered_valueBefore L R hL hR hle (r + 1) (by omega)
  unfold valueBefore at h
  rwa [if_neg (Nat.succ_ne_zero r), if_neg (Nat.succ_ne_zero r), if_neg (Nat.succ_ne_zero r),
    Nat.add_sub_cancel] at h

theorem mergeOrdered_valid (L R : WordSlice) (hL : L.Valid) (hR : R.Valid)
    (hle : L.scoreBeforeStart ≤ R.scoreBeforeStart) : (mergeOrdered L R).Valid := by
  obtain ⟨hVP, hVN, -⟩ := mergeOrdered_fields L R
  have b1 : (mergeOrdered L R).VP < wordMod := by
    rw [hVP]
    refine or_lt_wordMod ?_ ?_
    · rw [Nat.land_comm]; exact and_lt_wordMod _ hL.1
    · rw [Nat.land_comm]; exact and_lt_wordMod _ hR.1
  have b2 : (mergeOrdered L R).VN < wordMod := by
    rw [hVN]
    refine or_lt_wordMod ?_ ?_
    · rw [Nat.land_assoc, Nat.land_comm]; exact and_lt_wordMod _ hL.2.1
    · rw [Nat.land_assoc, Nat.land_comm]; exact and_lt_wordMod _ hR.2.1
  refine ⟨b1, b2, ?_⟩
  apply Nat.eq_of_testBit_eq
  intro i
  rw [Nat.testBit_and, Nat.zero_testBit]
  by_cases hi : i < 64
  · exact (merge_row L R hL hR hle i hi).2
  · rw [testBit_of_lt_wordMod b1 (by omega : 64 ≤ i)]; rfl

theorem slice_ext (A B : WordSlice) (hA : A.Valid) (hB : B.Valid)
    (hs : A.scoreBeforeStart = B.scoreBeforeStart)
    (hv : ∀ r < 64, A.getValue r = B.getValue r) : A.VP = B.VP ∧ A.VN = B.VN := by
  have key : ∀ i, A.VP.testBit i = B.VP.testBit i ∧ A.VN.testBit i = B.VN.testBit i := by
    intro i
    by_cases hi : i < 64
    · have e1 := getValue_eq_before A i hi
      have e2 := getValue_eq_before B i hi
      have e3 : valueBefore A i = valueBefore B i := by
        unfold valueBefore
        by_cases h0 : i = 0
        · rw [if_pos h0, if_pos h0, hs]
        · rw [if_neg h0, if_neg h0, hv (i - 1) (by omega)]
      have e4 := hv i hi
      have xa : (A.VP.testBit i && A.VN.testBit i) = false := by
        rw [← Nat.testBit_and, hA.2.2]; simp
      have xb : (B.VP.testBit i && B.VN.testBit i) = false := by
        rw [← Nat.testBit_and, hB.2.2]; simp
      have e5 : boolInt (A.VP.testBit i) - boolInt (A.VN.testBit i)
          = boolInt (B.VP.testBit i) - boolInt (B.VN.testBit i) := by omega
      revert xa xb e5
      cases A.VP.testBit i <;> cases A.VN.testBit i <;> cases B.VP.testBit i <;>
        cases B.VN.testBit i <;> simp [boolInt]
    · rw [testBit_of_lt_wordMod hA.1 (by omega : 64 ≤ i), testBit_of_lt_wordMod hB.1 (by omega : 64 ≤ i),
        testBit_of_lt_wordMod hA.2.1 (by omega : 64 ≤ i), testBit_of_lt_wordMod hB.2.1 (by omega : 64 ≤ i)]
      exact ⟨rfl, rfl⟩
  exact ⟨Nat.eq_of_testBit_eq (fun i => (key i).1), Nat.eq_of_testBit_eq (fun i => (key i).2)⟩

theorem confirmedRowsInMerged_comm (a b : WordSlice) :
    confirmedRowsInMerged a b = confirmedRowsInMerged b a := by
  rcases ha : a.confirmedRows with ⟨ar, ap⟩
  rcases hb : b.confirmedRows with ⟨br, bp⟩
  unfold confirmedRowsInMerged
  rw [ha, hb]
  by_cases h1 : ar = br
  · subst h1
    cases ap <;> cases bp <;> simp [RowConfirmation.eq, RowConfirmation.gt]
  · by_cases h2 : ar < br
    · have h3 : ¬ br < ar := by omega
      have h4 : ¬ br = ar := by omega
      simp [RowConfirmation.eq, RowConfirmation.gt, h1, h2, h3, h4]
    · have h3 : br < ar := by omega
      have h4 : ¬ br = ar := by omega
      simp [RowConfirmation.eq, RowConfirmation.gt, h1, h2, h3, h4]

theorem mergeTwoSlices_spec (a b : WordSlice) (ha : a.Valid) (hb : b.Valid) :
    (mergeTwoSlices a b).Valid
    ∧ (∀ r < 64, (mergeTwoSlices a b).getValue r = min (a.getValue r) (b.getValue r))
    ∧ (mergeTwoSlices a b).scoreBeforeStart = min a.scoreBeforeStart b.scoreBeforeStart
    ∧ (mergeTwoSlices a b).scoreEnd = min a.scoreEnd b.scoreEnd := by
  unfold mergeTwoSlices
  by_cases h : a.scoreBeforeStart > b.scoreBeforeStart
  · rw [if_pos h]
    have hle : b.scoreBeforeStart ≤ a.scoreBeforeStart := by omega
    refine ⟨mergeOrdered_valid b a hb ha hle, ?_, ?_, ?_⟩
    · intro r hr
      rw [mergeOrdered_getValue b a hb ha hle r hr, min_comm]
    · exact (min_comm _ _)
    · exact (min_comm _ _)
  · rw [if_neg h]
    have hle : a.scoreBeforeStart ≤ b.scoreBeforeStart := by omega
    exact ⟨mergeOrdered_valid a b ha hb hle, mergeOrdered_getValue a b ha hb hle, rfl, rfl⟩

theorem mergeOrdered_comm (a b : WordSlice) (ha : a.Valid) (hb : b.Valid)
    (hs : a.scoreBeforeStart = b.scoreBeforeStart) : mergeOrdered a b = mergeOrdered b a := by
  have v1 := mergeOrdered_valid a b ha hb (by omega)
  have v2 := mergeOrdered_valid b a hb ha (by omega)
  have hv : ∀ r < 64, (mergeOrdered a b).getValue r = (mergeOrdered b a).getValue r := by
    intro r hr
    rw [mergeOrdered_getValue a b ha hb (by omega) r hr,
      mergeOrdered_getValue b a hb ha (by omega) r hr, min_comm]
  have h0 : (mergeOrdered a b).scoreBeforeStart = (mergeOrdered b a).scoreBeforeStart :=
    min_comm _ _
  obtain ⟨e1, e2⟩ := slice_ext _ _ v1 v2 h0 hv
  have e3 : (mergeOrdered a b).scoreEnd = (mergeOrdered b a).scoreEnd := min_comm _ _
  have e4 : (mergeOrdered a b).confirmedRows = (mergeOrdered b a).confirmedRows :=
    confirmedRowsInMerged_comm a b
  have e5 : (mergeOrdered a b).scoreBeforeExists = (mergeOrdered b a).scoreBeforeExists := by
    show (if a.scoreBeforeStart < b.scoreBeforeStart then a.scoreBeforeExists
      else if b.scoreBeforeStart < a.scoreBeforeStart then b.scoreBeforeExists
      else a.scoreBeforeExists || b.scoreBeforeExists)
      = (if b.scoreBeforeStart < a.scoreBeforeStart then b.scoreBeforeExists
      else if a.scoreBeforeStart < b.scoreBeforeStart then a.scoreBeforeExists
      else b.scoreBeforeExists || a.scoreBeforeExists)
    rw [hs]; simp [Bool.or_comm]
  have e6 : (mergeOrdered a b).scoreEndExists = (mergeOrdered b a).scoreEndExists := rfl
  cases hx : mergeOrdered a b
  cases hy : mergeOrdered b a
  rw [hx, hy] at e1 e2 e3 e4 e5 e6 h0
  simp only at e1 e2 e3 e4 e5 e6 h0
  subst e1 e2 e3 e4 e5 e6 h0
  rfl

theorem mergeTwoSlices_comm (a b : WordSlice) (ha : a.Valid) (hb : b.Valid) :
    mergeTwoSlices a b = mergeTwoSlices b a := by
  unfold mergeTwoSlices
  by_cases h1 : a.scoreBeforeStart > b.scoreBeforeStart
  · have h2 : ¬ b.scoreBeforeStart > a.scoreBeforeStart := by omega
    rw [if_pos h1, if_neg h2]
  · by_cases h2 : b.scoreBeforeStart > a.scoreBeforeStart
    · rw [if_neg h1, if_pos h2]
    · rw [if_neg h1, if_neg h2]
      exact mergeOrdered_comm a b ha hb (by omega)

/-- C1: merging two slices that each satisfy VP & VN = 0 gives the per-row minimum: for
every row r in 0..63 a.mergeWith(b).getValue(r) = min(a.getValue(r), b.getValue(r)); the
scoreBeforeStart of the result is the smaller scoreBeforeStart and its scoreEnd the smaller
scoreEnd; and the nested merge of a with the merge of b and c has at every row the minimum
of the three values. -/
theorem mergeWith_min (a b : WordSlice) (ha : a.Valid) (hb : b.Valid) :
    (∀ r, r < 64 → (a.mergeWith b).getValue r = min (a.getValue r) (b.getValue r))
    ∧ (a.mergeWith b).scoreBeforeStart = min a.scoreBeforeStart b.scoreBeforeStart
    ∧ (a.mergeWith b).scoreEnd = min a.scoreEnd b.scoreEnd
    ∧ (∀ c : WordSlice, c.Valid → ∀ r, r < 64 →
        (a.mergeWith (b.mergeWith c)).getValue r
          = min (a.getValue r) (min (b.getValue r) (c.getValue r))) := by
  obtain ⟨-, h2, h3, h4⟩ := mergeTwoSlices_spec a b ha hb
  refine ⟨h2, h3, h4, ?_⟩
  intro c hc r hr
  obtain ⟨g1, g2, -⟩ := mergeTwoSlices_spec b c hb hc
  obtain ⟨-, k2, -⟩ := mergeTwoSlices_spec a (mergeTwoSlices b c) ha g1
  show (mergeTwoSlices a (mergeTwoSlices b c)).getValue r = _
  rw [k2 r hr, g2 r hr]

/-- C1 (witness): mergeWith_min at two concrete slices that cross each other, row 2. -/
theorem mergeWith_min_witness :
    ((WordSlice.mk6 5 2 7 6 0 false).mergeWith (WordSlice.mk6 2 5 4 5 0 false)).getValue 2
      = min ((WordSlice.mk6 5 2 7 6 0 false).getValue 2)
          ((WordSlice.mk6 2 5 4 5 0 false).getValue 2) :=
  (mergeWith_min (WordSlice.mk6 5 2 7 6 0 false) (WordSlice.mk6 2 5 4 5 0 false)
    (by decide) (by decide)).1 2 (by decide)

/-- C8: merge is commutative: for slices a and b with VP & VN = 0, a.mergeWith(b) and
b.mergeWith(a) are equal in every field (VP, VN, scoreBeforeStart, scoreEnd,
confirmedRows, scoreBeforeExists, scoreEndExists), also when the two scoreBeforeStart
values are equal and no operand swap happens, and in the special cases of
differenceMasks. -/
theorem mergeWith_comm (a b : WordSlice) (ha : a.Valid) (hb : b.Valid) :
    a.mergeWith b = b.mergeWith a :=
  mergeTwoSlices_comm a b ha hb

/-- C8 (witness): mergeWith_comm where one operand has VP all ones, the other VN all
ones, and the two scoreBeforeStart values are equal. -/
theorem mergeWith_comm_witness :
    (WordSlice.mk6 AllOnes 0 164 100 3 true).mergeWith (WordSlice.mk6 0 AllOnes 36 100 5 false)
      = (WordSlice.mk6 0 AllOnes 36 100 5 false).mergeWith
          (WordSlice.mk6 AllOnes 0 164 100 3 true) :=
  mergeWith_comm (WordSlice.mk6 AllOnes 0 164 100 3 true)
    (WordSlice.mk6 0 AllOnes 36 100 5 false) (by decide) (by decide)
/-! ## The match predicate, the reverse complement and the command line -/

/-- C11: characterMatch follows IUPAC: for every read character among
A, C, G, T, N, R, Y, K, M, S, W, B, D, H, V in upper or lower case and every graph
character among A, C, G, T, characterMatch returns normally, and it returns true exactly
when the graph character belongs to the IUPAC set of the read character. -/
theorem characterMatch_iupac (r g : Char) (hr : r ∈ iupacReadCharacters)
    (hg : g ∈ graphCharacters) :
    characterMatch r g = some (decide (g ∈ IUPAC r)) := by
  have h : ∀ r ∈ iupacReadCharacters, ∀ g ∈ graphCharacters,
      characterMatch r g = some (decide (g ∈ IUPAC r)) := by decide
  exact h r hr g hg

/-- C11 (witness): characterMatch_iupac at the read character r and the graph character G. -/
theorem characterMatch_iupac_witness : characterMatch 'r' 'G' = some (decide ('G' ∈ IUPAC 'r')) :=
  characterMatch_iupac 'r' 'G' (by decide) (by decide)

/-- C12: the read character U (and u), which CommonUtils::ReverseComplement accepts and
turns into A, has no case in characterMatch: for every graph character the call ends in
the default branch (assert(false); std::abort()). -/
theorem characterMatch_U_default :
    (∀ g : Char, characterMatch 'U' g = none) ∧ (∀ g : Char, characterMatch 'u' g = none)
    ∧ ReverseComplement true ['U'] = some ['A'] ∧ ReverseComplement true ['u'] = some ['A'] :=
  ⟨fun _ => rfl, fun _ => rfl, rfl, rfl⟩

theorem reverseComplementLoop_H (pre post result : List Char) :
    reverseComplementLoop true (pre ++ 'H' :: post) result = none := by
  induction pre generalizing result with
  | nil => rfl
  | cons c rest ih =>
    rw [List.cons_append, reverseComplementLoop]
    cases reverseComplementCase true c with
    | none => rfl
    | some out => exact ih _

/-- C20: in CommonUtils::ReverseComplement the case of H and h appends D and then runs
on into the default case: with assertions enabled every string that holds an H stops
at assert(false); only a build with NDEBUG returns the D. -/
theorem ReverseComplement_H_reaches_default :
    (∀ pre post : List Char, ReverseComplement true (pre ++ 'H' :: post) = none)
    ∧ ReverseComplement true ['h'] = none
    ∧ ReverseComplement false ['H'] = some ['D']
    ∧ ReverseComplement false ['A', 'H', 'C'] = some ['G', 'D', 'T'] := by
  refine ⟨?_, rfl, rfl, rfl⟩
  intro pre post
  unfold ReverseComplement
  rw [List.reverse_append, List.reverse_cons, List.append_assoc, List.singleton_append]
  exact reverseComplementLoop_H _ _ _

/-- C18: the command line driver goes on to alignReads if and only if dynamicRowStart is
a multiple of 64, numThreads is at least 1, initialBandwidth is at least 2, rampBandwidth
is 0 or greater than initialBandwidth, and -i or a seed file was given; in every other
case it ends by std::exit before alignReads is called. -/
theorem main_proceeds_iff (params : AlignerParams) (initialFullBand : Bool) :
    ((mainChecks params initialFullBand).ending = MainEnd.alignReadsCalled ↔
      ((64 : Int) ∣ params.dynamicRowStart ∧ 1 ≤ params.numThreads
        ∧ 2 ≤ params.initialBandwidth
        ∧ (params.rampBandwidth = 0 ∨ params.initialBandwidth < params.rampBandwidth)
        ∧ (initialFullBand = true ∨ params.seedFile ≠ "")))
    ∧ ((mainChecks params initialFullBand).ending ≠ MainEnd.alignReadsCalled →
        ∃ status, (mainChecks params initialFullBand).ending = MainEnd.exited status)
    ∧ (∀ options : List (Char × String × Int), AlignerMain.main options
        = mainChecks (options.foldl (fun s o => applyOption s o.1 o.2.1 o.2.2)
            (initialParams, false)).1
          (options.foldl (fun s o => applyOption s o.1 o.2.1 o.2.2) (initialParams, false)).2) := by
  refine ⟨?_, ?_, fun _ => rfl⟩
  · unfold mainChecks
    rw [Int.dvd_iff_tmod_eq_zero]
    by_cases h1 : params.dynamicRowStart.tmod 64 = 0 <;>
    by_cases h2 : params.numThreads < 1 <;>
    by_cases h3 : params.initialBandwidth < 2 <;>
    by_cases h4 : params.rampBandwidth = 0 <;>
    by_cases h5 : params.rampBandwidth ≤ params.initialBandwidth <;>
    by_cases h6 : params.seedFile = "" <;>
    cases initialFullBand <;>
    simp [h1, h2, h3, h4, h5, h6] <;> omega
  · unfold mainChecks
    split_ifs <;> simp

/-- C19: on a validation failure the driver writes exactly one line to std::cerr, the
line of the first check that fails in the order dynamicRowStart, numThreads,
initialBandwidth, rampBandwidth, seed or full band, whatever the later parameters are,
and ends by std::exit(0). -/
theorem main_single_diagnostic (params : AlignerParams) (initialFullBand : Bool)
    (h : (mainChecks params initialFullBand).ending ≠ MainEnd.alignReadsCalled) :
    (mainChecks params initialFullBand).ending = MainEnd.exited 0
    ∧ (mainChecks params initialFullBand).cerr.length = 1
    ∧ (mainChecks params initialFullBand).cerr =
        [if ¬ (64 : Int) ∣ params.dynamicRowStart then
            "dynamic row start has to be a multiple of 64"
          else if params.numThreads < 1 then "number of threads must be >= 1"
          else if params.initialBandwidth < 2 then "bandwidth must be >= 2"
          else if params.rampBandwidth ≠ 0 ∧ params.rampBandwidth ≤ params.initialBandwidth then
            "backup bandwidth must be higher than initial bandwidth"
          else "either initial full band or seed file must be set"] := by
  revert h
  unfold mainChecks
  simp only [Int.dvd_iff_tmod_eq_zero]
  split_ifs <;> simp

/-- C19 (witness): main_single_diagnostic for a command line on which every check would
fail: only the line of the first check is written. -/
theorem main_single_diagnostic_witness :
    (mainChecks { initialParams with dynamicRowStart := 63 } false).ending = MainEnd.exited 0
    ∧ (mainChecks { initialParams with dynamicRowStart := 63 } false).cerr
        = ["dynamic row start has to be a multiple of 64"] :=
  have h := main_single_diagnostic { initialParams with dynamicRowStart := 63 } false (by decide)
  ⟨h.1, by rw [h.2.2]; decide⟩

/-! ## The band function -/

theorem distLE_mono {distances : Nat → Option Int} {v : Nat} {p q : Int}
    (h : distLE distances v p) (hpq : p ≤ q) : distLE distances v q := by
  obtain ⟨d, hd, hle⟩ := h
  exact ⟨d, hd, by omega⟩

theorem setDistance_same (distances : Nat → Option Int) (v : Nat) (p : Int) :
    setDistance distances v p v = some p := by
  simp [setDistance]

theorem setDistance_other (distances : Nat → Option Int) {v w : Nat} (p : Int) (h : w ≠ v) :
    setDistance distances v p w = distances w := by
  simp [setDistance, h]

/-- A value stored over a greater one keeps every bound on the map. -/
theorem distLE_setDistance {distances : Nat → Option Int} {v w : Nat} {p q : Int}
    (h : distLE distances w q)
    (hnew : ∀ d, distances v = some d → p < d) :
    distLE (setDistance distances v p) w q := by
  obtain ⟨d, hd, hle⟩ := h
  by_cases hw : w = v
  · subst hw
    exact ⟨p, setDistance_same _ _ _, by have := hnew d hd; omega⟩
  · exact ⟨d, by rw [setDistance_other _ _ hw]; exact hd, hle⟩

theorem isStartVertex_append_left {done rest : List BandEntry} {minScore bandwidth : Int}
    {v : Nat} (h : isStartVertex done minScore bandwidth v) :
    isStartVertex (done ++ rest) minScore bandwidth v := by
  obtain ⟨e, he, h1, h2⟩ := h
  exact ⟨e, List.mem_append_left _ he, h1, h2⟩

theorem projectSeeds_inv (graph : AlignmentGraph) (cutoff : Nat) (minScore bandwidth : Int)
    (rest : List BandEntry) :
    ∀ (done : List BandEntry) (s : ProjectState),
      (∀ e ∈ rest, e.minScore ≤ minScore + bandwidth → minScore ≤ e.endScore) →
      BandInv graph done minScore bandwidth s →
      (∀ u d, s.distances u = some d → isStartVertex done minScore bandwidth u) →
      (projectSeeds graph cutoff minScore bandwidth rest s).2 = false →
      BandInv graph (done ++ rest) minScore bandwidth
          (projectSeeds graph cutoff minScore bandwidth rest s).1
        ∧ ∀ u d, (projectSeeds graph cutoff minScore bandwidth rest s).1.distances u = some d →
            isStartVertex (done ++ rest) minScore bandwidth u := by
  induction rest with
  | nil =>
    intro done s _ hinv honly _
    simp only [projectSeeds, List.append_nil]
    exact ⟨hinv, honly⟩
  | cons pair rest ih =>
    intro done s hscore hinv honly hrun
    have hscore' : ∀ e ∈ rest, e.minScore ≤ minScore + bandwidth → minScore ≤ e.endScore :=
      fun e he => hscore e (List.mem_cons_of_mem _ he)
    have happ : done ++ pair :: rest = (done ++ [pair]) ++ rest := by simp
    rw [happ]
    unfold projectSeeds at hrun ⊢
    by_cases hseed : pair.minScore ≤ minScore + bandwidth
    · rw [if_pos hseed] at hrun ⊢
      have hpair : minScore ≤ pair.endScore := hscore pair (List.mem_cons_self _ _) hseed
      have hstartv : isStartVertex (done ++ [pair]) minScore bandwidth pair.node :=
        ⟨pair, by simp, rfl, hseed⟩
      -- the state after the vertex has been put into the result
      have honly1 : ∀ u d, setDistance s.distances pair.node 0 u = some d →
          isStartVertex (done ++ [pair]) minScore bandwidth u := by
        intro u d hu
        by_cases huv : u = pair.node
        · rw [huv]; exact hstartv
        · rw [setDistance_other _ _ huv] at hu
          exact isStartVertex_append_left (honly u d hu)
      have hstart1 : ∀ e ∈ done ++ [pair], e.minScore ≤ minScore + bandwidth →
          setDistance s.distances pair.node 0 e.node = some 0 := by
        intro e he hes
        by_cases hev : e.node = pair.node
        · rw [hev]; exact setDistance_same _ _ _
        · rw [setDistance_other _ _ hev]
          rcases List.mem_append.mp he with h | h
          · exact hinv.start e h hes
          · simp only [List.mem_singleton] at h
            exact absurd (by rw [h]) hev
      have hle1 : ∀ (n : Nat) (p : Int), distLE s.distances n p →
          distLE (setDistance s.distances pair.node 0) n p := by
        intro n p h
        by_cases hn : n = pair.node
        · obtain ⟨d, hd, hdp⟩ := h
          obtain ⟨e, he, hen, hes⟩ := honly n d hd
          have h0 := hinv.start e he hes
          rw [hen] at h0
          rw [h0] at hd
          injection hd with hd
          exact ⟨0, by rw [hn]; exact setDistance_same _ _ _, by omega⟩
        · obtain ⟨d, hd, hdp⟩ := h
          exact ⟨d, by rw [setDistance_other _ _ hn]; exact hd, hdp⟩
      by_cases hcut : s.currentWidth + graph.NodeLength pair.node ≥ cutoff
      · simp only [hcut, if_true] at hrun
        exact absurd hrun (by simp)
      · simp only [hcut, if_false] at hrun ⊢
        by_cases hend : pair.endScore > minScore + (bandwidth + (WordSize : Int))
        · simp only [hend, if_true] at hrun ⊢
          refine ih (done ++ [pair]) _ hscore' ⟨hstart1, ?_, ?_, ?_, ?_⟩ honly1 hrun
          · intro e he hes hee n hn
            rcases List.mem_append.mp he with h | h
            · rcases hinv.startPush e h hes hee n hn with h' | h'
              · exact Or.inl h'
              · exact Or.inr (hle1 _ _ h')
            · simp only [List.mem_singleton] at h
              rw [h] at hee
              omega
          · intro u d hu hnot
            exact absurd (honly1 u d hu) hnot
          · intro v d hv
            by_cases hvp : v = pair.node
            · simp [hvp]
            · have hv' : setDistance s.distances pair.node 0 v = some d := hv
              rw [setDistance_other _ _ hvp] at hv'
              exact List.mem_append_left _ (hinv.inResult v d hv')
          · exact hinv.positive
        · simp only [hend, if_false] at hrun ⊢
          refine ih (done ++ [pair]) _ hscore' ⟨hstart1, ?_, ?_, ?_, ?_⟩ honly1 hrun
          · intro e he hes hee n hn
            rcases List.mem_append.mp he with h | h
            · rcases hinv.startPush e h hes hee n hn with h' | h'
              · exact Or.inl (List.mem_append_left _ h')
              · exact Or.inr (hle1 _ _ h')
            · simp only [List.mem_singleton] at h
              left
              apply List.mem_append_right
              rw [h] at hn ⊢
              exact List.mem_map.mpr ⟨n, hn, rfl⟩
          · intro u d hu hnot
            exact absurd (honly1 u d hu) hnot
          · intro v d hv
            by_cases hvp : v = pair.node
            · simp [hvp]
            · have hv' : setDistance s.distances pair.node 0 v = some d := hv
              rw [setDistance_other _ _ hvp] at hv'
              exact List.mem_append_left _ (hinv.inResult v d hv')
          · intro e he
            rcases List.mem_append.mp he with h | h
            · exact hinv.positive e h
            · obtain ⟨n, _, rfl⟩ := List.mem_map.mp h
              show 1 ≤ pair.endScore - minScore + 1
              omega
    · rw [if_neg hseed] at hrun ⊢
      refine ih (done ++ [pair]) s hscore' ⟨?_, ?_, ?_, hinv.inResult, hinv.positive⟩ ?_ hrun
      · intro e he hes
        rcases List.mem_append.mp he with h | h
        · exact hinv.start e h hes
        · simp only [List.mem_singleton] at h
          rw [h] at hes
          exact absurd hes hseed
      · intro e he hes hee n hn
        rcases List.mem_append.mp he with h | h
        · exact hinv.startPush e h hes hee n hn
        · simp only [List.mem_singleton] at h
          rw [h] at hes
          exact absurd hes hseed
      · intro u d hu hnot
        exact absurd (isStartVertex_append_left (honly u d hu)) hnot
      · intro u d hu
        exact isStartVertex_append_left (honly u d hu)

theorem distanceAtMost_iff (distances : Nat → Option Int) (v : Nat) (p : Int) :
    distanceAtMost distances v p = true ↔ distLE distances v p := by
  unfold distanceAtMost distLE
  cases h : distances v with
  | none => simp
  | some d => simp

theorem projectLoop_zero (graph : AlignmentGraph) (cutoff : Nat) (bandwidth : Int)
    (top : Nat → List (Nat × Int) → Nat × Int) (round : Nat) (s : ProjectState) :
    projectLoop graph cutoff bandwidth top 0 round s = ⟨s, ProjectEnd.outOfFuel⟩ := rfl

theorem projectLoop_succ (graph : AlignmentGraph) (cutoff : Nat) (bandwidth : Int)
    (top : Nat → List (Nat × Int) → Nat × Int) (fuel round : Nat) (s : ProjectState) :
    projectLoop graph cutoff bandwidth top (fuel + 1) round s
      = if s.queue.isEmpty then ⟨s, ProjectEnd.atEnd⟩
        else if (top round s.queue).2 > bandwidth + (WordSize : Int) then ⟨s, ProjectEnd.atEnd⟩
        else if distanceAtMost s.distances (top round s.queue).1 (top round s.queue).2 then
          projectLoop graph cutoff bandwidth top fuel (round + 1)
            { s with queue := s.queue.erase (top round s.queue) }
        else if s.currentWidth + graph.NodeLength (top round s.queue).1 ≥ cutoff then
          ⟨{ distances := setDistance s.distances (top round s.queue).1 (top round s.queue).2
             result := s.result ++ [(top round s.queue).1]
             queue := s.queue.erase (top round s.queue)
             currentWidth := s.currentWidth + graph.NodeLength (top round s.queue).1 },
           ProjectEnd.atCutoff⟩
        else
          projectLoop graph cutoff bandwidth top fuel (round + 1)
            { distances := setDistance s.distances (top round s.queue).1 (top round s.queue).2
              result := s.result ++ [(top round s.queue).1]
              queue := s.queue.erase (top round s.queue) ++
                (graph.outNeighbors (top round s.queue).1).map (fun neighbor =>
                  (neighbor, (top round s.queue).2 + (graph.NodeLength (top round s.queue).1 : Int)))
              currentWidth := s.currentWidth + graph.NodeLength (top round s.queue).1 } := rfl

theorem bandClosed_of_inv {graph : AlignmentGraph} {entries : List BandEntry}
    {minScore bandwidth : Int} {s : ProjectState}
    (hinv : BandInv graph entries minScore bandwidth s)
    (hq : ∀ e ∈ s.queue, bandwidth + (WordSize : Int) < e.2) :
    BandClosed graph entries minScore bandwidth s := by
  refine ⟨?_, ?_, ?_, hinv.inResult⟩
  · intro e he hes
    exact ⟨0, hinv.start e he hes, le_refl _⟩
  · intro e he hes hee n hn hp
    rcases hinv.startPush e he hes hee n hn with h | h
    · have := hq _ h
      simp only at this
      omega
    · exact h
  · intro u d hu hnot n hn hp
    rcases hinv.push u d hu hnot n hn with h | h
    · have := hq _ h
      simp only at this
      omega
    · exact h

/-- One round of the while loop that takes the entry t off the queue and goes on keeps
every promise of an entry: the entry is still on the queue, or the map holds its bound. -/
theorem queued_after_round {distances : Nat → Option Int} {queue : List (Nat × Int)}
    (extra : List (Nat × Int)) {t : Nat × Int} {n : Nat} {p : Int}
    (h : (n, p) ∈ queue ∨ distLE distances n p)
    (ht : distLE distances t.1 t.2) :
    (n, p) ∈ queue.erase t ++ extra ∨ distLE distances n p := by
  rcases h with h | h
  · by_cases hnt : (n, p) = t
    · right
      rw [← hnt] at ht
      exact ht
    · left
      exact List.mem_append_left _ ((List.mem_erase_of_ne hnt).mpr h)
  · exact Or.inr h

theorem projectLoop_closed (graph : AlignmentGraph) (cutoff : Nat) (bandwidth : Int)
    (top : Nat → List (Nat × Int) → Nat × Int) (entries : List BandEntry) (minScore : Int)
    (htop : TopIsLeast top) (fuel : Nat) :
    ∀ (round : Nat) (s : ProjectState),
      BandInv graph entries minScore bandwidth s →
      (projectLoop graph cutoff bandwidth top fuel round s).ending = ProjectEnd.atEnd →
      BandClosed graph entries minScore bandwidth
        (projectLoop graph cutoff bandwidth top fuel round s).state := by
  induction fuel with
  | zero =>
    intro round s _ h
    rw [projectLoop_zero] at h
    exact ProjectEnd.noConfusion h
  | succ fuel ih =>
    intro round s hinv h
    rw [projectLoop_succ] at h ⊢
    by_cases hq : s.queue.isEmpty = true
    · rw [if_pos hq]
      refine bandClosed_of_inv hinv ?_
      intro e he
      rw [List.isEmpty_iff] at hq
      rw [hq] at he
      exact absurd he (List.not_mem_nil _)
    · rw [if_neg hq] at h ⊢
      have hne : s.queue ≠ [] := by
        intro h0; rw [h0] at hq; exact hq rfl
      obtain ⟨hmem, hmin⟩ := htop round s.queue hne
      by_cases hbig : (top round s.queue).2 > bandwidth + (WordSize : Int)
      · rw [if_pos hbig]
        refine bandClosed_of_inv hinv ?_
        intro e he
        have := hmin e he
        omega
      · rw [if_neg hbig] at h ⊢
        have hpos : 1 ≤ (top round s.queue).2 := hinv.positive _ hmem
        by_cases hskip : distanceAtMost s.distances (top round s.queue).1 (top round s.queue).2
            = true
        · rw [if_pos hskip] at h ⊢
          have hle := (distanceAtMost_iff _ _ _).mp hskip
          refine ih (round + 1) _ ⟨hinv.start, ?_, ?_, hinv.inResult, ?_⟩ h
          · intro e he hes hee n hn
            have := queued_after_round [] (hinv.startPush e he hes hee n hn) hle
            simpa using this
          · intro u d hu hnot n hn
            have := queued_after_round [] (hinv.push u d hu hnot n hn) hle
            simpa using this
          · intro e he
            exact hinv.positive e (List.mem_of_mem_erase he)
        · rw [if_neg hskip] at h ⊢
          by_cases hcut : s.currentWidth + graph.NodeLength (top round s.queue).1 ≥ cutoff
          · rw [if_pos hcut] at h
            exact ProjectEnd.noConfusion h
          · rw [if_neg hcut] at h ⊢
            have hnle : ¬ distLE s.distances (top round s.queue).1 (top round s.queue).2 :=
              fun hc => hskip ((distanceAtMost_iff _ _ _).mpr hc)
            have hnew : ∀ d, s.distances (top round s.queue).1 = some d →
                (top round s.queue).2 < d := by
              intro d hd
              by_contra hcon
              exact hnle ⟨d, hd, by omega⟩
            have hnotstart : ¬ isStartVertex entries minScore bandwidth (top round s.queue).1 := by
              rintro ⟨e, he, hen, hes⟩
              have h0 := hinv.start e he hes
              rw [hen] at h0
              have := hnew 0 h0
              omega
            have hnow : distLE (setDistance s.distances (top round s.queue).1
                (top round s.queue).2) (top round s.queue).1 (top round s.queue).2 :=
              ⟨_, setDistance_same _ _ _, le_refl _⟩
            have hkeep : ∀ (n : Nat) (p : Int),
                (n, p) ∈ s.queue ∨ distLE s.distances n p →
                (n, p) ∈ s.queue.erase (top round s.queue) ++
                    (graph.outNeighbors (top round s.queue).1).map (fun neighbor =>
                      (neighbor, (top round s.queue).2
                        + (graph.NodeLength (top round s.queue).1 : Int)))
                  ∨ distLE (setDistance s.distances (top round s.queue).1
                      (top round s.queue).2) n p := by
              intro n p hnp
              rcases hnp with hnp | hnp
              · exact queued_after_round _ (Or.inl hnp) hnow
              · exact Or.inr (distLE_setDistance hnp hnew)
            refine ih (round + 1) _ ⟨?_, ?_, ?_, ?_, ?_⟩ h
            · intro e he hes
              have hev : e.node ≠ (top round s.queue).1 := by
                intro hc
                exact hnotstart ⟨e, he, hc, hes⟩
              show setDistance _ _ _ _ = some 0
              rw [setDistance_other _ _ hev]
              exact hinv.start e he hes
            · intro e he hes hee n hn
              exact hkeep _ _ (hinv.startPush e he hes hee n hn)
            · intro u d hu hnot n hn
              have hu' : setDistance s.distances (top round s.queue).1 (top round s.queue).2 u
                  = some d := hu
              by_cases huv : u = (top round s.queue).1
              · rw [huv, setDistance_same] at hu'
                injection hu' with hu'
                left
                apply List.mem_append_right
                rw [huv] at hn ⊢
                rw [← hu']
                exact List.mem_map.mpr ⟨n, hn, rfl⟩
              · rw [setDistance_other _ _ huv] at hu'
                exact hkeep _ _ (hinv.push u d hu' hnot n hn)
            · intro v d hv
              have hv' : setDistance s.distances (top round s.queue).1 (top round s.queue).2 v
                  = some d := hv
              show v ∈ s.result ++ [(top round s.queue).1]
              by_cases hvt : v = (top round s.queue).1
              · simp [hvt]
              · rw [setDistance_other _ _ hvt] at hv'
                exact List.mem_append_left _ (hinv.inResult v d hv')
            · intro e he
              rcases List.mem_append.mp he with h1 | h1
              · exact hinv.positive e (List.mem_of_mem_erase h1)
              · obtain ⟨n, _, rfl⟩ := List.mem_map.mp h1
                show 1 ≤ (top round s.queue).2 + (graph.NodeLength (top round s.queue).1 : Int)
                omega

theorem projectSeeds_sim (final : ProjectState) (graph : AlignmentGraph) (cutoff : Nat)
    (minScore narrow wide : Int) (entries : List BandEntry)
    (hclosed : BandClosed graph entries minScore wide final) (hb : narrow ≤ wide)
    (rest : List BandEntry) :
    ∀ (done : List BandEntry) (s : ProjectState),
      (∀ e ∈ rest, e ∈ entries) →
      (∀ e ∈ rest, e.minScore ≤ minScore + narrow → minScore ≤ e.endScore) →
      BandSim final done minScore narrow wide s →
      (∀ v ∈ (projectSeeds graph cutoff minScore narrow rest s).1.result, v ∈ final.result)
      ∧ ((projectSeeds graph cutoff minScore narrow rest s).2 = false →
          BandSim final (done ++ rest) minScore narrow wide
            (projectSeeds graph cutoff minScore narrow rest s).1) := by
  induction rest with
  | nil =>
    intro done s _ _ hsim
    simp only [projectSeeds, List.append_nil]
    exact ⟨hsim.inResult, fun _ => hsim⟩
  | cons pair rest ih =>
    intro done s hin hscore hsim
    have hin' : ∀ e ∈ rest, e ∈ entries := fun e he => hin e (List.mem_cons_of_mem _ he)
    have hscore' : ∀ e ∈ rest, e.minScore ≤ minScore + narrow → minScore ≤ e.endScore :=
      fun e he => hscore e (List.mem_cons_of_mem _ he)
    have hpin : pair ∈ entries := hin pair (List.mem_cons_self _ _)
    have happ : done ++ pair :: rest = (done ++ [pair]) ++ rest := by simp
    rw [happ]
    unfold projectSeeds
    by_cases hseed : pair.minScore ≤ minScore + narrow
    · rw [if_pos hseed]
      have hpair : minScore ≤ pair.endScore := hscore pair (List.mem_cons_self _ _) hseed
      have hseedw : pair.minScore ≤ minScore + wide := by omega
      have hres : pair.node ∈ final.result := by
        obtain ⟨d, hd, _⟩ := hclosed.start pair hpin hseedw
        exact hclosed.inResult _ d hd
      have hres1 : ∀ v ∈ s.result ++ [pair.node], v ∈ final.result := by
        intro v hv
        rcases List.mem_append.mp hv with h | h
        · exact hsim.inResult v h
        · simp only [List.mem_singleton] at h
          rw [h]; exact hres
      have hstart1 : ∀ e ∈ done ++ [pair], e.minScore ≤ minScore + narrow →
          setDistance s.distances pair.node 0 e.node = some 0 := by
        intro e he hes
        by_cases hev : e.node = pair.node
        · rw [hev]; exact setDistance_same _ _ _
        · rw [setDistance_other _ _ hev]
          rcases List.mem_append.mp he with h | h
          · exact hsim.start e h hes
          · simp only [List.mem_singleton] at h
            exact absurd (by rw [h]) hev
      by_cases hcut : s.currentWidth + graph.NodeLength pair.node ≥ cutoff
      · simp only [hcut, if_true]
        exact ⟨hres1, fun h => absurd h (by simp)⟩
      · simp only [hcut, if_false]
        by_cases hend : pair.endScore > minScore + (narrow + (WordSize : Int))
        · simp only [hend, if_true]
          exact ih (done ++ [pair]) _ hin' hscore' ⟨hres1, hsim.queued, hstart1, hsim.positive⟩
        · simp only [hend, if_false]
          refine ih (done ++ [pair]) _ hin' hscore' ⟨hres1, ?_, hstart1, ?_⟩
          · intro e he hew
            rcases List.mem_append.mp he with h | h
            · exact hsim.queued e h hew
            · obtain ⟨n, hn, rfl⟩ := List.mem_map.mp h
              exact hclosed.startPush pair hpin hseedw (by omega) n hn hew
          · intro e he
            rcases List.mem_append.mp he with h | h
            · exact hsim.positive e h
            · obtain ⟨n, _, rfl⟩ := List.mem_map.mp h
              show 1 ≤ pair.endScore - minScore + 1
              omega
    · rw [if_neg hseed]
      refine ih (done ++ [pair]) s hin' hscore' ⟨hsim.inResult, hsim.queued, ?_, hsim.positive⟩
      intro e he hes
      rcases List.mem_append.mp he with h | h
      · exact hsim.start e h hes
      · simp only [List.mem_singleton] at h
        rw [h] at hes
        exact absurd hes hseed

theorem projectLoop_sim (final : ProjectState) (graph : AlignmentGraph) (cutoff : Nat)
    (minScore narrow wide : Int) (entries : List BandEntry)
    (top : Nat → List (Nat × Int) → Nat × Int)
    (hclosed : BandClosed graph entries minScore wide final) (hb : narrow ≤ wide)
    (hsame : ∀ e ∈ entries, e.minScore ≤ minScore + wide → e.minScore ≤ minScore + narrow)
    (htop : TopIsLeast top) (fuel : Nat) :
    ∀ (round : Nat) (s : ProjectState),
      BandSim final entries minScore narrow wide s →
      ∀ v ∈ (projectLoop graph cutoff narrow top fuel round s).state.result, v ∈ final.result := by
  induction fuel with
  | zero =>
    intro round s hsim
    rw [projectLoop_zero]
    exact hsim.inResult
  | succ fuel ih =>
    intro round s hsim
    rw [projectLoop_succ]
    by_cases hq : s.queue.isEmpty = true
    · rw [if_pos hq]
      exact hsim.inResult
    · rw [if_neg hq]
      have hne : s.queue ≠ [] := by
        intro h0; rw [h0] at hq; exact hq rfl
      obtain ⟨hmem, -⟩ := htop round s.queue hne
      by_cases hbig : (top round s.queue).2 > narrow + (WordSize : Int)
      · rw [if_pos hbig]
        exact hsim.inResult
      · rw [if_neg hbig]
        have hpos : 1 ≤ (top round s.queue).2 := hsim.positive _ hmem
        by_cases hskip : distanceAtMost s.distances (top round s.queue).1 (top round s.queue).2
            = true
        · rw [if_pos hskip]
          refine ih (round + 1) _ ⟨hsim.inResult, ?_, hsim.start, ?_⟩
          · intro e he
            exact hsim.queued e (List.mem_of_mem_erase he)
          · intro e he
            exact hsim.positive e (List.mem_of_mem_erase he)
        · rw [if_neg hskip]
          have hnle : ¬ distLE s.distances (top round s.queue).1 (top round s.queue).2 :=
            fun hc => hskip ((distanceAtMost_iff _ _ _).mpr hc)
          have hnotstart : ¬ isStartVertex entries minScore wide (top round s.queue).1 := by
            rintro ⟨e, he, hen, hes⟩
            have h0 := hsim.start e he (hsame e he hes)
            rw [hen] at h0
            exact hnle ⟨0, h0, by omega⟩
          obtain ⟨d2, hd2, hd2le⟩ := hsim.queued _ hmem (by omega)
          have hres1 : ∀ v ∈ s.result ++ [(top round s.queue).1], v ∈ final.result := by
            intro v hv
            rcases List.mem_append.mp hv with h | h
            · exact hsim.inResult v h
            · simp only [List.mem_singleton] at h
              rw [h]; exact hclosed.inResult _ d2 hd2
          have hstart1 : ∀ e ∈ entries, e.minScore ≤ minScore + narrow →
              setDistance s.distances (top round s.queue).1 (top round s.queue).2 e.node
                = some 0 := by
            intro e he hes
            have hev : e.node ≠ (top round s.queue).1 := by
              intro hc
              exact hnotstart ⟨e, he, hc, by omega⟩
            rw [setDistance_other _ _ hev]
            exact hsim.start e he hes
          by_cases hcut : s.currentWidth + graph.NodeLength (top round s.queue).1 ≥ cutoff
          · rw [if_pos hcut]
            exact hres1
          · rw [if_neg hcut]
            refine ih (round + 1) _ ⟨hres1, ?_, hstart1, ?_⟩
            · intro e he hew
              rcases List.mem_append.mp he with h | h
              · exact hsim.queued e (List.mem_of_mem_erase h) hew
              · obtain ⟨n, hn, rfl⟩ := List.mem_map.mp h
                have hew' : (top round s.queue).2 + (graph.NodeLength (top round s.queue).1 : Int)
                    ≤ wide + (WordSize : Int) := hew
                exact distLE_mono
                  (hclosed.push _ d2 hd2 hnotstart n hn (by omega)) (by omega)
            · intro e he
              rcases List.mem_append.mp he with h | h
              · exact hsim.positive e (List.mem_of_mem_erase h)
              · obtain ⟨n, _, rfl⟩ := List.mem_map.mp h
                show 1 ≤ (top round s.queue).2 + (graph.NodeLength (top round s.queue).1 : Int)
                omega

theorem leastEntry_cons_cons (e e2 : Nat × Int) (rest : List (Nat × Int)) :
    leastEntry (e :: e2 :: rest)
      = if e.2 ≤ (leastEntry (e2 :: rest)).2 then e else leastEntry (e2 :: rest) := rfl

theorem leastEntry_least (queue : List (Nat × Int)) (hne : queue ≠ []) :
    leastEntry queue ∈ queue ∧ ∀ x ∈ queue, (leastEntry queue).2 ≤ x.2 := by
  induction queue with
  | nil => exact absurd rfl hne
  | cons e rest ih =>
    cases rest with
    | nil => simp [leastEntry]
    | cons e2 rest2 =>
      obtain ⟨h1, h2⟩ := ih (List.cons_ne_nil _ _)
      rw [leastEntry_cons_cons]
      by_cases hc : e.2 ≤ (leastEntry (e2 :: rest2)).2
      · rw [if_pos hc]
        refine ⟨List.mem_cons_self _ _, ?_⟩
        intro x hx
        rcases List.mem_cons.mp hx with h | h
        · rw [h]
        · have := h2 x h
          omega
      · rw [if_neg hc]
        refine ⟨List.mem_cons_of_mem _ h1, ?_⟩
        intro x hx
        rcases List.mem_cons.mp hx with h | h
        · rw [h]; omega
        · exact h2 x h

theorem leastEntry_topIsLeast : TopIsLeast (fun _ => leastEntry) :=
  fun _ queue hne => leastEntry_least queue hne

/-- C13 (amended): the band function is monotone in the bandwidth when the run with the
larger bandwidth b2 ends at its last return statement (currentWidth never reaches
AlternateMethodCutoff) and no vertex of the previous slice is a start vertex with b2
only: for the same graph, previous slice and minimum score and b1 <= b2, every vertex
that projectForwardFromMinScore returns with b1 is also returned with b2. The end score
of a start vertex is not below the minimum score, as the source asserts, and the top of
the priority queue is any entry of least priority. -/
theorem projectForward_monotone (graph : AlignmentGraph) (AlternateMethodCutoff : Nat)
    (top1 top2 : Nat → List (Nat × Int) → Nat × Int) (fuel1 fuel2 : Nat) (minScore : Int)
    (previousSlice : List BandEntry) (b1 b2 : Int)
    (htop1 : TopIsLeast top1) (htop2 : TopIsLeast top2) (hb : b1 ≤ b2)
    (hscore : ∀ e ∈ previousSlice, e.minScore ≤ minScore + b2 → minScore ≤ e.endScore)
    (hsame : ∀ e ∈ previousSlice, e.minScore ≤ minScore + b2 → e.minScore ≤ minScore + b1)
    (hend : (projectForwardRun graph AlternateMethodCutoff top2 fuel2 minScore previousSlice
      b2).ending = ProjectEnd.atEnd) :
    ∀ v ∈ projectForwardFromMinScore graph AlternateMethodCutoff top1 fuel1 minScore
        previousSlice b1,
      v ∈ projectForwardFromMinScore graph AlternateMethodCutoff top2 fuel2 minScore
        previousSlice b2 := by
  have hinit : BandInv graph [] minScore b2
      { distances := fun _ => none, result := [], queue := [], currentWidth := 0 } :=
    ⟨fun e he => absurd he (List.not_mem_nil _), fun e he => absurd he (List.not_mem_nil _),
      fun u d hu => by simp at hu, fun v d hv => by simp at hv,
      fun e he => absurd he (List.not_mem_nil _)⟩
  have hclosed : BandClosed graph previousSlice minScore b2
      (projectForwardRun graph AlternateMethodCutoff top2 fuel2 minScore previousSlice
        b2).state := by
    unfold projectForwardRun at hend ⊢
    by_cases hstop : (projectSeeds graph AlternateMethodCutoff minScore b2 previousSlice
        { distances := fun _ => none, result := [], queue := [], currentWidth := 0 }).2 = true
    · simp only [hstop, if_true] at hend
      exact ProjectEnd.noConfusion hend
    · simp only [hstop] at hend ⊢
      have hstop' : (projectSeeds graph AlternateMethodCutoff minScore b2 previousSlice
          { distances := fun _ => none, result := [], queue := [], currentWidth := 0 }).2
            = false := by
        simpa using hstop
      have hinv := (projectSeeds_inv graph AlternateMethodCutoff minScore b2 previousSlice []
        _ hscore hinit (fun u d hu => by simp at hu) hstop').1
      rw [List.nil_append] at hinv
      exact projectLoop_closed graph AlternateMethodCutoff b2 top2 previousSlice minScore
        htop2 fuel2 0 _ hinv hend
  have hsim0 : BandSim
      (projectForwardRun graph AlternateMethodCutoff top2 fuel2 minScore previousSlice b2).state
      [] minScore b1 b2
      { distances := fun _ => none, result := [], queue := [], currentWidth := 0 } :=
    ⟨fun v hv => absurd hv (List.not_mem_nil _), fun e he => absurd he (List.not_mem_nil _),
      fun e he => absurd he (List.not_mem_nil _), fun e he => absurd he (List.not_mem_nil _)⟩
  obtain ⟨hres, hsim⟩ := projectSeeds_sim _ graph AlternateMethodCutoff minScore b1 b2
    previousSlice hclosed hb previousSlice [] _ (fun e he => he)
    (fun e he hes => hscore e he (by omega)) hsim0
  rw [List.nil_append] at hsim
  intro v hv
  show v ∈ (projectForwardRun graph AlternateMethodCutoff top2 fuel2 minScore previousSlice
    b2).state.result
  unfold projectForwardFromMinScore at hv
  unfold projectForwardRun at hv
  by_cases hstop : (projectSeeds graph AlternateMethodCutoff minScore b1 previousSlice
      { distances := fun _ => none, result := [], queue := [], currentWidth := 0 }).2 = true
  · simp only [hstop, if_true] at hv
    exact hres v hv
  · simp only [hstop] at hv
    exact projectLoop_sim _ graph AlternateMethodCutoff minScore b1 b2 previousSlice top1
      hclosed hb hsame htop1 fuel1 0 _ (hsim (by simpa using hstop)) v hv

/-- C13 (counterexample): a previous slice of two vertices with minimum score 0 and
AlternateMethodCutoff 3: with bandwidth 2 only vertex 1 is a start vertex and is
returned; with bandwidth 10 vertex 0, of length 3, is a start vertex as well, the
cutoff is reached at once, and vertex 1 is not returned. -/
theorem projectForward_monotone_counterexample :
    TopIsLeast (fun _ => leastEntry) ∧ (2 : Int) ≤ 10
    ∧ 1 ∈ projectForwardFromMinScore
        { nodeCount := 2, NodeLength := fun n => if n = 0 then 3 else 1,
          outNeighbors := fun _ => [] }
        3 (fun _ => leastEntry) 10 0 [⟨0, 5, 5⟩, ⟨1, 0, 0⟩] 2
    ∧ 1 ∉ projectForwardFromMinScore
        { nodeCount := 2, NodeLength := fun n => if n = 0 then 3 else 1,
          outNeighbors := fun _ => [] }
        3 (fun _ => leastEntry) 10 0 [⟨0, 5, 5⟩, ⟨1, 0, 0⟩] 10 :=
  ⟨leastEntry_topIsLeast, by decide, by decide, by decide⟩

/-- C13 (witness): projectForward_monotone on a chain of three vertices of length 1 with
the bandwidths 3 and 4: vertex 2, returned with 3, is returned with 4. -/
theorem projectForward_monotone_witness :
    2 ∈ projectForwardFromMinScore
        { nodeCount := 3, NodeLength := fun _ => 1,
          outNeighbors := fun n => if n = 0 then [1] else if n = 1 then [2] else [] }
        1000 (fun _ => leastEntry) 10 0 [⟨0, 0, 0⟩] 4 :=
  projectForward_monotone _ 1000 _ _ 10 10 0 [⟨0, 0, 0⟩] 3 4 leastEntry_topIsLeast
    leastEntry_topIsLeast (by decide) (by decide) (by decide) (by decide) 2 (by decide)

/-- The band function may lose vertices at a larger bandwidth without reaching the
cutoff: vertex 1, of length 66 and end score 69, is reached from vertex 0 with
bandwidth 3 and passes the search on to vertex 2; with bandwidth 4 it is a start
vertex whose end score is above the width, and vertex 2 is not reached. -/
theorem projectForward_new_start_vertex :
    (projectForwardRun
        { nodeCount := 3, NodeLength := fun n => if n = 1 then 66 else 1,
          outNeighbors := fun n => if n = 0 then [1] else if n = 1 then [2] else [] }
        1000 (fun _ => leastEntry) 10 0 [⟨0, 0, 0⟩, ⟨1, 4, 69⟩] 4).ending = ProjectEnd.atEnd
    ∧ 2 ∈ projectForwardFromMinScore
        { nodeCount := 3, NodeLength := fun n => if n = 1 then 66 else 1,
          outNeighbors := fun n => if n = 0 then [1] else if n = 1 then [2] else [] }
        1000 (fun _ => leastEntry) 10 0 [⟨0, 0, 0⟩, ⟨1, 4, 69⟩] 3
    ∧ 2 ∉ projectForwardFromMinScore
        { nodeCount := 3, NodeLength := fun n => if n = 1 then 66 else 1,
          outNeighbors := fun n => if n = 0 then [1] else if n = 1 then [2] else [] }
        1000 (fun _ => leastEntry) 10 0 [⟨0, 0, 0⟩, ⟨1, 4, 69⟩] 4 :=
  ⟨by decide, by decide, by decide⟩

/-! ## The choice of the method -/

theorem finalizeAlternateSlice_j {κ : Type} (slice : DPSlice κ) (currentBand : List Bool)
    (uninitializedValue bandwidth : Int) :
    (finalizeAlternateSlice slice currentBand uninitializedValue bandwidth).1.j = slice.j := rfl

theorem fillDPSlice_j {κ : Type} (calls : FillCalls κ) (sequence : List Char)
    (slice previousSlice : DPSlice κ) (previousBand currentBand : List Bool) :
    (fillDPSlice calls sequence slice previousSlice previousBand currentBand).j = slice.j := rfl

/-- C14: pickMethodAndExtendFill fills the new block with the bit-parallel method
(fillDPSlice, which calls calculateSlice) exactly when the total length of the vertices
that the band function returns is less than AlternateMethodCutoff, and with
calculateSliceAlternate followed by finalizeAlternateSlice otherwise; in both cases the
new block has j = previous.j + 64. -/
theorem pickMethodAndExtendFill_method {κ : Type} [Inhabited κ] (limits : TypeLimits)
    (calls : FillCalls κ) (sequence : List Char) (previous : DPSlice κ)
    (previousBand currentBand : List Bool) (bandwidth : Int) :
    ((pickMethodAndExtendFill limits calls sequence previous previousBand currentBand
        bandwidth).method = FillMethod.bitvector
      ↔ ((calls.rowBandFunction previous previousBand bandwidth).map calls.NodeLength).sum
          < calls.AlternateMethodCutoff)
    ∧ ((pickMethodAndExtendFill limits calls sequence previous previousBand currentBand
        bandwidth).method = FillMethod.bitvector →
        (pickMethodAndExtendFill limits calls sequence previous previousBand currentBand
          bandwidth).slice
          = (fillBitvector limits calls sequence previous previousBand currentBand bandwidth).1
        ∧ (fillBitvector limits calls sequence previous previousBand currentBand
            bandwidth).1.minScore
          = (calls.calculateSlice sequence (previous.j + 64) 
              ((calls.rowBandFunction previous previousBand bandwidth).foldl
                (fun scores node => calls.addNode scores node (calls.NodeLength node)) [])
              previous.scores (calls.rowBandFunction previous previousBand bandwidth)
              ((calls.rowBandFunction previous previousBand bandwidth).foldl
                (fun band node => band.set node true) currentBand)
              previousBand).1.minScore)
    ∧ ((pickMethodAndExtendFill limits calls sequence previous previousBand currentBand
        bandwidth).method = FillMethod.alternate →
        (pickMethodAndExtendFill limits calls sequence previous previousBand currentBand
          bandwidth).slice
          = (fillAlternate limits calls sequence previous currentBand bandwidth).1
        ∧ (fillAlternate limits calls sequence previous currentBand bandwidth).1.minScore
          = (calls.calculateSliceAlternate sequence (previous.j + 64) [] previous
              bandwidth).1.minScore)
    ∧ (pickMethodAndExtendFill limits calls sequence previous previousBand currentBand
        bandwidth).slice.j = previous.j + 64 := by
  unfold pickMethodAndExtendFill
  have hn : (extendDPSlice limits calls previous previousBand bandwidth).nodes
      = calls.rowBandFunction previous previousBand bandwidth := rfl
  simp only [hn]
  by_cases hc : ((calls.rowBandFunction previous previousBand bandwidth).map
      calls.NodeLength).sum < calls.AlternateMethodCutoff
  · rw [if_pos hc]
    exact ⟨⟨fun _ => hc, fun _ => rfl⟩, fun _ => ⟨rfl, rfl⟩,
      fun h => FillMethod.noConfusion h, rfl⟩
  · rw [if_neg hc]
    exact ⟨⟨fun h => FillMethod.noConfusion h, fun h => absurd h hc⟩,
      fun h => FillMethod.noConfusion h, fun _ => ⟨rfl, rfl⟩, rfl⟩

/-- C14 (witness): pickMethodAndExtendFill_method for a band of one vertex of length 5 and
the cutoff 2: the block is filled by the alternate method. -/
theorem pickMethodAndExtendFill_method_witness :
    (pickMethodAndExtendFill (κ := Unit) ⟨-1000, 1000, 1000000⟩
      { NodeLength := fun _ => 5, AlternateMethodCutoff := 2,
        rowBandFunction := fun _ _ _ => [0], addNode := fun scores _ _ => scores,
        calculateSlice := fun _ _ scores _ _ _ _ => (⟨0, [], 0⟩, scores),
        calculateSliceAlternate := fun _ _ scores _ _ => (⟨0, [], 0⟩, scores),
        NextState := fun state _ _ => state }
      ['A'] (DPSlice.default ⟨-1000, 1000, 1000000⟩) [true] [false] 10).method
      ≠ FillMethod.bitvector :=
  fun h => absurd ((pickMethodAndExtendFill_method (κ := Unit) ⟨-1000, 1000, 1000000⟩
      { NodeLength := fun _ => 5, AlternateMethodCutoff := 2,
        rowBandFunction := fun _ _ _ => [0], addNode := fun scores _ _ => scores,
        calculateSlice := fun _ _ scores _ _ _ _ => (⟨0, [], 0⟩, scores),
        calculateSliceAlternate := fun _ _ scores _ _ => (⟨0, [], 0⟩, scores),
        NextState := fun state _ _ => state }
      ['A'] (DPSlice.default ⟨-1000, 1000, 1000000⟩) [true] [false] 10).1.mp h) (by decide)

/-- C15 (counterexample): a band of one vertex of length 1, below the cutoff 2, is filled
by the bit-parallel method and not by the alternate one, whatever the two calculators
compute. -/
theorem pickMethodAndExtendFill_narrow_counterexample :
    ([0].map (fun _ : Nat => 1)).sum < 2
    ∧ (pickMethodAndExtendFill (κ := Unit) ⟨-1000, 1000, 1000000⟩
        { NodeLength := fun _ => 1, AlternateMethodCutoff := 2,
          rowBandFunction := fun _ _ _ => [0], addNode := fun scores _ _ => scores,
          calculateSlice := fun _ _ scores _ _ _ _ => (⟨0, [], 0⟩, scores),
          calculateSliceAlternate := fun _ _ scores _ _ => (⟨0, [], 0⟩, scores),
          NextState := fun state _ _ => state }
        ['A'] (DPSlice.default ⟨-1000, 1000, 1000000⟩) [true] [false] 10).method
        = FillMethod.bitvector
    ∧ (pickMethodAndExtendFill (κ := Unit) ⟨-1000, 1000, 1000000⟩
        { NodeLength := fun _ => 1, AlternateMethodCutoff := 2,
          rowBandFunction := fun _ _ _ => [0], addNode := fun scores _ _ => scores,
          calculateSlice := fun _ _ scores _ _ _ _ => (⟨0, [], 0⟩, scores),
          calculateSliceAlternate := fun _ _ scores _ _ => (⟨0, [], 0⟩, scores),
          NextState := fun state _ _ => state }
        ['A'] (DPSlice.default ⟨-1000, 1000, 1000000⟩) [true] [false] 10).method
        ≠ FillMethod.alternate := by
  refine ⟨by decide, rfl, ?_⟩
  intro h
  exact FillMethod.noConfusion h

/-- C15 (amended): the alternate cell-by-cell method is the method of the wide bands:
calculateSliceAlternate is chosen exactly when the total length of the band is at or above
AlternateMethodCutoff, and the bit-parallel calculateSlice exactly for the bands below
the cutoff. -/
theorem pickMethodAndExtendFill_alternate_iff {κ : Type} [Inhabited κ] (limits : TypeLimits)
    (calls : FillCalls κ) (sequence : List Char) (previous : DPSlice κ)
    (previousBand currentBand : List Bool) (bandwidth : Int) :
    ((pickMethodAndExtendFill limits calls sequence previous previousBand currentBand
        bandwidth).method = FillMethod.alternate
      ↔ calls.AlternateMethodCutoff
          ≤ ((calls.rowBandFunction previous previousBand bandwidth).map calls.NodeLength).sum)
    ∧ ((pickMethodAndExtendFill limits calls sequence previous previousBand currentBand
        bandwidth).method = FillMethod.bitvector
      ↔ ((calls.rowBandFunction previous previousBand bandwidth).map calls.NodeLength).sum
          < calls.AlternateMethodCutoff) := by
  unfold pickMethodAndExtendFill
  have hn : (extendDPSlice limits calls previous previousBand bandwidth).nodes
      = calls.rowBandFunction previous previousBand bandwidth := rfl
  simp only [hn]
  by_cases hc : ((calls.rowBandFunction previous previousBand bandwidth).map
      calls.NodeLength).sum < calls.AlternateMethodCutoff
  · rw [if_pos hc]
    exact ⟨⟨fun h => FillMethod.noConfusion h, fun h => absurd hc (by omega)⟩,
      ⟨fun _ => hc, fun _ => rfl⟩⟩
  · rw [if_neg hc]
    exact ⟨⟨fun _ => by omega, fun _ => rfl⟩,
      ⟨fun h => FillMethod.noConfusion h, fun h => absurd h hc⟩⟩

/-! ## The end of a full-start alignment and the ramp retry -/

/-- C16: when the table of the full-start alignment has no slices or no blocks,
getTraceFromTable returns the maximum score with an empty trace, and
getBacktraceFullStart then calls back() on the empty trace (undefined behaviour, the
result none): AlignOneWay does not get to its two tests and returns no AlignmentResult
with alignmentFailed set. -/
theorem AlignOneWay_empty_table {κ β α : Type} [Inhabited κ] (limits : TypeLimits)
    (calls : FullStartCalls κ β α) (graph : AlignmentGraph) (seq_id : String)
    (sequence : List Char) (dynamicRowStart : Int) (time timeEnd : Nat) (table : DPTable κ β)
    (htable : fullStartTable limits calls graph sequence = some table)
    (hempty : table.slices = [] ∨ table.bandwidthPerSlice = []) :
    getTraceFromTable limits calls (padSequence sequence) table = (limits.scoreTypeMax, [])
    ∧ getBacktraceFullStart limits calls graph sequence = none
    ∧ AlignOneWay limits calls graph seq_id sequence dynamicRowStart time timeEnd = none := by
  have h1 : getTraceFromTable limits calls (padSequence sequence) table
      = (limits.scoreTypeMax, []) := by
    unfold getTraceFromTable
    rcases hempty with h | h
    · rw [h]; rfl
    · rw [h]
      by_cases hs : table.slices.length = 0
      · rw [if_pos hs]
      · rw [if_neg hs]; rfl
  have h2 : getBacktraceFullStart limits calls graph sequence = none := by
    unfold getBacktraceFullStart
    simp only [htable, h1]
    rfl
  refine ⟨h1, h2, ?_⟩
  unfold AlignOneWay
  rw [h2]

/-- C16 (witness): AlignOneWay_empty_table for a table whose only block the estimator
judges wrong: removeWronglyAlignedEnd clears the slices. -/
theorem AlignOneWay_empty_table_witness :
    AlignOneWay (κ := Bool) (β := Unit) (α := Unit) ⟨-1000, 1000, 1000000⟩
      { CurrentlyCorrect := fun state => state, FalseFromCorrect := fun _ => false,
        getSqrtSlices := fun _ startSlice _ frequency =>
          { slices := [startSlice], samplingFrequency := frequency, bandwidthPerSlice := [10],
            correctness := [false], backtraceOverrides := [] },
        traceFromSlices := fun _ _ => (0, []),
        traceToAlignment := fun _ _ _ _ cells => ⟨(), false, cells, 0, none, none⟩,
        emptyRecord := () }
      { nodeCount := 1, NodeLength := fun _ => 1, outNeighbors := fun _ => [] }
      "read" ['A'] 64 0 0 = none :=
  (AlignOneWay_empty_table (κ := Bool) (β := Unit) (α := Unit) ⟨-1000, 1000, 1000000⟩
      { CurrentlyCorrect := fun state => state, FalseFromCorrect := fun _ => false,
        getSqrtSlices := fun _ startSlice _ frequency =>
          { slices := [startSlice], samplingFrequency := frequency, bandwidthPerSlice := [10],
            correctness := [false], backtraceOverrides := [] },
        traceFromSlices := fun _ _ => (0, []),
        traceToAlignment := fun _ _ _ _ cells => ⟨(), false, cells, 0, none, none⟩,
        emptyRecord := () }
      { nodeCount := 1, NodeLength := fun _ => 1, outNeighbors := fun _ => [] }
      "read" ['A'] 64 0 0
      { slices := [], samplingFrequency := 1, bandwidthPerSlice := [], correctness := [],
        backtraceOverrides := [] }
      rfl (Or.inl rfl)).2.2

theorem shortenBacktraceOverrideTemps_step {κ : Type} [Inhabited κ] (limits : TypeLimits)
    (fuel : Nat) (temps : List (DPSlice κ)) (back : DPSlice κ) (lastSliceJ : Int)
    (hback : back.j > lastSliceJ) :
    shortenBacktraceOverrideTemps limits (fuel + 1) (temps ++ [back]) lastSliceJ
      = shortenBacktraceOverrideTemps limits fuel (temps ++ [DPSlice.default limits])
          lastSliceJ := by
  rw [shortenBacktraceOverrideTemps]
  simp only [List.getLast?_append, List.getLast?_singleton, Option.or_some, hback, if_true,
    List.dropLast_concat]

/-- C17: the loop of getSqrtSlices that is to drop the temporary slices above lastSlice.j
swaps the last temporary with a default-constructed DPSlice and never shortens the
vector; the j of a default-constructed DPSlice is the maximum of LengthType, so once
the loop is entered its condition stays true: no number of rounds ends it. -/
theorem shortenBacktraceOverrideTemps_never_ends {κ : Type} [Inhabited κ]
    (limits : TypeLimits) (temps : List (DPSlice κ)) (back : DPSlice κ) (lastSliceJ : Int)
    (hlast : lastSliceJ < limits.lengthTypeMax) (hback : back.j > lastSliceJ) (fuel : Nat) :
    shortenBacktraceOverrideTemps limits fuel (temps ++ [back]) lastSliceJ = none := by
  induction fuel generalizing back with
  | zero => rfl
  | succ fuel ih =>
    rw [shortenBacktraceOverrideTemps_step limits fuel temps back lastSliceJ hback]
    exact ih (DPSlice.default limits) hlast

/-- C17 (witness): shortenBacktraceOverrideTemps_never_ends for one temporary slice with
j = 128 above lastSlice.j = 64, after a thousand rounds. -/
theorem shortenBacktraceOverrideTemps_never_ends_witness :
    shortenBacktraceOverrideTemps (κ := Unit) ⟨-1000, 1000, 18446744073709551615⟩ 1000
      [{ (DPSlice.default ⟨-1000, 1000, 18446744073709551615⟩ : DPSlice Unit) with j := 128 }]
      64 = none :=
  shortenBacktraceOverrideTemps_never_ends (κ := Unit) ⟨-1000, 1000, 18446744073709551615⟩ []
    { (DPSlice.default ⟨-1000, 1000, 18446744073709551615⟩ : DPSlice Unit) with j := 128 }
    64 (by decide) (by decide) 1000

/-- C18 (witness): main_proceeds_iff for the options -t 4 -b 10 -i. -/
theorem main_proceeds_iff_witness :
    (mainChecks { initialParams with numThreads := 4, initialBandwidth := 10 } true).ending
      = MainEnd.alignReadsCalled :=
  (main_proceeds_iff { initialParams with numThreads := 4, initialBandwidth := 10 } true).1.mpr
    (by decide)

/-! ## The cells of the alternate method -/

theorem wshl_one_nat (k : Nat) (hk : k < 64) : wshl 1 ((k : Nat) : Int) = 2 ^ k := by
  unfold wshl shiftCount
  have h1 : (((k : Nat) : Int) % 64).toNat = k := by omega
  rw [h1, Nat.one_shiftLeft]
  apply Nat.mod_eq_of_lt
  rw [wordMod_eq]
  exact Nat.pow_lt_pow_right (by decide) hk

theorem testBit_wshl_nat (x k i : Nat) (hk : k < 64) :
    (wshl x ((k : Nat) : Int)).testBit i = (decide (i < 64) && decide (k ≤ i) && x.testBit (i - k)) := by
  unfold wshl shiftCount
  have h1 : (((k : Nat) : Int) % 64).toNat = k := by omega
  rw [h1, wordMod_eq, Nat.testBit_mod_two_pow, Nat.testBit_shiftLeft]
  simp [Bool.and_assoc]

theorem bitCount_congr (x y n : Nat) (h : ∀ i < n, x.testBit i = y.testBit i) :
    bitCount x n = bitCount y n := by
  induction n with
  | zero => rfl
  | succ n ih =>
    rw [bitCount, bitCount, ih (fun i hi => h i (by omega)), h n (by omega)]

theorem bitCount_all_set (x n : Nat) (hn : n ≤ 64) (h : ∀ i < n, x.testBit i = true) :
    bitCount x n = n := by
  rw [bitCount_congr x AllOnes n (fun i hi => by rw [h i hi, testBit_allOnes]; simp; omega)]
  exact bitCount_allOnes n hn

theorem bitCount_none_set (x n : Nat) (h : ∀ i < n, x.testBit i = false) :
    bitCount x n = 0 := by
  rw [bitCount_congr x 0 n (fun i hi => by rw [h i hi, Nat.zero_testBit])]
  exact bitCount_zero_word n

theorem and_eq_zero_of_testBit (x y : Nat) (h : ∀ i, (x.testBit i && y.testBit i) = false) :
    x &&& y = 0 := by
  apply Nat.eq_of_testBit_eq
  intro i
  rw [Nat.testBit_and, h i, Nat.zero_testBit]


theorem setValue_first (s : WordSlice) (hp : s.confirmedRows.partialRow = false)
    (row : Nat) (hrow : row ≤ 63) (value : Int) :
    CellInv (s.setValue row value) row ∧ (s.setValue row value).getValue row = value := by
  have hW : WordSize = 64 := rfl
  have hVP : ∀ i, (s.setValue row value).VP.testBit i = (decide (i < 64) && decide (row + 1 ≤ i)) := by
    intro i
    simp only [setValue, hp, Bool.not_false, if_true]
    by_cases h : row < WordSize - 1
    · have h63 : row + 1 < 64 := by unfold WordSize at h; omega
      rw [if_pos h, testBit_wshl_nat _ _ _ h63, testBit_allOnes]
      by_cases h1 : i < 64 <;> by_cases h2 : row + 1 ≤ i <;> simp [h1, h2]
      all_goals omega
    · have h63 : row = 63 := by unfold WordSize at h; omega
      rw [if_neg h]
      simp only [AllZeros, Nat.zero_testBit]
      by_cases h1 : i < 64 <;> by_cases h2 : row + 1 ≤ i <;> simp [h1, h2] <;> omega
  have hVN : ∀ i, (s.setValue row value).VN.testBit i = decide (i < row + 1) := by
    intro i
    simp only [setValue, hp, Bool.not_false, if_true]
    by_cases h : row < WordSize - 1
    · have h63 : row + 1 < 64 := by unfold WordSize at h; omega
      rw [if_pos h]
      by_cases h1 : i < 64
      · rw [testBit_wnot _ _ h1, testBit_wshl_nat _ _ _ h63, testBit_allOnes]
        rw [Bool.eq_iff_iff]
        simp only [Bool.not_eq_true', Bool.and_eq_true, decide_eq_true_eq,
          decide_eq_false_iff_not, Bool.and_eq_false_imp]
        omega
      · have hlt := wnot_lt _ (wshl_lt AllOnes ((row + 1 : Nat) : Int))
        rw [testBit_of_lt_wordMod hlt (by omega)]
        simp; omega
    · have h63 : row = 63 := by unfold WordSize at h; omega
      rw [if_neg h, testBit_allOnes]
      by_cases h1 : i < 64 <;> simp [h1] <;> omega
  have hsbs : (s.setValue row value).scoreBeforeStart = value + row + 1 := by
    simp only [setValue, hp, Bool.not_false, if_true]
  have hend : (s.setValue row value).scoreEnd = value + 63 - row := by
    simp only [setValue, hp, Bool.not_false, if_true, WordSize]
    push_cast; ring
  have hconf : (s.setValue row value).confirmedRows = ⟨(row : Int), true⟩ := by
    simp only [setValue, hp, Bool.not_false, if_true]
  have hval : (s.setValue row value).getValue row = value := by
    rw [getValue_eq _ _ hrow, hsbs,
      bitCount_none_set _ _ (fun i hi => by rw [hVP]; simp; omega),
      bitCount_all_set _ _ (by omega) (fun i hi => by rw [hVN]; simp; omega)]
    push_cast; ring
  refine ⟨⟨⟨?_, ?_, ?_⟩, hrow, hconf, ?_, ?_, ?_⟩, hval⟩
  · exact lt_wordMod_of_testBit _ (fun i hi => by rw [hVP]; simp; omega)
  · exact lt_wordMod_of_testBit _ (fun i hi => by rw [hVN]; simp; omega)
  · apply and_eq_zero_of_testBit
    intro i; rw [hVP, hVN]
    by_cases h1 : i < 64 <;> by_cases h2 : row + 1 ≤ i <;> simp [h1, h2] <;> omega
  · intro i h1 h2
    rw [hVP, hVN]; simp; omega
  · rw [hval, hend]; ring
  · rw [hval, hsbs]

theorem setStep_testBit (VP VN k : Nat) (step : Int) (hs : step = 0 ∨ step = 1 ∨ step = 2)
    (i : Nat) (hi : i < 64) :
    (setStep VP VN (2 ^ k) step).1.testBit i
        = (if i = k then decide (step = 2) else VP.testBit i)
    ∧ (setStep VP VN (2 ^ k) step).2.testBit i
        = (if i = k then decide (step = 0) else VN.testBit i) := by
  have hm : ∀ x : Nat, (x &&& wnot (2 ^ k)).testBit i = (x.testBit i && !decide (i = k)) := by
    intro x
    rw [Nat.testBit_and, testBit_wnot _ _ hi, Nat.testBit_two_pow]
    by_cases h : k = i
    · simp [h]
    · have h2 : ¬ i = k := fun e => h e.symm
      simp [h, h2]
  have ho : ∀ x : Nat, (x ||| 2 ^ k).testBit i = (x.testBit i || decide (i = k)) := by
    intro x
    rw [Nat.testBit_or, Nat.testBit_two_pow]
    by_cases h : k = i
    · simp [h]
    · have h2 : ¬ i = k := fun e => h e.symm
      simp [h, h2]
  by_cases hik : i = k
  · subst hik
    rcases hs with rfl | rfl | rfl <;> simp [setStep, hm, ho]
  · rcases hs with rfl | rfl | rfl <;> simp [setStep, hm, ho, hik]

theorem setStep_lt (VP VN k : Nat) (step : Int) (hk : k < 64) (hVP : VP < wordMod)
    (hVN : VN < wordMod) :
    (setStep VP VN (2 ^ k) step).1 < wordMod ∧ (setStep VP VN (2 ^ k) step).2 < wordMod := by
  have hmask : 2 ^ k < wordMod := by
    rw [wordMod_eq]; exact Nat.pow_lt_pow_right (by decide) hk
  have h1 : VP &&& wnot (2 ^ k) < wordMod := and_lt_wordMod _ (wnot_lt _ hmask)
  have h2 : VN &&& wnot (2 ^ k) < wordMod := and_lt_wordMod _ (wnot_lt _ hmask)
  have h3 : VN ||| 2 ^ k < wordMod := or_lt_wordMod hVN hmask
  have h4 : VP ||| 2 ^ k < wordMod := or_lt_wordMod hVP hmask
  unfold setStep
  split_ifs <;> exact ⟨by assumption, by assumption⟩

theorem setValueBits_lt (scores : Nat → Int) (n : Nat) (hn : n ≤ 63) (v : Nat × Nat)
    (h1 : v.1 < wordMod) (h2 : v.2 < wordMod) :
    (setValueBits scores n v).1 < wordMod ∧ (setValueBits scores n v).2 < wordMod := by
  induction n with
  | zero => exact ⟨h1, h2⟩
  | succ n ih =>
    have ih := ih (by omega)
    show (setStep _ _ (wshl 1 ((n + 1 : Nat) : Int)) _).1 < wordMod
      ∧ (setStep _ _ (wshl 1 ((n + 1 : Nat) : Int)) _).2 < wordMod
    rw [wshl_one_nat _ (by omega)]
    exact setStep_lt _ _ _ _ (by omega) ih.1 ih.2

theorem setValueBits_testBit (scores : Nat → Int) (sbs : Int) (VP VN : Nat) (n : Nat)
    (hn : n ≤ 63)
    (hstep : ∀ i ≤ n, stepAt scores sbs i = 0 ∨ stepAt scores sbs i = 1
      ∨ stepAt scores sbs i = 2) (i : Nat) (hi : i < 64) :
    (setValueBits scores n (setStep VP VN 1 (scores 0 + 1 - sbs))).1.testBit i
        = (if i ≤ n then decide (stepAt scores sbs i = 2) else VP.testBit i)
    ∧ (setValueBits scores n (setStep VP VN 1 (scores 0 + 1 - sbs))).2.testBit i
        = (if i ≤ n then decide (stepAt scores sbs i = 0) else VN.testBit i) := by
  induction n with
  | zero =>
    have h0 := hstep 0 (le_refl 0)
    have e : stepAt scores sbs 0 = scores 0 + 1 - sbs := by simp [stepAt]
    rw [e] at h0
    have h := setStep_testBit VP VN 0 _ h0 i hi
    rw [pow_zero] at h
    show (setStep VP VN 1 _).1.testBit i = _ ∧ (setStep VP VN 1 _).2.testBit i = _
    rw [h.1, h.2]
    by_cases hi0 : i = 0
    · subst hi0; simp [e]
    · have : ¬ i ≤ 0 := by omega
      simp [hi0, this]
  | succ n ih =>
    have ih := ih (by omega) (fun i hi => hstep i (by omega))
    have hs := hstep (n + 1) (le_refl _)
    have e : stepAt scores sbs (n + 1) = scores (n + 1) + 1 - scores n := by simp [stepAt]
    rw [e] at hs
    have h := setStep_testBit
      (setValueBits scores n (setStep VP VN 1 (scores 0 + 1 - sbs))).1
      (setValueBits scores n (setStep VP VN 1 (scores 0 + 1 - sbs))).2 (n + 1) _ hs i hi
    show (setStep _ _ (wshl 1 ((n + 1 : Nat) : Int)) _).1.testBit i = _
      ∧ (setStep _ _ (wshl 1 ((n + 1 : Nat) : Int)) _).2.testBit i = _
    rw [wshl_one_nat _ (by omega), h.1, h.2, ih.1, ih.2]
    by_cases hin : i = n + 1
    · subst hin; simp [e]
    · by_cases hle : i ≤ n
      · have : i ≤ n + 1 := by omega
        simp [hin, hle, this]
      · have : ¬ i ≤ n + 1 := by omega
        simp [hin, hle, this]

theorem bits_to_scores (scores : Nat → Int) (sbs : Int) (P N n : Nat)
    (hstep : ∀ i ≤ n, stepAt scores sbs i = 0 ∨ stepAt scores sbs i = 1
      ∨ stepAt scores sbs i = 2)
    (hP : ∀ i ≤ n, P.testBit i = decide (stepAt scores sbs i = 2))
    (hN : ∀ i ≤ n, N.testBit i = decide (stepAt scores sbs i = 0)) :
    ∀ i ≤ n, sbs + (bitCount P (i + 1) : Int) - (bitCount N (i + 1) : Int) = scores i := by
  intro i
  induction i with
  | zero =>
    intro h0
    have hs := hstep 0 h0
    have e : stepAt scores sbs 0 = scores 0 + 1 - sbs := by simp [stepAt]
    simp only [bitCount, hP 0 h0, hN 0 h0, e] at hs ⊢
    rcases hs with h | h | h <;> simp [h] <;> omega
  | succ i ih =>
    intro hi
    have ih := ih (by omega)
    have hs := hstep (i + 1) hi
    have e : stepAt scores sbs (i + 1) = scores (i + 1) + 1 - scores i := by simp [stepAt]
    have e1 : bitCount P (i + 1 + 1)
        = bitCount P (i + 1) + (if P.testBit (i + 1) then 1 else 0) := rfl
    have e2 : bitCount N (i + 1 + 1)
        = bitCount N (i + 1) + (if N.testBit (i + 1) then 1 else 0) := rfl
    rw [e1, e2, hP _ hi, hN _ hi]
    rw [e] at hs ⊢
    rcases hs with h | h | h <;> simp [h] <;> omega

theorem and_one_eq (x : Nat) : ((x &&& 1 : Nat) : Int) = boolInt (x.testBit 0) := by
  rw [Nat.and_one_is_mod, Nat.testBit_zero, boolInt]
  rcases Nat.mod_two_eq_zero_or_one x with h | h <;> simp [h]

theorem setValueScores_eq (s : WordSlice) (rows : Nat) (hinv : CellInv s rows) (i : Nat)
    (hi : i ≤ 63) : setValueScores s i = s.getValue i := by
  induction i with
  | zero =>
    rw [getValue_zero, setValueScores, and_one_eq, and_one_eq]
  | succ i ih =>
    rw [setValueScores, ih (by omega), getValue_succ _ _ hi, hinv.confirmed,
      wshl_one_nat _ (by omega), bitSet_two_pow, bitSet_two_pow]
    by_cases h : ((i + 1 : Nat) : Int) ≤ (rows : Int)
    · rw [if_pos h]
      simp only [boolInt]
    · rw [if_neg h]
      obtain ⟨h1, h2⟩ := hinv.above (i + 1) (by omega) (by omega)
      rw [h1, h2]
      simp [boolInt]

theorem setValue_adjacent (s : WordSlice) (rows : Nat) (hc : s.confirmedRows = ⟨(rows : Int), true⟩)
    (value : Int) (hs : value + 1 - (s.scoreEnd - ((WordSize : Int) - (rows : Int) - 1)) = 0
      ∨ value + 1 - (s.scoreEnd - ((WordSize : Int) - (rows : Int) - 1)) = 1
      ∨ value + 1 - (s.scoreEnd - ((WordSize : Int) - (rows : Int) - 1)) = 2) :
    (s.setValue (rows + 1) value).VP
        = (setStep s.VP s.VN (wshl 1 ((rows + 1 : Nat) : Int))
            (value + 1 - (s.scoreEnd - ((WordSize : Int) - (rows : Int) - 1)))).1
    ∧ (s.setValue (rows + 1) value).VN
        = (setStep s.VP s.VN (wshl 1 ((rows + 1 : Nat) : Int))
            (value + 1 - (s.scoreEnd - ((WordSize : Int) - (rows : Int) - 1)))).2
    ∧ (s.setValue (rows + 1) value).scoreEnd
        = s.scoreEnd - 2 + (value + 1 - (s.scoreEnd - ((WordSize : Int) - (rows : Int) - 1)))
    ∧ (s.setValue (rows + 1) value).scoreBeforeStart = s.scoreBeforeStart
    ∧ (s.setValue (rows + 1) value).confirmedRows = ⟨((rows + 1 : Nat) : Int), true⟩ := by
  have hp : s.confirmedRows.partialRow = true := by rw [hc]
  have hr : s.confirmedRows.rows = (rows : Int) := by rw [hc]
  have hadj : s.confirmedRows.rows = ((rows + 1 : Nat) : Int) - 1 := by rw [hr]; push_cast; ring
  unfold setValue
  rw [hp]
  simp only [Bool.not_true, Bool.false_eq_true, if_false]
  rw [if_pos hadj, hr]
  generalize value + 1 - (s.scoreEnd - ((WordSize : Int) - (rows : Int) - 1)) = step at hs
  rcases hs with rfl | rfl | rfl <;> simp [setStep]
  omega

theorem setValue_general (s : WordSlice) (rows : Nat) (hc : s.confirmedRows = ⟨(rows : Int), true⟩)
    (row : Nat) (hrow : rows + 1 < row) (value : Int) :
    (s.setValue row value).VP
        = (setValueBits (fun i => min (setValueScores s i) (value + row - i)) row
            (setStep s.VP s.VN 1
              (min (setValueScores s 0) (value + row - (0 : Nat)) + 1 - s.scoreBeforeStart))).1
    ∧ (s.setValue row value).VN
        = (setValueBits (fun i => min (setValueScores s i) (value + row - i)) row
            (setStep s.VP s.VN 1
              (min (setValueScores s 0) (value + row - (0 : Nat)) + 1 - s.scoreBeforeStart))).2
    ∧ (s.setValue row value).scoreEnd
        = min (setValueScores s row) (value + row - row) + (WordSize : Int) - 1 - row
    ∧ (s.setValue row value).scoreBeforeStart = s.scoreBeforeStart
    ∧ (s.setValue row value).confirmedRows = ⟨(row : Int), true⟩ := by
  have hp : s.confirmedRows.partialRow = true := by rw [hc]
  have hr : s.confirmedRows.rows = (rows : Int) := by rw [hc]
  have hadj : ¬ s.confirmedRows.rows = (row : Int) - 1 := by rw [hr]; omega
  unfold setValue
  rw [hp]
  simp only [Bool.not_true, Bool.false_eq_true, if_false]
  rw [if_neg hadj]
  exact ⟨rfl, rfl, rfl, rfl, rfl⟩

theorem scoreEnd_eq_getValue_last (w : WordSlice) (hv : w.Valid) :
    sliceInvariant w ↔ w.scoreEnd = w.getValue 63 := by
  unfold sliceInvariant
  rw [getValue_eq w 63 (by omega), popcount_eq_bitCount _ hv.1, popcount_eq_bitCount _ hv.2.1]

theorem getValue_above (s : WordSlice) (rows : Nat) (hinv : CellInv s rows) (k : Nat)
    (hk : rows + k ≤ 63) : s.getValue (rows + k) = s.getValue rows + k := by
  induction k with
  | zero => simp
  | succ k ih =>
    obtain ⟨h1, h2⟩ := hinv.above (rows + k + 1) (by omega) (by omega)
    rw [← Nat.add_assoc, getValue_succ _ _ (by omega), ih (by omega), h1, h2]
    simp [boolInt]; ring

theorem getValue_step_bounds (s : WordSlice) (i : Nat) (hi : i + 1 ≤ 63) :
    s.getValue i - 1 ≤ s.getValue (i + 1) ∧ s.getValue (i + 1) ≤ s.getValue i + 1 := by
  rw [getValue_succ _ _ hi]
  cases s.VP.testBit (i + 1) <;> cases s.VN.testBit (i + 1) <;> simp [boolInt] <;> omega

theorem getValue_zero_bounds (s : WordSlice) :
    s.scoreBeforeStart - 1 ≤ s.getValue 0 ∧ s.getValue 0 ≤ s.scoreBeforeStart + 1 := by
  rw [getValue_zero]
  cases s.VP.testBit 0 <;> cases s.VN.testBit 0 <;> simp [boolInt] <;> omega

theorem cellInv_sliceInvariant (s : WordSlice) (rows : Nat) (hinv : CellInv s rows) :
    sliceInvariant s := by
  rw [scoreEnd_eq_getValue_last _ hinv.valid, hinv.scoreEnd_eq]
  have h := getValue_above s rows hinv (63 - rows) (by have := hinv.rows_le; omega)
  have e : rows + (63 - rows) = 63 := by have := hinv.rows_le; omega
  rw [e] at h
  rw [h]
  have := hinv.rows_le
  push_cast [Nat.cast_sub this]
  ring

theorem setValue_next_adjacent (s : WordSlice) (rows : Nat) (hinv : CellInv s rows)
    (hrow : rows + 1 ≤ 63) (value : Int)
    (hlo : s.getValue rows - 1 ≤ value) (hhi : value ≤ s.getValue rows + 1) :
    CellInv (s.setValue (rows + 1) value) (rows + 1)
    ∧ (s.setValue (rows + 1) value).getValue (rows + 1) = value
    ∧ ∀ j ≤ rows, (s.setValue (rows + 1) value).getValue j = s.getValue j := by
  have hW : (WordSize : Int) = 64 := rfl
  have hold : s.scoreEnd - ((WordSize : Int) - (rows : Int) - 1) = s.getValue rows := by
    rw [hinv.scoreEnd_eq, hW]; ring
  have hs : value + 1 - (s.scoreEnd - ((WordSize : Int) - (rows : Int) - 1)) = 0
      ∨ value + 1 - (s.scoreEnd - ((WordSize : Int) - (rows : Int) - 1)) = 1
      ∨ value + 1 - (s.scoreEnd - ((WordSize : Int) - (rows : Int) - 1)) = 2 := by
    rw [hold]; omega
  obtain ⟨eVP, eVN, eEnd, eSbs, eConf⟩ := setValue_adjacent s rows hinv.confirmed value hs
  rw [wshl_one_nat _ (by omega)] at eVP eVN
  rw [hold] at eVP eVN eEnd hs
  have hbits := fun i hi => setStep_testBit s.VP s.VN (rows + 1) _ hs i hi
  have hlt := setStep_lt s.VP s.VN (rows + 1) (value + 1 - s.getValue rows) (by omega)
    hinv.valid.1 hinv.valid.2.1
  rw [← eVP, ← eVN] at hlt
  have hP : ∀ i, i < 64 → (s.setValue (rows + 1) value).VP.testBit i
      = (if i = rows + 1 then decide (value + 1 - s.getValue rows = 2) else s.VP.testBit i) := by
    intro i hi; rw [eVP]; exact (hbits i hi).1
  have hN : ∀ i, i < 64 → (s.setValue (rows + 1) value).VN.testBit i
      = (if i = rows + 1 then decide (value + 1 - s.getValue rows = 0) else s.VN.testBit i) := by
    intro i hi; rw [eVN]; exact (hbits i hi).2
  have hkeep : ∀ j ≤ rows, (s.setValue (rows + 1) value).getValue j = s.getValue j := by
    intro j hj
    rw [getValue_eq _ _ (by omega), getValue_eq _ _ (by omega), eSbs,
      bitCount_congr (s.setValue (rows + 1) value).VP s.VP (j + 1) (fun i hi => by
        rw [hP i (by omega), if_neg (by omega)]),
      bitCount_congr (s.setValue (rows + 1) value).VN s.VN (j + 1) (fun i hi => by
        rw [hN i (by omega), if_neg (by omega)])]
  have hval : (s.setValue (rows + 1) value).getValue (rows + 1) = value := by
    rw [getValue_succ _ _ hrow, hkeep rows (le_refl _), hP _ (by omega), hN _ (by omega),
      if_pos rfl, if_pos rfl]
    rcases hs with h | h | h <;> simp [h, boolInt] <;> omega
  refine ⟨⟨⟨hlt.1, hlt.2, ?_⟩, hrow, eConf, ?_, ?_, ?_⟩, hval, hkeep⟩
  · apply and_eq_zero_of_testBit
    intro i
    by_cases hi : i < 64
    · rw [hP i hi, hN i hi]
      by_cases hik : i = rows + 1
      · rw [if_pos hik, if_pos hik]
        rcases hs with h | h | h <;> simp [h]
      · rw [if_neg hik, if_neg hik]
        exact testBit_disjoint hinv.valid.2.2 i
    · rw [testBit_of_lt_wordMod hlt.1 (by omega)]; rfl
  · intro i h1 h2
    rw [hP i h2, hN i h2, if_neg (by omega), if_neg (by omega)]
    exact hinv.above i (by omega) h2
  · rw [hval, eEnd, hinv.scoreEnd_eq]; push_cast; ring
  · rw [hval, eSbs]
    have := hinv.before_le
    push_cast; omega

theorem setValue_next_general (s : WordSlice) (rows : Nat) (hinv : CellInv s rows)
    (row : Nat) (hgap : rows + 1 < row) (hrow : row ≤ 63) (value : Int)
    (hlo : s.getValue rows - ((row : Int) - rows) ≤ value)
    (hhi : value ≤ s.getValue rows + ((row : Int) - rows)) :
    CellInv (s.setValue row value) row
    ∧ (s.setValue row value).getValue row = value
    ∧ ∀ j ≤ rows, s.getValue j ≤ value + ((row : Int) - j) →
        (s.setValue row value).getValue j = s.getValue j := by
  have hW : (WordSize : Int) = 64 := rfl
  obtain ⟨eVP, eVN, eEnd, eSbs, eConf⟩ := setValue_general s rows hinv.confirmed row hgap value
  have hsc : ∀ i, i ≤ 63 →
      (fun i : Nat => min (setValueScores s i) (value + row - i)) i
        = min (s.getValue i) (value + row - i) := by
    intro i hi
    show min (setValueScores s i) (value + row - i) = _
    rw [setValueScores_eq s rows hinv i hi]
  have hrowval : s.getValue row = s.getValue rows + ((row : Int) - rows) := by
    have h := getValue_above s rows hinv (row - rows) (by omega)
    rw [show rows + (row - rows) = row by omega] at h
    rw [h]; push_cast [Nat.cast_sub (by omega : rows ≤ row)]; ring
  have hstep : ∀ i ≤ row,
      stepAt (fun i : Nat => min (setValueScores s i) (value + row - i)) s.scoreBeforeStart i = 0
      ∨ stepAt (fun i : Nat => min (setValueScores s i) (value + row - i)) s.scoreBeforeStart i = 1
      ∨ stepAt (fun i : Nat => min (setValueScores s i) (value + row - i)) s.scoreBeforeStart i = 2 := by
    intro i hi
    cases i with
    | zero =>
      have e : stepAt (fun i : Nat => min (setValueScores s i) (value + row - i))
          s.scoreBeforeStart 0
          = min (s.getValue 0) (value + row - (0 : Nat)) + 1 - s.scoreBeforeStart := by
        simp only [stepAt, if_true]
        rw [setValueScores_eq s rows hinv 0 (by omega)]
      rw [e]
      have hb := getValue_zero_bounds s
      have hbl := hinv.before_le
      rcases min_cases (s.getValue 0) (value + row - (0 : Nat)) with ⟨h1, h2⟩ | ⟨h1, h2⟩ <;>
        rw [h1] <;> push_cast at * <;> omega
    | succ i =>
      have e : stepAt (fun i : Nat => min (setValueScores s i) (value + row - i))
          s.scoreBeforeStart (i + 1)
          = min (s.getValue (i + 1)) (value + row - ((i + 1 : Nat) : Int)) + 1
            - min (s.getValue i) (value + row - (i : Int)) := by
        simp only [stepAt, Nat.add_sub_cancel, if_neg (Nat.succ_ne_zero i)]
        rw [setValueScores_eq s rows hinv (i + 1) (by omega),
          setValueScores_eq s rows hinv i (by omega)]
      rw [e]
      have hb := getValue_step_bounds s i (by omega)
      rcases min_cases (s.getValue (i + 1)) (value + row - ((i + 1 : Nat) : Int))
        with ⟨h1, h2⟩ | ⟨h1, h2⟩ <;>
      rcases min_cases (s.getValue i) (value + row - (i : Int)) with ⟨h3, h4⟩ | ⟨h3, h4⟩ <;>
        rw [h1, h3] <;> push_cast at * <;> omega
  have hbits := fun i hi => setValueBits_testBit
    (fun i : Nat => min (setValueScores s i) (value + row - i)) s.scoreBeforeStart s.VP s.VN
    row hrow hstep i hi
  have hfirst := setStep_lt s.VP s.VN 0
    (min (setValueScores s 0) (value + row - (0 : Nat)) + 1 - s.scoreBeforeStart) (by omega)
    hinv.valid.1 hinv.valid.2.1
  rw [pow_zero] at hfirst
  have hlt := setValueBits_lt (fun i : Nat => min (setValueScores s i) (value + row - i)) row
    hrow _ hfirst.1 hfirst.2
  rw [← eVP, ← eVN] at hlt
  have hP : ∀ i, i < 64 → (s.setValue row value).VP.testBit i
      = (if i ≤ row then decide (stepAt (fun i : Nat => min (setValueScores s i) (value + row - i))
          s.scoreBeforeStart i = 2) else s.VP.testBit i) := by
    intro i hi; rw [eVP]; exact (hbits i hi).1
  have hN : ∀ i, i < 64 → (s.setValue row value).VN.testBit i
      = (if i ≤ row then decide (stepAt (fun i : Nat => min (setValueScores s i) (value + row - i))
          s.scoreBeforeStart i = 0) else s.VN.testBit i) := by
    intro i hi; rw [eVN]; exact (hbits i hi).2
  have hscores := bits_to_scores (fun i : Nat => min (setValueScores s i) (value + row - i))
    s.scoreBeforeStart (s.setValue row value).VP (s.setValue row value).VN row hstep
    (fun i hi => by rw [hP i (by omega), if_pos hi])
    (fun i hi => by rw [hN i (by omega), if_pos hi])
  have hget : ∀ i ≤ row, (s.setValue row value).getValue i
      = min (s.getValue i) (value + row - i) := by
    intro i hi
    rw [getValue_eq _ _ (by omega), eSbs, hscores i hi]
    exact hsc i (by omega)
  have hval : (s.setValue row value).getValue row = value := by
    rw [hget row (le_refl _), hrowval]
    rcases min_cases (s.getValue rows + ((row : Int) - rows)) (value + row - (row : Int))
      with ⟨h1, h2⟩ | ⟨h1, h2⟩ <;> rw [h1] <;> omega
  refine ⟨⟨⟨hlt.1, hlt.2, ?_⟩, hrow, eConf, ?_, ?_, ?_⟩, hval, ?_⟩
  · apply and_eq_zero_of_testBit
    intro i
    by_cases hi : i < 64
    · rw [hP i hi, hN i hi]
      by_cases hik : i ≤ row
      · rw [if_pos hik, if_pos hik]
        rcases hstep i hik with h | h | h <;> simp [h]
      · rw [if_neg hik, if_neg hik]
        exact testBit_disjoint hinv.valid.2.2 i
    · rw [testBit_of_lt_wordMod hlt.1 (by omega)]; rfl
  · intro i h1 h2
    rw [hP i h2, hN i h2, if_neg (by omega), if_neg (by omega)]
    exact hinv.above i (by omega) h2
  · rw [hval, eEnd, setValueScores_eq s rows hinv row hrow, hrowval, hW]
    rcases min_cases (s.getValue rows + ((row : Int) - rows)) (value + row - (row : Int))
      with ⟨h1, h2⟩ | ⟨h1, h2⟩ <;> rw [h1] <;> omega
  · rw [hval, eSbs]
    have := hinv.before_le
    omega
  · intro j hj hle
    rw [hget j (by omega)]
    exact min_eq_left (by omega)

theorem setValue_next (s : WordSlice) (rows : Nat) (hinv : CellInv s rows)
    (row : Nat) (hgap : rows < row) (hrow : row ≤ 63) (value : Int)
    (hlo : s.getValue rows - ((row : Int) - rows) ≤ value)
    (hhi : value ≤ s.getValue rows + ((row : Int) - rows)) :
    CellInv (s.setValue row value) row
    ∧ (s.setValue row value).getValue row = value
    ∧ ∀ j ≤ rows, s.getValue j ≤ value + ((row : Int) - j) →
        (s.setValue row value).getValue j = s.getValue j := by
  by_cases h : row = rows + 1
  · subst h
    obtain ⟨h1, h2, h3⟩ := setValue_next_adjacent s rows hinv hrow value
      (by push_cast at hlo; omega) (by push_cast at hhi; omega)
    exact ⟨h1, h2, fun j hj _ => h3 j hj⟩
  · exact setValue_next_general s rows hinv row (by omega) hrow value hlo hhi

theorem setValues_inv (calls : List (Nat × Int)) :
    ∀ (s : WordSlice) (rows : Nat) (done : List (Nat × Int)), CellInv s rows →
      List.Chain (fun p q : Nat × Int => p.1 < q.1 ∧ |q.2 - p.2| ≤ (q.1 : Int) - (p.1 : Int))
        (rows, s.getValue rows) calls →
      (∀ p ∈ calls, p.1 ≤ 63) →
      (∀ p ∈ done, p.1 ≤ rows ∧ s.getValue p.1 = p.2
        ∧ p.2 ≤ s.getValue rows + ((rows : Int) - (p.1 : Int))) →
      CellInv (setValues s calls) ((calls.getLast?.getD (rows, s.getValue rows)).1)
      ∧ ∀ p ∈ done ++ calls, (setValues s calls).getValue p.1 = p.2 := by
  induction calls with
  | nil =>
    intro s rows done hinv _ _ hdone
    refine ⟨hinv, ?_⟩
    intro p hp
    rw [List.append_nil] at hp
    exact (hdone p hp).2.1
  | cons q rest ih =>
    intro s rows done hinv hchain hlt hdone
    rw [List.chain_cons] at hchain
    obtain ⟨⟨hq1, hq2⟩, hrest⟩ := hchain
    have hq1' : rows < q.1 := hq1
    have hq2' : |q.2 - s.getValue rows| ≤ (q.1 : Int) - (rows : Int) := hq2
    rw [abs_le] at hq2'
    obtain ⟨hinv1, hval1, hkeep1⟩ := setValue_next s rows hinv q.1 hq1'
      (hlt q (List.mem_cons_self _ _)) q.2 (by omega) (by omega)
    have hrest' : List.Chain
        (fun p q : Nat × Int => p.1 < q.1 ∧ |q.2 - p.2| ≤ (q.1 : Int) - (p.1 : Int))
        (q.1, (s.setValue q.1 q.2).getValue q.1) rest := by
      rw [hval1]; exact hrest
    have hdone' : ∀ p ∈ done ++ [q], p.1 ≤ q.1 ∧ (s.setValue q.1 q.2).getValue p.1 = p.2
        ∧ p.2 ≤ (s.setValue q.1 q.2).getValue q.1 + ((q.1 : Int) - (p.1 : Int)) := by
      intro p hp
      rw [List.mem_append, List.mem_singleton] at hp
      rcases hp with hp | hp
      · obtain ⟨h1, h2, h3⟩ := hdone p hp
        refine ⟨by omega, ?_, ?_⟩
        · rw [hkeep1 p.1 h1 (by omega), h2]
        · rw [hval1]; omega
      · subst hp
        refine ⟨le_refl _, hval1, ?_⟩
        rw [hval1]; omega
    obtain ⟨r1, r2⟩ := ih (s.setValue q.1 q.2) q.1 (done ++ [q]) hinv1 hrest'
      (fun p hp => hlt p (List.mem_cons_of_mem _ hp)) hdone'
    have e : setValues s (q :: rest) = setValues (s.setValue q.1 q.2) rest := rfl
    rw [e]
    refine ⟨?_, ?_⟩
    · have e2 : ((q :: rest).getLast?.getD (rows, s.getValue rows)).1
          = (rest.getLast?.getD (q.1, (s.setValue q.1 q.2).getValue q.1)).1 := by
        cases rest with
        | nil => rfl
        | cons a t =>
          rw [List.getLast?_cons_cons, List.getLast?_eq_getLast _ (List.cons_ne_nil a t)]
          rfl
      rw [e2]; exact r1
    · intro p hp
      apply r2
      simpa using hp

/-- C27: stored cell scores are retrievable: from a cell freshly initialised by
GraphAligner::setValue, after each call of a run of WordSlice::setValue(row, value) with
strictly increasing rows in 0..63 and values that differ from the one before by at most
the distance of the rows, getValue gives back the value of every row set so far, VP and VN
are disjoint, scoreEnd = scoreBeforeStart + popcount(VP) - popcount(VN), and confirmedRows
is the last row with the partial flag set. -/
theorem setValue_retrievable (uninitializedValue : Int) (calls : List (Nat × Int))
    (hrows : calls.Chain'
      (fun p q : Nat × Int => p.1 < q.1 ∧ |q.2 - p.2| ≤ (q.1 : Int) - (p.1 : Int)))
    (hlt : ∀ p ∈ calls, p.1 ≤ 63) (k : Nat) (last : Nat × Int)
    (hk : (calls.take k).getLast? = some last) :
    (∀ p ∈ calls.take k,
      (setValues (GraphAligner.uninitializedCell uninitializedValue) (calls.take k)).getValue p.1
        = p.2)
    ∧ (setValues (GraphAligner.uninitializedCell uninitializedValue) (calls.take k)).VP
        &&& (setValues (GraphAligner.uninitializedCell uninitializedValue) (calls.take k)).VN = 0
    ∧ sliceInvariant (setValues (GraphAligner.uninitializedCell uninitializedValue) (calls.take k))
    ∧ (setValues (GraphAligner.uninitializedCell uninitializedValue)
        (calls.take k)).confirmedRows = ⟨(last.1 : Int), true⟩ := by
  have hchain := List.Chain'.take hrows k
  have hlt' : ∀ p ∈ calls.take k, p.1 ≤ 63 := fun p hp => hlt p (List.mem_of_mem_take hp)
  generalize calls.take k = l at hk hchain hlt'
  cases l with
  | nil => simp at hk
  | cons q rest =>
    obtain ⟨hinv0, hval0⟩ := setValue_first (GraphAligner.uninitializedCell uninitializedValue)
      rfl q.1 (hlt' q (List.mem_cons_self _ _)) q.2
    have hchain' : List.Chain
        (fun p q : Nat × Int => p.1 < q.1 ∧ |q.2 - p.2| ≤ (q.1 : Int) - (p.1 : Int))
        (q.1, ((GraphAligner.uninitializedCell uninitializedValue).setValue q.1 q.2).getValue q.1)
        rest := by
      rw [hval0]; exact hchain
    obtain ⟨r1, r2⟩ := setValues_inv rest _ q.1 [q] hinv0 hchain'
      (fun p hp => hlt' p (List.mem_cons_of_mem _ hp))
      (fun p hp => by
        rw [List.mem_singleton] at hp
        subst hp
        exact ⟨le_refl _, hval0, by omega⟩)
    have e : setValues (GraphAligner.uninitializedCell uninitializedValue) (q :: rest)
        = setValues ((GraphAligner.uninitializedCell uninitializedValue).setValue q.1 q.2) rest :=
      rfl
    have hlast : (rest.getLast?.getD
        (q.1, ((GraphAligner.uninitializedCell uninitializedValue).setValue q.1 q.2).getValue q.1)).1
        = last.1 := by
      cases rest with
      | nil =>
        simp at hk
        rw [← hk]; rfl
      | cons a t =>
        rw [List.getLast?_cons_cons] at hk
        rw [hk]; rfl
    rw [hlast] at r1
    rw [e]
    exact ⟨fun p hp => r2 p (by simpa using hp), r1.valid.2.2,
      cellInv_sliceInvariant _ _ r1, r1.confirmed⟩

set_option maxRecDepth 100000 in
/-- C27 (witness): setValue_retrievable at a run of five calls, the second next to the
first and the others with gaps in between. -/
theorem setValue_retrievable_witness :
    (∀ p ∈ [(2, (5 : Int)), (3, 4), (20, 3), (33, 16), (63, 0)],
      (setValues (GraphAligner.uninitializedCell 64)
        [(2, 5), (3, 4), (20, 3), (33, 16), (63, 0)]).getValue p.1 = p.2)
    ∧ (setValues (GraphAligner.uninitializedCell 64)
        [(2, 5), (3, 4), (20, 3), (33, 16), (63, 0)]).VP
        &&& (setValues (GraphAligner.uninitializedCell 64)
          [(2, 5), (3, 4), (20, 3), (33, 16), (63, 0)]).VN = 0
    ∧ sliceInvariant (setValues (GraphAligner.uninitializedCell 64)
        [(2, 5), (3, 4), (20, 3), (33, 16), (63, 0)])
    ∧ (setValues (GraphAligner.uninitializedCell 64)
        [(2, 5), (3, 4), (20, 3), (33, 16), (63, 0)]).confirmedRows = ⟨63, true⟩ :=
  setValue_retrievable 64 [(2, 5), (3, 4), (20, 3), (33, 16), (63, 0)]
    (by simp [abs_le]) (by decide) 5 (63, 0) rfl

/-! ## The invariants of a merge -/

/-- C29: merging preserves the word invariants: for slices a and b with VP & VN = 0 and
scoreEnd = scoreBeforeStart + popcount(VP) - popcount(VN), the slice a.mergeWith(b) again
has VP & VN = 0 and scoreEnd = scoreBeforeStart + popcount(VP) - popcount(VN). -/
theorem mergeWith_invariant (a b : WordSlice) (ha : a.Valid) (hb : b.Valid)
    (hia : sliceInvariant a) (hib : sliceInvariant b) :
    (a.mergeWith b).VP &&& (a.mergeWith b).VN = 0 ∧ sliceInvariant (a.mergeWith b) := by
  obtain ⟨h1, h2, -, h4⟩ := mergeTwoSlices_spec a b ha hb
  refine ⟨h1.2.2, ?_⟩
  show sliceInvariant (mergeTwoSlices a b)
  rw [scoreEnd_eq_getValue_last _ h1, h4, h2 63 (by omega),
    (scoreEnd_eq_getValue_last a ha).1 hia, (scoreEnd_eq_getValue_last b hb).1 hib]

/-- C29 (witness): mergeWith_invariant at two concrete slices that cross each other. -/
theorem mergeWith_invariant_witness :
    ((WordSlice.mk6 5 2 7 6 0 false).mergeWith (WordSlice.mk6 2 5 4 5 0 false)).VP
        &&& ((WordSlice.mk6 5 2 7 6 0 false).mergeWith (WordSlice.mk6 2 5 4 5 0 false)).VN = 0
      ∧ sliceInvariant
          ((WordSlice.mk6 5 2 7 6 0 false).mergeWith (WordSlice.mk6 2 5 4 5 0 false)) :=
  mergeWith_invariant (WordSlice.mk6 5 2 7 6 0 false) (WordSlice.mk6 2 5 4 5 0 false)
    (by decide) (by decide) (by decide) (by decide)

/-! ## The end of a block of the alternate method -/

/-- C26: finalizeAlternateSlice does not keep every cell that setValue reached: it takes a
cell for unreached when its scoreEnd equals uninitializedValue. In a block for a read of
64 base pairs the cell set at row 0 to the value 1 has scoreEnd = 1 + 63 = 64, which is
uninitializedValue; before the call its row 0 holds 1 and the word invariant holds, after
the call (bandwidth 2) scoreEnd and scoreBeforeStart are the sentinel 68 while VP and VN
are kept, row 0 reads 67 and the word invariant is broken. -/
theorem finalizeAlternateSlice_overwrites_reached_cell :
    reachedCellBlock.scores.map (fun item => item.words.map (fun w =>
        (w.getValue 0, w.scoreEnd, w.scoreBeforeStart, decide (sliceInvariant w))))
      = [[(1, 64, 2, true)]]
    ∧ (finalizeAlternateSlice reachedCellBlock [false] 64 2).1.scores.map
        (fun item => item.words.map (fun w =>
          (w.getValue 0, w.scoreEnd, w.scoreBeforeStart, decide (sliceInvariant w))))
      = [[(67, 68, 68, false)]] := by
  decide

/-! ## The order of the candidates in the backtrace -/

theorem pickDiagonal_eq {κ : Type} (graph : GraphIndex) (sequence : List Char)
    (slice previousSlice : DPSlice κ) (pos : Int × Int) (scoreHere : Int) (u : Int)
    (c : Char) (isMatch : Bool) (hc : sequence.get? pos.2.toNat = some c)
    (hm : characterMatch c (graph.NodeSequences pos.1) = some isMatch) :
    GraphAligner.pickDiagonal graph sequence slice previousSlice pos scoreHere u
      = some (if GraphAligner.diagonalScore graph sequence slice previousSlice pos u
            = (if isMatch then scoreHere else scoreHere - 1)
          then some (u, pos.2 - 1) else none) := by
  unfold GraphAligner.pickDiagonal
  simp only [hc, hm]
  cases isMatch <;> simp <;> split_ifs <;> rfl

theorem pickFromNeighbors_eq {κ : Type} (graph : GraphIndex) (sequence : List Char)
    (slice previousSlice : DPSlice κ) (pos : Int × Int)
    (c : Char) (isMatch : Bool) (hc : sequence.get? pos.2.toNat = some c)
    (hm : characterMatch c (graph.NodeSequences pos.1) = some isMatch)
    (neighbors : List Nat) :
    GraphAligner.pickFromNeighbors graph sequence slice previousSlice pos
        (GraphAligner.getValue graph slice (pos.2 - slice.j) pos.1) neighbors
      = some ((((neighbors.map (fun neighbor => graph.NodeEnd neighbor - 1)).flatMap
          (sidewaysCandidates graph sequence slice previousSlice pos isMatch)).find?
            (fun c => decide (c.value = c.wanted))).map (fun c => c.position)) := by
  induction neighbors with
  | nil => rfl
  | cons neighbor rest ih =>
    rw [GraphAligner.pickFromNeighbors]
    simp only [List.map_cons, List.flatMap_cons, sidewaysCandidates, List.cons_append,
      List.nil_append, List.find?_cons]
    by_cases h1 : GraphAligner.getValueOrMax graph slice (pos.2 - slice.j)
        (graph.NodeEnd neighbor - 1) sequence.length
        = GraphAligner.getValue graph slice (pos.2 - slice.j) pos.1 - 1
    · simp [h1]
    · rw [if_neg h1, pickDiagonal_eq graph sequence slice previousSlice pos _ _ c isMatch hc hm]
      simp only [h1, decide_False]
      by_cases h2 : GraphAligner.diagonalScore graph sequence slice previousSlice pos
          (graph.NodeEnd neighbor - 1)
          = (if isMatch then GraphAligner.getValue graph slice (pos.2 - slice.j) pos.1
              else GraphAligner.getValue graph slice (pos.2 - slice.j) pos.1 - 1)
      · simp [h2]
      · simp only [h2, if_false, decide_False]
        exact ih

theorem pickVertical_eq {κ : Type} (graph : GraphIndex) (sequence : List Char)
    (slice previousSlice : DPSlice κ) (pos : Int × Int) (scoreHere : Int) :
    (if (if pos.2 = slice.j then
          GraphAligner.getValueOrMax graph previousSlice ((WordSize : Int) - 1) pos.1
            sequence.length
        else GraphAligner.getValueOrMax graph slice (pos.2 - 1 - slice.j) pos.1 sequence.length)
        = scoreHere - 1 then some (pos.1, pos.2 - 1) else none)
      = (List.find? (fun c : BacktraceCandidate => decide (c.value = c.wanted))
          [{ position := (pos.1, pos.2 - 1)
             value := GraphAligner.diagonalScore graph sequence slice previousSlice pos pos.1
             wanted := scoreHere - 1 }]).map (fun c => c.position) := by
  have hup : (if pos.2 = slice.j then
        GraphAligner.getValueOrMax graph previousSlice ((WordSize : Int) - 1) pos.1
          sequence.length
      else GraphAligner.getValueOrMax graph slice (pos.2 - 1 - slice.j) pos.1 sequence.length)
      = GraphAligner.diagonalScore graph sequence slice previousSlice pos pos.1 := rfl
  rw [hup]
  by_cases h : GraphAligner.diagonalScore graph sequence slice previousSlice pos pos.1
      = scoreHere - 1
  · simp [h]
  · simp [h]

/-- C28 (amended): pickBacktracePredecessor returns what pickBySpec states: at row 0, for
a vertex of the previous slice and a score of 0 or 1, the cell above; else the first
candidate with the value it must have, where an inner base has the horizontal, then the
diagonal candidate of the column before, and a first base goes through its in-neighbours
in their order, each with its horizontal and then its diagonal candidate, and the
vertical candidate comes last; it aborts when no candidate fits. -/
theorem pickBacktracePredecessor_order {κ : Type} (graph : GraphIndex) (sequence : List Char)
    (slice : DPSlice κ) (pos : Int × Int) (previousSlice : DPSlice κ)
    (c : Char) (isMatch : Bool) (hc : sequence.get? pos.2.toNat = some c)
    (hm : characterMatch c (graph.NodeSequences pos.1) = some isMatch) :
    GraphAligner.pickBacktracePredecessor graph sequence slice pos previousSlice
      = pickBySpec graph sequence slice pos previousSlice isMatch := by
  unfold GraphAligner.pickBacktracePredecessor pickBySpec
  by_cases hrow : pos.2 = 0 ∧ NodeSlice.hasNode previousSlice.scores (graph.IndexToNode pos.1) = true
      ∧ (GraphAligner.getValue graph slice (pos.2 - slice.j) pos.1 = 0
        ∨ GraphAligner.getValue graph slice (pos.2 - slice.j) pos.1 = 1)
  · rw [if_pos hrow, if_pos hrow]
  · rw [if_neg hrow, if_neg hrow]
    unfold backtraceCandidates
    simp only [List.find?_append]
    by_cases hfirst : pos.1 = graph.NodeStart (graph.IndexToNode pos.1)
    · simp only [if_pos hfirst]
      rw [pickFromNeighbors_eq graph sequence slice previousSlice pos c isMatch hc hm]
      cases hfind : ((List.map (fun neighbor => graph.NodeEnd neighbor - 1)
          (graph.inNeighbors (graph.IndexToNode pos.1))).flatMap
          (sidewaysCandidates graph sequence slice previousSlice pos isMatch)).find?
          (fun c => decide (c.value = c.wanted)) with
      | some cand => simp
      | none =>
        simp only [Option.map_none', Option.none_or]
        exact pickVertical_eq graph sequence slice previousSlice pos _
    · simp only [if_neg hfirst, List.flatMap_cons, List.flatMap_nil, List.append_nil,
        sidewaysCandidates]
      by_cases h1 : GraphAligner.getValueOrMax graph slice (pos.2 - slice.j) (pos.1 - 1)
          sequence.length = GraphAligner.getValue graph slice (pos.2 - slice.j) pos.1 - 1
      · simp [h1]
      · rw [if_neg h1, pickDiagonal_eq graph sequence slice previousSlice pos _ _ c isMatch hc hm]
        by_cases h2 : GraphAligner.diagonalScore graph sequence slice previousSlice pos (pos.1 - 1)
            = (if isMatch then GraphAligner.getValue graph slice (pos.2 - slice.j) pos.1
                else GraphAligner.getValue graph slice (pos.2 - slice.j) pos.1 - 1)
        · simp [h1, h2]
        · simp only [List.find?_cons, h1, h2, if_false, decide_False, List.find?_nil,
            Option.none_or]
          exact pickVertical_eq graph sequence slice previousSlice pos _

/-- C28 (counterexample): on the vertex with the bases A and C and the read of 64 times
A, the cell of the base C at row 0 has the score 1 and its horizontal candidate, the
cell of the base A at row 0, has the score 0 = 1 - 1; pickBacktracePredecessor does not
return this horizontal predecessor but the cell above, (1, -1). -/
theorem pickBacktracePredecessor_order_counterexample :
    GraphAligner.getValue twoBaseGraph twoBaseBlock 0 1 = 1
    ∧ GraphAligner.getValueOrMax twoBaseGraph twoBaseBlock 0 0 64 = 1 - 1
    ∧ GraphAligner.pickBacktracePredecessor twoBaseGraph (List.replicate 64 'A') twoBaseBlock
        (1, 0) twoBaseStart = some (1, -1) := by
  decide

/-- C28 (witness): pickBacktracePredecessor_order at the cell of the base C at row 1 of
the read of 64 times A. -/
theorem pickBacktracePredecessor_order_witness :
    GraphAligner.pickBacktracePredecessor twoBaseGraph (List.replicate 64 'A') twoBaseBlock
        (1, 1) twoBaseStart
      = pickBySpec twoBaseGraph (List.replicate 64 'A') twoBaseBlock (1, 1) twoBaseStart false :=
  pickBacktracePredecessor_order twoBaseGraph (List.replicate 64 'A') twoBaseBlock (1, 1)
    twoBaseStart 'A' false rfl rfl

/-! ## The zero row of a component: forceComponentZeroRow -/

section ForceZeroRow

open GraphAligner

theorem node_setNode_same (slice : NodeSlice) (node : Nat) (words : List WordSlice)
    (h : NodeSlice.node slice node ≠ []) :
    NodeSlice.node (NodeSlice.setNode slice node words) node = words := by
  induction slice with
  | nil => simp [NodeSlice.node] at h
  | cons item rest ih =>
    by_cases hn : item.node = node
    · simp [NodeSlice.setNode, NodeSlice.node, hn]
    · simp only [NodeSlice.setNode, NodeSlice.node, hn, if_false] at h ⊢
      exact ih h

theorem node_setNode_other (slice : NodeSlice) (node other : Nat) (words : List WordSlice)
    (h : other ≠ node) :
    NodeSlice.node (NodeSlice.setNode slice node words) other = NodeSlice.node slice other := by
  induction slice with
  | nil => rfl
  | cons item rest ih =>
    by_cases hn : item.node = node
    · have ho : ¬ item.node = other := fun e => h (e.symm.trans hn)
      simp [NodeSlice.setNode, NodeSlice.node, hn, ho, Ne.symm h]
    · by_cases ho : item.node = other
      · rw [NodeSlice.setNode, if_neg hn, NodeSlice.node, if_pos ho, NodeSlice.node, if_pos ho]
      · simp only [NodeSlice.setNode, NodeSlice.node, hn, ho, if_false]
        exact ih

theorem setNode_node (slice : NodeSlice) (node : Nat) :
    NodeSlice.setNode slice node (NodeSlice.node slice node) = slice := by
  induction slice with
  | nil => rfl
  | cons item rest ih =>
    by_cases hn : item.node = node
    · rw [NodeSlice.node, if_pos hn, NodeSlice.setNode, if_pos hn]
    · simp only [NodeSlice.setNode, NodeSlice.node, hn, if_false]
      rw [ih]

theorem relaxMeasure_setNode (low : Int) (slice : NodeSlice) (node : Nat)
    (words : List WordSlice) (hne : NodeSlice.node slice node ≠ [])
    (hle : firstBefore words ≤ firstBefore (NodeSlice.node slice node)) :
    relaxMeasure low (NodeSlice.setNode slice node words) ≤ relaxMeasure low slice
    ∧ (firstBefore words < firstBefore (NodeSlice.node slice node) → low ≤ firstBefore words →
        relaxMeasure low (NodeSlice.setNode slice node words) < relaxMeasure low slice) := by
  induction slice with
  | nil => simp [NodeSlice.node] at hne
  | cons item rest ih =>
    by_cases hn : item.node = node
    · simp only [NodeSlice.setNode, NodeSlice.node, hn, if_true, relaxMeasure, List.map_cons,
        List.sum_cons] at hle ⊢
      constructor
      · omega
      · intro h1 h2; omega
    · simp only [NodeSlice.setNode, NodeSlice.node, hn, if_false, relaxMeasure, List.map_cons,
        List.sum_cons] at hne hle ⊢
      obtain ⟨h1, h2⟩ := ih hne hle
      simp only [relaxMeasure] at h1 h2
      constructor
      · omega
      · intro h3 h4
        have := h2 h3 h4
        omega

theorem relaxColumns_length (words : List WordSlice) : ∀ score : Int,
    (relaxColumns score words).1.length = words.length := by
  induction words with
  | nil => intro score; rfl
  | cons w rest ih =>
    intro score
    rw [relaxColumns]
    split_ifs
    · rfl
    · simp [ih (score + 1)]

theorem lastBefore_cons_cons (a b : WordSlice) (rest : List WordSlice) :
    lastBefore (a :: b :: rest) = lastBefore (b :: rest) := by
  simp [lastBefore, List.getLastD]

theorem lastBefore_singleton (a : WordSlice) : lastBefore [a] = a.scoreBeforeStart := rfl

theorem firstBefore_cons (a : WordSlice) (rest : List WordSlice) :
    firstBefore (a :: rest) = a.scoreBeforeStart := rfl

theorem relaxColumns_noop (words : List WordSlice) (score : Int) (hne : words ≠ [])
    (h : firstBefore words ≤ score) : relaxColumns score words = (words, false, score) := by
  cases words with
  | nil => exact absurd rfl hne
  | cons w rest =>
    have h' : w.scoreBeforeStart ≤ score := h
    rw [relaxColumns, if_pos h']

theorem relaxColumns_first (words : List WordSlice) (score : Int) (hne : words ≠ []) :
    firstBefore (relaxColumns score words).1 = min (firstBefore words) score := by
  cases words with
  | nil => exact absurd rfl hne
  | cons w rest =>
    rw [relaxColumns]
    by_cases h : w.scoreBeforeStart ≤ score
    · rw [if_pos h]
      exact (min_eq_left h).symm
    · rw [if_neg h]
      show score = min w.scoreBeforeStart score
      exact (min_eq_right (by omega)).symm

theorem relaxColumns_first_le (words : List WordSlice) (score : Int) (hne : words ≠ []) :
    firstBefore (relaxColumns score words).1 ≤ score := by
  rw [relaxColumns_first words score hne]
  exact min_le_right _ _

theorem relaxColumns_ne_nil (words : List WordSlice) (score : Int) (hne : words ≠ []) :
    (relaxColumns score words).1 ≠ [] := by
  intro h
  have := relaxColumns_length words score
  rw [h] at this
  exact hne (List.length_eq_zero.mp this.symm)

theorem relaxColumns_unitSteps (words : List WordSlice) : ∀ score : Int,
    UnitSteps words → UnitSteps (relaxColumns score words).1 := by
  induction words with
  | nil => intro score h; exact h
  | cons w rest ih =>
    intro score h
    rw [relaxColumns]
    by_cases hw : w.scoreBeforeStart ≤ score
    · rw [if_pos hw]; exact h
    · rw [if_neg hw]
      have hrest : UnitSteps rest := List.Chain'.tail h
      have ih' := ih (score + 1) hrest
      show List.Chain' _ (_ :: (relaxColumns (score + 1) rest).1)
      cases hr : (relaxColumns (score + 1) rest).1 with
      | nil => exact List.chain'_singleton _
      | cons b t =>
        rw [List.chain'_cons]
        refine ⟨?_, by rw [← hr]; exact ih'⟩
        have hne : rest ≠ [] := by
          intro e; rw [e] at hr; simp [relaxColumns] at hr
        have := relaxColumns_first_le rest (score + 1) hne
        rw [hr, firstBefore_cons] at this
        exact this

theorem relaxColumns_bounded (bound : Int) (words : List WordSlice) : ∀ score : Int,
    (∀ w ∈ words, w.scoreBeforeStart ≤ bound) →
      ∀ w ∈ (relaxColumns score words).1, w.scoreBeforeStart ≤ bound := by
  induction words with
  | nil => intro score _ w hw; simp [relaxColumns] at hw
  | cons a rest ih =>
    intro score h
    rw [relaxColumns]
    by_cases ha : a.scoreBeforeStart ≤ score
    · rw [if_pos ha]; exact h
    · rw [if_neg ha]
      intro w hw
      rcases List.mem_cons.mp hw with e | e
      · rw [e]
        have := h a (List.mem_cons_self _ _)
        show score ≤ bound
        omega
      · exact ih (score + 1) (fun x hx => h x (List.mem_cons_of_mem _ hx)) w e

theorem relaxColumns_not_updated (words : List WordSlice) : ∀ score : Int,
    (relaxColumns score words).2.1 = false →
      lastBefore (relaxColumns score words).1 = lastBefore words := by
  induction words with
  | nil => intro score h; simp [relaxColumns] at h
  | cons a rest ih =>
    intro score h
    rw [relaxColumns] at h ⊢
    by_cases ha : a.scoreBeforeStart ≤ score
    · rw [if_pos ha]
    · rw [if_neg ha] at h ⊢
      have h' : (relaxColumns (score + 1) rest).2.1 = false := h
      have ih' := ih (score + 1) h'
      have hlen := relaxColumns_length rest (score + 1)
      cases rest with
      | nil => simp [relaxColumns] at h'
      | cons b t =>
        cases hr : (relaxColumns (score + 1) (b :: t)).1 with
        | nil => rw [hr] at hlen; simp at hlen
        | cons b' t' =>
          rw [hr] at ih'
          show lastBefore (_ :: (relaxColumns (score + 1) (b :: t)).1) = _
          rw [hr, lastBefore_cons_cons, lastBefore_cons_cons]
          exact ih'

theorem relaxColumns_updated (words : List WordSlice) : ∀ score : Int,
    (relaxColumns score words).2.1 = true →
      (relaxColumns score words).2.2 = score + words.length
      ∧ (words ≠ [] → lastBefore (relaxColumns score words).1 = score + words.length - 1)
      ∧ ∀ w ∈ (relaxColumns score words).1, w.scoreBeforeStart ≤ score + words.length - 1 := by
  induction words with
  | nil =>
    intro score _
    refine ⟨by simp [relaxColumns], fun h => absurd rfl h, ?_⟩
    intro w hw; simp [relaxColumns] at hw
  | cons a rest ih =>
    intro score h
    rw [relaxColumns] at h ⊢
    by_cases ha : a.scoreBeforeStart ≤ score
    · rw [if_pos ha] at h; simp at h
    · rw [if_neg ha] at h ⊢
      have h' : (relaxColumns (score + 1) rest).2.1 = true := h
      obtain ⟨i1, i2, i3⟩ := ih (score + 1) h'
      have hlen := relaxColumns_length rest (score + 1)
      refine ⟨?_, ?_, ?_⟩
      · show (relaxColumns (score + 1) rest).2.2 = _
        rw [i1]; simp; ring
      · intro _
        show lastBefore (_ :: (relaxColumns (score + 1) rest).1) = _
        cases rest with
        | nil => simp [relaxColumns, lastBefore_singleton]
        | cons b t =>
          cases hr : (relaxColumns (score + 1) (b :: t)).1 with
          | nil => rw [hr] at hlen; simp at hlen
          | cons b' t' =>
            rw [lastBefore_cons_cons, ← hr, i2 (List.cons_ne_nil _ _)]
            simp; ring
      · intro w hw
        rcases List.mem_cons.mp hw with e | e
        · rw [e]; show score ≤ _; simp; omega
        · have := i3 w e
          simp at this ⊢; omega

theorem relaxColumns_full (words : List WordSlice) : ∀ score : Int,
    (∀ w ∈ words, score + words.length ≤ w.scoreBeforeStart) →
      (relaxColumns score words).2.1 = true := by
  induction words with
  | nil => intro score _; rfl
  | cons a rest ih =>
    intro score h
    rw [relaxColumns]
    have ha := h a (List.mem_cons_self _ _)
    simp only [List.length_cons, Nat.cast_add, Nat.cast_one] at ha
    rw [if_neg (by omega)]
    show (relaxColumns (score + 1) rest).2.1 = true
    apply ih
    intro w hw
    have := h w (List.mem_cons_of_mem _ hw)
    simp only [List.length_cons, Nat.cast_add, Nat.cast_one] at this
    omega

theorem relaxStep_fst (graph : AlignmentGraph) (componentIndex : Nat)
    (partOfComponent : Nat → Nat) (top : Nat → List (Nat × Int) → Nat × Int) (round : Nat)
    (state : NodeSlice × List (Nat × Int)) :
    (relaxStep graph componentIndex partOfComponent top round state).1
      = NodeSlice.setNode state.1 (top round state.2).1
          (relaxColumns (top round state.2).2
            (NodeSlice.node state.1 (top round state.2).1)).1 := by
  unfold relaxStep
  dsimp only
  split_ifs <;> rfl

theorem relaxStep_snd (graph : AlignmentGraph) (componentIndex : Nat)
    (partOfComponent : Nat → Nat) (top : Nat → List (Nat × Int) → Nat × Int) (round : Nat)
    (state : NodeSlice × List (Nat × Int)) :
    (relaxStep graph componentIndex partOfComponent top round state).2
      = if (relaxColumns (top round state.2).2
            (NodeSlice.node state.1 (top round state.2).1)).2.1 = true then
          state.2.erase (top round state.2)
            ++ ((graph.outNeighbors (top round state.2).1).filter
                (fun neighbor => decide (partOfComponent neighbor = componentIndex))).map
              (fun neighbor => (neighbor, (relaxColumns (top round state.2).2
                (NodeSlice.node state.1 (top round state.2).1)).2.2))
        else state.2.erase (top round state.2) := by
  unfold relaxStep
  dsimp only
  split_ifs <;> rfl

theorem relaxLoop_total (graph : AlignmentGraph) (componentIndex : Nat)
    (partOfComponent : Nat → Nat) (top : Nat → List (Nat × Int) → Nat × Int)
    (htop : TopIsLeast top) (low : Int) (P : NodeSlice × List (Nat × Int) → Prop)
    (hP : ∀ state, P state → ∀ e ∈ state.2, NodeSlice.node state.1 e.1 ≠ [] ∧ low ≤ e.2)
    (hstep : ∀ round state, P state → state.2 ≠ [] →
      P (relaxStep graph componentIndex partOfComponent top round state)) :
    ∀ (m k : Nat) (state : NodeSlice × List (Nat × Int)) (round : Nat), P state →
      relaxMeasure low state.1 = m → state.2.length = k →
      ∃ fuel result, relaxLoop graph componentIndex partOfComponent top fuel round state
        = some result ∧ P (result, []) := by
  intro m
  induction m using Nat.strong_induction_on with
  | _ m ihm =>
    intro k
    induction k using Nat.strong_induction_on with
    | _ k ihk =>
      intro state round hPs hm hk
      by_cases hq : state.2 = []
      · refine ⟨1, state.1, ?_, ?_⟩
        · rw [relaxLoop]; simp [hq]
        · have : state = (state.1, []) := by rw [← hq]
          rw [← this]; exact hPs
      · have ht := (htop round state.2 hq).1
        obtain ⟨hne, hlow⟩ := hP state hPs _ ht
        have hPs' := hstep round state hPs hq
        have hloop : ∀ fuel, relaxLoop graph componentIndex partOfComponent top (fuel + 1) round
            state = relaxLoop graph componentIndex partOfComponent top fuel (round + 1)
              (relaxStep graph componentIndex partOfComponent top round state) := by
          intro fuel
          rw [relaxLoop]
          have : state.2.isEmpty = false := by
            cases hs : state.2 with
            | nil => exact absurd hs hq
            | cons a l => rfl
          simp [this]
        by_cases hfirst : firstBefore (NodeSlice.node state.1 (top round state.2).1)
            ≤ (top round state.2).2
        · have hno := relaxColumns_noop _ _ hne hfirst
          have h1 : (relaxStep graph componentIndex partOfComponent top round state).1
              = state.1 := by
            rw [relaxStep_fst, hno, setNode_node]
          have h2 : (relaxStep graph componentIndex partOfComponent top round state).2
              = state.2.erase (top round state.2) := by
            rw [relaxStep_snd, hno]; simp
          obtain ⟨fuel, result, hr, hPr⟩ := ihk (k - 1)
            (by have := List.length_pos.mpr hq; omega)
            (relaxStep graph componentIndex partOfComponent top round state) (round + 1) hPs'
            (by rw [h1]; exact hm)
            (by rw [h2, List.length_erase_of_mem ht, hk])
          exact ⟨fuel + 1, result, by rw [hloop]; exact hr, hPr⟩
        · have hlt : relaxMeasure low
              (relaxStep graph componentIndex partOfComponent top round state).1 < m := by
            rw [relaxStep_fst, ← hm]
            have hf := relaxColumns_first (NodeSlice.node state.1 (top round state.2).1)
              (top round state.2).2 hne
            rw [min_eq_right (by omega)] at hf
            exact (relaxMeasure_setNode low state.1 _ _ hne (by rw [hf]; omega)).2
              (by rw [hf]; omega) (by rw [hf]; exact hlow)
          obtain ⟨fuel, result, hr, hPr⟩ := ihm _ hlt _
            (relaxStep graph componentIndex partOfComponent top round state) (round + 1) hPs'
            rfl rfl
          exact ⟨fuel + 1, result, by rw [hloop]; exact hr, hPr⟩

theorem lengthSum_le (lengths : Nat → Nat) (l C : List Nat) (hnd : l.Nodup)
    (hsub : ∀ n ∈ l, n ∈ C) : lengthSum lengths l ≤ lengthSum lengths C := by
  obtain ⟨l', hperm, hsubl⟩ := List.subperm_of_subset hnd hsub
  unfold lengthSum
  rw [← (hperm.map lengths).sum_eq]
  exact (hsubl.map lengths).sum_le_sum (fun _ _ => Nat.zero_le _)

theorem lengthSum_cons (lengths : Nat → Nat) (n : Nat) (l : List Nat) :
    lengthSum lengths (n :: l) = lengths n + lengthSum lengths l := by
  simp [lengthSum]

theorem lastBefore_mem (words : List WordSlice) (hne : words ≠ []) :
    ∃ w ∈ words, lastBefore words = w.scoreBeforeStart := by
  induction words with
  | nil => exact absurd rfl hne
  | cons a rest ih =>
    cases rest with
    | nil => exact ⟨a, List.mem_cons_self _ _, rfl⟩
    | cons b t =>
      obtain ⟨w, hw, e⟩ := ih (List.cons_ne_nil _ _)
      exact ⟨w, List.mem_cons_of_mem _ hw, by rw [lastBefore_cons_cons]; exact e⟩

theorem firstBefore_mem (words : List WordSlice) (hne : words ≠ []) :
    ∃ w ∈ words, firstBefore words = w.scoreBeforeStart := by
  cases words with
  | nil => exact absurd rfl hne
  | cons a rest => exact ⟨a, List.mem_cons_self _ _, rfl⟩

theorem relaxInv_step (graph : AlignmentGraph) (component : List Nat)
    (componentIndex : Nat) (partOfComponent : Nat → Nat)
    (top : Nat → List (Nat × Int) → Nat × Int) (htop : TopIsLeast top)
    (maxScore bound low : Int) (lengths : Nat → Nat)
    (hpart : ∀ n, partOfComponent n = componentIndex ↔ n ∈ component)
    (hlen : ∀ n ∈ component, 0 < lengths n)
    (hbound : bound + (lengthSum lengths component : Int) < maxScore)
    (round : Nat) (state : NodeSlice × List (Nat × Int)) (hq : state.2 ≠ [])
    (reached : List Nat)
    (hinv : RelaxInv graph component maxScore bound low lengths reached state) :
    ∃ reached', (∀ n ∈ reached, n ∈ reached') ∧ RelaxInv graph component maxScore bound low
      lengths reached' (relaxStep graph componentIndex partOfComponent top round state) := by
  have ht := (htop round state.2 hq).1
  have hn := hinv.queue_node _ ht
  have hWlen := hinv.length_eq _ hn
  have hWne : NodeSlice.node state.1 (top round state.2).1 ≠ [] := by
    intro e; rw [e] at hWlen; have := hlen _ hn; simp at hWlen; omega
  have hsame : NodeSlice.node (relaxStep graph componentIndex partOfComponent top round state).1
      (top round state.2).1
      = (relaxColumns (top round state.2).2 (NodeSlice.node state.1 (top round state.2).1)).1 := by
    rw [relaxStep_fst, node_setNode_same _ _ _ hWne]
  have hother : ∀ m, m ≠ (top round state.2).1 →
      NodeSlice.node (relaxStep graph componentIndex partOfComponent top round state).1 m
        = NodeSlice.node state.1 m := by
    intro m hm
    rw [relaxStep_fst, node_setNode_other _ _ _ _ hm]
  have hfirst_le : ∀ m, firstBefore
      (NodeSlice.node (relaxStep graph componentIndex partOfComponent top round state).1 m)
        ≤ firstBefore (NodeSlice.node state.1 m) := by
    intro m
    by_cases hm : m = (top round state.2).1
    · rw [hm, hsame, relaxColumns_first _ _ hWne]; exact min_le_left _ _
    · rw [hother m hm]
  have hfirst_top : firstBefore
      (NodeSlice.node (relaxStep graph componentIndex partOfComponent top round state).1
        (top round state.2).1) ≤ (top round state.2).2 := by
    rw [hsame]; exact relaxColumns_first_le _ _ hWne
  -- the queue after the round
  have hqueue_old : ∀ e ∈ state.2, e ≠ top round state.2 →
      e ∈ (relaxStep graph componentIndex partOfComponent top round state).2 := by
    intro e he hne
    rw [relaxStep_snd]
    have : e ∈ state.2.erase (top round state.2) := (List.mem_erase_of_ne hne).mpr he
    split_ifs
    · exact List.mem_append_left _ this
    · exact this
  have hqueue_new : ∀ e ∈ (relaxStep graph componentIndex partOfComponent top round state).2,
      e ∈ state.2 ∨ ((relaxColumns (top round state.2).2
          (NodeSlice.node state.1 (top round state.2).1)).2.1 = true
        ∧ e.1 ∈ graph.outNeighbors (top round state.2).1 ∧ e.1 ∈ component
        ∧ e.2 = (relaxColumns (top round state.2).2
          (NodeSlice.node state.1 (top round state.2).1)).2.2) := by
    intro e he
    rw [relaxStep_snd] at he
    split_ifs at he with hu
    · rcases List.mem_append.mp he with h | h
      · exact Or.inl (List.mem_of_mem_erase h)
      · right
        obtain ⟨nb, hnb, rfl⟩ := List.mem_map.mp h
        rw [List.mem_filter] at hnb
        exact ⟨hu, hnb.1, (hpart nb).mp (of_decide_eq_true hnb.2), rfl⟩
    · exact Or.inl (List.mem_of_mem_erase he)
  have hpushed : (relaxColumns (top round state.2).2
        (NodeSlice.node state.1 (top round state.2).1)).2.1 = true →
      ∀ v ∈ graph.outNeighbors (top round state.2).1, v ∈ component →
        (v, (relaxColumns (top round state.2).2
          (NodeSlice.node state.1 (top round state.2).1)).2.2)
          ∈ (relaxStep graph componentIndex partOfComponent top round state).2 := by
    intro hu v hv hvc
    rw [relaxStep_snd, if_pos hu]
    apply List.mem_append_right
    apply List.mem_map.mpr
    exact ⟨v, List.mem_filter.mpr ⟨hv, decide_eq_true ((hpart v).mpr hvc)⟩, rfl⟩
  have hlast_same : ∀ u, (u = (top round state.2).1 →
      (relaxColumns (top round state.2).2
        (NodeSlice.node state.1 (top round state.2).1)).2.1 = false) →
      lastBefore (NodeSlice.node
        (relaxStep graph componentIndex partOfComponent top round state).1 u)
        = lastBefore (NodeSlice.node state.1 u) := by
    intro u hu
    by_cases hun : u = (top round state.2).1
    · rw [hun, hsame]; exact relaxColumns_not_updated _ _ (hu hun)
    · rw [hother u hun]
  have hupd := relaxColumns_updated (NodeSlice.node state.1 (top round state.2).1)
    (top round state.2).2
  -- an edge that was covered stays covered when the end of its source is as before
  have hcover_old : ∀ u ∈ reached, (u = (top round state.2).1 →
      (relaxColumns (top round state.2).2
        (NodeSlice.node state.1 (top round state.2).1)).2.1 = false) →
      ∀ v ∈ graph.outNeighbors u, v ∈ component →
      firstBefore (NodeSlice.node
          (relaxStep graph componentIndex partOfComponent top round state).1 v)
        ≤ lastBefore (NodeSlice.node
          (relaxStep graph componentIndex partOfComponent top round state).1 u) + 1
      ∨ ∃ e ∈ (relaxStep graph componentIndex partOfComponent top round state).2,
          e.1 = v ∧ e.2 ≤ lastBefore (NodeSlice.node
            (relaxStep graph componentIndex partOfComponent top round state).1 u) + 1 := by
    intro u hu hun v hv hvc
    rw [hlast_same u hun]
    rcases hinv.covered u hu v hv hvc with h | ⟨e, he, hev, hep⟩
    · exact Or.inl (le_trans (hfirst_le v) h)
    · by_cases het : e = top round state.2
      · left
        rw [← hev, het]
        rw [het] at hep
        exact le_trans hfirst_top hep
      · exact Or.inr ⟨e, hqueue_old e he het, hev, hep⟩
  have hcover_new : (relaxColumns (top round state.2).2
        (NodeSlice.node state.1 (top round state.2).1)).2.1 = true →
      ∀ v ∈ graph.outNeighbors (top round state.2).1, v ∈ component →
      ∃ e ∈ (relaxStep graph componentIndex partOfComponent top round state).2,
          e.1 = v ∧ e.2 ≤ lastBefore (NodeSlice.node
            (relaxStep graph componentIndex partOfComponent top round state).1
              (top round state.2).1) + 1 := by
    intro hu v hv hvc
    refine ⟨_, hpushed hu v hv hvc, rfl, ?_⟩
    obtain ⟨h1, h2, -⟩ := hupd hu
    rw [hsame, h2 hWne]
    show (relaxColumns _ _).2.2 ≤ _
    rw [h1]; omega
  by_cases hin : (top round state.2).1 ∈ reached
  · refine ⟨reached, fun n h => h, ?_⟩
    have hbnd : ∀ w ∈ (relaxColumns (top round state.2).2
        (NodeSlice.node state.1 (top round state.2).1)).1,
        w.scoreBeforeStart ≤ bound + (lengthSum lengths reached : Int) - 1 :=
      relaxColumns_bounded _ _ _ (hinv.bounded _ hin)
    refine ⟨hinv.reached_nodup, hinv.reached_sub, ?_, ?_, ?_, ?_, ?_, ?_, ?_, ?_⟩
    · intro m hm
      by_cases hmn : m = (top round state.2).1
      · rw [hmn, hsame, relaxColumns_length]; exact hWlen
      · rw [hother m hmn]; exact hinv.length_eq m hm
    · intro m hm
      by_cases hmn : m = (top round state.2).1
      · rw [hmn, hsame]; exact relaxColumns_unitSteps _ _ (hinv.steps _ hn)
      · rw [hother m hmn]; exact hinv.steps m hm
    · intro m hm hmr
      have hmn : m ≠ (top round state.2).1 := fun e => hmr (e ▸ hin)
      rw [hother m hmn]; exact hinv.unset m hm hmr
    · intro m hm
      by_cases hmn : m = (top round state.2).1
      · rw [hmn, hsame]; exact hbnd
      · rw [hother m hmn]; exact hinv.bounded m hm
    · intro e he
      rcases hqueue_new e he with h | ⟨-, -, h, -⟩
      · exact hinv.queue_node e h
      · exact h
    · intro e he
      rcases hqueue_new e he with h | ⟨hu, -, -, h⟩
      · exact hinv.queue_le e h
      · obtain ⟨h1, h2, -⟩ := hupd hu
        obtain ⟨w, hw, hwe⟩ := lastBefore_mem _ (relaxColumns_ne_nil _ (top round state.2).2 hWne)
        have := hbnd w hw
        rw [← hwe, h2 hWne] at this
        rw [h, h1]; omega
    · intro e he
      rcases hqueue_new e he with h | ⟨hu, -, -, h⟩
      · exact hinv.queue_ge e h
      · obtain ⟨h1, -, -⟩ := hupd hu
        have := hinv.queue_ge _ ht
        rw [h, h1]; omega
    · intro u hu v hv hvc
      by_cases hcase : u = (top round state.2).1 ∧ (relaxColumns (top round state.2).2
          (NodeSlice.node state.1 (top round state.2).1)).2.1 = true
      · obtain ⟨hun, hupd'⟩ := hcase
        subst hun
        exact Or.inr (hcover_new hupd' v hv hvc)
      · apply hcover_old u hu _ v hv hvc
        intro hun
        by_contra hcon
        exact hcase ⟨hun, by simpa using hcon⟩
  · have hnd : ((top round state.2).1 :: reached).Nodup := List.nodup_cons.mpr ⟨hin, hinv.reached_nodup⟩
    have hsub : ∀ n ∈ (top round state.2).1 :: reached, n ∈ component := by
      intro n hn'
      rcases List.mem_cons.mp hn' with e | e
      · rw [e]; exact hn
      · exact hinv.reached_sub n e
    have hsum := lengthSum_le lengths _ component hnd hsub
    rw [lengthSum_cons] at hsum
    have hp := hinv.queue_le _ ht
    have hfull : (relaxColumns (top round state.2).2
        (NodeSlice.node state.1 (top round state.2).1)).2.1 = true := by
      apply relaxColumns_full
      intro w hw
      rw [hinv.unset _ hn hin w hw, hWlen]
      have : ((lengths (top round state.2).1 + lengthSum lengths reached : Nat) : Int)
          ≤ (lengthSum lengths component : Int) := by exact_mod_cast hsum
      push_cast at this
      omega
    obtain ⟨h1, h2, h3⟩ := hupd hfull
    rw [hWlen] at h1 h2 h3
    refine ⟨(top round state.2).1 :: reached, fun n h => List.mem_cons_of_mem _ h, ?_⟩
    refine ⟨hnd, hsub, ?_, ?_, ?_, ?_, ?_, ?_, ?_, ?_⟩
    · intro m hm
      by_cases hmn : m = (top round state.2).1
      · rw [hmn, hsame, relaxColumns_length]; exact hWlen
      · rw [hother m hmn]; exact hinv.length_eq m hm
    · intro m hm
      by_cases hmn : m = (top round state.2).1
      · rw [hmn, hsame]; exact relaxColumns_unitSteps _ _ (hinv.steps _ hn)
      · rw [hother m hmn]; exact hinv.steps m hm
    · intro m hm hmr
      have hmn : m ≠ (top round state.2).1 := fun e => hmr (e ▸ List.mem_cons_self _ _)
      rw [hother m hmn]
      exact hinv.unset m hm (fun h => hmr (List.mem_cons_of_mem _ h))
    · intro m hm w hw
      rw [lengthSum_cons]
      by_cases hmn : m = (top round state.2).1
      · rw [hmn, hsame] at hw
        have := h3 w hw
        push_cast; omega
      · rw [hother m hmn] at hw
        have hmr : m ∈ reached := by
          rcases List.mem_cons.mp hm with e | e
          · exact absurd e hmn
          · exact e
        have := hinv.bounded m hmr w hw
        push_cast; omega
    · intro e he
      rcases hqueue_new e he with h | ⟨-, -, h, -⟩
      · exact hinv.queue_node e h
      · exact h
    · intro e he
      rw [lengthSum_cons]
      rcases hqueue_new e he with h | ⟨-, -, -, h⟩
      · have := hinv.queue_le e h
        push_cast; omega
      · rw [h, h1]; push_cast; omega
    · intro e he
      rcases hqueue_new e he with h | ⟨-, -, -, h⟩
      · exact hinv.queue_ge e h
      · have := hinv.queue_ge _ ht
        rw [h, h1]; omega
    · intro u hu v hv hvc
      by_cases hun : u = (top round state.2).1
      · subst hun
        exact Or.inr (hcover_new hfull v hv hvc)
      · have hur : u ∈ reached := by
          rcases List.mem_cons.mp hu with e | e
          · exact absurd e hun
          · exact e
        exact hcover_old u hur (fun e => absurd e hun) v hv hvc

theorem setBefore_zero_cons (w : WordSlice) (rest : List WordSlice) (x : Int) :
    setBefore (w :: rest) 0 x = { w with scoreBeforeStart := x } :: rest := rfl

theorem setBefore_zero_props (words : List WordSlice) (x : Int) (hne : words ≠ []) :
    setBefore words 0 x ≠ [] ∧ (setBefore words 0 x).length = words.length
    ∧ (setBefore words 0 x).tail = words.tail ∧ firstBefore (setBefore words 0 x) = x := by
  cases words with
  | nil => exact absurd rfl hne
  | cons w rest =>
    rw [setBefore_zero_cons]
    exact ⟨List.cons_ne_nil _ _, rfl, rfl, rfl⟩

theorem seedNeighbor_step (previousSlice : NodeSlice) (currentBand previousBand : Nat → Bool)
    (componentIndex : Nat) (partOfComponent : Nat → Nat) (node : Nat)
    (hnode : partOfComponent node = componentIndex) (original slice : NodeSlice)
    (hout : ∀ m, partOfComponent m ≠ componentIndex →
      NodeSlice.node slice m = NodeSlice.node original m)
    (hne : NodeSlice.node slice node ≠ []) (neighbor : Nat) :
    (∀ m, m ≠ node →
      NodeSlice.node (seedNeighbor previousSlice currentBand previousBand componentIndex
        partOfComponent node slice neighbor) m = NodeSlice.node slice m)
    ∧ (NodeSlice.node (seedNeighbor previousSlice currentBand previousBand componentIndex
        partOfComponent node slice neighbor) node).length = (NodeSlice.node slice node).length
    ∧ (NodeSlice.node (seedNeighbor previousSlice currentBand previousBand componentIndex
        partOfComponent node slice neighbor) node).tail = (NodeSlice.node slice node).tail
    ∧ firstBefore (NodeSlice.node (seedNeighbor previousSlice currentBand previousBand
        componentIndex partOfComponent node slice neighbor) node)
      = seedValue original previousSlice currentBand previousBand componentIndex
          partOfComponent (firstBefore (NodeSlice.node slice node)) neighbor := by
  have hset : ∀ (s : NodeSlice) (x : Int), NodeSlice.node s node ≠ [] →
      (∀ m, m ≠ node → NodeSlice.node (NodeSlice.setNode s node
          (setBefore (NodeSlice.node s node) 0 x)) m = NodeSlice.node s m)
      ∧ (NodeSlice.node (NodeSlice.setNode s node (setBefore (NodeSlice.node s node) 0 x))
          node).length = (NodeSlice.node s node).length
      ∧ (NodeSlice.node (NodeSlice.setNode s node (setBefore (NodeSlice.node s node) 0 x))
          node).tail = (NodeSlice.node s node).tail
      ∧ firstBefore (NodeSlice.node (NodeSlice.setNode s node
          (setBefore (NodeSlice.node s node) 0 x)) node) = x := by
    intro s x hs
    obtain ⟨-, p2, p3, p4⟩ := setBefore_zero_props (NodeSlice.node s node) x hs
    rw [node_setNode_same _ _ _ hs]
    exact ⟨fun m hm => node_setNode_other _ _ _ _ hm, p2, p3, p4⟩
  unfold seedNeighbor seedValue
  by_cases h1 : (!currentBand neighbor && !previousBand neighbor) = true
  · rw [if_pos h1, if_pos h1]
    exact ⟨fun _ _ => rfl, rfl, rfl, rfl⟩
  · rw [if_neg h1, if_neg h1]
    by_cases h2 : partOfComponent neighbor = componentIndex
    · rw [if_pos h2, if_pos h2]
      exact ⟨fun _ _ => rfl, rfl, rfl, rfl⟩
    · rw [if_neg h2, if_neg h2]
      have hnb : neighbor ≠ node := fun e => h2 (e ▸ hnode)
      dsimp only
      by_cases hc : currentBand neighbor = true
      · obtain ⟨c1, c2, c3, c4⟩ := hset slice
          (min (firstBefore (NodeSlice.node slice node))
            (lastBefore (NodeSlice.node slice neighbor) + 1)) hne
        have hne' : NodeSlice.node (NodeSlice.setNode slice node
            (setBefore (NodeSlice.node slice node) 0
              (min (firstBefore (NodeSlice.node slice node))
                (lastBefore (NodeSlice.node slice neighbor) + 1)))) node ≠ [] := by
          intro e; rw [e] at c2
          exact hne (List.length_eq_zero.mp c2.symm)
        rw [if_pos hc, if_pos hc]
        by_cases hp : previousBand neighbor = true
        · rw [if_pos hp, if_pos hp]
          obtain ⟨d1, d2, d3, d4⟩ := hset _
            (min (firstBefore (NodeSlice.node (NodeSlice.setNode slice node
              (setBefore (NodeSlice.node slice node) 0
                (min (firstBefore (NodeSlice.node slice node))
                  (lastBefore (NodeSlice.node slice neighbor) + 1)))) node))
              (((NodeSlice.node previousSlice neighbor).getLastD WordSlice.default).scoreEnd + 1))
            hne'
          refine ⟨fun m hm => (d1 m hm).trans (c1 m hm), d2.trans c2, d3.trans c3, ?_⟩
          refine d4.trans ?_
          rw [c4, hout neighbor h2]
        · rw [if_neg hp, if_neg hp]
          refine ⟨c1, c2, c3, ?_⟩
          refine c4.trans ?_
          rw [hout neighbor h2]
      · rw [if_neg hc, if_neg hc]
        by_cases hp : previousBand neighbor = true
        · rw [if_pos hp, if_pos hp]
          exact hset slice _ hne
        · rw [if_neg hp, if_neg hp]
          exact ⟨fun _ _ => rfl, rfl, rfl, rfl⟩

theorem seedNeighbor_fold (previousSlice : NodeSlice) (currentBand previousBand : Nat → Bool)
    (componentIndex : Nat) (partOfComponent : Nat → Nat) (node : Nat)
    (hnode : partOfComponent node = componentIndex) (original : NodeSlice)
    (neighbors : List Nat) : ∀ slice : NodeSlice,
    (∀ m, partOfComponent m ≠ componentIndex →
      NodeSlice.node slice m = NodeSlice.node original m) →
    NodeSlice.node slice node ≠ [] →
    (∀ m, m ≠ node →
      NodeSlice.node (neighbors.foldl (seedNeighbor previousSlice currentBand previousBand
        componentIndex partOfComponent node) slice) m = NodeSlice.node slice m)
    ∧ (NodeSlice.node (neighbors.foldl (seedNeighbor previousSlice currentBand previousBand
        componentIndex partOfComponent node) slice) node).length
        = (NodeSlice.node slice node).length
    ∧ (NodeSlice.node (neighbors.foldl (seedNeighbor previousSlice currentBand previousBand
        componentIndex partOfComponent node) slice) node).tail = (NodeSlice.node slice node).tail
    ∧ firstBefore (NodeSlice.node (neighbors.foldl (seedNeighbor previousSlice currentBand
        previousBand componentIndex partOfComponent node) slice) node)
      = neighbors.foldl (seedValue original previousSlice currentBand previousBand
          componentIndex partOfComponent) (firstBefore (NodeSlice.node slice node)) := by
  induction neighbors with
  | nil => intro slice _ _; exact ⟨fun _ _ => rfl, rfl, rfl, rfl⟩
  | cons nb rest ih =>
    intro slice hout hne
    obtain ⟨s1, s2, s3, s4⟩ := seedNeighbor_step previousSlice currentBand previousBand
      componentIndex partOfComponent node hnode original slice hout hne nb
    have hne' : NodeSlice.node (seedNeighbor previousSlice currentBand previousBand
        componentIndex partOfComponent node slice nb) node ≠ [] := by
      intro e; rw [e] at s2
      exact hne (List.length_eq_zero.mp s2.symm)
    have hout' : ∀ m, partOfComponent m ≠ componentIndex →
        NodeSlice.node (seedNeighbor previousSlice currentBand previousBand componentIndex
          partOfComponent node slice nb) m = NodeSlice.node original m := by
      intro m hm
      rw [s1 m (fun e => hm (e ▸ hnode))]
      exact hout m hm
    obtain ⟨r1, r2, r3, r4⟩ := ih _ hout' hne'
    simp only [List.foldl_cons]
    refine ⟨fun m hm => (r1 m hm).trans (s1 m hm), r2.trans s2, r3.trans s3, ?_⟩
    rw [r4, s4]

theorem seedValue_props (original previousSlice : NodeSlice)
    (currentBand previousBand : Nat → Bool) (componentIndex : Nat)
    (partOfComponent : Nat → Nat) (bound value : Int) (neighbor : Nat)
    (hcur : partOfComponent neighbor ≠ componentIndex → currentBand neighbor = true →
      lastBefore (NodeSlice.node original neighbor) + 1 ≤ bound)
    (hprev : partOfComponent neighbor ≠ componentIndex → previousBand neighbor = true →
      ((NodeSlice.node previousSlice neighbor).getLastD WordSlice.default).scoreEnd + 1
        ≤ bound) :
    seedValue original previousSlice currentBand previousBand componentIndex partOfComponent
        value neighbor ≤ value
    ∧ (seedValue original previousSlice currentBand previousBand componentIndex
          partOfComponent value neighbor = value
        ∨ seedValue original previousSlice currentBand previousBand componentIndex
          partOfComponent value neighbor ≤ bound)
    ∧ (partOfComponent neighbor ≠ componentIndex
        ∧ (currentBand neighbor = true ∨ previousBand neighbor = true) →
        seedValue original previousSlice currentBand previousBand componentIndex
          partOfComponent value neighbor ≤ bound) := by
  unfold seedValue
  by_cases h2 : partOfComponent neighbor = componentIndex
  · simp [h2]
  · have hc := hcur h2
    have hp := hprev h2
    cases hcb : currentBand neighbor <;> cases hpb : previousBand neighbor <;>
      simp [h2, hcb, hpb] at hc hp ⊢ <;> omega

theorem seedValue_fold_props (original previousSlice : NodeSlice)
    (currentBand previousBand : Nat → Bool) (componentIndex : Nat)
    (partOfComponent : Nat → Nat) (bound : Int) (neighbors : List Nat)
    (hcur : ∀ nb ∈ neighbors, partOfComponent nb ≠ componentIndex → currentBand nb = true →
      lastBefore (NodeSlice.node original nb) + 1 ≤ bound)
    (hprev : ∀ nb ∈ neighbors, partOfComponent nb ≠ componentIndex →
      previousBand nb = true →
      ((NodeSlice.node previousSlice nb).getLastD WordSlice.default).scoreEnd + 1 ≤ bound) :
    ∀ value : Int,
    neighbors.foldl (seedValue original previousSlice currentBand previousBand componentIndex
        partOfComponent) value ≤ value
    ∧ (neighbors.foldl (seedValue original previousSlice currentBand previousBand
          componentIndex partOfComponent) value = value
        ∨ neighbors.foldl (seedValue original previousSlice currentBand previousBand
          componentIndex partOfComponent) value ≤ bound)
    ∧ ((∃ nb ∈ neighbors, partOfComponent nb ≠ componentIndex
          ∧ (currentBand nb = true ∨ previousBand nb = true)) →
        neighbors.foldl (seedValue original previousSlice currentBand previousBand
          componentIndex partOfComponent) value ≤ bound) := by
  induction neighbors with
  | nil =>
    intro value
    exact ⟨le_refl _, Or.inl rfl, fun ⟨nb, h, _⟩ => absurd h (List.not_mem_nil _)⟩
  | cons nb rest ih =>
    intro value
    obtain ⟨p1, p2, p3⟩ := seedValue_props original previousSlice currentBand previousBand
      componentIndex partOfComponent bound value nb
      (hcur nb (List.mem_cons_self _ _)) (hprev nb (List.mem_cons_self _ _))
    obtain ⟨q1, q2, q3⟩ := ih (fun x hx => hcur x (List.mem_cons_of_mem _ hx))
      (fun x hx => hprev x (List.mem_cons_of_mem _ hx))
      (seedValue original previousSlice currentBand previousBand componentIndex
        partOfComponent value nb)
    rw [List.foldl_cons]
    refine ⟨le_trans q1 p1, ?_, ?_⟩
    · rcases q2 with h | h
      · rcases p2 with h' | h'
        · left; rw [h, h']
        · right; rw [h]; exact h'
      · exact Or.inr h
    · rintro ⟨x, hx, hsrc⟩
      rcases List.mem_cons.mp hx with e | e
      · subst e
        exact le_trans q1 (p3 hsrc)
      · exact q3 ⟨x, e, hsrc⟩

theorem seedStart_props (limits : TypeLimits) (previousSlice : NodeSlice)
    (previousBand : Nat → Bool) (currentSlice : NodeSlice) (node : Nat)
    (hne : NodeSlice.node currentSlice node ≠ []) :
    seedStart limits previousSlice previousBand currentSlice node ≠ []
    ∧ (seedStart limits previousSlice previousBand currentSlice node).length
        = (NodeSlice.node currentSlice node).length
    ∧ (∀ w ∈ (seedStart limits previousSlice previousBand currentSlice node).tail,
        w.scoreBeforeStart = limits.scoreTypeMax)
    ∧ firstBefore (seedStart limits previousSlice previousBand currentSlice node)
        = (if previousBand node then
            ((NodeSlice.node previousSlice node).headD WordSlice.default).scoreEnd
          else limits.scoreTypeMax) := by
  have hmap : ∀ w ∈ (NodeSlice.node currentSlice node).map
      (fun word : WordSlice => { word with scoreBeforeStart := limits.scoreTypeMax }),
      w.scoreBeforeStart = limits.scoreTypeMax := by
    intro w hw
    obtain ⟨x, -, rfl⟩ := List.mem_map.mp hw
    rfl
  have hmne : (NodeSlice.node currentSlice node).map
      (fun word : WordSlice => { word with scoreBeforeStart := limits.scoreTypeMax }) ≠ [] := by
    intro e; exact hne (List.map_eq_nil_iff.mp e)
  unfold seedStart
  by_cases hp : previousBand node = true
  · rw [if_pos hp, if_pos hp, if_pos hp]
    obtain ⟨p1, p2, p3, p4⟩ := setBefore_zero_props _
      ((NodeSlice.node previousSlice node).headD WordSlice.default).scoreEnd hmne
    refine ⟨p1, by rw [p2, List.length_map], ?_, p4⟩
    rw [p3]
    intro w hw
    exact hmap w (List.mem_of_mem_tail hw)
  · rw [if_neg hp, if_neg hp]
    refine ⟨hmne, List.length_map _ _, fun w hw => hmap w (List.mem_of_mem_tail hw), ?_⟩
    obtain ⟨w, hw, e⟩ := firstBefore_mem _ hmne
    rw [e]; exact hmap w hw

theorem seedColumns_props (previousBandNode : Bool) (rest : List WordSlice) :
    ∀ (before : Int) (oldSlice : List WordSlice),
      (seedColumns previousBandNode before oldSlice rest).length = rest.length
      ∧ (∀ w ∈ seedColumns previousBandNode before oldSlice rest,
          w.scoreBeforeStart ≤ before + rest.length)
      ∧ (∀ a : WordSlice, a.scoreBeforeStart = before →
          UnitSteps (a :: seedColumns previousBandNode before oldSlice rest)) := by
  induction rest with
  | nil =>
    intro before oldSlice
    refine ⟨rfl, fun w hw => absurd hw (List.not_mem_nil _), fun a _ => List.chain'_singleton _⟩
  | cons word rest ih =>
    intro before oldSlice
    rw [seedColumns]
    have hv : (if previousBandNode = true then
          min (before + 1) (oldSlice.headD WordSlice.default).scoreEnd
        else before + 1) ≤ before + 1 := by
      split_ifs
      · exact min_le_left _ _
      · exact le_refl _
    obtain ⟨i1, i2, i3⟩ := ih (if previousBandNode = true then
          min (before + 1) (oldSlice.headD WordSlice.default).scoreEnd
        else before + 1) oldSlice.tail
    refine ⟨by simp only [List.length_cons, i1], ?_, ?_⟩
    · intro w hw
      rcases List.mem_cons.mp hw with e | e
      · rw [e]
        show (if previousBandNode = true then _ else _) ≤ _
        simp only [List.length_cons, Nat.cast_add, Nat.cast_one]
        omega
      · have := i2 w e
        simp only [List.length_cons, Nat.cast_add, Nat.cast_one]
        omega
    · intro a ha
      show List.Chain' _ (a :: _ :: _)
      rw [List.chain'_cons]
      refine ⟨?_, i3 _ rfl⟩
      show (if previousBandNode = true then _ else _) ≤ _
      rw [ha]; exact hv

theorem unitSteps_of_const (c : Int) (words : List WordSlice)
    (h : ∀ w ∈ words, w.scoreBeforeStart = c) : UnitSteps words := by
  induction words with
  | nil => exact List.chain'_nil
  | cons a rest ih =>
    cases rest with
    | nil => exact List.chain'_singleton _
    | cons b t =>
      show List.Chain' _ (a :: b :: t)
      rw [List.chain'_cons]
      refine ⟨?_, ih (fun w hw => h w (List.mem_cons_of_mem _ hw))⟩
      rw [h a (List.mem_cons_self _ _), h b (List.mem_cons_of_mem _ (List.mem_cons_self _ _))]
      omega

theorem seedNode_props (graph : AlignmentGraph) (inNeighbors : Nat → List Nat)
    (limits : TypeLimits) (previousSlice : NodeSlice) (currentBand previousBand : Nat → Bool)
    (componentIndex : Nat) (partOfComponent : Nat → Nat)
    (state : NodeSlice × List (Nat × Int)) (node : Nat)
    (hnode : partOfComponent node = componentIndex) (original : NodeSlice)
    (hout : ∀ m, partOfComponent m ≠ componentIndex →
      NodeSlice.node state.1 m = NodeSlice.node original m)
    (hne : NodeSlice.node state.1 node ≠ []) :
    (∀ m, m ≠ node →
      NodeSlice.node (seedNode graph inNeighbors limits previousSlice currentBand previousBand
        componentIndex partOfComponent state node).1 m = NodeSlice.node state.1 m)
    ∧ (NodeSlice.node (seedNode graph inNeighbors limits previousSlice currentBand previousBand
        componentIndex partOfComponent state node).1 node).length
        = (NodeSlice.node state.1 node).length
    ∧ UnitSteps (NodeSlice.node (seedNode graph inNeighbors limits previousSlice currentBand
        previousBand componentIndex partOfComponent state node).1 node)
    ∧ (seedScore inNeighbors limits original previousSlice currentBand previousBand
          componentIndex partOfComponent node = limits.scoreTypeMax →
        (∀ w ∈ NodeSlice.node (seedNode graph inNeighbors limits previousSlice currentBand
          previousBand componentIndex partOfComponent state node).1 node,
            w.scoreBeforeStart = limits.scoreTypeMax)
        ∧ (seedNode graph inNeighbors limits previousSlice currentBand previousBand
          componentIndex partOfComponent state node).2 = state.2)
    ∧ (seedScore inNeighbors limits original previousSlice currentBand previousBand
          componentIndex partOfComponent node ≠ limits.scoreTypeMax →
        (∀ w ∈ NodeSlice.node (seedNode graph inNeighbors limits previousSlice currentBand
          previousBand componentIndex partOfComponent state node).1 node,
            w.scoreBeforeStart ≤ seedScore inNeighbors limits original previousSlice currentBand
              previousBand componentIndex partOfComponent node
              + ((NodeSlice.node state.1 node).length : Int) - 1)
        ∧ (seedNode graph inNeighbors limits previousSlice currentBand previousBand
          componentIndex partOfComponent state node).2
          = state.2 ++ ((graph.outNeighbors node).filter
              (fun neighbor => decide (partOfComponent neighbor = componentIndex))).map
            (fun neighbor => (neighbor,
              lastBefore (NodeSlice.node (seedNode graph inNeighbors limits previousSlice
                currentBand previousBand componentIndex partOfComponent state node).1 node)
                + 1))) := by
  obtain ⟨st1, st2, st3, st4⟩ := seedStart_props limits previousSlice previousBand state.1 node hne
  have hS1same : NodeSlice.node (NodeSlice.setNode state.1 node
      (seedStart limits previousSlice previousBand state.1 node)) node
      = seedStart limits previousSlice previousBand state.1 node :=
    node_setNode_same _ _ _ hne
  have hS1other : ∀ m, m ≠ node → NodeSlice.node (NodeSlice.setNode state.1 node
      (seedStart limits previousSlice previousBand state.1 node)) m = NodeSlice.node state.1 m :=
    fun m hm => node_setNode_other _ _ _ _ hm
  obtain ⟨f1, f2, f3, f4⟩ := seedNeighbor_fold previousSlice currentBand previousBand
    componentIndex partOfComponent node hnode original (inNeighbors node)
    (NodeSlice.setNode state.1 node (seedStart limits previousSlice previousBand state.1 node))
    (fun m hm => by rw [hS1other m (fun e => hm (e ▸ hnode))]; exact hout m hm)
    (by rw [hS1same]; exact st1)
  rw [hS1same] at f2 f3 f4
  rw [st4] at f4
  have f4' : firstBefore (NodeSlice.node ((inNeighbors node).foldl
      (seedNeighbor previousSlice currentBand previousBand componentIndex partOfComponent node)
      (NodeSlice.setNode state.1 node
        (seedStart limits previousSlice previousBand state.1 node))) node)
      = seedScore inNeighbors limits original previousSlice currentBand previousBand
          componentIndex partOfComponent node := f4
  have hunf : seedNode graph inNeighbors limits previousSlice currentBand previousBand
      componentIndex partOfComponent state node
      = (match NodeSlice.node ((inNeighbors node).foldl
          (seedNeighbor previousSlice currentBand previousBand componentIndex partOfComponent
            node)
          (NodeSlice.setNode state.1 node
            (seedStart limits previousSlice previousBand state.1 node))) node with
        | [] => ((inNeighbors node).foldl
            (seedNeighbor previousSlice currentBand previousBand componentIndex partOfComponent
              node)
            (NodeSlice.setNode state.1 node
              (seedStart limits previousSlice previousBand state.1 node)), state.2)
        | first :: rest =>
          if first.scoreBeforeStart = limits.scoreTypeMax then
            ((inNeighbors node).foldl
              (seedNeighbor previousSlice currentBand previousBand componentIndex
                partOfComponent node)
              (NodeSlice.setNode state.1 node
                (seedStart limits previousSlice previousBand state.1 node)), state.2)
          else
            (NodeSlice.setNode ((inNeighbors node).foldl
                (seedNeighbor previousSlice currentBand previousBand componentIndex
                  partOfComponent node)
                (NodeSlice.setNode state.1 node
                  (seedStart limits previousSlice previousBand state.1 node))) node
              (first :: seedColumns (previousBand node) first.scoreBeforeStart
                (if previousBand node then NodeSlice.node previousSlice node
                  else NodeSlice.node state.1 node).tail rest),
             state.2 ++ ((graph.outNeighbors node).filter
                (fun neighbor => decide (partOfComponent neighbor = componentIndex))).map
              (fun neighbor => (neighbor,
                ((first :: seedColumns (previousBand node) first.scoreBeforeStart
                  (if previousBand node then NodeSlice.node previousSlice node
                    else NodeSlice.node state.1 node).tail rest).getLastD
                  WordSlice.default).scoreBeforeStart + 1)))) := rfl
  rw [hunf]
  generalize hF : (inNeighbors node).foldl
      (seedNeighbor previousSlice currentBand previousBand componentIndex partOfComponent node)
      (NodeSlice.setNode state.1 node
        (seedStart limits previousSlice previousBand state.1 node)) = F at f1 f2 f3 f4'
  generalize seedScore inNeighbors limits original previousSlice currentBand previousBand
      componentIndex partOfComponent node = v at f4'
  cases hW : NodeSlice.node F node with
  | nil =>
    rw [hW] at f2
    rw [st2] at f2
    exact absurd (List.length_eq_zero.mp f2.symm) hne
  | cons first rest =>
    rw [hW] at f2 f3 f4'
    have hfirst : first.scoreBeforeStart = v := f4'
    have hrest : ∀ w ∈ rest, w.scoreBeforeStart = limits.scoreTypeMax := by
      intro w hw
      have : rest = (seedStart limits previousSlice previousBand state.1 node).tail := f3
      rw [this] at hw
      exact st3 w hw
    have hlen : (first :: rest).length = (NodeSlice.node state.1 node).length := by
      rw [f2, st2]
    by_cases hv : first.scoreBeforeStart = limits.scoreTypeMax
    · simp only [if_pos hv]
      have hall : ∀ w ∈ first :: rest, w.scoreBeforeStart = limits.scoreTypeMax := by
        intro w hw
        rcases List.mem_cons.mp hw with e | e
        · rw [e]; exact hv
        · exact hrest w e
      refine ⟨fun m hm => (f1 m hm).trans (hS1other m hm), by rw [hW]; exact hlen,
        by rw [hW]; exact unitSteps_of_const _ _ hall, ?_, ?_⟩
      · intro _
        exact ⟨by rw [hW]; exact hall, trivial⟩
      · intro hne'
        exact absurd (hfirst.symm.trans hv) hne'
    · simp only [if_neg hv]
      have hFne : NodeSlice.node F node ≠ [] := by rw [hW]; exact List.cons_ne_nil _ _
      obtain ⟨c1, c2, c3⟩ := seedColumns_props (previousBand node) rest first.scoreBeforeStart
        (if previousBand node then NodeSlice.node previousSlice node
          else NodeSlice.node state.1 node).tail
      have hnew : NodeSlice.node (NodeSlice.setNode F node
          (first :: seedColumns (previousBand node) first.scoreBeforeStart
            (if previousBand node then NodeSlice.node previousSlice node
              else NodeSlice.node state.1 node).tail rest)) node
          = first :: seedColumns (previousBand node) first.scoreBeforeStart
            (if previousBand node then NodeSlice.node previousSlice node
              else NodeSlice.node state.1 node).tail rest :=
        node_setNode_same _ _ _ hFne
      refine ⟨?_, ?_, ?_, ?_, ?_⟩
      · intro m hm
        show NodeSlice.node (NodeSlice.setNode F node _) m = _
        rw [node_setNode_other _ _ _ _ hm]
        exact (f1 m hm).trans (hS1other m hm)
      · show (NodeSlice.node (NodeSlice.setNode F node _) node).length = _
        rw [hnew, List.length_cons, c1, ← hlen, List.length_cons]
      · show UnitSteps (NodeSlice.node (NodeSlice.setNode F node _) node)
        rw [hnew]
        exact c3 first rfl
      · intro hv'
        exact absurd (hfirst.trans hv') hv
      · intro _
        refine ⟨?_, ?_⟩
        · show ∀ w ∈ NodeSlice.node (NodeSlice.setNode F node _) node, _
          rw [hnew]
          intro w hw
          rw [← hlen, ← hfirst]
          rcases List.mem_cons.mp hw with e | e
          · rw [e]; simp only [List.length_cons, Nat.cast_add, Nat.cast_one]; omega
          · have := c2 w e
            simp only [List.length_cons, Nat.cast_add, Nat.cast_one]; omega
        · show state.2 ++ _ = state.2 ++ _
          rw [show NodeSlice.node (NodeSlice.setNode F node
              (first :: seedColumns (previousBand node) first.scoreBeforeStart
                (if previousBand node then NodeSlice.node previousSlice node
                  else NodeSlice.node state.1 node).tail rest)) node = _ from hnew]
          rfl

theorem seedInv_step (graph : AlignmentGraph) (inNeighbors : Nat → List Nat)
    (limits : TypeLimits) (previousSlice : NodeSlice) (currentBand previousBand : Nat → Bool)
    (component : List Nat) (componentIndex : Nat) (partOfComponent : Nat → Nat)
    (bound : Int) (lengths : Nat → Nat) (original : NodeSlice)
    (hpart : ∀ n, partOfComponent n = componentIndex ↔ n ∈ component)
    (hlen : ∀ n ∈ component, 0 < lengths n)
    (hscore : ∀ n ∈ component,
      seedScore inNeighbors limits original previousSlice currentBand previousBand
          componentIndex partOfComponent n = limits.scoreTypeMax
      ∨ seedScore inNeighbors limits original previousSlice currentBand previousBand
          componentIndex partOfComponent n ≤ bound)
    (done reached : List Nat) (state : NodeSlice × List (Nat × Int)) (node : Nat)
    (hnode : node ∈ component) (hnew : node ∉ done)
    (hinv : SeedInv graph component limits bound lengths componentIndex partOfComponent
      (seedScore inNeighbors limits original previousSlice currentBand previousBand
        componentIndex partOfComponent) original done reached state) :
    ∃ reached', SeedInv graph component limits bound lengths componentIndex partOfComponent
      (seedScore inNeighbors limits original previousSlice currentBand previousBand
        componentIndex partOfComponent) original (done ++ [node]) reached'
      (seedNode graph inNeighbors limits previousSlice currentBand previousBand componentIndex
        partOfComponent state node) := by
  have hidx := (hpart node).mpr hnode
  have hWlen := hinv.length_eq node hnode
  have hne : NodeSlice.node state.1 node ≠ [] := by
    intro e; rw [e] at hWlen; have := hlen node hnode; simp at hWlen; omega
  obtain ⟨p1, p2, p3, p4, p5⟩ := seedNode_props graph inNeighbors limits previousSlice
    currentBand previousBand componentIndex partOfComponent state node hidx original
    hinv.outside hne
  have hnr : node ∉ reached := fun h => hnew (hinv.reached_sub node h)
  have hout' : ∀ m, partOfComponent m ≠ componentIndex →
      NodeSlice.node (seedNode graph inNeighbors limits previousSlice currentBand previousBand
        componentIndex partOfComponent state node).1 m = NodeSlice.node original m := by
    intro m hm
    rw [p1 m (fun e => hm (e ▸ hidx))]
    exact hinv.outside m hm
  have hlen' : ∀ n ∈ component,
      (NodeSlice.node (seedNode graph inNeighbors limits previousSlice currentBand previousBand
        componentIndex partOfComponent state node).1 n).length = lengths n := by
    intro n hn
    by_cases e : n = node
    · rw [e, p2]; exact hWlen
    · rw [p1 n e]; exact hinv.length_eq n hn
  have hsteps' : ∀ n ∈ done ++ [node],
      UnitSteps (NodeSlice.node (seedNode graph inNeighbors limits previousSlice currentBand
        previousBand componentIndex partOfComponent state node).1 n) := by
    intro n hn
    by_cases e : n = node
    · rw [e]; exact p3
    · rw [p1 n e]
      rcases List.mem_append.mp hn with h | h
      · exact hinv.steps n h
      · exact absurd (List.mem_singleton.mp h) e
  by_cases hv : seedScore inNeighbors limits original previousSlice currentBand previousBand
      componentIndex partOfComponent node = limits.scoreTypeMax
  · obtain ⟨q1, q2⟩ := p4 hv
    refine ⟨reached, ⟨hinv.reached_nodup, fun n h => List.mem_append_left _ (hinv.reached_sub n h),
      hout', hlen', hsteps', ?_, ?_, ?_, ?_, ?_, ?_⟩⟩
    · intro n hn hnr'
      by_cases e : n = node
      · rw [e]; exact q1
      · rw [p1 n e]
        rcases List.mem_append.mp hn with h | h
        · exact hinv.unset n h hnr'
        · exact absurd (List.mem_singleton.mp h) e
    · intro n hn
      rw [p1 n (fun e => hnr (e ▸ hn))]
      exact hinv.bounded n hn
    · rw [q2]; exact hinv.queue_node
    · rw [q2]
      intro e he
      obtain ⟨u, hu, h⟩ := hinv.queue_from e he
      exact ⟨u, hu, by rw [p1 u (fun e => hnr (e ▸ hu))]; exact h⟩
    · rw [q2]
      intro u hu v hv' hvc
      rw [p1 u (fun e => hnr (e ▸ hu))]
      exact hinv.covered u hu v hv' hvc
    · intro n hn hs
      rcases List.mem_append.mp hn with h | h
      · exact hinv.sourced n h hs
      · rw [List.mem_singleton.mp h] at hs
        exact absurd hv hs
  · obtain ⟨q1, q2⟩ := p5 hv
    have hvb : seedScore inNeighbors limits original previousSlice currentBand previousBand
        componentIndex partOfComponent node ≤ bound := by
      rcases hscore node hnode with h | h
      · exact absurd h hv
      · exact h
    refine ⟨node :: reached, ⟨List.nodup_cons.mpr ⟨hnr, hinv.reached_nodup⟩, ?_,
      hout', hlen', hsteps', ?_, ?_, ?_, ?_, ?_, ?_⟩⟩
    · intro n hn
      rcases List.mem_cons.mp hn with e | e
      · rw [e]; exact List.mem_append_right _ (List.mem_singleton_self _)
      · exact List.mem_append_left _ (hinv.reached_sub n e)
    · intro n hn hnr'
      have e : n ≠ node := fun e => hnr' (e ▸ List.mem_cons_self _ _)
      rw [p1 n e]
      rcases List.mem_append.mp hn with h | h
      · exact hinv.unset n h (fun h' => hnr' (List.mem_cons_of_mem _ h'))
      · exact absurd (List.mem_singleton.mp h) e
    · intro n hn w hw
      rcases List.mem_cons.mp hn with e | e
      · rw [e] at hw ⊢
        have := q1 w hw
        rw [hWlen] at this
        omega
      · rw [p1 n (fun e' => hnr (e' ▸ e))] at hw
        exact hinv.bounded n e w hw
    · rw [q2]
      intro e he
      rcases List.mem_append.mp he with h | h
      · exact hinv.queue_node e h
      · obtain ⟨nb, hnb, rfl⟩ := List.mem_map.mp h
        exact (hpart nb).mp (of_decide_eq_true (List.mem_filter.mp hnb).2)
    · rw [q2]
      intro e he
      rcases List.mem_append.mp he with h | h
      · obtain ⟨u, hu, h'⟩ := hinv.queue_from e h
        exact ⟨u, List.mem_cons_of_mem _ hu, by rw [p1 u (fun e => hnr (e ▸ hu))]; exact h'⟩
      · obtain ⟨nb, -, rfl⟩ := List.mem_map.mp h
        exact ⟨node, List.mem_cons_self _ _, rfl⟩
    · rw [q2]
      intro u hu v hv' hvc
      rcases List.mem_cons.mp hu with e | e
      · rw [e] at hv' ⊢
        apply List.mem_append_right
        exact List.mem_map.mpr ⟨v, List.mem_filter.mpr
          ⟨hv', decide_eq_true ((hpart v).mpr hvc)⟩, rfl⟩
      · rw [p1 u (fun e' => hnr (e' ▸ e))]
        exact List.mem_append_left _ (hinv.covered u e v hv' hvc)
    · intro n hn _
      rcases List.mem_append.mp hn with h | h
      · by_cases hs : seedScore inNeighbors limits original previousSlice currentBand
            previousBand componentIndex partOfComponent n = limits.scoreTypeMax
        · rename_i hs'
          exact absurd hs hs'
        · exact List.mem_cons_of_mem _ (hinv.sourced n h hs)
      · rw [List.mem_singleton.mp h]; exact List.mem_cons_self _ _

theorem seedInv_fold (graph : AlignmentGraph) (inNeighbors : Nat → List Nat)
    (limits : TypeLimits) (previousSlice : NodeSlice) (currentBand previousBand : Nat → Bool)
    (component : List Nat) (componentIndex : Nat) (partOfComponent : Nat → Nat)
    (bound : Int) (lengths : Nat → Nat) (original : NodeSlice)
    (hpart : ∀ n, partOfComponent n = componentIndex ↔ n ∈ component)
    (hlen : ∀ n ∈ component, 0 < lengths n)
    (hscore : ∀ n ∈ component,
      seedScore inNeighbors limits original previousSlice currentBand previousBand
          componentIndex partOfComponent n = limits.scoreTypeMax
      ∨ seedScore inNeighbors limits original previousSlice currentBand previousBand
          componentIndex partOfComponent n ≤ bound)
    (todo : List Nat) : ∀ (done reached : List Nat) (state : NodeSlice × List (Nat × Int)),
    (done ++ todo).Nodup → (∀ n ∈ todo, n ∈ component) →
    SeedInv graph component limits bound lengths componentIndex partOfComponent
      (seedScore inNeighbors limits original previousSlice currentBand previousBand
        componentIndex partOfComponent) original done reached state →
    ∃ reached', SeedInv graph component limits bound lengths componentIndex partOfComponent
      (seedScore inNeighbors limits original previousSlice currentBand previousBand
        componentIndex partOfComponent) original (done ++ todo) reached'
      (todo.foldl (seedNode graph inNeighbors limits previousSlice currentBand previousBand
        componentIndex partOfComponent) state) := by
  induction todo with
  | nil =>
    intro done reached state _ _ hinv
    exact ⟨reached, by rw [List.append_nil]; exact hinv⟩
  | cons node rest ih =>
    intro done reached state hnd hsub hinv
    have hnew : node ∉ done := by
      intro h
      have := (List.nodup_append.mp hnd).2.2
      exact this h (List.mem_cons_self _ _)
    obtain ⟨r1, h1⟩ := seedInv_step graph inNeighbors limits previousSlice currentBand
      previousBand component componentIndex partOfComponent bound lengths original hpart hlen
      hscore done reached state node (hsub node (List.mem_cons_self _ _)) hnew hinv
    have hnd' : ((done ++ [node]) ++ rest).Nodup := by
      rw [List.append_assoc]; exact hnd
    obtain ⟨r2, h2⟩ := ih (done ++ [node]) r1 _ hnd'
      (fun n hn => hsub n (List.mem_cons_of_mem _ hn)) h1
    refine ⟨r2, ?_⟩
    rw [List.foldl_cons]
    have e : done ++ node :: rest = (done ++ [node]) ++ rest := by
      rw [List.append_assoc]; rfl
    rw [e]; exact h2

theorem length_le_lengthSum (lengths : Nat → Nat) (l : List Nat) (n : Nat) (h : n ∈ l) :
    lengths n ≤ lengthSum lengths l := by
  induction l with
  | nil => exact absurd h (List.not_mem_nil _)
  | cons a t ih =>
    rw [lengthSum_cons]
    rcases List.mem_cons.mp h with e | e
    · rw [e]; omega
    · have := ih e; omega

theorem exists_lower_bound (queue : List (Nat × Int)) : ∃ low : Int, ∀ e ∈ queue, low ≤ e.2 := by
  induction queue with
  | nil => exact ⟨0, fun e he => absurd he (List.not_mem_nil _)⟩
  | cons a t ih =>
    obtain ⟨low, h⟩ := ih
    refine ⟨min low a.2, ?_⟩
    intro e he
    rcases List.mem_cons.mp he with e' | e'
    · rw [e']; exact min_le_right _ _
    · exact le_trans (min_le_left _ _) (h e e')

theorem relaxInv_of_seedInv (graph : AlignmentGraph) (component : List Nat)
    (limits : TypeLimits) (bound low : Int) (lengths : Nat → Nat) (componentIndex : Nat)
    (partOfComponent : Nat → Nat) (score : Nat → Int) (original : NodeSlice)
    (reached : List Nat) (state : NodeSlice × List (Nat × Int))
    (hlen : ∀ n ∈ component, 0 < lengths n)
    (hlow : ∀ e ∈ state.2, low ≤ e.2)
    (hinv : SeedInv graph component limits bound lengths componentIndex partOfComponent score
      original component reached state) :
    RelaxInv graph component limits.scoreTypeMax bound low lengths reached state := by
  have hb : ∀ n ∈ reached, ∀ w ∈ NodeSlice.node state.1 n,
      w.scoreBeforeStart ≤ bound + (lengthSum lengths reached : Int) - 1 := by
    intro n hn w hw
    have h1 := hinv.bounded n hn w hw
    have h2 : ((lengths n : Nat) : Int) ≤ (lengthSum lengths reached : Int) := by
      exact_mod_cast length_le_lengthSum lengths reached n hn
    omega
  have hlast : ∀ u ∈ reached, lastBefore (NodeSlice.node state.1 u)
      ≤ bound + (lengthSum lengths reached : Int) - 1 := by
    intro u hu
    have hne : NodeSlice.node state.1 u ≠ [] := by
      intro e
      have h1 := hinv.length_eq u (hinv.reached_sub u hu)
      rw [e] at h1
      have := hlen u (hinv.reached_sub u hu)
      simp at h1; omega
    obtain ⟨w, hw, e⟩ := lastBefore_mem _ hne
    rw [e]; exact hb u hu w hw
  refine ⟨hinv.reached_nodup, hinv.reached_sub, hinv.length_eq, hinv.steps, hinv.unset, hb,
    hinv.queue_node, ?_, hlow, ?_⟩
  · intro e he
    obtain ⟨u, hu, h⟩ := hinv.queue_from e he
    have := hlast u hu
    omega
  · intro u hu v hv hvc
    exact Or.inr ⟨_, hinv.covered u hu v hv hvc, rfl, le_refl _⟩

theorem placeholderCells_before (previousBandNode : Bool) (words : List WordSlice) :
    ∀ oldSlice : List WordSlice,
      (placeholderCells previousBandNode oldSlice words).map (fun w => w.scoreBeforeStart)
        = words.map (fun w => w.scoreBeforeStart) := by
  induction words with
  | nil => intro oldSlice; rfl
  | cons a rest ih =>
    intro oldSlice
    rw [placeholderCells, List.map_cons, List.map_cons, ih]
    rfl

theorem firstBefore_of_map (a b : List WordSlice)
    (h : a.map (fun w => w.scoreBeforeStart) = b.map (fun w => w.scoreBeforeStart)) :
    firstBefore a = firstBefore b := by
  cases a with
  | nil =>
    cases b with
    | nil => rfl
    | cons y t => simp at h
  | cons x s =>
    cases b with
    | nil => simp at h
    | cons y t =>
      simp only [List.map_cons, List.cons.injEq] at h
      exact h.1

theorem lastBefore_of_map (a : List WordSlice) : ∀ b : List WordSlice,
    a.map (fun w => w.scoreBeforeStart) = b.map (fun w => w.scoreBeforeStart) →
    lastBefore a = lastBefore b := by
  induction a with
  | nil =>
    intro b h
    cases b with
    | nil => rfl
    | cons y t => simp at h
  | cons x s ih =>
    intro b h
    cases b with
    | nil => simp at h
    | cons y t =>
      simp only [List.map_cons, List.cons.injEq] at h
      cases s with
      | nil =>
        cases t with
        | nil => exact h.1
        | cons y2 t2 => simp at h
      | cons x2 s2 =>
        cases t with
        | nil => simp at h
        | cons y2 t2 =>
          rw [lastBefore_cons_cons, lastBefore_cons_cons]
          exact ih _ h.2

theorem unitSteps_of_map (a : List WordSlice) : ∀ b : List WordSlice,
    a.map (fun w => w.scoreBeforeStart) = b.map (fun w => w.scoreBeforeStart) →
    UnitSteps b → UnitSteps a := by
  induction a with
  | nil => intro b _ _; exact List.chain'_nil
  | cons x s ih =>
    intro b h hb
    cases b with
    | nil => simp at h
    | cons y t =>
      simp only [List.map_cons, List.cons.injEq] at h
      cases s with
      | nil => exact List.chain'_singleton _
      | cons x2 s2 =>
        cases t with
        | nil => simp at h
        | cons y2 t2 =>
          have hb' : List.Chain' _ (y :: y2 :: t2) := hb
          rw [List.chain'_cons] at hb'
          show List.Chain' _ (x :: x2 :: s2)
          rw [List.chain'_cons]
          have h2 := h.2
          simp only [List.map_cons, List.cons.injEq] at h2
          refine ⟨?_, ih _ h.2 hb'.2⟩
          rw [h.1, h2.1]; exact hb'.1

theorem forall_before_of_map (a b : List WordSlice) (p : Int → Prop)
    (h : a.map (fun w => w.scoreBeforeStart) = b.map (fun w => w.scoreBeforeStart))
    (hb : ∀ w ∈ b, p w.scoreBeforeStart) : ∀ w ∈ a, p w.scoreBeforeStart := by
  intro w hw
  have : w.scoreBeforeStart ∈ a.map (fun w => w.scoreBeforeStart) :=
    List.mem_map.mpr ⟨w, hw, rfl⟩
  rw [h] at this
  obtain ⟨w', hw', e⟩ := List.mem_map.mp this
  have := hb w' hw'
  rw [e] at this
  exact this

theorem placeholder_fold (previousSlice : NodeSlice) (previousBand : Nat → Bool)
    (nodes : List Nat) : ∀ slice : NodeSlice, nodes.Nodup →
    (∀ n ∈ nodes, NodeSlice.node slice n ≠ []) →
    (∀ n ∈ nodes, NodeSlice.node (nodes.foldl (placeholderNode previousSlice previousBand) slice) n
      = placeholderCells (previousBand n)
          (if previousBand n then NodeSlice.node previousSlice n else NodeSlice.node slice n)
          (NodeSlice.node slice n))
    ∧ (∀ n, n ∉ nodes →
        NodeSlice.node (nodes.foldl (placeholderNode previousSlice previousBand) slice) n
          = NodeSlice.node slice n) := by
  induction nodes with
  | nil =>
    intro slice _ _
    exact ⟨fun n hn => absurd hn (List.not_mem_nil _), fun _ _ => rfl⟩
  | cons a rest ih =>
    intro slice hnd hne
    have hnd' := List.nodup_cons.mp hnd
    have hsame : NodeSlice.node (placeholderNode previousSlice previousBand slice a) a
        = placeholderCells (previousBand a)
          (if previousBand a then NodeSlice.node previousSlice a else NodeSlice.node slice a)
          (NodeSlice.node slice a) :=
      node_setNode_same _ _ _ (hne a (List.mem_cons_self _ _))
    have hother : ∀ m, m ≠ a →
        NodeSlice.node (placeholderNode previousSlice previousBand slice a) m
          = NodeSlice.node slice m := fun m hm => node_setNode_other _ _ _ _ hm
    obtain ⟨i1, i2⟩ := ih (placeholderNode previousSlice previousBand slice a) hnd'.2
      (fun n hn => by
        rw [hother n (fun e => hnd'.1 (e ▸ hn))]
        exact hne n (List.mem_cons_of_mem _ hn))
    rw [List.foldl_cons]
    refine ⟨?_, ?_⟩
    · intro n hn
      rcases List.mem_cons.mp hn with e | e
      · rw [e, i2 a hnd'.1, hsame]
      · have hna : n ≠ a := fun e' => hnd'.1 (e' ▸ e)
        rw [i1 n e, hother n hna]
    · intro n hn
      have hna : n ≠ a := fun e => hn (e ▸ List.mem_cons_self _ _)
      rw [i2 n (fun h => hn (List.mem_cons_of_mem _ h)), hother n hna]

theorem all_reached (graph : AlignmentGraph) (component : List Nat)
    (maxScore bound low : Int) (lengths : Nat → Nat) (reached : List Nat) (slice : NodeSlice)
    (hinv : RelaxInv graph component maxScore bound low lengths reached (slice, []))
    (hlen : ∀ n ∈ component, 0 < lengths n)
    (hbound : bound + (lengthSum lengths component : Int) < maxScore)
    (hconn : ∀ u ∈ component, ∀ v ∈ component,
      Relation.ReflTransGen (fun a b => b ∈ graph.outNeighbors a ∧ b ∈ component) u v)
    (seed : Nat) (hseed : seed ∈ reached) : ∀ n ∈ component, n ∈ reached := by
  have hsum : (lengthSum lengths reached : Int) ≤ (lengthSum lengths component : Int) := by
    exact_mod_cast lengthSum_le lengths reached component hinv.reached_nodup hinv.reached_sub
  have hne : ∀ n ∈ component, NodeSlice.node slice n ≠ [] := by
    intro n hn e
    have h1 := hinv.length_eq n hn
    have h1' : (NodeSlice.node slice n).length = lengths n := h1
    rw [e] at h1'
    have := hlen n hn
    simp at h1'; omega
  have hclosed : ∀ a ∈ reached, ∀ c, c ∈ graph.outNeighbors a ∧ c ∈ component → c ∈ reached := by
    intro a ha c hc
    by_contra hcr
    have hcov := hinv.covered a ha c hc.1 hc.2
    rcases hcov with h | ⟨e, he, -⟩
    · obtain ⟨w, hw, ew⟩ := lastBefore_mem _ (hne a (hinv.reached_sub a ha))
      have hb := hinv.bounded a ha w hw
      obtain ⟨w', hw', ew'⟩ := firstBefore_mem _ (hne c hc.2)
      have hu := hinv.unset c hc.2 hcr w' hw'
      have h' : firstBefore (NodeSlice.node slice c) ≤ lastBefore (NodeSlice.node slice a) + 1 := h
      rw [ew, ew', hu] at h'
      omega
    · exact absurd he (List.not_mem_nil _)
  have hpaths : ∀ n, Relation.ReflTransGen
      (fun a b => b ∈ graph.outNeighbors a ∧ b ∈ component) seed n → n ∈ reached := by
    intro n hpath
    induction hpath with
    | refl => exact hseed
    | tail _ hbc ih => exact hclosed _ ih _ hbc
  intro n hn
  exact hpaths n (hconn seed (hinv.reached_sub seed hseed) n hn)

/-- C24: after forceComponentZeroRow on a component the zero row is a fixed point of the
relaxation. For a strongly connected component whose vertices are those with
partOfComponent = componentIndex, each with at least one cell, with a vertex that is in
the previous band or has an in-neighbour of a band outside the component, and with
scores that stay below the largest score by more than the number of cells of the
component: the function returns (enough fuel for the while loop exists), and in its
result every vertex of the component has as many cells as before, for every edge u -> v
inside the component the first scoreBeforeStart of v is at most the last scoreBeforeStart
of u plus one, inside every vertex scoreBeforeStart grows by at most one per cell, and no
scoreBeforeStart is the largest score. -/
theorem forceComponentZeroRow_fixed_point (graph : AlignmentGraph)
    (inNeighbors : Nat → List Nat) (limits : TypeLimits)
    (top : Nat → List (Nat × Int) → Nat × Int) (htop : TopIsLeast top)
    (currentSlice previousSlice : NodeSlice) (currentBand previousBand : Nat → Bool)
    (component : List Nat) (componentIndex : Nat) (partOfComponent : Nat → Nat)
    (hnodup : component.Nodup)
    (hpart : ∀ n, partOfComponent n = componentIndex ↔ n ∈ component)
    (hcells : ∀ n ∈ component, NodeSlice.node currentSlice n ≠ [])
    (hold : ∀ n ∈ component, previousBand n = true →
      ((NodeSlice.node previousSlice n).headD WordSlice.default).scoreEnd
        + (lengthSum (fun n => (NodeSlice.node currentSlice n).length) component : Int)
        < limits.scoreTypeMax)
    (hcur : ∀ n ∈ component, ∀ nb ∈ inNeighbors n, partOfComponent nb ≠ componentIndex →
      currentBand nb = true →
      lastBefore (NodeSlice.node currentSlice nb) + 1
        + (lengthSum (fun n => (NodeSlice.node currentSlice n).length) component : Int)
        < limits.scoreTypeMax)
    (hprev : ∀ n ∈ component, ∀ nb ∈ inNeighbors n, partOfComponent nb ≠ componentIndex →
      previousBand nb = true →
      ((NodeSlice.node previousSlice nb).getLastD WordSlice.default).scoreEnd + 1
        + (lengthSum (fun n => (NodeSlice.node currentSlice n).length) component : Int)
        < limits.scoreTypeMax)
    (hseed : ∃ n ∈ component, previousBand n = true
      ∨ ∃ nb ∈ inNeighbors n, partOfComponent nb ≠ componentIndex
          ∧ (currentBand nb = true ∨ previousBand nb = true))
    (hconn : ∀ u ∈ component, ∀ v ∈ component,
      Relation.ReflTransGen (fun a b => b ∈ graph.outNeighbors a ∧ b ∈ component) u v) :
    ∃ fuel result,
      forceComponentZeroRow graph inNeighbors limits top fuel currentSlice previousSlice
        currentBand previousBand component componentIndex partOfComponent = some result
      ∧ (∀ n ∈ component,
          (NodeSlice.node result n).length = (NodeSlice.node currentSlice n).length)
      ∧ (∀ u ∈ component, ∀ v ∈ graph.outNeighbors u, v ∈ component →
          firstBefore (NodeSlice.node result v) ≤ lastBefore (NodeSlice.node result u) + 1)
      ∧ (∀ n ∈ component, UnitSteps (NodeSlice.node result n))
      ∧ (∀ n ∈ component, ∀ w ∈ NodeSlice.node result n,
          w.scoreBeforeStart ≠ limits.scoreTypeMax) := by
  have hlen : ∀ n ∈ component, 0 < (fun n => (NodeSlice.node currentSlice n).length) n :=
    fun n hn => List.length_pos.mpr (hcells n hn)
  generalize hL : (fun n => (NodeSlice.node currentSlice n).length) = lengths at hold hcur hprev hlen
  have hLn : ∀ n, (NodeSlice.node currentSlice n).length = lengths n := by
    intro n; rw [← hL]
  have hbound : (limits.scoreTypeMax - (lengthSum lengths component : Int) - 1)
      + (lengthSum lengths component : Int) < limits.scoreTypeMax := by omega
  -- the seed scores
  have hfold := fun n (hn : n ∈ component) => seedValue_fold_props currentSlice previousSlice
    currentBand previousBand componentIndex partOfComponent
    (limits.scoreTypeMax - (lengthSum lengths component : Int) - 1) (inNeighbors n)
    (fun nb hnb h1 h2 => by have := hcur n hn nb hnb h1 h2; omega)
    (fun nb hnb h1 h2 => by have := hprev n hn nb hnb h1 h2; omega)
    (if previousBand n then
      ((NodeSlice.node previousSlice n).headD WordSlice.default).scoreEnd
    else limits.scoreTypeMax)
  have hscore : ∀ n ∈ component,
      seedScore inNeighbors limits currentSlice previousSlice currentBand previousBand
          componentIndex partOfComponent n = limits.scoreTypeMax
      ∨ seedScore inNeighbors limits currentSlice previousSlice currentBand previousBand
          componentIndex partOfComponent n
          ≤ limits.scoreTypeMax - (lengthSum lengths component : Int) - 1 := by
    intro n hn
    obtain ⟨q1, q2, -⟩ := hfold n hn
    unfold seedScore
    by_cases hp : previousBand n = true
    · right
      simp only [hp, if_true] at q1 ⊢
      have := hold n hn hp
      omega
    · simp only [hp] at q2 ⊢
      exact q2
  have hsrc : ∀ n ∈ component, (previousBand n = true
      ∨ ∃ nb ∈ inNeighbors n, partOfComponent nb ≠ componentIndex
          ∧ (currentBand nb = true ∨ previousBand nb = true)) →
      seedScore inNeighbors limits currentSlice previousSlice currentBand previousBand
          componentIndex partOfComponent n ≠ limits.scoreTypeMax := by
    intro n hn hs
    obtain ⟨q1, -, q3⟩ := hfold n hn
    have hle : seedScore inNeighbors limits currentSlice previousSlice currentBand previousBand
        componentIndex partOfComponent n
        ≤ limits.scoreTypeMax - (lengthSum lengths component : Int) - 1 := by
      unfold seedScore
      rcases hs with hp | hs
      · simp only [hp, if_true] at q1 ⊢
        have := hold n hn hp
        omega
      · exact q3 hs
    omega
  -- the first loop
  have hinit : SeedInv graph component limits
      (limits.scoreTypeMax - (lengthSum lengths component : Int) - 1) lengths componentIndex
      partOfComponent
      (seedScore inNeighbors limits currentSlice previousSlice currentBand previousBand
        componentIndex partOfComponent) currentSlice [] [] (currentSlice, []) :=
    ⟨List.nodup_nil, fun n h => absurd h (List.not_mem_nil _), fun _ _ => rfl,
      fun n _ => hLn n, fun n h => absurd h (List.not_mem_nil _),
      fun n h => absurd h (List.not_mem_nil _), fun n h => absurd h (List.not_mem_nil _),
      fun e h => absurd h (List.not_mem_nil _), fun e h => absurd h (List.not_mem_nil _),
      fun n h => absurd h (List.not_mem_nil _), fun n h => absurd h (List.not_mem_nil _)⟩
  obtain ⟨reached0, hseeded⟩ := seedInv_fold graph inNeighbors limits previousSlice currentBand
    previousBand component componentIndex partOfComponent
    (limits.scoreTypeMax - (lengthSum lengths component : Int) - 1) lengths currentSlice hpart
    hlen hscore component [] [] (currentSlice, []) (by rw [List.nil_append]; exact hnodup)
    (fun n h => h) hinit
  rw [List.nil_append] at hseeded
  obtain ⟨low, hlow⟩ := exists_lower_bound (component.foldl
    (seedNode graph inNeighbors limits previousSlice currentBand previousBand componentIndex
      partOfComponent) (currentSlice, [])).2
  have hrelax0 := relaxInv_of_seedInv graph component limits _ low lengths componentIndex
    partOfComponent _ currentSlice reached0 _ hlen hlow hseeded
  -- the while loop
  obtain ⟨fuel, relaxed, hloop, reached, hsup, hR⟩ := relaxLoop_total graph componentIndex
    partOfComponent top htop low
    (fun st => ∃ reached, (∀ n ∈ reached0, n ∈ reached)
      ∧ RelaxInv graph component limits.scoreTypeMax
        (limits.scoreTypeMax - (lengthSum lengths component : Int) - 1) low lengths reached st)
    (by
      rintro st ⟨r, -, hr⟩ e he
      refine ⟨?_, hr.queue_ge e he⟩
      intro hnil
      have h1 := hr.length_eq e.1 (hr.queue_node e he)
      rw [hnil] at h1
      have := hlen e.1 (hr.queue_node e he)
      simp at h1; omega)
    (by
      rintro round st ⟨r, hsup, hr⟩ hq
      obtain ⟨r', hsub', hr'⟩ := relaxInv_step graph component componentIndex partOfComponent
        top htop limits.scoreTypeMax _ low lengths hpart hlen hbound round st hq r hr
      exact ⟨r', fun n hn => hsub' n (hsup n hn), hr'⟩)
    _ _ _ 0 ⟨reached0, fun n h => h, hrelax0⟩ rfl rfl
  obtain ⟨seed, hseedc, hseeds⟩ := hseed
  have hseedr : seed ∈ reached :=
    hsup seed (hseeded.sourced seed hseedc (hsrc seed hseedc hseeds))
  have hall := all_reached graph component limits.scoreTypeMax _ low lengths reached relaxed hR
    hlen hbound hconn seed hseedr
  have hne : ∀ n ∈ component, NodeSlice.node relaxed n ≠ [] := by
    intro n hn e
    have h1 : (NodeSlice.node relaxed n).length = lengths n := hR.length_eq n hn
    rw [e] at h1
    have := hlen n hn
    simp at h1; omega
  obtain ⟨hplace, -⟩ := placeholder_fold previousSlice previousBand component relaxed hnodup hne
  have hmap : ∀ n ∈ component,
      (NodeSlice.node (component.foldl (placeholderNode previousSlice previousBand) relaxed)
        n).map (fun w => w.scoreBeforeStart)
      = (NodeSlice.node relaxed n).map (fun w => w.scoreBeforeStart) := by
    intro n hn
    rw [hplace n hn]
    exact placeholderCells_before _ _ _
  refine ⟨fuel, component.foldl (placeholderNode previousSlice previousBand) relaxed, ?_, ?_, ?_,
    ?_, ?_⟩
  · unfold forceComponentZeroRow
    simp only [hloop]
  · intro n hn
    have h1 := congrArg List.length (hmap n hn)
    rw [List.length_map, List.length_map] at h1
    rw [h1, hLn n]
    exact hR.length_eq n hn
  · intro u hu v hv hvc
    rw [firstBefore_of_map _ _ (hmap v hvc), lastBefore_of_map _ _ (hmap u hu)]
    rcases hR.covered u (hall u hu) v hv hvc with h | ⟨e, he, -⟩
    · exact h
    · exact absurd he (List.not_mem_nil _)
  · intro n hn
    exact unitSteps_of_map _ _ (hmap n hn) (hR.steps n hn)
  · intro n hn
    apply forall_before_of_map _ _ (fun x => x ≠ limits.scoreTypeMax) (hmap n hn)
    intro w hw
    have hb := hR.bounded n (hall n hn) w hw
    have hsum : (lengthSum lengths reached : Int) ≤ (lengthSum lengths component : Int) := by
      exact_mod_cast lengthSum_le lengths reached component hR.reached_nodup hR.reached_sub
    have hb' : w.scoreBeforeStart ≤ limits.scoreTypeMax - (lengthSum lengths component : Int) - 1
        + (lengthSum lengths reached : Int) - 1 := hb
    omega

/-- C24 (witness): forceComponentZeroRow_fixed_point on the cycle of two vertices, of
which the vertex 0 is in the previous band. -/
theorem forceComponentZeroRow_fixed_point_witness :
    ∃ fuel result,
      forceComponentZeroRow cycleGraph cycleInNeighbors ⟨-1000, 1000, 1000⟩
        (fun _ => leastEntry) fuel cycleCurrent cyclePrevious (fun n => decide (n < 2))
        (fun n => decide (n = 0)) [0, 1] 7 (fun n => if n < 2 then 7 else 0) = some result
      ∧ (∀ n ∈ [0, 1],
          (NodeSlice.node result n).length = (NodeSlice.node cycleCurrent n).length)
      ∧ (∀ u ∈ [0, 1], ∀ v ∈ cycleGraph.outNeighbors u, v ∈ [0, 1] →
          firstBefore (NodeSlice.node result v) ≤ lastBefore (NodeSlice.node result u) + 1)
      ∧ (∀ n ∈ [0, 1], UnitSteps (NodeSlice.node result n))
      ∧ (∀ n ∈ [0, 1], ∀ w ∈ NodeSlice.node result n,
          w.scoreBeforeStart ≠ (⟨-1000, 1000, 1000⟩ : TypeLimits).scoreTypeMax) :=
  forceComponentZeroRow_fixed_point cycleGraph cycleInNeighbors ⟨-1000, 1000, 1000⟩
    (fun _ => leastEntry) leastEntry_topIsLeast cycleCurrent cyclePrevious
    (fun n => decide (n < 2)) (fun n => decide (n = 0)) [0, 1] 7
    (fun n => if n < 2 then 7 else 0)
    (by decide)
    (by intro n; simp; omega)
    (by decide) (by decide) (by decide) (by decide)
    ⟨0, by decide, Or.inl (by decide)⟩
    (by
      intro u hu v hv
      simp only [List.mem_cons, List.mem_singleton, List.not_mem_nil, or_false] at hu hv
      have h01 : Relation.ReflTransGen
          (fun a b => b ∈ cycleGraph.outNeighbors a ∧ b ∈ [0, 1]) 0 1 :=
        Relation.ReflTransGen.single ⟨by decide, by decide⟩
      have h10 : Relation.ReflTransGen
          (fun a b => b ∈ cycleGraph.outNeighbors a ∧ b ∈ [0, 1]) 1 0 :=
        Relation.ReflTransGen.single ⟨by decide, by decide⟩
      rcases hu with rfl | rfl <;> rcases hv with rfl | rfl
      · exact Relation.ReflTransGen.refl
      · exact h01
      · exact h10
      · exact Relation.ReflTransGen.refl)

theorem seed_fold_queue (graph : AlignmentGraph) (inNeighbors : Nat → List Nat)
    (limits : TypeLimits) (previousSlice : NodeSlice) (currentBand previousBand : Nat → Bool)
    (component : List Nat) (componentIndex : Nat) (partOfComponent : Nat → Nat)
    (lengths : Nat → Nat)
    (hpart : ∀ n, partOfComponent n = componentIndex ↔ n ∈ component)
    (hlen : ∀ n ∈ component, 0 < lengths n) (todo : List Nat) :
    ∀ state : NodeSlice × List (Nat × Int), (∀ n ∈ todo, n ∈ component) →
    (∀ e ∈ state.2, e.1 ∈ component) →
    (∀ n ∈ component, (NodeSlice.node state.1 n).length = lengths n) →
    (∀ e ∈ (todo.foldl (seedNode graph inNeighbors limits previousSlice currentBand
        previousBand componentIndex partOfComponent) state).2, e.1 ∈ component)
    ∧ (∀ n ∈ component, (NodeSlice.node (todo.foldl (seedNode graph inNeighbors limits
        previousSlice currentBand previousBand componentIndex partOfComponent) state).1
          n).length = lengths n) := by
  induction todo with
  | nil => intro state _ h1 h2; exact ⟨h1, h2⟩
  | cons node rest ih =>
    intro state hsub h1 h2
    have hnode := hsub node (List.mem_cons_self _ _)
    have hne : NodeSlice.node state.1 node ≠ [] := by
      intro e
      have := h2 node hnode
      rw [e] at this
      have := hlen node hnode
      simp at *; omega
    obtain ⟨p1, p2, -, p4, p5⟩ := seedNode_props graph inNeighbors limits previousSlice
      currentBand previousBand componentIndex partOfComponent state node
      ((hpart node).mpr hnode) state.1 (fun _ _ => rfl) hne
    rw [List.foldl_cons]
    apply ih _ (fun n hn => hsub n (List.mem_cons_of_mem _ hn))
    · by_cases hv : seedScore inNeighbors limits state.1 previousSlice currentBand previousBand
          componentIndex partOfComponent node = limits.scoreTypeMax
      · rw [(p4 hv).2]; exact h1
      · rw [(p5 hv).2]
        intro e he
        rcases List.mem_append.mp he with h | h
        · exact h1 e h
        · obtain ⟨nb, hnb, rfl⟩ := List.mem_map.mp h
          exact (hpart nb).mp (of_decide_eq_true (List.mem_filter.mp hnb).2)
    · intro n hn
      by_cases e : n = node
      · rw [e, p2]; exact h2 node hnode
      · rw [p1 n e]; exact h2 n hn

theorem relaxStep_queue (graph : AlignmentGraph) (component : List Nat)
    (componentIndex : Nat) (partOfComponent : Nat → Nat)
    (top : Nat → List (Nat × Int) → Nat × Int) (htop : TopIsLeast top) (low : Int)
    (lengths : Nat → Nat)
    (hpart : ∀ n, partOfComponent n = componentIndex ↔ n ∈ component)
    (hlen : ∀ n ∈ component, 0 < lengths n)
    (round : Nat) (state : NodeSlice × List (Nat × Int)) (hq : state.2 ≠ [])
    (h1 : ∀ e ∈ state.2, e.1 ∈ component ∧ low ≤ e.2)
    (h2 : ∀ n ∈ component, (NodeSlice.node state.1 n).length = lengths n) :
    (∀ e ∈ (relaxStep graph componentIndex partOfComponent top round state).2,
      e.1 ∈ component ∧ low ≤ e.2)
    ∧ (∀ n ∈ component, (NodeSlice.node
        (relaxStep graph componentIndex partOfComponent top round state).1 n).length
          = lengths n) := by
  have ht := (htop round state.2 hq).1
  obtain ⟨hn, hlow⟩ := h1 _ ht
  have hWne : NodeSlice.node state.1 (top round state.2).1 ≠ [] := by
    intro e
    have := h2 _ hn
    rw [e] at this
    have := hlen _ hn
    simp at *; omega
  refine ⟨?_, ?_⟩
  · intro e he
    rw [relaxStep_snd] at he
    split_ifs at he with hu
    · rcases List.mem_append.mp he with h | h
      · exact h1 e (List.mem_of_mem_erase h)
      · obtain ⟨nb, hnb, rfl⟩ := List.mem_map.mp h
        refine ⟨(hpart nb).mp (of_decide_eq_true (List.mem_filter.mp hnb).2), ?_⟩
        show low ≤ (relaxColumns _ _).2.2
        rw [(relaxColumns_updated _ _ hu).1]
        omega
    · exact h1 e (List.mem_of_mem_erase he)
  · intro n hn'
    rw [relaxStep_fst]
    by_cases e : n = (top round state.2).1
    · rw [e, node_setNode_same _ _ _ hWne, relaxColumns_length]; exact h2 _ hn
    · rw [node_setNode_other _ _ _ _ e]; exact h2 n hn'

theorem getD_tail (old : List WordSlice) (i : Nat) :
    old.tail.getD i WordSlice.default = old.getD (i + 1) WordSlice.default := by
  cases old with
  | nil => rfl
  | cons a t => rfl

theorem headD_eq_getD (old : List WordSlice) :
    old.headD WordSlice.default = old.getD 0 WordSlice.default := by
  cases old with
  | nil => rfl
  | cons a t => rfl

theorem placeholderCells_getD (previousBandNode : Bool) (words : List WordSlice) :
    ∀ (oldSlice : List WordSlice) (i : Nat), i < words.length →
      (placeholderCells previousBandNode oldSlice words).getD i WordSlice.default
        = WordSlice.mk6 AllOnes 0
            ((words.getD i WordSlice.default).scoreBeforeStart + (WordSize : Int))
            (words.getD i WordSlice.default).scoreBeforeStart 0
            (previousBandNode
              && decide ((oldSlice.getD i WordSlice.default).scoreEnd
                  = (words.getD i WordSlice.default).scoreBeforeStart)
              && (oldSlice.getD i WordSlice.default).scoreEndExists) := by
  induction words with
  | nil => intro oldSlice i hi; simp at hi
  | cons a rest ih =>
    intro oldSlice i hi
    rw [placeholderCells]
    cases i with
    | zero =>
      rw [headD_eq_getD]
      rfl
    | succ i =>
      have := ih oldSlice.tail i (by simpa using hi)
      rw [getD_tail] at this
      simpa using this

theorem placeholderCells_length (previousBandNode : Bool) (words : List WordSlice) :
    ∀ oldSlice : List WordSlice,
      (placeholderCells previousBandNode oldSlice words).length = words.length := by
  induction words with
  | nil => intro oldSlice; rfl
  | cons a rest ih => intro oldSlice; rw [placeholderCells]; simp [ih]

/-- C25 (amended): after forceComponentZeroRow every vertex of the component has as many
cells as before, and every cell of every vertex of the component
is the placeholder slice with VP all ones, VN zero, confirmedRows 0 and not partial,
scoreEnd = scoreBeforeStart + 64 and scoreEndExists true; it is scoreBeforeExists that
is set from the previous block: it tells whether the vertex is in the previous band and
the scoreEnd of its old cell in that column equals the new scoreBeforeStart and the
scoreEndExists of the old cell is set. The function returns (enough fuel for the while
loop exists) for a component whose vertices are those with partOfComponent =
componentIndex, each with at least one cell. -/
theorem forceComponentZeroRow_placeholder (graph : AlignmentGraph)
    (inNeighbors : Nat → List Nat) (limits : TypeLimits)
    (top : Nat → List (Nat × Int) → Nat × Int) (htop : TopIsLeast top)
    (currentSlice previousSlice : NodeSlice) (currentBand previousBand : Nat → Bool)
    (component : List Nat) (componentIndex : Nat) (partOfComponent : Nat → Nat)
    (hnodup : component.Nodup)
    (hpart : ∀ n, partOfComponent n = componentIndex ↔ n ∈ component)
    (hcells : ∀ n ∈ component, NodeSlice.node currentSlice n ≠ []) :
    ∃ fuel result,
      forceComponentZeroRow graph inNeighbors limits top fuel currentSlice previousSlice
        currentBand previousBand component componentIndex partOfComponent = some result
      ∧ ∀ n ∈ component,
        (NodeSlice.node result n).length = (NodeSlice.node currentSlice n).length
        ∧ ∀ i, i < (NodeSlice.node result n).length →
          ((NodeSlice.node result n).getD i WordSlice.default).VP = AllOnes
          ∧ ((NodeSlice.node result n).getD i WordSlice.default).VN = 0
          ∧ ((NodeSlice.node result n).getD i WordSlice.default).confirmedRows = ⟨0, false⟩
          ∧ ((NodeSlice.node result n).getD i WordSlice.default).scoreEnd
              = ((NodeSlice.node result n).getD i WordSlice.default).scoreBeforeStart
                + (WordSize : Int)
          ∧ ((NodeSlice.node result n).getD i WordSlice.default).scoreEndExists = true
          ∧ ((NodeSlice.node result n).getD i WordSlice.default).scoreBeforeExists
              = (previousBand n
                && decide (((NodeSlice.node previousSlice n).getD i WordSlice.default).scoreEnd
                    = ((NodeSlice.node result n).getD i WordSlice.default).scoreBeforeStart)
                && ((NodeSlice.node previousSlice n).getD i WordSlice.default).scoreEndExists)
    := by
  have hlen : ∀ n ∈ component, 0 < (fun n => (NodeSlice.node currentSlice n).length) n :=
    fun n hn => List.length_pos.mpr (hcells n hn)
  obtain ⟨s1, s2⟩ := seed_fold_queue graph inNeighbors limits previousSlice currentBand
    previousBand component componentIndex partOfComponent
    (fun n => (NodeSlice.node currentSlice n).length) hpart hlen component (currentSlice, [])
    (fun n h => h) (fun e h => absurd h (List.not_mem_nil _)) (fun n _ => rfl)
  obtain ⟨low, hlow⟩ := exists_lower_bound (component.foldl
    (seedNode graph inNeighbors limits previousSlice currentBand previousBand componentIndex
      partOfComponent) (currentSlice, [])).2
  obtain ⟨fuel, relaxed, hloop, -, hR⟩ := relaxLoop_total graph componentIndex
    partOfComponent top htop low
    (fun st => (∀ e ∈ st.2, e.1 ∈ component ∧ low ≤ e.2)
      ∧ (∀ n ∈ component, (NodeSlice.node st.1 n).length
          = (fun n => (NodeSlice.node currentSlice n).length) n))
    (by
      rintro st ⟨h1, h2⟩ e he
      refine ⟨?_, (h1 e he).2⟩
      intro hnil
      have h3 := h2 e.1 (h1 e he).1
      rw [hnil] at h3
      have := hlen e.1 (h1 e he).1
      simp at h3 this; omega)
    (by
      rintro round st ⟨h1, h2⟩ hq
      exact relaxStep_queue graph component componentIndex partOfComponent top htop low _
        hpart hlen round st hq h1 h2)
    _ _ _ 0 ⟨fun e he => ⟨s1 e he, hlow e he⟩, s2⟩ rfl rfl
  have hne : ∀ n ∈ component, NodeSlice.node relaxed n ≠ [] := by
    intro n hn e
    have h1 := hR n hn
    have h1' : (NodeSlice.node relaxed n).length = (NodeSlice.node currentSlice n).length := h1
    rw [e] at h1'
    exact hcells n hn (List.length_eq_zero.mp h1'.symm)
  obtain ⟨hplace, -⟩ := placeholder_fold previousSlice previousBand component relaxed hnodup hne
  refine ⟨fuel, component.foldl (placeholderNode previousSlice previousBand) relaxed, ?_, ?_⟩
  · unfold forceComponentZeroRow
    simp only [hloop]
  · intro n hn
    refine ⟨?_, ?_⟩
    · rw [hplace n hn, placeholderCells_length]
      exact hR n hn
    intro i hi
    rw [hplace n hn] at hi ⊢
    rw [placeholderCells_length] at hi
    rw [placeholderCells_getD _ _ _ i hi]
    refine ⟨rfl, rfl, rfl, rfl, rfl, ?_⟩
    show (previousBand n && _ && _) = (previousBand n && _ && _)
    cases hp : previousBand n
    · rfl
    · rfl

/-- C25 (counterexample): on the cycle of two vertices, of which only the vertex 0 is in
the previous band, both cells of the vertex 1 leave forceComponentZeroRow with
scoreEndExists = true, where the claim gives false for a vertex outside the previous
band; so does the second cell of the vertex 0, whose old scoreEnd 9 differs from its new
scoreBeforeStart 6. -/
theorem forceComponentZeroRow_placeholder_counterexample :
    (forceComponentZeroRow cycleGraph cycleInNeighbors ⟨-1000, 1000, 1000⟩
        (fun _ => leastEntry) 10 cycleCurrent cyclePrevious (fun n => decide (n < 2))
        (fun n => decide (n = 0)) [0, 1] 7 (fun n => if n < 2 then 7 else 0)).map
      (fun result => (result.map (fun item => item.words.map
        (fun w => (w.scoreBeforeStart, w.scoreBeforeExists, w.scoreEndExists)))))
      = some [[(5, true, true), (6, false, true)], [(7, false, true), (8, false, true)]] := by
  decide

/-- C25 (witness): forceComponentZeroRow_placeholder on the cycle of two vertices. -/
theorem forceComponentZeroRow_placeholder_witness :
    ∃ fuel result,
      forceComponentZeroRow cycleGraph cycleInNeighbors ⟨-1000, 1000, 1000⟩
        (fun _ => leastEntry) fuel cycleCurrent cyclePrevious (fun n => decide (n < 2))
        (fun n => decide (n = 0)) [0, 1] 7 (fun n => if n < 2 then 7 else 0) = some result
      ∧ ∀ n ∈ [0, 1],
        (NodeSlice.node result n).length = (NodeSlice.node cycleCurrent n).length
        ∧ ∀ i, i < (NodeSlice.node result n).length →
          ((NodeSlice.node result n).getD i WordSlice.default).VP = AllOnes
          ∧ ((NodeSlice.node result n).getD i WordSlice.default).VN = 0
          ∧ ((NodeSlice.node result n).getD i WordSlice.default).confirmedRows = ⟨0, false⟩
          ∧ ((NodeSlice.node result n).getD i WordSlice.default).scoreEnd
              = ((NodeSlice.node result n).getD i WordSlice.default).scoreBeforeStart
                + (WordSize : Int)
          ∧ ((NodeSlice.node result n).getD i WordSlice.default).scoreEndExists = true
          ∧ ((NodeSlice.node result n).getD i WordSlice.default).scoreBeforeExists
              = ((fun n => decide (n = 0)) n
                && decide (((NodeSlice.node cyclePrevious n).getD i WordSlice.default).scoreEnd
                    = ((NodeSlice.node result n).getD i WordSlice.default).scoreBeforeStart)
                && ((NodeSlice.node cyclePrevious n).getD i WordSlice.default).scoreEndExists) :=
  forceComponentZeroRow_placeholder cycleGraph cycleInNeighbors ⟨-1000, 1000, 1000⟩
    (fun _ => leastEntry) leastEntry_topIsLeast cycleCurrent cyclePrevious
    (fun n => decide (n < 2)) (fun n => decide (n = 0)) [0, 1] 7
    (fun n => if n < 2 then 7 else 0)
    (by decide) (by intro n; simp; omega) (by decide)

end ForceZeroRow

theorem testBit_wshl_lit (x k i : Nat) (hk : k < 64) (n : Int) (hn : n = (k : Int)) :
    (wshl x n).testBit i = (decide (i < 64) && decide (k ≤ i) && x.testBit (i - k)) := by
  subst hn
  unfold wshl shiftCount
  have h1 : (((k : Nat) : Int) % 64).toNat = k := by omega
  rw [h1, wordMod_eq, Nat.testBit_mod_two_pow, Nat.testBit_shiftLeft]
  simp [Bool.and_assoc]

theorem spreadStage16 (x y : Nat)
    (hy : ∀ p < 64, y.testBit p
      = (decide (p % 64 < 32) && x.testBit (p % 64 + 32 * (p / 64)))) :
    ∀ p < 64, ((y ||| wshl y 16) &&& 0x0000FFFF0000FFFF).testBit p
      = (decide (p % 32 < 16) && x.testBit (p % 32 + 16 * (p / 32))) := by
  have hB : ∀ p < 64, Nat.testBit 0x0000FFFF0000FFFF p = decide (p % 32 < 16) := by decide
  intro p hp
  rw [Nat.testBit_and, Nat.testBit_or, hB p hp, testBit_wshl_lit y 16 p (by decide) 16 rfl,
    hy p hp]
  by_cases h1 : p % 32 < 16
  · by_cases h2 : p % 64 < 32
    · have e1 : p % 64 + 32 * (p / 64) = p % 32 + 16 * (p / 32) := by omega
      by_cases h4 : 16 ≤ p
      · rw [hy (p - 16) (by omega)]
        have h5 : ¬ (p - 16) % 64 < 32 := by omega
        simp [h1, h2, h4, hp, e1, h5]
      · simp [h1, h2, h4, hp, e1]
    · have h4 : 16 ≤ p := by omega
      rw [hy (p - 16) (by omega)]
      have e1 : (p - 16) % 64 + 32 * ((p - 16) / 64) = p % 32 + 16 * (p / 32) := by
        omega
      have h5 : (p - 16) % 64 < 32 := by omega
      simp [h1, h2, h4, hp, e1, h5]
  · simp [h1]

theorem spreadStage8 (x y : Nat)
    (hy : ∀ p < 64, y.testBit p
      = (decide (p % 32 < 16) && x.testBit (p % 32 + 16 * (p / 32)))) :
    ∀ p < 64, ((y ||| wshl y 8) &&& 0x00FF00FF00FF00FF).testBit p
      = (decide (p % 16 < 8) && x.testBit (p % 16 + 8 * (p / 16))) := by
  have hB : ∀ p < 64, Nat.testBit 0x00FF00FF00FF00FF p = decide (p % 16 < 8) := by decide
  intro p hp
  rw [Nat.testBit_and, Nat.testBit_or, hB p hp, testBit_wshl_lit y 8 p (by decide) 8 rfl,
    hy p hp]
  by_cases h1 : p % 16 < 8
  · by_cases h2 : p % 32 < 16
    · have e1 : p % 32 + 16 * (p / 32) = p % 16 + 8 * (p / 16) := by omega
      by_cases h4 : 8 ≤ p
      · rw [hy (p - 8) (by omega)]
        have h5 : ¬ (p - 8) % 32 < 16 := by omega
        simp [h1, h2, h4, hp, e1, h5]
      · simp [h1, h2, h4, hp, e1]
    · have h4 : 8 ≤ p := by omega
      rw [hy (p - 8) (by omega)]
      have e1 : (p - 8) % 32 + 16 * ((p - 8) / 32) = p % 16 + 8 * (p / 16) := by
        omega
      have h5 : (p - 8) % 32 < 16 := by omega
      simp [h1, h2, h4, hp, e1, h5]
  · simp [h1]

theorem spreadStage4 (x y : Nat)
    (hy : ∀ p < 64, y.testBit p
      = (decide (p % 16 < 8) && x.testBit (p % 16 + 8 * (p / 16)))) :
    ∀ p < 64, ((y ||| wshl y 4) &&& 0x0F0F0F0F0F0F0F0F).testBit p
      = (decide (p % 8 < 4) && x.testBit (p % 8 + 4 * (p / 8))) := by
  have hB : ∀ p < 64, Nat.testBit 0x0F0F0F0F0F0F0F0F p = decide (p % 8 < 4) := by decide
  intro p hp
  rw [Nat.testBit_and, Nat.testBit_or, hB p hp, testBit_wshl_lit y 4 p (by decide) 4 rfl,
    hy p hp]
  by_cases h1 : p % 8 < 4
  · by_cases h2 : p % 16 < 8
    · have e1 : p % 16 + 8 * (p / 16) = p % 8 + 4 * (p / 8) := by omega
      by_cases h4 : 4 ≤ p
      · rw [hy (p - 4) (by omega)]
        have h5 : ¬ (p - 4) % 16 < 8 := by omega
        simp [h1, h2, h4, hp, e1, h5]
      · simp [h1, h2, h4, hp, e1]
    · have h4 : 4 ≤ p := by omega
      rw [hy (p - 4) (by omega)]
      have e1 : (p - 4) % 16 + 8 * ((p - 4) / 16) = p % 8 + 4 * (p / 8) := by
        omega
      have h5 : (p - 4) % 16 < 8 := by omega
      simp [h1, h2, h4, hp, e1, h5]
  · simp [h1]

theorem spreadStage2 (x y : Nat)
    (hy : ∀ p < 64, y.testBit p
      = (decide (p % 8 < 4) && x.testBit (p % 8 + 4 * (p / 8)))) :
    ∀ p < 64, ((y ||| wshl y 2) &&& 0x3333333333333333).testBit p
      = (decide (p % 4 < 2) && x.testBit (p % 4 + 2 * (p / 4))) := by
  have hB : ∀ p < 64, Nat.testBit 0x3333333333333333 p = decide (p % 4 < 2) := by decide
  intro p hp
  rw [Nat.testBit_and, Nat.testBit_or, hB p hp, testBit_wshl_lit y 2 p (by decide) 2 rfl,
    hy p hp]
  by_cases h1 : p % 4 < 2
  · by_cases h2 : p % 8 < 4
    · have e1 : p % 8 + 4 * (p / 8) = p % 4 + 2 * (p / 4) := by omega
      by_cases h4 : 2 ≤ p
      · rw [hy (p - 2) (by omega)]
        have h5 : ¬ (p - 2) % 8 < 4 := by omega
        simp [h1, h2, h4, hp, e1, h5]
      · simp [h1, h2, h4, hp, e1]
    · have h4 : 2 ≤ p := by omega
      rw [hy (p - 2) (by omega)]
      have e1 : (p - 2) % 8 + 4 * ((p - 2) / 8) = p % 4 + 2 * (p / 4) := by
        omega
      have h5 : (p - 2) % 8 < 4 := by omega
      simp [h1, h2, h4, hp, e1, h5]
  · simp [h1]

theorem spreadStage1 (x y : Nat)
    (hy : ∀ p < 64, y.testBit p
      = (decide (p % 4 < 2) && x.testBit (p % 4 + 2 * (p / 4)))) :
    ∀ p < 64, ((y ||| wshl y 1) &&& 0x5555555555555555).testBit p
      = (decide (p % 2 < 1) && x.testBit (p % 2 + 1 * (p / 2))) := by
  have hB : ∀ p < 64, Nat.testBit 0x5555555555555555 p = decide (p % 2 < 1) := by decide
  intro p hp
  rw [Nat.testBit_and, Nat.testBit_or, hB p hp, testBit_wshl_lit y 1 p (by decide) 1 rfl,
    hy p hp]
  by_cases h1 : p % 2 < 1
  · by_cases h2 : p % 4 < 2
    · have e1 : p % 4 + 2 * (p / 4) = p % 2 + 1 * (p / 2) := by omega
      by_cases h4 : 1 ≤ p
      · rw [hy (p - 1) (by omega)]
        have h5 : ¬ (p - 1) % 4 < 2 := by omega
        simp [h1, h2, h4, hp, e1, h5]
      · simp [h1, h2, h4, hp, e1]
    · have h4 : 1 ≤ p := by omega
      rw [hy (p - 1) (by omega)]
      have e1 : (p - 1) % 4 + 2 * ((p - 1) / 4) = p % 2 + 1 * (p / 2) := by
        omega
      have h5 : (p - 1) % 4 < 2 := by omega
      simp [h1, h2, h4, hp, e1, h5]
  · simp [h1]

theorem spreadEven_testBit (x : Nat) (hx : x < 2 ^ 32) :
    ∀ p < 64, (spreadEven x).testBit p = (decide (p % 2 = 0) && x.testBit (p / 2)) := by
  have h0 : ∀ p < 64, x.testBit p
      = (decide (p % 64 < 32) && x.testBit (p % 64 + 32 * (p / 64))) := by
    intro p hp
    have e : p % 64 + 32 * (p / 64) = p := by omega
    rw [e]
    by_cases h : p < 32
    · have : p % 64 < 32 := by omega
      simp [this]
    · have h1 : ¬ p % 64 < 32 := by omega
      have h2 : x.testBit p = false := by
        apply Nat.testBit_eq_false_of_lt
        calc x < 2 ^ 32 := hx
          _ ≤ 2 ^ p := Nat.pow_le_pow_right (by decide) (by omega)
      simp [h1, h2]
  have h1 := spreadStage16 x x h0
  have h2 := spreadStage8 x _ h1
  have h3 := spreadStage4 x _ h2
  have h4 := spreadStage2 x _ h3
  have h5 := spreadStage1 x _ h4
  intro p hp
  have := h5 p hp
  have e : p % 2 + 1 * (p / 2) = p / 2 + p % 2 := by omega
  show ((_ ||| wshl _ 1) &&& 0x5555555555555555).testBit p = _
  rw [this]
  by_cases hp2 : p % 2 = 0
  · have : p % 2 < 1 := by omega
    simp [this, hp2]
  · have : ¬ p % 2 < 1 := by omega
    simp [this, hp2]

theorem spreadEven_lt (x : Nat) : spreadEven x < wordMod := by
  unfold spreadEven
  exact and_lt_wordMod _ (by decide)

theorem interleave_lt (x y : Nat) : Interleave x y < wordMod := by
  unfold Interleave
  exact or_lt_wordMod (spreadEven_lt x) (wshl_lt _ _)

theorem interleave_low_zero (x y j : Nat) (hx : x < 2 ^ 32) (hy : y < 2 ^ 32)
    (hxz : ∀ i < j, x.testBit i = false) (hyz : ∀ i < j, y.testBit i = false) :
    ∀ p < 2 * j, (Interleave x y).testBit p = false := by
  intro p hp
  unfold Interleave
  rw [Nat.testBit_or]
  by_cases h64 : p < 64
  · rw [spreadEven_testBit x hx p h64, testBit_wshl_lit _ 1 p (by decide) 1 rfl]
    have h1 : x.testBit (p / 2) = false := hxz _ (by omega)
    rw [h1]
    by_cases hp1 : 1 ≤ p
    · rw [spreadEven_testBit y hy (p - 1) (by omega)]
      have h2 : y.testBit ((p - 1) / 2) = false := hyz _ (by omega)
      rw [h2]; simp
    · simp [hp1]
  · rw [testBit_of_lt_wordMod (spreadEven_lt x) (by omega),
      testBit_of_lt_wordMod (wshl_lt _ _) (by omega)]
    rfl

theorem word_unpack (W : Nat) (hW : W < wordMod) :
    W = lane W 0 + 256 * (lane W 1 + 256 * (lane W 2 + 256 * (lane W 3 + 256 * (lane W 4
      + 256 * (lane W 5 + 256 * (lane W 6 + 256 * lane W 7)))))) := by
  simp only [lane_eq_div]
  unfold wordMod at hW
  norm_num
  omega

theorem wmul_comm_word (a b : Nat) : wmul a b = wmul b a := by
  unfold wmul; rw [Nat.mul_comm]

theorem swarTop (G : Nat) (g : Nat → Nat) (hG : LaneWise G g) (hg : ∀ j < 8, g j ≤ 1) :
    (wmul G PrefixSumMultiplierConstant) >>> 56
      = g 0 + g 1 + g 2 + g 3 + g 4 + g 5 + g 6 + g 7 := by
  have h0 := hg 0 (by omega)
  have h1 := hg 1 (by omega)
  have h2 := hg 2 (by omega)
  have h3 := hg 3 (by omega)
  have h4 := hg 4 (by omega)
  have h5 := hg 5 (by omega)
  have h6 := hg 6 (by omega)
  have h7 := hg 7 (by omega)
  have hu := word_unpack G hG.1
  rw [hG.2 0 (by omega), hG.2 1 (by omega), hG.2 2 (by omega), hG.2 3 (by omega),
    hG.2 4 (by omega), hG.2 5 (by omega), hG.2 6 (by omega), hG.2 7 (by omega)] at hu
  rw [hu, wmul_lsb_pack _ _ _ _ _ _ _ _ (by omega), Nat.shiftRight_eq_div_pow]
  omega

set_option maxRecDepth 100000 in
theorem byte_sign_test (x : Nat) (hx : x < 256) :
    (x &&& 128) / 128 = (if 128 ≤ x then 1 else 0) ∧ (x &&& 128) % 128 = 0 := by
  have h : ∀ x < 256, (x &&& 128) / 128 = (if 128 ≤ x then 1 else 0) ∧ (x &&& 128) % 128 = 0 := by
    decide
  exact h x hx

theorem swarCount (C : Nat) (c : Nat → Nat) (hC : LaneWise C c) (hc : ∀ j < 8, c j < 128)
    (t : Nat) (ht : t ≤ 128) :
    (wmul (((wsub (C ||| SignMask) (wmul t PrefixSumMultiplierConstant)) &&& SignMask) >>> 7)
        PrefixSumMultiplierConstant) >>> 56
      = (if t ≤ c 0 then 1 else 0) + (if t ≤ c 1 then 1 else 0) + (if t ≤ c 2 then 1 else 0)
        + (if t ≤ c 3 then 1 else 0) + (if t ≤ c 4 then 1 else 0) + (if t ≤ c 5 then 1 else 0)
        + (if t ≤ c 6 then 1 else 0) + (if t ≤ c 7 then 1 else 0) := by
  have h1 : LaneWise (C ||| SignMask) (fun j => c j + 128) :=
    (LaneWise.or hC LaneWise.sign).congr (fun j hj => by
      show c j ||| 128 = c j + 128
      rw [byte_or128 _ (by have := hc j hj; omega), Nat.mod_eq_of_lt (hc j hj)])
  have h2 : LaneWise (wmul t PrefixSumMultiplierConstant) (fun _ => t) := by
    have := LaneWise.wmul LaneWise.lsb t (fun k _ => by omega)
    rw [wmul_comm_word] at this
    exact this.congr (fun k _ => by omega)
  have h3 := LaneWise.wsub h1 h2 (fun j hj => by show t ≤ c j + 128; omega)
  have h4 := LaneWise.and h3 LaneWise.sign
  have h5 := LaneWise.shr7 h4 (fun j hj => by
    show ((c j + 128 - t) &&& 128) % 128 = 0
    exact (byte_sign_test _ (by have := hc j hj; omega)).2)
  have h6 : LaneWise ((wsub (C ||| SignMask) (wmul t PrefixSumMultiplierConstant) &&& SignMask)
      >>> 7) (fun j => if t ≤ c j then 1 else 0) :=
    h5.congr (fun j hj => by
      show ((c j + 128 - t) &&& 128) / 128 = _
      rw [(byte_sign_test _ (by have := hc j hj; omega)).1]
      have := hc j hj
      split_ifs <;> omega)
  exact swarTop _ _ h6 (fun j _ => by split_ifs <;> omega)

theorem sum8_le (g : Nat → Nat) (k : Nat) (h1 : ∀ j < 8, g j ≤ 1)
    (h0 : ∀ j < k, g j = 0) :
    g 0 + g 1 + g 2 + g 3 + g 4 + g 5 + g 6 + g 7 ≤ 8 - k := by
  have a0 := h1 0 (by omega)
  have a1 := h1 1 (by omega)
  have a2 := h1 2 (by omega)
  have a3 := h1 3 (by omega)
  have a4 := h1 4 (by omega)
  have a5 := h1 5 (by omega)
  have a6 := h1 6 (by omega)
  have a7 := h1 7 (by omega)
  have z : ∀ j, k ≤ j ∨ g j = 0 := fun j => by
    by_cases h : j < k
    · exact Or.inr (h0 j h)
    · exact Or.inl (by omega)
  have z0 := z 0
  have z1 := z 1
  have z2 := z 2
  have z3 := z 3
  have z4 := z 4
  have z5 := z 5
  have z6 := z 6
  have z7 := z 7
  omega

theorem cumulative_lanes (x : Nat) (hx : x < wordMod) :
    LaneWise (wmul (ChunkPopcounts x) PrefixSumMultiplierConstant)
      (fun j => bitCount x (8 * (j + 1))) := by
  obtain ⟨e0, e1, e2, e3, e4, e5, e6, e7⟩ := bitCount_bytes x
  have e8 := bitCount_lane x 7
  have b0 := bitCount_le (x % 256) 8
  have b1 := bitCount_le (x / 256 % 256) 8
  have b2 := bitCount_le (x / 256 / 256 % 256) 8
  have b3 := bitCount_le (x / 256 / 256 / 256 % 256) 8
  have b4 := bitCount_le (x / 256 / 256 / 256 / 256 % 256) 8
  have b5 := bitCount_le (x / 256 / 256 / 256 / 256 / 256 % 256) 8
  have b6 := bitCount_le (x / 256 / 256 / 256 / 256 / 256 / 256 % 256) 8
  have b7 := bitCount_le (x / 256 / 256 / 256 / 256 / 256 / 256 / 256 % 256) 8
  have hd : x / 256 ^ 7 % 256 = x / 256 / 256 / 256 / 256 / 256 / 256 / 256 % 256 := by
    norm_num
    omega
  rw [hd] at e8
  have hword : ChunkPopcounts x = bitCount (x % 256) 8 + 256 * (bitCount (x / 256 % 256) 8
        + 256 * (bitCount (x / 256 / 256 % 256) 8
        + 256 * (bitCount (x / 256 / 256 / 256 % 256) 8
        + 256 * (bitCount (x / 256 / 256 / 256 / 256 % 256) 8
        + 256 * (bitCount (x / 256 / 256 / 256 / 256 / 256 % 256) 8
        + 256 * (bitCount (x / 256 / 256 / 256 / 256 / 256 / 256 % 256) 8
        + 256 * bitCount (x / 256 / 256 / 256 / 256 / 256 / 256 / 256 % 256) 8)))))) := by
    rw [ChunkPopcounts_eq x hx]
    simp only [byteCounts]
    norm_num
  refine ⟨Nat.mod_lt _ (by decide), fun j hj => ?_⟩
  rw [hword, wmul_lsb_pack _ _ _ _ _ _ _ _ (by omega)]
  have hp := lane_pack8 (bitCount (x % 256) 8)
    (bitCount (x % 256) 8 + bitCount (x / 256 % 256) 8)
    (bitCount (x % 256) 8 + bitCount (x / 256 % 256) 8 + bitCount (x / 256 / 256 % 256) 8)
    (bitCount (x % 256) 8 + bitCount (x / 256 % 256) 8 + bitCount (x / 256 / 256 % 256) 8
      + bitCount (x / 256 / 256 / 256 % 256) 8)
    (bitCount (x % 256) 8 + bitCount (x / 256 % 256) 8 + bitCount (x / 256 / 256 % 256) 8
      + bitCount (x / 256 / 256 / 256 % 256) 8 + bitCount (x / 256 / 256 / 256 / 256 % 256) 8)
    (bitCount (x % 256) 8 + bitCount (x / 256 % 256) 8 + bitCount (x / 256 / 256 % 256) 8
      + bitCount (x / 256 / 256 / 256 % 256) 8 + bitCount (x / 256 / 256 / 256 / 256 % 256) 8
      + bitCount (x / 256 / 256 / 256 / 256 / 256 % 256) 8)
    (bitCount (x % 256) 8 + bitCount (x / 256 % 256) 8 + bitCount (x / 256 / 256 % 256) 8
      + bitCount (x / 256 / 256 / 256 % 256) 8 + bitCount (x / 256 / 256 / 256 / 256 % 256) 8
      + bitCount (x / 256 / 256 / 256 / 256 / 256 % 256) 8
      + bitCount (x / 256 / 256 / 256 / 256 / 256 / 256 % 256) 8)
    (bitCount (x % 256) 8 + bitCount (x / 256 % 256) 8 + bitCount (x / 256 / 256 % 256) 8
      + bitCount (x / 256 / 256 / 256 % 256) 8 + bitCount (x / 256 / 256 / 256 / 256 % 256) 8
      + bitCount (x / 256 / 256 / 256 / 256 / 256 % 256) 8
      + bitCount (x / 256 / 256 / 256 / 256 / 256 / 256 % 256) 8
      + bitCount (x / 256 / 256 / 256 / 256 / 256 / 256 / 256 % 256) 8)
    (by omega) (by omega) (by omega) (by omega) (by omega) (by omega) (by omega) (by omega)
  obtain ⟨l0, l1, l2, l3, l4, l5, l6, l7⟩ := hp
  have hcases : j = 0 ∨ j = 1 ∨ j = 2 ∨ j = 3 ∨ j = 4 ∨ j = 5 ∨ j = 6 ∨ j = 7 := by omega
  rcases hcases with h | h | h | h | h | h | h | h <;> subst h
  · exact l0.trans e1.symm
  · exact l1.trans e2.symm
  · exact l2.trans e3.symm
  · exact l3.trans e4.symm
  · exact l4.trans e5.symm
  · exact l5.trans e6.symm
  · exact l6.trans e7.symm
  · exact l7.trans (by rw [← e7]; exact e8.symm)

set_option maxRecDepth 1000000 in
set_option maxHeartbeats 4000000 in
theorem spreadBits_lanes : ∀ b < 256, ∀ j < 8,
    lane (wmul ((wmul ((wmul b 0x0000040010004001) &&& 0x0003000300030003)
        0x0000000000000081) &&& 0x0101010101010101) PrefixSumMultiplierConstant) j
      = bitCount b (j + 1) := by
  decide

theorem swarSmaller (C : Nat) (c : Nat → Nat) (hC : LaneWise C c) (hc : ∀ j < 8, c j < 128)
    (t : Nat) (ht : t ≤ 128) (k : Nat) (hk8 : k ≤ 8) (hk : ∀ j < k, c j < t) :
    k ≤ wsub 8 ((wmul (((wsub (C ||| SignMask) (wmul t PrefixSumMultiplierConstant))
        &&& SignMask) >>> 7) PrefixSumMultiplierConstant) >>> 56) := by
  rw [swarCount C c hC hc t ht]
  have hs := sum8_le (fun j => if t ≤ c j then 1 else 0) k
    (fun j _ => by show (if t ≤ c j then 1 else 0) ≤ 1; split_ifs <;> omega)
    (fun j hj => by
      show (if t ≤ c j then 1 else 0) = 0
      have := hk j hj
      rw [if_neg (by omega)])
  simp only at hs
  unfold wsub wordMod
  omega

theorem and_255 (x : Nat) : x &&& 255 = x % 256 := Nat.and_pow_two_sub_one_eq_mod x 8

theorem bitPosition1_ge (number m : Nat) (rank : Int) (hn : number < wordMod) (hm : m ≤ 64)
    (hz : ∀ i < m, number.testBit i = false) (hr : 0 ≤ rank) :
    (m : Int) ≤ BitPosition1 number rank := by
  have hcum := cumulative_lanes number hn
  have htop : (wmul (ChunkPopcounts number) PrefixSumMultiplierConstant) >>> 56
      = bitCount number 64 := by
    have h7 : lane _ 7 = bitCount number 64 := hcum.2 7 (by omega)
    have hlt := hcum.1
    rw [lane_eq_div] at h7
    rw [Nat.shiftRight_eq_div_pow, ← h7]
    unfold wordMod at hlt
    norm_num
    omega
  have hcnt := bitCount_le number 64
  unfold BitPosition1
  simp only [htop]
  by_cases h1 : (rank % (wordMod : Int)).toNat ≥ bitCount number 64
  · rw [if_pos h1]
    unfold wordMod at h1
    omega
  rw [if_neg h1]
  have ht : ((rank + 1).toNat &&& 0xFF) = (rank % (wordMod : Int)).toNat + 1 := by
    rw [and_255]
    unfold wordMod at h1 ⊢
    omega
  generalize htdef : ((rank + 1).toNat &&& 0xFF) = t at ht ⊢
  have ht1 : 1 ≤ t := by omega
  have ht64 : t ≤ 64 := by omega
  have hlanes : ∀ j < 8, bitCount number (8 * (j + 1)) < 128 := fun j hj => by
    have := bitCount_le number (8 * (j + 1)); omega
  have hzero : ∀ k ≤ m, bitCount number k = 0 := fun k hk =>
    bitCount_none_set number k (fun i hi => hz i (by omega))
  have hS := swarSmaller _ _ hcum hlanes t (by omega) (m / 8) (by omega) (fun j hj => by
    show bitCount number (8 * (j + 1)) < t
    rw [hzero _ (by omega)]; omega)
  generalize hSdef : wsub 8 ((wmul (((wsub (wmul (ChunkPopcounts number)
      PrefixSumMultiplierConstant ||| SignMask) (wmul t PrefixSumMultiplierConstant))
      &&& SignMask) >>> 7) PrefixSumMultiplierConstant) >>> 56) = S at hS ⊢
  by_cases hS8 : m ≤ S * 8
  · push_cast; omega
  have hSm : S = m / 8 := by omega
  have hS7 : S ≤ 7 := by omega
  have hrank : (if S > 0 then rank - (((wshr (wmul (ChunkPopcounts number)
      PrefixSumMultiplierConstant) (((S : Int) - 1) * 8)) &&& 0xFF : Nat) : Int) else rank)
      = rank := by
    split_ifs with hpos
    · have hsc : shiftCount (((S : Int) - 1) * 8) = 8 * (S - 1) := by
        unfold shiftCount; omega
      have hl : lane _ (S - 1) = bitCount number (8 * (S - 1 + 1)) := hcum.2 (S - 1) (by omega)
      rw [hzero _ (by omega)] at hl
      have : (wshr (wmul (ChunkPopcounts number) PrefixSumMultiplierConstant)
          (((S : Int) - 1) * 8)) &&& 0xFF = 0 := by
        rw [and_255, wshr, hsc]; exact hl
      rw [this]; simp
    · rfl
  simp only [hrank, htdef]
  have hib : (wshr number ((S * 8 : Nat) : Int)) &&& 0xFF = lane number S := by
    have hsc : shiftCount ((S * 8 : Nat) : Int) = 8 * S := by
      unfold shiftCount; omega
    rw [and_255, wshr, hsc]; rfl
  rw [hib]
  have hL : LaneWise (wmul ((wmul ((wmul (lane number S) 0x0000040010004001)
      &&& 0x0003000300030003) 0x0000000000000081) &&& 0x0101010101010101)
      PrefixSumMultiplierConstant) (fun j => bitCount (lane number S) (j + 1)) :=
    ⟨Nat.mod_lt _ (by decide), fun j hj => spreadBits_lanes _ (lane_lt _ _) j hj⟩
  have hT := swarSmaller _ _ hL (fun j hj => by
      have := bitCount_le (lane number S) (j + 1); show bitCount _ _ < 128; omega)
    t (by omega) (m % 8) (by omega) (fun j hj => by
      show bitCount (lane number S) (j + 1) < t
      rw [bitCount_none_set _ _ (fun i hi => by
        rw [lane_testBit, hz _ (by omega)]; simp)]
      omega)
  push_cast
  omega

theorem bitPosition_morton_ge (low high k : Nat) (rank : Int) (hl : low < wordMod)
    (hh : high < wordMod) (hk : k ≤ 64) (hlz : ∀ i < k, low.testBit i = false)
    (hhz : ∀ i < k, high.testBit i = false) (hr : 0 ≤ rank) :
    (2 * k : Int) ≤ BitPosition (MortonLow low high) (MortonHigh low high) rank := by
  have hm32 : ∀ x : Nat, x &&& 0xFFFFFFFF < 2 ^ 32 := fun x => by
    have : x &&& 0xFFFFFFFF = x % 2 ^ 32 := Nat.and_pow_two_sub_one_eq_mod x 32
    rw [this]; exact Nat.mod_lt _ (by norm_num)
  have hs32 : ∀ x : Nat, x < wordMod → x >>> 32 < 2 ^ 32 := fun x hx => by
    rw [Nat.shiftRight_eq_div_pow]
    unfold wordMod at hx
    omega
  have h1 := bitPosition1_ge (MortonLow low high) (2 * min k 32) rank
    (interleave_lt _ _) (by omega)
    (interleave_low_zero _ _ (min k 32) (hm32 _) (hm32 _)
      (fun i hi => by rw [Nat.testBit_and, hlz i (by omega)]; rfl)
      (fun i hi => by rw [Nat.testBit_and, hhz i (by omega)]; rfl)) hr
  unfold BitPosition
  dsimp only
  split_ifs with h
  · omega
  · have h2 := bitPosition1_ge (MortonHigh low high) (2 * (k - 32))
      (BitPosition1 (MortonLow low high) rank - 64)
      (interleave_lt _ _) (by omega)
      (interleave_low_zero _ _ (k - 32) (hs32 _ hl) (hs32 _ hh)
        (fun i hi => by rw [Nat.testBit_shiftRight, hlz _ (by omega)])
        (fun i hi => by rw [Nat.testBit_shiftRight, hhz _ (by omega)])) (by omega)
    omega

theorem partialMask_low_zero (x : Nat) (lr rr : Int) (hr0 : 0 ≤ rr) (hlt : rr + 1 < lr)
    (hl64 : lr ≤ 64) :
    ∀ i < (rr + 1).toNat,
      (x &&& (wnot (if lr < (WordSize : Int) then wshl AllOnes lr else 0)
        &&& wshl AllOnes (rr + 1))).testBit i = false := by
  intro i hi
  rw [Nat.testBit_and, Nat.testBit_and,
    testBit_wshl_lit AllOnes (rr + 1).toNat i (by omega) (rr + 1) (by omega)]
  have : decide ((rr + 1).toNat ≤ i) = false := by simp; omega
  rw [this]; simp

theorem confirmedRowsInMergedOrdered_between (left right : WordSlice)
    (hr0 : 0 ≤ right.confirmedRows.rows) (hl64 : left.confirmedRows.rows ≤ 64)
    (hgt : left.confirmedRows.gt right.confirmedRows = true) :
    (confirmedRowsInMergedOrdered left right).lt right.confirmedRows = false
    ∧ (confirmedRowsInMergedOrdered left right).gt left.confirmedRows = false := by
  obtain ⟨lVP, lVN, lse, lsb, ⟨lr, lp⟩, lbe, lee⟩ := left
  obtain ⟨rVP, rVN, rse, rsb, ⟨rr, rp⟩, rbe, ree⟩ := right
  simp only at hr0 hl64
  have hM : ∀ rank : Int, 0 ≤ rank → rr + 1 < lr →
      2 * (rr + 1) ≤ BitPosition
        (MortonLow (lVP &&& (wnot (if lr < (WordSize : Int) then wshl AllOnes lr else 0)
            &&& wshl AllOnes (rr + 1)))
          (wnot lVN &&& (wnot (if lr < (WordSize : Int) then wshl AllOnes lr else 0)
            &&& wshl AllOnes (rr + 1))))
        (MortonHigh (lVP &&& (wnot (if lr < (WordSize : Int) then wshl AllOnes lr else 0)
            &&& wshl AllOnes (rr + 1)))
          (wnot lVN &&& (wnot (if lr < (WordSize : Int) then wshl AllOnes lr else 0)
            &&& wshl AllOnes (rr + 1)))) rank := by
    intro rank hrank hlt
    have h := bitPosition_morton_ge
      (lVP &&& (wnot (if lr < (WordSize : Int) then wshl AllOnes lr else 0)
            &&& wshl AllOnes (rr + 1)))
      (wnot lVN &&& (wnot (if lr < (WordSize : Int) then wshl AllOnes lr else 0)
            &&& wshl AllOnes (rr + 1))) (rr + 1).toNat rank
      (and_lt_wordMod _ (and_lt_wordMod _ (wshl_lt _ _)))
      (and_lt_wordMod _ (and_lt_wordMod _ (wshl_lt _ _))) (by omega)
      (partialMask_low_zero _ lr rr hr0 hlt hl64)
      (partialMask_low_zero _ lr rr hr0 hlt hl64) hrank
    have e : (((rr + 1).toNat : Nat) : Int) = rr + 1 := by omega
    rw [e] at h
    exact h
  unfold confirmedRowsInMergedOrdered
  dsimp only
  generalize BitPosition
        (MortonLow (lVP &&& (wnot (if lr < (WordSize : Int) then wshl AllOnes lr else 0)
            &&& wshl AllOnes (rr + 1)))
          (wnot lVN &&& (wnot (if lr < (WordSize : Int) then wshl AllOnes lr else 0)
            &&& wshl AllOnes (rr + 1))))
        (MortonHigh (lVP &&& (wnot (if lr < (WordSize : Int) then wshl AllOnes lr else 0)
            &&& wshl AllOnes (rr + 1)))
          (wnot lVN &&& (wnot (if lr < (WordSize : Int) then wshl AllOnes lr else 0)
            &&& wshl AllOnes (rr + 1)))) = F at hM ⊢
  generalize (popcount (lVP &&& wnot (wshl AllOnes rr)) : Int) = p1
  generalize (popcount (lVN &&& wnot (wshl AllOnes rr)) : Int) = p2
  generalize (popcount (rVP &&& wnot (wshl AllOnes rr)) : Int) = p3
  generalize (popcount (rVN &&& wnot (wshl AllOnes rr)) : Int) = p4
  generalize bitSet lVP (wshl 1 rr) = c1
  generalize bitSet lVN (wshl 1 rr) = c2
  generalize bitSet rVP (wshl 1 rr) = c3
  generalize bitSet lVP (wshl 1 lr) = c4
  simp only [RowConfirmation.gt, RowConfirmation.lt] at hgt ⊢
  generalize ((lsb + p1 - p2 + if c1 = true then 1 else 0) - if c2 = true then 1 else 0) = L
  generalize (if (rp && c3) = true then rsb + p3 - p4 else rsb + p3 - p4 - 1) = R
  have hF := hM (R - L)
  generalize F (R - L) = pos at hF ⊢
  generalize F (R - L + 1) = nextpos
  generalize (popcount (lVP &&& (wnot (if lr < (WordSize : Int) then wshl AllOnes lr else 0)
      &&& wshl AllOnes (rr + 1))) : Int) = p5
  generalize (popcount (lVN &&& (wnot (if lr < (WordSize : Int) then wshl AllOnes lr else 0)
      &&& wshl AllOnes (rr + 1))) : Int) = p6
  have key : ∀ m : RowConfirmation,
      (rr + 1 ≤ m.rows ∨ (m.rows = rr ∧ (m.partialRow = true ∨ m.partialRow = rp))) →
      (m.rows < lr ∨ (m.rows = lr ∧ (m.partialRow = lp ∨ m.partialRow = false))) →
      (decide (m.rows < rr) || decide (m.rows = rr) && !m.partialRow && rp) = false
      ∧ (decide (m.rows > lr) || decide (m.rows = lr) && m.partialRow && !lp) = false := by
    rintro ⟨mr, mp⟩ h1 h2
    simp only at h1 h2
    constructor
    · rcases h1 with h | ⟨h, h | h⟩
      · have a : ¬ mr < rr := by omega
        have b : ¬ mr = rr := by omega
        simp [a, b]
      · subst h; simp [h]
      · subst h; subst h; simp
    · rcases h2 with h | ⟨h, h | h⟩
      · have a : ¬ mr > lr := by omega
        have b : ¬ mr = lr := by omega
        simp [a, b]
      · subst h; subst h; simp
      · subst h; simp [h]
  apply key
  · by_cases hrows : rr = lr
    · subst hrows
      rw [if_pos rfl]
      cases lp <;> cases rp <;> simp at hgt
      split_ifs <;> simp <;> omega
    · rw [if_neg hrows]
      have hlt : rr < lr := by
        rcases (Bool.or_eq_true _ _).mp hgt with h | h
        · simpa using h
        · simp at h; omega
      split_ifs <;> simp <;> omega
  · by_cases hrows : rr = lr
    · subst hrows
      rw [if_pos rfl]
      cases lp <;> cases rp <;> simp at hgt
      split_ifs <;> simp <;> omega
    · rw [if_neg hrows]
      have hlt : rr < lr := by
        rcases (Bool.or_eq_true _ _).mp hgt with h | h
        · simpa using h
        · simp at h; omega
      split_ifs <;> simp <;> omega

theorem mergeWith_confirmedRows (a b : WordSlice) :
    (a.mergeWith b).confirmedRows = confirmedRowsInMerged a b := by
  unfold mergeWith mergeTwoSlices
  split_ifs
  · exact confirmedRowsInMerged_comm b a
  · rfl

theorem rowConfirmation_gt_iff_lt (a b : RowConfirmation) : a.gt b = b.lt a := by
  obtain ⟨ar, ap⟩ := a
  obtain ⟨br, bp⟩ := b
  simp only [RowConfirmation.gt, RowConfirmation.lt]
  rw [Bool.eq_iff_iff]
  cases ap <;> cases bp <;> simp <;> omega

theorem rowConfirmation_lt_irrefl (a : RowConfirmation) : a.lt a = false := by
  obtain ⟨ar, ap⟩ := a
  cases ap <;> simp [RowConfirmation.lt]

theorem rowConfirmation_total (a b : RowConfirmation) (h1 : a.eq b = false)
    (h2 : b.gt a = false) : a.gt b = true := by
  obtain ⟨ar, ap⟩ := a
  obtain ⟨br, bp⟩ := b
  simp only [RowConfirmation.gt, RowConfirmation.eq] at *
  cases ap <;> cases bp <;> simp at * <;> omega

theorem rowConfirmation_eq_iff (a b : RowConfirmation) (h : a.eq b = true) : a = b := by
  obtain ⟨ar, ap⟩ := a
  obtain ⟨br, bp⟩ := b
  simp only [RowConfirmation.eq] at h
  cases ap <;> cases bp <;> simp at * <;> omega

theorem rowConfirmation_lt_asymm (a b : RowConfirmation) (h : a.lt b = true) :
    b.lt a = false := by
  obtain ⟨ar, ap⟩ := a
  obtain ⟨br, bp⟩ := b
  simp only [RowConfirmation.lt] at *
  cases ap <;> cases bp <;> simp at * <;> omega

/-- C30: for slices a and b whose confirmedRows.rows lie in 0..64, the confirmedRows of
a.mergeWith(b) is, in the order of the RowConfirmation operators, not smaller than the
smaller and not larger than the larger of the two operands' confirmedRows, and it is
a.confirmedRows when the two are equal. -/
theorem mergeWith_confirmedRows_between (a b : WordSlice)
    (ha : 0 ≤ a.confirmedRows.rows ∧ a.confirmedRows.rows ≤ 64)
    (hb : 0 ≤ b.confirmedRows.rows ∧ b.confirmedRows.rows ≤ 64) :
    (a.mergeWith b).confirmedRows.lt (smallerConfirmation a.confirmedRows b.confirmedRows) = false
    ∧ (a.mergeWith b).confirmedRows.gt (largerConfirmation a.confirmedRows b.confirmedRows)
        = false
    ∧ (a.confirmedRows = b.confirmedRows → (a.mergeWith b).confirmedRows = a.confirmedRows) := by
  rw [mergeWith_confirmedRows]
  unfold confirmedRowsInMerged smallerConfirmation largerConfirmation
  by_cases heq : a.confirmedRows.eq b.confirmedRows = true
  · rw [if_pos heq]
    have e := rowConfirmation_eq_iff _ _ heq
    rw [← e]
    refine ⟨?_, ?_, fun _ => rfl⟩
    · rw [ite_self]; exact rowConfirmation_lt_irrefl _
    · rw [ite_self, rowConfirmation_gt_iff_lt]; exact rowConfirmation_lt_irrefl _
  · rw [if_neg heq]
    have hne : a.confirmedRows ≠ b.confirmedRows := fun h => by
      apply heq
      rw [h]
      obtain ⟨r, p⟩ := b.confirmedRows
      cases p <;> simp [RowConfirmation.eq]
    by_cases hgt : b.confirmedRows.gt a.confirmedRows = true
    · rw [if_pos hgt]
      have h := confirmedRowsInMergedOrdered_between b a ha.1 hb.2 hgt
      have h1 : a.confirmedRows.lt b.confirmedRows = true := by
        rw [← rowConfirmation_gt_iff_lt]; exact hgt
      have h2 := rowConfirmation_lt_asymm _ _ h1
      rw [h1, h2]
      exact ⟨h.1, h.2, fun e => absurd e hne⟩
    · rw [if_neg hgt]
      have hgt' := rowConfirmation_total _ _ (by simpa using heq) (by simpa using hgt)
      have h := confirmedRowsInMergedOrdered_between a b hb.1 ha.2 hgt'
      have h1 : b.confirmedRows.lt a.confirmedRows = true := by
        rw [← rowConfirmation_gt_iff_lt]; exact hgt'
      have h2 := rowConfirmation_lt_asymm _ _ h1
      rw [h1, h2]
      exact ⟨h.1, h.2, fun e => absurd e hne⟩



/-- C30 (witness): mergeWith_confirmedRows_between at two slices confirmed to rows 6 and 1,
whose merge is confirmed to row 4, strictly between the two. -/
theorem mergeWith_confirmedRows_between_witness :
    ((mk6 58 5 2 0 6 true).mergeWith (mk6 6 0 5 3 1 true)).confirmedRows = ⟨4, false⟩
    ∧ (0 ≤ (mk6 58 5 2 0 6 true).confirmedRows.rows
      ∧ (mk6 58 5 2 0 6 true).confirmedRows.rows ≤ 64)
    ∧ (0 ≤ (mk6 6 0 5 3 1 true).confirmedRows.rows
      ∧ (mk6 6 0 5 3 1 true).confirmedRows.rows ≤ 64)
    ∧ (((mk6 58 5 2 0 6 true).mergeWith (mk6 6 0 5 3 1 true)).confirmedRows.lt
          (smallerConfirmation (mk6 58 5 2 0 6 true).confirmedRows
            (mk6 6 0 5 3 1 true).confirmedRows) = false
      ∧ ((mk6 58 5 2 0 6 true).mergeWith (mk6 6 0 5 3 1 true)).confirmedRows.gt
          (largerConfirmation (mk6 58 5 2 0 6 true).confirmedRows
            (mk6 6 0 5 3 1 true).confirmedRows) = false
      ∧ ((mk6 58 5 2 0 6 true).confirmedRows = (mk6 6 0 5 3 1 true).confirmedRows →
          ((mk6 58 5 2 0 6 true).mergeWith (mk6 6 0 5 3 1 true)).confirmedRows
            = (mk6 58 5 2 0 6 true).confirmedRows)) :=
  ⟨by decide, by decide, by decide,
    mergeWith_confirmedRows_between (mk6 58 5 2 0 6 true) (mk6 6 0 5 3 1 true)
      (by decide) (by decide)⟩

section StronglyConnected
open GraphAligner

theorem indexOf_enterNode (x : Nat) (s : ComponentState) (v : Nat) :
    indexOf (enterNode x s) v = if v = x then s.stackindex else indexOf s v := by
  unfold indexOf enterNode
  by_cases h : v = x <;> simp [h]

theorem indexOf_of_some {s : ComponentState} {v i : Nat} (h : s.index v = some i) :
    indexOf s v = i := by
  unfold indexOf; rw [h]; rfl

theorem index_some_of_ne_none {s : ComponentState} {v : Nat} (h : s.index v ≠ none) :
    s.index v = some (indexOf s v) := by
  unfold indexOf
  cases hv : s.index v with
  | none => exact absurd hv h
  | some i => rfl

theorem whiteCount_le (nodes : List Nat) (s s1 : ComponentState)
    (h : ∀ v, s.index v ≠ none → s1.index v ≠ none) :
    whiteCount nodes s1 ≤ whiteCount nodes s := by
  unfold whiteCount
  rw [← List.countP_eq_length_filter, ← List.countP_eq_length_filter]
  apply List.countP_mono_left
  intro v _ hv
  by_contra hc
  have h1 : s.index v ≠ none := by
    intro e; apply hc; rw [e]; rfl
  have := h v h1
  cases h2 : s1.index v with
  | none => exact this h2
  | some i => rw [h2] at hv; simp at hv

theorem whiteCount_lt (nodes : List Nat) (s s1 : ComponentState) (x : Nat) (hx : x ∈ nodes)
    (hw : s.index x = none) (hv : s1.index x ≠ none)
    (h : ∀ v, s.index v ≠ none → s1.index v ≠ none) :
    whiteCount nodes s1 < whiteCount nodes s := by
  induction nodes with
  | nil => exact absurd hx (List.not_mem_nil _)
  | cons a rest ih =>
    have hle := whiteCount_le rest s s1 h
    unfold whiteCount at hle ih ⊢
    by_cases hax : a = x
    · subst hax
      have e1 : (s1.index a).isNone = false := by
        cases h2 : s1.index a with
        | none => exact absurd h2 hv
        | some i => rfl
      have e2 : (s.index a).isNone = true := by rw [hw]; rfl
      rw [List.filter_cons_of_neg (by simp [e1]), List.filter_cons_of_pos (by simp [e2])]
      simp only [List.length_cons]
      omega
    · have hx2 : x ∈ rest := by
        rcases List.mem_cons.mp hx with e | e
        · exact absurd e.symm hax
        · exact e
      have := ih hx2
      have himp : (s1.index a).isNone = true → (s.index a).isNone = true := by
        intro ha
        by_contra hc
        have h1 : s.index a ≠ none := by
          intro e; apply hc; rw [e]; rfl
        have h3 := h a h1
        cases h2 : s1.index a with
        | none => exact h3 h2
        | some i => rw [h2] at ha; simp at ha
      simp only [List.filter_cons]
      by_cases ha : (s1.index a).isNone = true
      · rw [if_pos ha, if_pos (himp ha)]
        simp only [List.length_cons]
        omega
      · rw [if_neg ha]
        by_cases ha2 : (s.index a).isNone = true
        · rw [if_pos ha2]
          simp only [List.length_cons]
          omega
        · rw [if_neg ha2]
          exact this

theorem whiteCount_pos (nodes : List Nat) (s : ComponentState) (x : Nat) (hx : x ∈ nodes)
    (hw : s.index x = none) : 0 < whiteCount nodes s := by
  unfold whiteCount
  apply List.length_pos_of_mem (a := x)
  rw [List.mem_filter]
  exact ⟨hx, by rw [hw]; rfl⟩
theorem scanInv_enter (graph : AlignmentGraph) (currentBand : Nat → Bool) (nodes : List Nat)
    (hlen : nodes.length < WordConfiguration.wordMod)
    (s : ComponentState) (gray : List Nat) (x : Nat)
    (hinv : ComponentInv graph currentBand nodes s gray)
    (hband : currentBand x = true) (hx : x ∈ nodes) (hw : s.index x = none) :
    ScanInv graph currentBand nodes s gray x [] (enterNode x s) := by
  have hpos := whiteCount_pos nodes s x hx hw
  have hcount := hinv.count
  have hnext : (s.stackindex + 1) % WordConfiguration.wordMod = s.stackindex + 1 :=
    Nat.mod_eq_of_lt (by omega)
  have hidx : ∀ v, (enterNode x s).index v = if v = x then some s.stackindex else s.index v :=
    fun v => rfl
  have hne : ∀ v, s.index v ≠ none → v ≠ x := fun v hv e => hv (e ▸ hw)
  have hio : ∀ v, s.index v ≠ none → indexOf (enterNode x s) v = indexOf s v := fun v hv => by
    rw [indexOf_enterNode, if_neg (hne v hv)]
  have hlt : ∀ v, s.index v ≠ none → indexOf s v < s.stackindex := fun v hv =>
    hinv.index_lt v _ (index_some_of_ne_none hv)
  refine
    { inv :=
        { visited_band := ?_, index_lt := ?_, index_inj := ?_, count := ?_,
          result_count := by
            show s.result.length + (s.stack.length + 1)
              ≤ (s.stackindex + 1) % WordConfiguration.wordMod
            rw [hnext]
            have := hinv.result_count
            omega
          onStack_iff := ?_,
          stack_sorted := ?_, stack_visited := ?_, visited_split := ?_, result_visited := ?_,
          result_scc := hinv.result_scc, result_nodup := hinv.result_nodup,
          result_disjoint := hinv.result_disjoint, result_closed := hinv.result_closed,
          gray_stack := ?_, stack_reach := ?_, black_white := ?_ }
      index_ext := ?_, index_new := ?_, lowLink_old := ?_, index_x := ?_, white_x := hw,
      result_ext := ⟨[], (List.append_nil _).symm⟩, low_le := ?_, low_reach := ?_,
      stack_ext := ?_, processed := ?_ }
  · intro v hv
    rw [hidx] at hv
    by_cases e : v = x
    · rw [e]; exact hband
    · rw [if_neg e] at hv; exact hinv.visited_band v hv
  · intro v i hv
    rw [hidx] at hv
    show i < (s.stackindex + 1) % WordConfiguration.wordMod
    rw [hnext]
    by_cases e : v = x
    · rw [if_pos e] at hv; cases hv; omega
    · rw [if_neg e] at hv; have := hinv.index_lt v i hv; omega
  · intro u v i hu hv
    rw [hidx] at hu hv
    by_cases eu : u = x
    · rw [if_pos eu] at hu
      by_cases ev : v = x
      · rw [eu, ev]
      · rw [if_neg ev] at hv
        cases hu
        exact absurd (hinv.index_lt v _ hv) (lt_irrefl _)
    · rw [if_neg eu] at hu
      by_cases ev : v = x
      · rw [if_pos ev] at hv
        cases hv
        exact absurd (hinv.index_lt u _ hu) (lt_irrefl _)
      · rw [if_neg ev] at hv
        exact hinv.index_inj u v i hu hv
  · show (s.stackindex + 1) % WordConfiguration.wordMod + _ ≤ _
    rw [hnext]
    have := whiteCount_lt nodes s (enterNode x s) x hx hw (by rw [hidx, if_pos rfl]; simp)
      (fun v hv => by rw [hidx, if_neg (hne v hv)]; exact hv)
    omega
  · intro v
    show (if v = x then true else s.onStack v) = true ↔ v ∈ x :: s.stack
    by_cases e : v = x
    · simp [e]
    · rw [if_neg e, hinv.onStack_iff]; simp [e]
  · show (x :: s.stack).Pairwise _
    rw [List.pairwise_cons]
    constructor
    · intro b hb
      have hb1 := hinv.stack_visited b hb
      rw [hio b hb1, indexOf_enterNode, if_pos rfl]
      exact hlt b hb1
    · refine hinv.stack_sorted.imp_of_mem ?_
      intro a b ha hb hab
      rw [hio a (hinv.stack_visited a ha), hio b (hinv.stack_visited b hb)]
      exact hab
  · intro v hv
    rw [hidx]
    by_cases e : v = x
    · rw [if_pos e]; simp
    · rw [if_neg e]
      rcases List.mem_cons.mp hv with h | h
      · exact absurd h e
      · exact hinv.stack_visited v h
  · intro v hv
    rw [hidx] at hv
    by_cases e : v = x
    · left; rw [e]; exact List.mem_cons_self _ _
    · rw [if_neg e] at hv
      rcases hinv.visited_split v hv with h | h
      · left; exact List.mem_cons_of_mem _ h
      · right; exact h
  · intro c hc v hv
    obtain ⟨h1, h2⟩ := hinv.result_visited c hc v hv
    refine ⟨by rw [hidx, if_neg (hne v h1)]; exact h1, ?_⟩
    intro hmem
    rcases List.mem_cons.mp hmem with h | h
    · exact hne v h1 h
    · exact h2 h
  · intro z hz
    rcases List.mem_cons.mp hz with h | h
    · rw [h]; exact List.mem_cons_self _ _
    · exact List.mem_cons_of_mem _ (hinv.gray_stack z h)
  · intro y hy
    rcases List.mem_cons.mp hy with h | h
    · exact ⟨x, List.mem_cons_self _ _, by rw [h], by rw [h]; exact Relation.ReflTransGen.refl⟩
    · obtain ⟨z, hz, hle, hr⟩ := hinv.stack_reach y h
      refine ⟨z, List.mem_cons_of_mem _ hz, ?_, hr⟩
      rw [hio z (hinv.stack_visited z (hinv.gray_stack z hz)), hio y (hinv.stack_visited y h)]
      exact hle
  · intro u v he hu hg
    rw [hidx] at hu
    have e : u ≠ x := fun e => hg (e ▸ List.mem_cons_self _ _)
    rw [if_neg e] at hu
    have := hinv.black_white u v he hu (fun h => hg (List.mem_cons_of_mem _ h))
    rw [hidx]
    by_cases ev : v = x
    · rw [if_pos ev]; simp
    · rw [if_neg ev]; exact this
  · intro v i hv
    rw [hidx, if_neg (hne v (by rw [hv]; simp))]
    exact hv
  · intro v i hv hv1
    rw [hidx] at hv1
    by_cases e : v = x
    · rw [if_pos e] at hv1; cases hv1; exact le_refl _
    · rw [if_neg e, hv] at hv1; cases hv1
  · intro v hv
    show (if v = x then some s.stackindex else s.lowLink v) = _
    rw [if_neg (hne v hv)]
  · rw [hidx, if_pos rfl]
  · show ((if x = x then some s.stackindex else s.lowLink x).getD 0) ≤ _
    rw [if_pos rfl]; exact le_refl _
  · refine ⟨x, List.mem_cons_self _ _, ?_, Relation.ReflTransGen.refl⟩
    rw [indexOf_enterNode, if_pos rfl]
    show _ = ((if x = x then some s.stackindex else s.lowLink x).getD 0)
    rw [if_pos rfl]; rfl
  · exact ⟨[], rfl, fun u hu => absurd hu (List.not_mem_nil _),
      fun u hu => absurd hu (List.not_mem_nil _)⟩
  · intro w hw1
    exact absurd hw1 (List.not_mem_nil _)
theorem componentInv_lowerLink {graph : AlignmentGraph} {currentBand : Nat → Bool}
    {nodes : List Nat} {s : ComponentState} {gray : List Nat}
    (h : ComponentInv graph currentBand nodes s gray) (x value : Nat) :
    ComponentInv graph currentBand nodes (lowerLink x value s) gray :=
  { visited_band := h.visited_band, index_lt := h.index_lt, index_inj := h.index_inj,
    count := h.count, result_count := h.result_count, onStack_iff := h.onStack_iff,
    stack_sorted := h.stack_sorted,
    stack_visited := h.stack_visited, visited_split := h.visited_split,
    result_visited := h.result_visited, result_scc := h.result_scc,
    result_nodup := h.result_nodup, result_disjoint := h.result_disjoint,
    result_closed := h.result_closed, gray_stack := h.gray_stack,
    stack_reach := h.stack_reach, black_white := h.black_white }

theorem lowOf_lowerLink (x value : Nat) (s : ComponentState) :
    lowOf (lowerLink x value s) x = min (lowOf s x) value := by
  unfold lowOf lowerLink
  simp

theorem scanInv_lowerLink {graph : AlignmentGraph} {currentBand : Nat → Bool}
    {nodes : List Nat} {s0 s : ComponentState} {gray : List Nat} {x : Nat} {done : List Nat}
    (h : ScanInv graph currentBand nodes s0 gray x done s) (value : Nat)
    (hval : lowOf s x ≤ value
      ∨ ∃ y ∈ s.stack, indexOf s y = value ∧ BandReach graph currentBand x y) :
    ScanInv graph currentBand nodes s0 gray x done (lowerLink x value s) := by
  have hlow := lowOf_lowerLink x value s
  have hle : lowOf (lowerLink x value s) x ≤ lowOf s x := by rw [hlow]; exact min_le_left _ _
  refine
    { inv := componentInv_lowerLink h.inv x value
      index_ext := h.index_ext, index_new := h.index_new, lowLink_old := ?_,
      index_x := h.index_x, white_x := h.white_x, result_ext := h.result_ext,
      low_le := le_trans hle h.low_le, low_reach := ?_, stack_ext := ?_, processed := ?_ }
  · intro v hv
    have e : v ≠ x := fun e => hv (e ▸ h.white_x)
    show (if v = x then _ else s.lowLink v) = _
    rw [if_neg e]
    exact h.lowLink_old v hv
  · rw [hlow]
    rcases hval with hv | ⟨y, hy, hiy, hr⟩
    · rw [min_eq_left hv]; exact h.low_reach
    · rcases le_total (lowOf s x) value with hv | hv
      · rw [min_eq_left hv]; exact h.low_reach
      · rw [min_eq_right hv]; exact ⟨y, hy, hiy, hr⟩
  · obtain ⟨new, h1, h2, h3⟩ := h.stack_ext
    exact ⟨new, h1, h2, fun u hu w hw he => le_trans hle (h3 u hu w hw he)⟩
  · intro w hw hb
    obtain ⟨h1, h2⟩ := h.processed w hw hb
    exact ⟨h1, fun hm => le_trans hle (h2 hm)⟩

theorem scanInv_done {graph : AlignmentGraph} {currentBand : Nat → Bool}
    {nodes : List Nat} {s0 s : ComponentState} {gray : List Nat} {x : Nat} {done : List Nat}
    (h : ScanInv graph currentBand nodes s0 gray x done s) (w : Nat)
    (hw : currentBand w = true →
      s.index w ≠ none ∧ (w ∈ s.stack → lowOf s x ≤ indexOf s w)) :
    ScanInv graph currentBand nodes s0 gray x (w :: done) s :=
  { h with
    processed := fun w1 hw1 hb => by
      rcases List.mem_cons.mp hw1 with e | e
      · rw [e]; rw [e] at hb; exact hw hb
      · exact h.processed w1 e hb }

theorem scanInv_seen {graph : AlignmentGraph} {currentBand : Nat → Bool}
    {nodes : List Nat} {s0 s : ComponentState} {gray : List Nat} {x : Nat} {done : List Nat}
    (h : ScanInv graph currentBand nodes s0 gray x done s) (w : Nat)
    (hout : w ∈ graph.outNeighbors x) (hb : currentBand w = true)
    (hseen : (s.index w).isNone = false) :
    ScanInv graph currentBand nodes s0 gray x (w :: done)
      (if s.onStack w then lowerLink x ((s.index w).getD 0) s else s) := by
  have hvis : s.index w ≠ none := by
    intro e; rw [e] at hseen; simp at hseen
  have hbx : currentBand x = true := h.inv.visited_band x (by rw [h.index_x]; simp)
  by_cases hon : s.onStack w = true
  · rw [if_pos hon]
    have hmem := (h.inv.onStack_iff w).mp hon
    have h1 := scanInv_lowerLink h ((s.index w).getD 0)
      (Or.inr ⟨w, hmem, rfl, Relation.ReflTransGen.single ⟨hbx, hb, hout⟩⟩)
    refine scanInv_done h1 w (fun _ => ⟨hvis, fun _ => ?_⟩)
    rw [lowOf_lowerLink]
    exact min_le_right _ _
  · rw [if_neg hon]
    exact scanInv_done h w (fun _ => ⟨hvis, fun hm => absurd ((h.inv.onStack_iff w).mpr hm) hon⟩)
theorem indexOf_ext {s s1 : ComponentState} (hext : ∀ v i, s.index v = some i → s1.index v = some i)
    {v : Nat} (hv : s.index v ≠ none) : indexOf s1 v = indexOf s v := by
  have h := index_some_of_ne_none hv
  exact indexOf_of_some (hext v _ h)

theorem scanInv_child {graph : AlignmentGraph} {currentBand : Nat → Bool}
    {nodes : List Nat} {s0 s s1 : ComponentState} {gray : List Nat} {x : Nat}
    {done : List Nat}
    (h : ScanInv graph currentBand nodes s0 gray x done s) (w : Nat)
    (hout : w ∈ graph.outNeighbors x) (hb : currentBand w = true)
    (hwhite : s.index w = none)
    (hinv : ComponentInv graph currentBand nodes s1 (x :: gray))
    (hpost : ComponentPost graph currentBand s w s1) :
    ScanInv graph currentBand nodes s0 gray x (w :: done)
      (lowerLink x (lowOf s1 w) s1) := by
  have hxs : s.index x ≠ none := by rw [h.index_x]; simp
  have hbx : currentBand x = true := h.inv.visited_band x hxs
  have hedge : BandReach graph currentBand x w := Relation.ReflTransGen.single ⟨hbx, hb, hout⟩
  have hlx : lowOf s1 x = lowOf s x := by
    unfold lowOf; rw [hpost.lowLink_old x hxs]
  have hlow := lowOf_lowerLink x (lowOf s1 w) s1
  have hle : lowOf (lowerLink x (lowOf s1 w) s1) x ≤ lowOf s x := by
    rw [hlow, hlx]; exact min_le_left _ _
  have hle2 : lowOf (lowerLink x (lowOf s1 w) s1) x ≤ lowOf s1 w := by
    rw [hlow]; exact min_le_right _ _
  have hs0s : s0.stackindex < s.stackindex := h.inv.index_lt x _ h.index_x
  obtain ⟨newW, hst1, hnew1, hedges1, hne1, hnil1⟩ := hpost.stack_ext
  obtain ⟨newS, hst, hnewS, hedgesS⟩ := h.stack_ext
  have hwi : s1.index w = some (indexOf s1 w) := index_some_of_ne_none hpost.visited
  have hwge : s.stackindex ≤ indexOf s1 w := hpost.index_new w _ hwhite hwi
  have hlw : lowOf s1 w ≤ indexOf s1 w := by
    by_cases e : newW = []
    · exact le_of_eq (hnil1 e)
    · exact le_of_lt (hne1 e).1
  refine
    { inv := componentInv_lowerLink hinv x _
      index_ext := fun v i hv => hpost.index_ext v i (h.index_ext v i hv)
      index_new := ?_, lowLink_old := ?_
      index_x := hpost.index_ext x _ h.index_x, white_x := h.white_x
      result_ext := ?_, low_le := le_trans hle h.low_le, low_reach := ?_, stack_ext := ?_
      processed := ?_ }
  · intro v i hv hv1
    rcases hsv : s.index v with _ | j
    · have := hpost.index_new v i hsv hv1; omega
    · have := hpost.index_ext v j hsv
      have e : (some j : Option Nat) = some i := this.symm.trans hv1
      cases e
      exact h.index_new v _ hv hsv
  · intro v hv
    have e : v ≠ x := fun e => hv (e ▸ h.white_x)
    show (if v = x then _ else s1.lowLink v) = _
    rw [if_neg e]
    have hvs : s.index v ≠ none := by
      rw [h.index_ext v _ (index_some_of_ne_none hv)]; simp
    rw [hpost.lowLink_old v hvs]
    exact h.lowLink_old v hv
  · obtain ⟨rs, hrs⟩ := h.result_ext
    obtain ⟨rs1, hrs1⟩ := hpost.result_ext
    exact ⟨rs ++ rs1, by
      show s1.result = _
      rw [hrs1, hrs, List.append_assoc]⟩
  · show ∃ y ∈ s1.stack, indexOf s1 y = _ ∧ _
    rw [hlow, hlx]
    obtain ⟨y, hy, hiy, hr⟩ := h.low_reach
    have hy1 : y ∈ s1.stack := by rw [hst1]; exact List.mem_append_right _ hy
    have hiy1 : indexOf s1 y = lowOf s x := by
      rw [indexOf_ext hpost.index_ext (h.inv.stack_visited y hy)]; exact hiy
    by_cases e : newW = []
    · have : lowOf s x ≤ lowOf s1 w := by
        rw [hnil1 e]; have := h.low_le; omega
      rw [min_eq_left this]
      exact ⟨y, hy1, hiy1, hr⟩
    · rcases le_total (lowOf s x) (lowOf s1 w) with hv | hv
      · rw [min_eq_left hv]; exact ⟨y, hy1, hiy1, hr⟩
      · rw [min_eq_right hv]
        obtain ⟨y2, hy2, hiy2, hr2⟩ := (hne1 e).2
        exact ⟨y2, by rw [hst1]; exact List.mem_append_right _ hy2, hiy2, hedge.trans hr2⟩
  · refine ⟨newW ++ newS, ?_, ?_, ?_⟩
    · show s1.stack = _
      rw [hst1, hst, List.append_assoc]
    · intro u hu
      rcases List.mem_append.mp hu with hu | hu
      · obtain ⟨h1, h2⟩ := hnew1 u hu
        refine ⟨?_, ?_, hedge.trans h2⟩
        · cases h0 : s0.index u with
          | none => rfl
          | some i => rw [h.index_ext u i h0] at h1; cases h1
        · intro e; rw [e] at h1; exact hxs h1
      · exact hnewS u hu
    · intro u hu w1 hw1 he
      have hw1s : w1 ∈ s.stack := by rw [hst]; exact List.mem_append_right _ hw1
      rcases List.mem_append.mp hu with hu | hu
      · exact le_trans hle2 (hedges1 u hu w1 hw1s he)
      · have := hedgesS u hu w1 hw1 he
        show _ ≤ indexOf s1 w1
        rw [indexOf_ext hpost.index_ext (h.inv.stack_visited w1 hw1s)]
        exact le_trans hle this
  · intro w1 hw1 hb1
    rcases List.mem_cons.mp hw1 with e | e
    · rw [e]
      exact ⟨hpost.visited, fun _ => le_trans hle2 hlw⟩
    · obtain ⟨h1, h2⟩ := h.processed w1 e hb1
      refine ⟨by
        show s1.index w1 ≠ none
        rw [hpost.index_ext w1 _ (index_some_of_ne_none h1)]; simp, fun hm => ?_⟩
      have hm1 : w1 ∈ s1.stack := hm
      rw [hst1] at hm1
      rcases List.mem_append.mp hm1 with hm2 | hm2
      · exact absurd (hnew1 w1 hm2).1 h1
      · show _ ≤ indexOf s1 w1
        rw [indexOf_ext hpost.index_ext h1]
        exact le_trans hle (h2 hm2)


theorem popComponent_spec (x : Nat) (rest : List Nat) :
    ∀ (pre : List Nat) (onStack : Nat → Bool) (component : List Nat), x ∉ pre →
      ∃ os, popComponent x (pre ++ x :: rest) onStack component
          = some (rest, os, component ++ (pre ++ [x]))
        ∧ ∀ v, os v = true ↔ (onStack v = true ∧ v ∉ pre ∧ v ≠ x) := by
  intro pre
  induction pre with
  | nil =>
    intro onStack component _
    refine ⟨fun v => if v = x then false else onStack v, ?_, ?_⟩
    · simp [popComponent]
    · intro v
      by_cases e : v = x <;> simp [e]
  | cons a pre ih =>
    intro onStack component hx
    have hax : a ≠ x := fun e => hx (e ▸ List.mem_cons_self _ _)
    have hx2 : x ∉ pre := fun e => hx (List.mem_cons_of_mem _ e)
    obtain ⟨os, h1, h2⟩ := ih (fun v => if v = a then false else onStack v)
      (component ++ [a]) hx2
    refine ⟨os, ?_, ?_⟩
    · rw [List.cons_append, popComponent]
      simp only [hax, ne_eq, not_false_eq_true, if_true]
      rw [h1]
      simp
    · intro v
      rw [h2]
      by_cases e : v = a <;> simp [e]

theorem scanInv_stack_facts {graph : AlignmentGraph} {currentBand : Nat → Bool}
    {nodes : List Nat} {s0 s : ComponentState} {gray : List Nat} {x : Nat} {done : List Nat}
    (h : ScanInv graph currentBand nodes s0 gray x done s) (new : List Nat)
    (hst : s.stack = new ++ x :: s0.stack) :
    (∀ a ∈ new, indexOf s x < indexOf s a) ∧ (∀ b ∈ s0.stack, indexOf s b < indexOf s x)
      ∧ (∀ a ∈ new, a ∉ s0.stack) ∧ x ∉ s0.stack ∧ x ∉ new ∧ new.Nodup := by
  have hs := h.inv.stack_sorted
  rw [hst, List.pairwise_append, List.pairwise_cons] at hs
  obtain ⟨h1, ⟨h2, h3⟩, h4⟩ := hs
  refine ⟨fun a ha => h4 a ha x (List.mem_cons_self _ _), h2, ?_, ?_, ?_, ?_⟩
  · intro a ha hb
    have := h4 a ha a (List.mem_cons_of_mem _ hb)
    exact lt_irrefl _ this
  · intro hb
    exact lt_irrefl _ (h2 x hb)
  · intro ha
    exact lt_irrefl _ (h4 x ha x (List.mem_cons_self _ _))
  · exact h1.imp (fun hab e => by rw [e] at hab; exact lt_irrefl _ hab)

theorem scanInv_black_white {graph : AlignmentGraph} {currentBand : Nat → Bool}
    {nodes : List Nat} {s0 s : ComponentState} {gray : List Nat} {x : Nat} {done : List Nat}
    (h : ScanInv graph currentBand nodes s0 gray x done s)
    (hdone : ∀ w ∈ graph.outNeighbors x, w ∈ done) :
    ∀ u v, BandEdge graph currentBand u v → s.index u ≠ none → u ∉ gray →
      s.index v ≠ none := by
  intro u v he hu hg
  by_cases e : u = x
  · rw [e] at he
    exact (h.processed v (hdone v he.2.2) he.2.1).1
  · exact h.inv.black_white u v he hu (fun hm => by
      rcases List.mem_cons.mp hm with h1 | h1
      · exact e h1
      · exact hg h1)

theorem finishNode_keep (graph : AlignmentGraph) (currentBand : Nat → Bool)
    (nodes : List Nat) (s0 s : ComponentState) (gray : List Nat) (x : Nat) (done : List Nat)
    (h : ScanInv graph currentBand nodes s0 gray x done s)
    (hdone : ∀ w ∈ graph.outNeighbors x, w ∈ done)
    (hroot : lowOf s x ≠ indexOf s x) :
    finishNode x s = some s ∧ ComponentInv graph currentBand nodes s gray
      ∧ ComponentPost graph currentBand s0 x s := by
  have hix : indexOf s x = s0.stackindex := indexOf_of_some h.index_x
  have hlt : lowOf s x < indexOf s x := by
    have := h.low_le
    omega
  obtain ⟨new, hst, hnew, hedges⟩ := h.stack_ext
  obtain ⟨hab, hbel, hdisj, hx0, hxn, hnd⟩ := scanInv_stack_facts h new hst
  obtain ⟨y0, hy0, hiy0, hr0⟩ := h.low_reach
  have hy0s : y0 ∈ s0.stack := by
    rw [hst] at hy0
    rcases List.mem_append.mp hy0 with h1 | h1
    · have := hab y0 h1; omega
    · rcases List.mem_cons.mp h1 with h2 | h2
      · rw [h2] at hiy0; omega
      · exact h2
  obtain ⟨z0, hz0, hiz0, hrz0⟩ := h.inv.stack_reach y0 hy0
  have hz0g : z0 ∈ gray := by
    rcases List.mem_cons.mp hz0 with h1 | h1
    · rw [h1] at hiz0; omega
    · exact h1
  refine ⟨?_, ?_, ?_⟩
  · unfold finishNode
    have : ¬ (s.lowLink x).getD 0 = (s.index x).getD 0 := hroot
    rw [if_neg this]
  · exact
      { visited_band := h.inv.visited_band, index_lt := h.inv.index_lt
        index_inj := h.inv.index_inj, count := h.inv.count
        result_count := h.inv.result_count, onStack_iff := h.inv.onStack_iff
        stack_sorted := h.inv.stack_sorted, stack_visited := h.inv.stack_visited
        visited_split := h.inv.visited_split, result_visited := h.inv.result_visited
        result_scc := h.inv.result_scc, result_nodup := h.inv.result_nodup
        result_disjoint := h.inv.result_disjoint, result_closed := h.inv.result_closed
        gray_stack := fun z hz => h.inv.gray_stack z (List.mem_cons_of_mem _ hz)
        stack_reach := fun y hy => by
          obtain ⟨z, hz, hiz, hrz⟩ := h.inv.stack_reach y hy
          rcases List.mem_cons.mp hz with h1 | h1
          · rw [h1] at hiz hrz
            exact ⟨z0, hz0g, by omega, hrz.trans (hr0.trans hrz0)⟩
          · exact ⟨z, h1, hiz, hrz⟩
        black_white := scanInv_black_white h hdone }
  · exact
      { index_ext := h.index_ext, index_new := h.index_new, lowLink_old := h.lowLink_old
        visited := by rw [h.index_x]; simp
        result_ext := h.result_ext
        stack_ext := ⟨new ++ [x], by rw [hst]; simp, fun u hu => by
            rcases List.mem_append.mp hu with h1 | h1
            · exact ⟨(hnew u h1).1, (hnew u h1).2.2⟩
            · rw [List.mem_singleton.mp h1]
              exact ⟨h.white_x, Relation.ReflTransGen.refl⟩,
          fun u hu w hw he => by
            rcases List.mem_append.mp hu with h1 | h1
            · exact hedges u h1 w (List.mem_cons_of_mem _ hw) he
            · rw [List.mem_singleton.mp h1] at he
              refine (h.processed w (hdone w he.2.2) he.2.1).2 ?_
              rw [hst]
              exact List.mem_append_right _ (List.mem_cons_of_mem _ hw),
          fun _ => ⟨hlt, y0, hy0s, hiy0, hr0⟩,
          fun e => by simp at e⟩ }
theorem getElem?_lt {α : Type} {l : List α} {i : Nat} {a : α} (h : l[i]? = some a) :
    i < l.length := by
  obtain ⟨h1, _⟩ := List.getElem?_eq_some.mp h
  exact h1

theorem finishNode_pop (graph : AlignmentGraph) (currentBand : Nat → Bool)
    (nodes : List Nat) (s0 s : ComponentState) (gray : List Nat) (x : Nat) (done : List Nat)
    (h : ScanInv graph currentBand nodes s0 gray x done s)
    (hdone : ∀ w ∈ graph.outNeighbors x, w ∈ done)
    (hg0 : ∀ z ∈ gray, z ∈ s0.stack)
    (hroot : lowOf s x = indexOf s x) :
    ∃ s1, finishNode x s = some s1 ∧ ComponentInv graph currentBand nodes s1 gray
      ∧ ComponentPost graph currentBand s0 x s1 := by
  have hix : indexOf s x = s0.stackindex := indexOf_of_some h.index_x
  obtain ⟨new, hst, hnew, hedges⟩ := h.stack_ext
  obtain ⟨hab, hbel, hdisj, hx0, hxn, hnd⟩ := scanInv_stack_facts h new hst
  obtain ⟨os, hpop, hos⟩ := popComponent_spec x s0.stack new s.onStack [] hxn
  have hxs : s.index x ≠ none := by rw [h.index_x]; simp
  have hmemC : ∀ v, v ∈ new ++ [x] → v ∈ s.stack := fun v hv => by
    rw [hst]
    rcases List.mem_append.mp hv with h1 | h1
    · exact List.mem_append_left _ h1
    · rw [List.mem_singleton.mp h1]
      exact List.mem_append_right _ (List.mem_cons_self _ _)
  have hC0 : ∀ v, v ∈ new ++ [x] → v ∉ s0.stack := fun v hv => by
    rcases List.mem_append.mp hv with h1 | h1
    · exact hdisj v h1
    · rw [List.mem_singleton.mp h1]; exact hx0
  have hsplit : ∀ v, v ∈ s.stack → v ∈ new ++ [x] ∨ v ∈ s0.stack := fun v hv => by
    rw [hst] at hv
    rcases List.mem_append.mp hv with h1 | h1
    · exact Or.inl (List.mem_append_left _ h1)
    · rcases List.mem_cons.mp h1 with h2 | h2
      · exact Or.inl (by rw [h2]; exact List.mem_append_right _ (List.mem_singleton_self _))
      · exact Or.inr h2
  have hCgray : ∀ v, v ∈ new ++ [x] → v ∈ x :: gray → v = x := fun v hv hg => by
    rcases List.mem_cons.mp hg with h1 | h1
    · exact h1
    · exact absurd (hg0 v h1) (hC0 v hv)
  have hbw := scanInv_black_white h hdone
  have hedgeC : ∀ u ∈ new ++ [x], ∀ v, BandEdge graph currentBand u v →
      v ∈ new ++ [x] ∨ ∃ c ∈ s.result, v ∈ c := by
    intro u hu v he
    have hvis : s.index v ≠ none := by
      by_cases e : u = x
      · rw [e] at he
        exact (h.processed v (hdone v he.2.2) he.2.1).1
      · refine h.inv.black_white u v he (h.inv.stack_visited u (hmemC u hu)) ?_
        intro hg
        exact e (hCgray u hu hg)
    rcases h.inv.visited_split v hvis with h1 | h1
    · rcases hsplit v h1 with h2 | h2
      · exact Or.inl h2
      · exfalso
        have hlow : lowOf s x ≤ indexOf s v := by
          rcases List.mem_append.mp hu with h3 | h3
          · exact hedges u h3 v (List.mem_cons_of_mem _ h2) he
          · rw [List.mem_singleton.mp h3] at he
            exact (h.processed v (hdone v he.2.2) he.2.1).2 h1
        have := hbel v h2
        omega
    · exact Or.inr h1
  have hclosed : ∀ u v, BandReach graph currentBand u v →
      (u ∈ new ++ [x] ∨ ∃ c ∈ s.result, u ∈ c) → (v ∈ new ++ [x] ∨ ∃ c ∈ s.result, v ∈ c) := by
    intro u v hr
    induction hr with
    | refl => exact id
    | tail _ hbc ih =>
      intro hu
      rcases ih hu with h1 | ⟨c, hc, h1⟩
      · exact hedgeC _ h1 _ hbc
      · obtain ⟨i, hi⟩ := List.getElem?_of_mem hc
        obtain ⟨j, d, _, hd, hvd⟩ := h.inv.result_closed i c hi _ h1 _ hbc
        exact Or.inr ⟨d, List.getElem?_mem hd, hvd⟩
  have hnotres : ∀ v, v ∈ s.stack → ¬ ∃ c ∈ s.result, v ∈ c := fun v hv ⟨c, hc, hvc⟩ =>
    (h.inv.result_visited c hc v hvc).2 hv
  have htox : ∀ y ∈ new ++ [x], BandReach graph currentBand y x := by
    intro y hy
    obtain ⟨z, hz, _, hrz⟩ := h.inv.stack_reach y (hmemC y hy)
    rcases hclosed y z hrz (Or.inl hy) with h1 | h1
    · rw [hCgray z h1 hz] at hrz; exact hrz
    · exact absurd h1 (hnotres z (h.inv.gray_stack z hz))
  have hfromx : ∀ y ∈ new ++ [x], BandReach graph currentBand x y := by
    intro y hy
    rcases List.mem_append.mp hy with h1 | h1
    · exact (hnew y h1).2.2
    · rw [List.mem_singleton.mp h1]
      exact Relation.ReflTransGen.refl
  have hscc : ∀ u ∈ new ++ [x], ∀ v,
      v ∈ new ++ [x] ↔ (BandReach graph currentBand u v ∧ BandReach graph currentBand v u) := by
    intro u hu v
    constructor
    · intro hv
      exact ⟨(htox u hu).trans (hfromx v hv), (htox v hv).trans (hfromx u hu)⟩
    · rintro ⟨huv, hvu⟩
      rcases hclosed u v huv (Or.inl hu) with h1 | ⟨c, hc, h1⟩
      · exact h1
      · exfalso
        have := (h.inv.result_scc c hc v h1 u).mpr ⟨hvu, huv⟩
        exact hnotres u (hmemC u hu) ⟨c, hc, this⟩
  refine ⟨{ s with stack := s0.stack, onStack := os, result := s.result ++ [new ++ [x]] },
    ?_, ?_, ?_⟩
  · unfold finishNode
    have e : (s.lowLink x).getD 0 = (s.index x).getD 0 := hroot
    rw [if_pos e, hst, hpop]
    simp
  · exact
      { visited_band := h.inv.visited_band, index_lt := h.inv.index_lt
        index_inj := h.inv.index_inj, count := h.inv.count
        result_count := by
          show (s.result ++ [new ++ [x]]).length + s0.stack.length ≤ s.stackindex
          have := h.inv.result_count
          rw [hst] at this
          simp only [List.length_append, List.length_cons, List.length_singleton,
            List.length_nil] at this ⊢
          omega
        onStack_iff := fun v => by
          show os v = true ↔ v ∈ s0.stack
          rw [hos, h.inv.onStack_iff]
          constructor
          · rintro ⟨h1, h2, h3⟩
            rcases hsplit v h1 with h4 | h4
            · rcases List.mem_append.mp h4 with h5 | h5
              · exact absurd h5 h2
              · exact absurd (List.mem_singleton.mp h5) h3
            · exact h4
          · intro hv
            refine ⟨by rw [hst]; exact List.mem_append_right _ (List.mem_cons_of_mem _ hv),
              fun h2 => hdisj v h2 hv, fun h3 => hx0 (h3 ▸ hv)⟩
        stack_sorted := by
          have hs := h.inv.stack_sorted
          rw [hst, List.pairwise_append, List.pairwise_cons] at hs
          exact hs.2.1.2
        stack_visited := fun v hv => h.inv.stack_visited v (by
          rw [hst]; exact List.mem_append_right _ (List.mem_cons_of_mem _ hv))
        visited_split := fun v hv => by
          rcases h.inv.visited_split v hv with h1 | ⟨c, hc, h1⟩
          · rcases hsplit v h1 with h2 | h2
            · exact Or.inr ⟨new ++ [x], List.mem_append_right _ (List.mem_singleton_self _), h2⟩
            · exact Or.inl h2
          · exact Or.inr ⟨c, List.mem_append_left _ hc, h1⟩
        result_visited := fun c hc v hv => by
          rcases List.mem_append.mp hc with h1 | h1
          · obtain ⟨h2, h3⟩ := h.inv.result_visited c h1 v hv
            exact ⟨h2, fun hm => h3 (by
              rw [hst]; exact List.mem_append_right _ (List.mem_cons_of_mem _ hm))⟩
          · rw [List.mem_singleton.mp h1] at hv
            exact ⟨h.inv.stack_visited v (hmemC v hv), hC0 v hv⟩
        result_scc := fun c hc u hu v => by
          rcases List.mem_append.mp hc with h1 | h1
          · exact h.inv.result_scc c h1 u hu v
          · rw [List.mem_singleton.mp h1] at hu ⊢
            exact hscc u hu v
        result_nodup := fun c hc => by
          rcases List.mem_append.mp hc with h1 | h1
          · exact h.inv.result_nodup c h1
          · rw [List.mem_singleton.mp h1]
            rw [List.nodup_append]
            refine ⟨hnd, List.nodup_singleton _, ?_⟩
            intro a ha hb
            rw [List.mem_singleton.mp hb] at ha
            exact hxn ha
        result_disjoint := by
          show (s.result ++ [new ++ [x]]).Pairwise _
          rw [List.pairwise_append]
          refine ⟨h.inv.result_disjoint, List.pairwise_singleton _ _, ?_⟩
          intro c hc d hd v hv hvd
          rw [List.mem_singleton.mp hd] at hvd
          exact hnotres v (hmemC v hvd) ⟨c, hc, hv⟩
        result_closed := fun i c hi u hu v he => by
          have hi1 : (s.result ++ [new ++ [x]])[i]? = some c := hi
          by_cases hlt : i < s.result.length
          · rw [List.getElem?_append_left hlt] at hi1
            obtain ⟨j, d, hj, hd, hvd⟩ := h.inv.result_closed i c hi1 u hu v he
            refine ⟨j, d, hj, ?_, hvd⟩
            show (s.result ++ [new ++ [x]])[j]? = some d
            rw [List.getElem?_append_left (getElem?_lt hd)]
            exact hd
          · have hge : s.result.length ≤ i := Nat.le_of_not_lt hlt
            rw [List.getElem?_append_right hge] at hi1
            have hcm := List.getElem?_mem hi1
            rw [List.mem_singleton.mp hcm] at hu
            rcases hedgeC u hu v he with h1 | ⟨d, hd, h1⟩
            · refine ⟨s.result.length, new ++ [x], hge, ?_, h1⟩
              show (s.result ++ [new ++ [x]])[s.result.length]? = some _
              rw [List.getElem?_append_right (le_refl _)]
              simp
            · obtain ⟨j, hj⟩ := List.getElem?_of_mem hd
              refine ⟨j, d, le_trans (le_of_lt (getElem?_lt hj)) hge, ?_, h1⟩
              show (s.result ++ [new ++ [x]])[j]? = some d
              rw [List.getElem?_append_left (getElem?_lt hj)]
              exact hj
        gray_stack := hg0
        stack_reach := fun y hy => by
          obtain ⟨z, hz, hiz, hrz⟩ := h.inv.stack_reach y (by
            rw [hst]; exact List.mem_append_right _ (List.mem_cons_of_mem _ hy))
          rcases List.mem_cons.mp hz with h1 | h1
          · rw [h1] at hiz
            have := hbel y hy
            omega
          · exact ⟨z, h1, hiz, hrz⟩
        black_white := hbw }
  · exact
      { index_ext := h.index_ext, index_new := h.index_new, lowLink_old := h.lowLink_old
        visited := hxs
        result_ext := by
          obtain ⟨rs, hrs⟩ := h.result_ext
          exact ⟨rs ++ [new ++ [x]], by
            show s.result ++ _ = _
            rw [hrs, List.append_assoc]⟩
        stack_ext := ⟨[], rfl, fun u hu => absurd hu (List.not_mem_nil _),
          fun u hu => absurd hu (List.not_mem_nil _), fun e => absurd rfl e,
          fun _ => hroot⟩ }

theorem scanRec_spec (graph : AlignmentGraph) (currentBand : Nat → Bool) (nodes : List Nat)
    (visit : Nat → ComponentState → Option ComponentState) (fuel : Nat)
    (hvisit : ∀ w s gray, ComponentInv graph currentBand nodes s gray →
      currentBand w = true → s.index w = none →
      (∀ a ∈ gray, BandReach graph currentBand a w) → whiteCount nodes s ≤ fuel →
      ∃ s1, visit w s = some s1 ∧ ComponentInv graph currentBand nodes s1 gray
        ∧ ComponentPost graph currentBand s w s1)
    (s0 : ComponentState) (gray : List Nat) (x : Nat)
    (hg0 : ∀ z ∈ gray, z ∈ s0.stack)
    (hgx : ∀ a ∈ gray, BandReach graph currentBand a x) :
    ∀ (rest done : List Nat) (s : ComponentState),
      (∀ w ∈ graph.outNeighbors x, w ∈ done ∨ w ∈ rest) →
      (∀ w ∈ rest, w ∈ graph.outNeighbors x) →
      ScanInv graph currentBand nodes s0 gray x done s → whiteCount nodes s ≤ fuel →
      ∃ s1, scanRec visit currentBand x rest s = some s1
        ∧ ComponentInv graph currentBand nodes s1 gray
        ∧ ComponentPost graph currentBand s0 x s1 := by
  intro rest
  induction rest with
  | nil =>
    intro done s hcover _ h _
    have hdone : ∀ w ∈ graph.outNeighbors x, w ∈ done := fun w hw => by
      rcases hcover w hw with h1 | h1
      · exact h1
      · exact absurd h1 (List.not_mem_nil _)
    rw [scanRec]
    by_cases hroot : lowOf s x = indexOf s x
    · exact finishNode_pop graph currentBand nodes s0 s gray x done h hdone hg0 hroot
    · exact ⟨s, finishNode_keep graph currentBand nodes s0 s gray x done h hdone hroot⟩
  | cons neighbor rest ih =>
    intro done s hcover hsub h hcount
    have hcover2 : ∀ w ∈ graph.outNeighbors x, w ∈ neighbor :: done ∨ w ∈ rest := fun w hw => by
      rcases hcover w hw with h1 | h1
      · exact Or.inl (List.mem_cons_of_mem _ h1)
      · rcases List.mem_cons.mp h1 with h2 | h2
        · exact Or.inl (h2 ▸ List.mem_cons_self _ _)
        · exact Or.inr h2
    have hsub2 : ∀ w ∈ rest, w ∈ graph.outNeighbors x := fun w hw =>
      hsub w (List.mem_cons_of_mem _ hw)
    have hout : neighbor ∈ graph.outNeighbors x := hsub neighbor (List.mem_cons_self _ _)
    rw [scanRec]
    by_cases hb : (!currentBand neighbor) = true
    · rw [if_pos hb]
      have hb2 : currentBand neighbor = false := by simpa using hb
      exact ih (neighbor :: done) s hcover2 hsub2
        (scanInv_done h neighbor (fun e => by rw [hb2] at e; cases e)) hcount
    · rw [if_neg hb]
      have hb2 : currentBand neighbor = true := by simpa using hb
      by_cases hi : (s.index neighbor).isNone = true
      · rw [if_pos hi]
        have hwhite : s.index neighbor = none := by simpa using hi
        have hbx : currentBand x = true :=
          h.inv.visited_band x (by rw [h.index_x]; simp)
        have hedge : BandReach graph currentBand x neighbor :=
          Relation.ReflTransGen.single ⟨hbx, hb2, hout⟩
        obtain ⟨s1, hv, hinv1, hpost1⟩ := hvisit neighbor s (x :: gray) h.inv hb2 hwhite
          (fun a ha => by
            rcases List.mem_cons.mp ha with h1 | h1
            · rw [h1]; exact hedge
            · exact (hgx a h1).trans hedge) hcount
        rw [hv]
        have hnext := scanInv_child h neighbor hout hb2 hwhite hinv1 hpost1
        have hcount2 : whiteCount nodes (lowerLink x (lowOf s1 neighbor) s1) ≤ fuel := by
          refine le_trans (whiteCount_le nodes s _ (fun v hv0 => ?_)) hcount
          show s1.index v ≠ none
          rw [hpost1.index_ext v _ (index_some_of_ne_none hv0)]
          simp
        exact ih (neighbor :: done) _ hcover2 hsub2 hnext hcount2
      · rw [if_neg hi]
        have hseen : (s.index neighbor).isNone = false := Bool.eq_false_iff.mpr hi
        have hnext := scanInv_seen h neighbor hout hb2 hseen
        have hcount2 : whiteCount nodes
            (if s.onStack neighbor then lowerLink x ((s.index neighbor).getD 0) s else s)
            ≤ fuel := by
          refine le_trans (whiteCount_le nodes s _ (fun v hv0 => ?_)) hcount
          by_cases e : s.onStack neighbor = true
          · rw [if_pos e]; exact hv0
          · rw [if_neg e]; exact hv0
        exact ih (neighbor :: done) _ hcover2 hsub2 hnext hcount2

theorem dfsRec_spec (graph : AlignmentGraph) (currentBand : Nat → Bool) (nodes : List Nat)
    (hlen : nodes.length < WordConfiguration.wordMod)
    (hall : ∀ v, currentBand v = true → v ∈ nodes) :
    ∀ (fuel w : Nat) (s : ComponentState) (gray : List Nat),
      ComponentInv graph currentBand nodes s gray →
      currentBand w = true → s.index w = none →
      (∀ a ∈ gray, BandReach graph currentBand a w) → whiteCount nodes s ≤ fuel →
      ∃ s1, dfsRec graph currentBand fuel w s = some s1
        ∧ ComponentInv graph currentBand nodes s1 gray
        ∧ ComponentPost graph currentBand s w s1 := by
  intro fuel
  induction fuel with
  | zero =>
    intro w s gray _ hb hw _ hcount
    have := whiteCount_pos nodes s w (hall w hb) hw
    omega
  | succ fuel ih =>
    intro w s gray hinv hb hw hg hcount
    rw [dfsRec]
    have henter := scanInv_enter graph currentBand nodes hlen s gray w hinv hb (hall w hb) hw
    have hlt := whiteCount_lt nodes s (enterNode w s) w (hall w hb) hw
      (by rw [henter.index_x]; simp)
      (fun v hv => by
        rw [henter.index_ext v _ (index_some_of_ne_none hv)]; simp)
    exact scanRec_spec graph currentBand nodes _ fuel ih s gray w hinv.gray_stack hg
      (graph.outNeighbors w) [] (enterNode w s) (fun v hv => Or.inr hv) (fun v hv => hv)
      henter (by omega)

theorem componentLoop_succ (graph : AlignmentGraph) (currentBand : Nat → Bool) (fuel : Nat)
    (top : ComponentAlgorithmCallStack) (callStack : List ComponentAlgorithmCallStack)
    (s : ComponentState) :
    componentLoop graph currentBand (fuel + 1) (top :: callStack) s
      = (componentStep graph currentBand top callStack s).bind
          (fun next => componentLoop graph currentBand fuel next.1 next.2) := rfl

theorem scanNeighbors_sim (graph : AlignmentGraph) (currentBand : Nat → Bool)
    (visit : Nat → ComponentState → Option ComponentState)
    (hvisit : ∀ x s s1, visit x s = some s1 → ∀ callStack, ∃ n, ∀ m,
      componentLoop graph currentBand (n + m)
        ({ nodeIndex := x, state := 0, neighborIterator := [] } :: callStack) s
        = componentLoop graph currentBand m callStack s1)
    (x : Nat) : ∀ (rest : List Nat) (s s1 : ComponentState),
      scanRec visit currentBand x rest s = some s1 → ∀ callStack, ∃ n, ∀ m,
        (scanNeighbors currentBand x rest s callStack).bind
          (fun next => componentLoop graph currentBand (n + m) next.1 next.2)
        = componentLoop graph currentBand m callStack s1 := by
  intro rest
  induction rest with
  | nil =>
    intro s s1 h callStack
    refine ⟨0, fun m => ?_⟩
    rw [scanRec] at h
    rw [scanNeighbors, h]
    simp
  | cons neighbor rest ih =>
    intro s s1 h callStack
    rw [scanRec] at h
    rw [scanNeighbors]
    by_cases hb : (!currentBand neighbor) = true
    · rw [if_pos hb] at h ⊢
      exact ih s s1 h callStack
    · rw [if_neg hb] at h ⊢
      by_cases hi : (s.index neighbor).isNone = true
      · rw [if_pos hi] at h ⊢
        cases hv : visit neighbor s with
        | none => rw [hv] at h; simp at h
        | some s2 =>
          rw [hv] at h
          change scanRec visit currentBand x rest _ = some s1 at h
          obtain ⟨n1, h1⟩ := hvisit neighbor s s2 hv
            ({ nodeIndex := x, state := 1, neighborIterator := neighbor :: rest } :: callStack)
          obtain ⟨n2, h2⟩ := ih _ s1 h callStack
          refine ⟨n1 + (n2 + 1), fun m => ?_⟩
          change componentLoop graph currentBand (n1 + (n2 + 1) + m) _ s = _
          have e : n1 + (n2 + 1) + m = n1 + ((n2 + m) + 1) := by omega
          rw [e, h1, componentLoop_succ]
          have hstep : componentStep graph currentBand
              { nodeIndex := x, state := 1, neighborIterator := neighbor :: rest } callStack s2
              = scanNeighbors currentBand x rest
                  (lowerLink x ((s2.lowLink neighbor).getD 0) s2) callStack := by
            simp [componentStep]
          rw [hstep]
          exact h2 m
      · rw [if_neg hi] at h ⊢
        exact ih _ s1 h callStack

theorem dfsRec_sim (graph : AlignmentGraph) (currentBand : Nat → Bool) :
    ∀ (fuel x : Nat) (s s1 : ComponentState), dfsRec graph currentBand fuel x s = some s1 →
      ∀ callStack, ∃ n, ∀ m,
        componentLoop graph currentBand (n + m)
          ({ nodeIndex := x, state := 0, neighborIterator := [] } :: callStack) s
          = componentLoop graph currentBand m callStack s1 := by
  intro fuel
  induction fuel with
  | zero => intro x s s1 h; simp [dfsRec] at h
  | succ fuel ih =>
    intro x s s1 h callStack
    rw [dfsRec] at h
    obtain ⟨n, hn⟩ := scanNeighbors_sim graph currentBand _ ih x _ _ s1 h callStack
    refine ⟨n + 1, fun m => ?_⟩
    have e : n + 1 + m = (n + m) + 1 := by omega
    rw [e, componentLoop_succ]
    have hstep : componentStep graph currentBand
        { nodeIndex := x, state := 0, neighborIterator := [] } callStack s
        = scanNeighbors currentBand x (graph.outNeighbors x) (enterNode x s) callStack := by
      simp [componentStep]
    rw [hstep]
    exact hn m

theorem componentLoop_mono (graph : AlignmentGraph) (currentBand : Nat → Bool) :
    ∀ (fuel : Nat) (callStack : List ComponentAlgorithmCallStack) (s s1 : ComponentState),
      componentLoop graph currentBand fuel callStack s = some s1 →
      ∀ k, componentLoop graph currentBand (fuel + k) callStack s = some s1 := by
  intro fuel
  induction fuel with
  | zero =>
    intro callStack s s1 h k
    cases callStack with
    | nil => simpa [componentLoop] using h
    | cons top rest => simp [componentLoop] at h
  | succ fuel ih =>
    intro callStack s s1 h k
    cases callStack with
    | nil => simpa [componentLoop] using h
    | cons top rest =>
      have e : fuel + 1 + k = (fuel + k) + 1 := by omega
      rw [e, componentLoop_succ]
      rw [componentLoop_succ] at h
      cases hs : componentStep graph currentBand top rest s with
      | none => rw [hs] at h; simp at h
      | some next =>
        rw [hs] at h
        exact ih _ _ _ h k

theorem rec_of_dfsRec (graph : AlignmentGraph) (currentBand : Nat → Bool)
    (fuel x : Nat) (s s1 : ComponentState) (h : dfsRec graph currentBand fuel x s = some s1) :
    ∃ n, ∀ k, getStronglyConnectedComponentsRec graph (n + k) x currentBand s = some s1 := by
  obtain ⟨n, hn⟩ := dfsRec_sim graph currentBand fuel x s s1 h []
  refine ⟨n, fun k => ?_⟩
  unfold getStronglyConnectedComponentsRec
  rw [hn k]
  cases k <;> rfl

theorem componentInv_init (graph : AlignmentGraph) (currentBand : Nat → Bool)
    (nodes : List Nat) :
    ComponentInv graph currentBand nodes
      { index := fun _ => none, lowLink := fun _ => none, stackindex := 0,
        onStack := fun _ => false, stack := [], result := [] } [] :=
  { visited_band := fun v hv => absurd rfl hv
    index_lt := fun v i hv => by cases hv
    index_inj := fun u v i hu => by cases hu
    count := by
      show 0 + whiteCount nodes _ ≤ nodes.length
      rw [Nat.zero_add]
      exact List.length_filter_le _ nodes
    result_count := le_refl _
    onStack_iff := fun v => by simp
    stack_sorted := List.Pairwise.nil
    stack_visited := fun v hv => absurd hv (List.not_mem_nil _)
    visited_split := fun v hv => absurd rfl hv
    result_visited := fun c hc => absurd hc (List.not_mem_nil _)
    result_scc := fun c hc => absurd hc (List.not_mem_nil _)
    result_nodup := fun c hc => absurd hc (List.not_mem_nil _)
    result_disjoint := List.Pairwise.nil
    result_closed := fun i c hi => by simp at hi
    gray_stack := fun z hz => absurd hz (List.not_mem_nil _)
    stack_reach := fun y hy => absurd hy (List.not_mem_nil _)
    black_white := fun u v _ hu => absurd rfl hu }

theorem componentsFrom_spec (graph : AlignmentGraph) (currentBand : Nat → Bool)
    (nodes : List Nat) (hlen : nodes.length < WordConfiguration.wordMod)
    (hall : ∀ v, currentBand v = true → v ∈ nodes) :
    ∀ (rest : List Nat) (s : ComponentState),
      ComponentInv graph currentBand nodes s [] → (∀ v ∈ rest, currentBand v = true) →
      ∃ N s1, (∀ k, componentsFrom graph (N + k) currentBand rest s = some s1)
        ∧ ComponentInv graph currentBand nodes s1 []
        ∧ (∀ v, s.index v ≠ none → s1.index v ≠ none)
        ∧ (∀ v ∈ rest, s1.index v ≠ none) := by
  intro rest
  induction rest with
  | nil =>
    intro s hinv _
    exact ⟨0, s, fun k => rfl, hinv, fun v hv => hv, fun v hv => absurd hv (List.not_mem_nil _)⟩
  | cons node rest ih =>
    intro s hinv hband
    have hrest : ∀ v ∈ rest, currentBand v = true := fun v hv =>
      hband v (List.mem_cons_of_mem _ hv)
    by_cases hi : (s.index node).isNone = true
    · have hwhite : s.index node = none := by simpa using hi
      obtain ⟨s1, hdfs, hinv1, hpost⟩ := dfsRec_spec graph currentBand nodes hlen hall
        (whiteCount nodes s) node s [] hinv (hband node (List.mem_cons_self _ _)) hwhite
        (fun a ha => absurd ha (List.not_mem_nil _)) (le_refl _)
      obtain ⟨n, hn⟩ := rec_of_dfsRec graph currentBand _ node s s1 hdfs
      obtain ⟨N, s2, hN, hinv2, hext, hvis⟩ := ih s1 hinv1 hrest
      have hext1 : ∀ v, s.index v ≠ none → s1.index v ≠ none := fun v hv => by
        rw [hpost.index_ext v _ (index_some_of_ne_none hv)]; simp
      refine ⟨n + N, s2, fun k => ?_, hinv2, fun v hv => hext v (hext1 v hv), ?_⟩
      · rw [componentsFrom, if_pos hi]
        have e1 : n + N + k = n + (N + k) := by omega
        rw [e1, hn (N + k)]
        have e2 : n + (N + k) = N + (n + k) := by omega
        rw [e2]
        exact hN (n + k)
      · intro v hv
        rcases List.mem_cons.mp hv with h1 | h1
        · rw [h1]; exact hext node hpost.visited
        · exact hvis v h1
    · obtain ⟨N, s2, hN, hinv2, hext, hvis⟩ := ih s hinv hrest
      refine ⟨N, s2, fun k => ?_, hinv2, hext, ?_⟩
      · rw [componentsFrom, if_neg hi]
        exact hN k
      · intro v hv
        rcases List.mem_cons.mp hv with h1 | h1
        · rw [h1]
          apply hext
          intro e
          rw [e] at hi
          exact hi rfl
        · exact hvis v h1

theorem components_spec (graph : AlignmentGraph) (nodes : List Nat)
    (currentBand : Nat → Bool) (hlen : nodes.length < WordConfiguration.wordMod)
    (hnodes : ∀ v, currentBand v = true ↔ v ∈ nodes) :
    ∃ N s, (∀ k, getStronglyConnectedComponents graph (N + k) nodes currentBand
        = some s.result)
      ∧ ComponentInv graph currentBand nodes s [] ∧ s.stack = []
      ∧ (∀ v ∈ nodes, ∃ c ∈ s.result, v ∈ c) := by
  obtain ⟨N, s, hN, hinv, _, hvis⟩ := componentsFrom_spec graph currentBand nodes hlen
    (fun v hv => (hnodes v).mp hv) nodes _ (componentInv_init graph currentBand nodes)
    (fun v hv => (hnodes v).mpr hv)
  have hstack : s.stack = [] := by
    rw [List.eq_nil_iff_forall_not_mem]
    intro y hy
    obtain ⟨z, hz, _⟩ := hinv.stack_reach y hy
    exact absurd hz (List.not_mem_nil _)
  refine ⟨N, s, fun k => ?_, hinv, hstack, fun v hv => ?_⟩
  · unfold getStronglyConnectedComponents
    rw [hN k]
    rfl
  · rcases hinv.visited_split v (hvis v hv) with h1 | h1
    · rw [hstack] at h1
      exact absurd h1 (List.not_mem_nil _)
    · exact h1

theorem component_index_unique {graph : AlignmentGraph} {currentBand : Nat → Bool}
    {nodes : List Nat} {s : ComponentState} {gray : List Nat}
    (hinv : ComponentInv graph currentBand nodes s gray) (v i j : Nat) (c d : List Nat)
    (hi : s.result[i]? = some c) (hj : s.result[j]? = some d) (hc : v ∈ c) (hd : v ∈ d) :
    i = j := by
  obtain ⟨hil, hic⟩ := List.getElem?_eq_some.mp hi
  obtain ⟨hjl, hjd⟩ := List.getElem?_eq_some.mp hj
  have hp := List.pairwise_iff_getElem.mp hinv.result_disjoint
  rcases Nat.lt_trichotomy i j with h | h | h
  · have := hp i j hil hjl h v (hic ▸ hc)
    exact absurd (hjd ▸ hd) this
  · exact h
  · have := hp j i hjl hil h v (hjd ▸ hd)
    exact absurd (hic ▸ hc) this

theorem componentOrderLoop_eq (size : Nat) (hsize : size < WordConfiguration.wordMod) :
    ∀ component, component < size →
      componentOrderLoop (component + 2) size component
        = some (List.range (component + 1)).reverse := by
  intro component
  induction component with
  | zero =>
    intro h
    have hw : WordConfiguration.wsub 0 1 = WordConfiguration.wordMod - 1 := by decide
    have hn : ¬ WordConfiguration.wordMod - 1 < size := by omega
    simp [componentOrderLoop, h, hw, hn]
    rfl
  | succ c ih =>
    intro h
    have hw : WordConfiguration.wsub (c + 1) 1 = c := by
      unfold WordConfiguration.wsub WordConfiguration.wordMod at *
      omega
    rw [componentOrderLoop, if_pos h, hw, ih (by omega)]
    rw [List.range_succ (n := c + 1)]
    simp

theorem componentOrder_eq (size : Nat) (hsize : size < WordConfiguration.wordMod) :
    componentOrder (size + 1) size = some (List.range size).reverse := by
  unfold componentOrder
  cases size with
  | zero =>
    have hw : WordConfiguration.wsub 0 1 = WordConfiguration.wordMod - 1 := by decide
    simp [componentOrderLoop, hw]
  | succ n =>
    have hw : WordConfiguration.wsub (n + 1) 1 = n := by
      unfold WordConfiguration.wsub WordConfiguration.wordMod at *
      omega
    rw [hw]
    exact componentOrderLoop_eq (n + 1) hsize n (by omega)

theorem pair_sublist_range (n i j : Nat) (hji : j < i) (hin : i < n) :
    [i, j].Sublist (List.range n).reverse := by
  induction n with
  | zero => omega
  | succ n ih =>
    rw [List.range_succ, List.reverse_append, List.reverse_singleton, List.singleton_append]
    by_cases e : i = n
    · rw [e]
      apply List.Sublist.cons₂
      rw [List.singleton_sublist, List.mem_reverse, List.mem_range]
      omega
    · exact List.Sublist.cons _ (ih (by omega))

theorem sccBand_iff : ∀ v, sccBand v = true ↔ v ∈ [0, 1, 2, 3, 4, 5, 6, 7] := by
  intro v
  unfold sccBand
  simp
  omega

/-- C22: for a band whose vertices are the entries of nodes (fewer than 2^64 of them),
getStronglyConnectedComponents returns, with enough fuel, a list of components in which
every vertex of nodes occurs in exactly one component, once, in which every member is a
vertex of nodes, and in which two vertices of nodes share a component exactly when each
reaches the other along edges with both endpoints in the band. -/
theorem getStronglyConnectedComponents_partition (graph : AlignmentGraph) (nodes : List Nat)
    (currentBand : Nat → Bool) (hlen : nodes.length < WordConfiguration.wordMod)
    (hnodes : ∀ v, currentBand v = true ↔ v ∈ nodes) :
    ∃ fuel result,
      (∀ k, getStronglyConnectedComponents graph (fuel + k) nodes currentBand = some result)
      ∧ (∀ v ∈ nodes, ∃ (i : Nat) (c : List Nat), result[i]? = some c ∧ v ∈ c
          ∧ c.count v = 1
          ∧ ∀ (j : Nat) (d : List Nat), result[j]? = some d → v ∈ d → j = i)
      ∧ (∀ c ∈ result, ∀ v ∈ c, v ∈ nodes)
      ∧ (∀ u ∈ nodes, ∀ v ∈ nodes, (∃ c ∈ result, u ∈ c ∧ v ∈ c)
          ↔ (BandReach graph currentBand u v ∧ BandReach graph currentBand v u)) := by
  obtain ⟨N, s, hN, hinv, _, hcover⟩ := components_spec graph nodes currentBand hlen hnodes
  refine ⟨N, s.result, hN, ?_, ?_, ?_⟩
  · intro v hv
    obtain ⟨c, hc, hvc⟩ := hcover v hv
    obtain ⟨i, hi⟩ := List.getElem?_of_mem hc
    refine ⟨i, c, hi, hvc, List.count_eq_one_of_mem (hinv.result_nodup c hc) hvc, ?_⟩
    intro j d hj hvd
    exact component_index_unique hinv v j i d c hj hi hvd hvc
  · intro c hc v hv
    exact (hnodes v).mp (hinv.visited_band v (hinv.result_visited c hc v hv).1)
  · intro u hu v _
    constructor
    · rintro ⟨c, hc, huc, hvc⟩
      exact (hinv.result_scc c hc u huc v).mp hvc
    · intro hr
      obtain ⟨c, hc, huc⟩ := hcover u hu
      exact ⟨c, hc, huc, (hinv.result_scc c hc u huc v).mpr hr⟩

/-- C22 (witness): getStronglyConnectedComponents_partition at the band of sccGraph. -/
theorem getStronglyConnectedComponents_partition_witness :
    [0, 1, 2, 3, 4, 5, 6, 7].length < WordConfiguration.wordMod
    ∧ (∀ v, sccBand v = true ↔ v ∈ [0, 1, 2, 3, 4, 5, 6, 7])
    ∧ ∃ fuel result,
      (∀ k, getStronglyConnectedComponents sccGraph (fuel + k) [0, 1, 2, 3, 4, 5, 6, 7] sccBand
        = some result)
      ∧ (∀ v ∈ [0, 1, 2, 3, 4, 5, 6, 7], ∃ (i : Nat) (c : List Nat), result[i]? = some c
          ∧ v ∈ c ∧ c.count v = 1
          ∧ ∀ (j : Nat) (d : List Nat), result[j]? = some d → v ∈ d → j = i)
      ∧ (∀ c ∈ result, ∀ v ∈ c, v ∈ [0, 1, 2, 3, 4, 5, 6, 7])
      ∧ (∀ u ∈ [0, 1, 2, 3, 4, 5, 6, 7], ∀ v ∈ [0, 1, 2, 3, 4, 5, 6, 7],
          (∃ c ∈ result, u ∈ c ∧ v ∈ c)
          ↔ (BandReach sccGraph sccBand u v ∧ BandReach sccGraph sccBand v u)) :=
  ⟨by decide, sccBand_iff,
    getStronglyConnectedComponents_partition sccGraph [0, 1, 2, 3, 4, 5, 6, 7] sccBand
      (by decide) sccBand_iff⟩

/-- C23: for a band whose vertices are the entries of nodes (fewer than 2^64 of them), the
list that getStronglyConnectedComponents returns is ordered against the edges: when an
edge of the band goes from u to v, each of the two vertices lies in a component of the
list, at one index only, and if the two components differ the component
of v has the smaller index; and in the order in which the loop of calculateSlice walks
through the components, from the last index down to 0, the component of u comes before
the component of v. -/
theorem getStronglyConnectedComponents_order (graph : AlignmentGraph) (nodes : List Nat)
    (currentBand : Nat → Bool) (hlen : nodes.length < WordConfiguration.wordMod)
    (hnodes : ∀ v, currentBand v = true ↔ v ∈ nodes) :
    ∃ fuel result order,
      (∀ k, getStronglyConnectedComponents graph (fuel + k) nodes currentBand = some result)
      ∧ componentOrder (result.length + 1) result.length = some order
      ∧ ∀ u v, BandEdge graph currentBand u v →
          ∃ (i j : Nat) (cu cv : List Nat), result[i]? = some cu ∧ u ∈ cu
            ∧ result[j]? = some cv ∧ v ∈ cv
            ∧ (∀ (k : Nat) (c : List Nat), result[k]? = some c → u ∈ c → k = i)
            ∧ (∀ (k : Nat) (c : List Nat), result[k]? = some c → v ∈ c → k = j)
            ∧ (i ≠ j → j < i ∧ [i, j].Sublist order) := by
  obtain ⟨N, s, hN, hinv, hstack, hcover⟩ := components_spec graph nodes currentBand hlen hnodes
  have hsize : s.result.length < WordConfiguration.wordMod := by
    have h1 := hinv.result_count
    have h2 := hinv.count
    omega
  refine ⟨N, s.result, (List.range s.result.length).reverse, hN,
    componentOrder_eq _ hsize, ?_⟩
  intro u v he
  obtain ⟨cu, hcu, hu⟩ := hcover u ((hnodes u).mp he.1)
  obtain ⟨cv, hcv, hv⟩ := hcover v ((hnodes v).mp he.2.1)
  obtain ⟨i, hi⟩ := List.getElem?_of_mem hcu
  obtain ⟨j, hj⟩ := List.getElem?_of_mem hcv
  refine ⟨i, j, cu, cv, hi, hu, hj, hv,
    fun k c hk hc => component_index_unique hinv u k i c cu hk hi hc hu,
    fun k c hk hc => component_index_unique hinv v k j c cv hk hj hc hv, ?_⟩
  intro hne
  obtain ⟨j1, d, hj1, hd, hvd⟩ := hinv.result_closed i cu hi u hu v he
  have e := component_index_unique hinv v j j1 cv d hj hd hv hvd
  have hji : j < i := by omega
  exact ⟨hji, pair_sublist_range _ i j hji (getElem?_lt hi)⟩

/-- C23 (witness): getStronglyConnectedComponents_order at the band of sccGraph. -/
theorem getStronglyConnectedComponents_order_witness :
    [0, 1, 2, 3, 4, 5, 6, 7].length < WordConfiguration.wordMod
    ∧ (∀ v, sccBand v = true ↔ v ∈ [0, 1, 2, 3, 4, 5, 6, 7])
    ∧ ∃ fuel result order,
      (∀ k, getStronglyConnectedComponents sccGraph (fuel + k) [0, 1, 2, 3, 4, 5, 6, 7] sccBand
        = some result)
      ∧ componentOrder (result.length + 1) result.length = some order
      ∧ ∀ u v, BandEdge sccGraph sccBand u v →
          ∃ (i j : Nat) (cu cv : List Nat), result[i]? = some cu ∧ u ∈ cu
            ∧ result[j]? = some cv ∧ v ∈ cv
            ∧ (∀ (k : Nat) (c : List Nat), result[k]? = some c → u ∈ c → k = i)
            ∧ (∀ (k : Nat) (c : List Nat), result[k]? = some c → v ∈ c → k = j)
            ∧ (i ≠ j → j < i ∧ [i, j].Sublist order) :=
  ⟨by decide, sccBand_iff,
    getStronglyConnectedComponents_order sccGraph [0, 1, 2, 3, 4, 5, 6, 7] sccBand
      (by decide) sccBand_iff⟩

theorem sccGraph_components :
    getStronglyConnectedComponents sccGraph 40 [0, 1, 2, 3, 4, 5, 6, 7] sccBand
      = some [[5, 3], [7], [6, 4], [2, 1, 0]] := by
  decide

end StronglyConnected

/-! ## The masks of differenceMasks cell by cell -/

theorem testBit_maskOfRows (p : Nat → Bool) (n i : Nat) :
    (maskOfRows p n).testBit i = (decide (i < n) && p i) := by
  unfold maskOfRows
  induction n with
  | zero => simp
  | succ n ih =>
    rw [List.range_succ, List.foldl_append, List.foldl_cons, List.foldl_nil]
    by_cases hp : p n = true
    · rw [if_pos hp, Nat.testBit_or, ih, Nat.testBit_two_pow]
      by_cases e : n = i
      · subst e; simp [hp]
      · have : decide (n = i) = false := by simpa using e
        rw [this, Bool.or_false]
        by_cases h1 : i < n
        · have h2 : i < n + 1 := by omega
          simp [h1, h2]
        · have h2 : ¬ i < n + 1 := by omega
          simp [h1, h2]
    · rw [if_neg hp, ih]
      by_cases e : n = i
      · subst e
        have : p n = false := by simpa using hp
        simp [this]
      · by_cases h1 : i < n
        · have h2 : i < n + 1 := by omega
          simp [h1, h2]
        · have h2 : ¬ i < n + 1 := by omega
          simp [h1, h2]

theorem filter_range_eq_bitCount (x n : Nat) :
    ((List.range n).filter (fun i => x.testBit i)).length = bitCount x n := by
  induction n with
  | zero => rfl
  | succ n ih =>
    rw [List.range_succ, List.filter_append, List.length_append, ih, bitCount]
    by_cases h : x.testBit n = true
    · simp [h]
    · have : x.testBit n = false := by simpa using h
      simp [this]

theorem rowValue_sub (lVP lVN rVP rVN : Nat) (d : Int) (r : Nat) :
    rowValue lVP lVN 0 r - rowValue rVP rVN d r = rowDiff lVP lVN rVP rVN d (r + 1) := by
  unfold rowValue rowDiff
  rw [filter_range_eq_bitCount, filter_range_eq_bitCount, filter_range_eq_bitCount,
    filter_range_eq_bitCount]
  omega

/-- C31: differenceMasks equals its cell-by-cell definition: for 64-bit words with
leftVP & leftVN = 0 and rightVP & rightVN = 0 and every scoreDifference >= 0 the pair of
masks it returns is the pair of differenceMasksCellByCell, in which row r is in the first
mask exactly when the left value of the row is below the right one and in the second
exactly when the right value is below the left one; the two masks have no common bit. -/
theorem differenceMasks_cell_by_cell (leftVP leftVN rightVP rightVN : Nat)
    (h1 : leftVP < wordMod) (h2 : leftVN < wordMod) (h3 : rightVP < wordMod)
    (h4 : rightVN < wordMod) (hl : leftVP &&& leftVN = 0) (hr : rightVP &&& rightVN = 0)
    (scoreDifference : Int) (hd : 0 ≤ scoreDifference) :
    differenceMasks leftVP leftVN rightVP rightVN scoreDifference
      = differenceMasksCellByCell leftVP leftVN rightVP rightVN scoreDifference
    ∧ (differenceMasks leftVP leftVN rightVP rightVN scoreDifference).1
        &&& (differenceMasks leftVP leftVN rightVP rightVN scoreDifference).2 = 0 := by
  have key : ∀ i,
      (differenceMasks leftVP leftVN rightVP rightVN scoreDifference).1.testBit i
        = (differenceMasksCellByCell leftVP leftVN rightVP rightVN scoreDifference).1.testBit i
      ∧ (differenceMasks leftVP leftVN rightVP rightVN scoreDifference).2.testBit i
        = (differenceMasksCellByCell leftVP leftVN rightVP rightVN scoreDifference).2.testBit i
      ∧ ((differenceMasks leftVP leftVN rightVP rightVN scoreDifference).1.testBit i
        && (differenceMasks leftVP leftVN rightVP rightVN scoreDifference).2.testBit i)
          = false := by
    intro i
    obtain ⟨a, b⟩ := differenceMasks_spec leftVP leftVN rightVP rightVN h1 h2 h3 h4 hl hr
      scoreDifference hd i
    have e := rowValue_sub leftVP leftVN rightVP rightVN scoreDifference i
    unfold differenceMasksCellByCell
    simp only [testBit_maskOfRows]
    rw [a, b]
    refine ⟨?_, ?_, ?_⟩
    · rw [Bool.eq_iff_iff]
      simp only [decide_eq_true_eq, Bool.and_eq_true]
      constructor
      · rintro ⟨x, y⟩; exact ⟨x, by omega⟩
      · rintro ⟨x, y⟩; exact ⟨x, by omega⟩
    · rw [Bool.eq_iff_iff]
      simp only [decide_eq_true_eq, Bool.and_eq_true]
      constructor
      · rintro ⟨x, y⟩; exact ⟨x, by omega⟩
      · rintro ⟨x, y⟩; exact ⟨x, by omega⟩
    · rw [Bool.and_eq_false_iff]
      by_cases hneg : rowDiff leftVP leftVN rightVP rightVN scoreDifference (i + 1) < 0
      · right
        simp only [decide_eq_false_iff_not]
        rintro ⟨_, y⟩; omega
      · left
        simp only [decide_eq_false_iff_not]
        rintro ⟨_, y⟩; omega
  refine ⟨Prod.ext ?_ ?_, ?_⟩
  · exact Nat.eq_of_testBit_eq (fun i => (key i).1)
  · exact Nat.eq_of_testBit_eq (fun i => (key i).2.1)
  · apply Nat.eq_of_testBit_eq
    intro i
    rw [Nat.testBit_and, (key i).2.2, Nat.zero_testBit]

set_option maxRecDepth 100000 in
/-- C31 (witness): differenceMasks_cell_by_cell for two columns that cross each other. -/
theorem differenceMasks_cell_by_cell_witness :
    (0b0110 &&& 0b1001 = 0 ∧ 0b1000 &&& 0b0011 = 0)
    ∧ differenceMasks 0b0110 0b1001 0b1000 0b0011 1
      = differenceMasksCellByCell 0b0110 0b1001 0b1000 0b0011 1
    ∧ (differenceMasks 0b0110 0b1001 0b1000 0b0011 1).1
        &&& (differenceMasks 0b0110 0b1001 0b1000 0b0011 1).2 = 0 :=
  ⟨by decide, differenceMasks_cell_by_cell 0b0110 0b1001 0b1000 0b0011 (by decide) (by decide)
    (by decide) (by decide) (by decide) (by decide) 1 (by decide)⟩

/-! ## Complement, sampling frequency, trimming, first bandwidth -/

theorem singleComplement_match_all :
    ∀ a ∈ [true, false], ∀ r ∈ iupacReadCharacters, ∀ g ∈ graphCharacters,
      (a = true → r ≠ 'H' ∧ r ≠ 'h') →
      (singleComplement a r).bind (fun cr =>
        (singleComplement a g).bind (fun cg => characterMatch cr cg)) = characterMatch r g
      ∧ (characterMatch r g).isSome = true := by
  decide

theorem singleComplement_H_asserts :
    singleComplement true 'H' = none ∧ singleComplement true 'h' = none := by
  decide

/-- C37: the reverse-complement table and the match predicate. For every read code r
among A, C, G, T, N, R, Y, K, M, S, W, B, D, H, V in upper or lower case and every graph
base g among A, C, G, T: in a build with assertions ReverseComplement of the one-letter
string H (or h) returns no character, because the case of H has no break and runs into
assert(false); in every other case, the build without assertions for H included, where
the case of H hands out D, the complements c(r) and c(g) exist and
characterMatch(c(r), c(g)) = characterMatch(r, g). -/
theorem reverseComplement_match_unless_H (assertsEnabled : Bool) (r g : Char)
    (hr : r ∈ iupacReadCharacters) (hg : g ∈ graphCharacters) :
    (assertsEnabled = true ∧ (r = 'H' ∨ r = 'h') → singleComplement assertsEnabled r = none)
      ∧ (¬ (assertsEnabled = true ∧ (r = 'H' ∨ r = 'h')) →
        ∃ cr cg, singleComplement assertsEnabled r = some cr
          ∧ singleComplement assertsEnabled g = some cg
          ∧ characterMatch cr cg = characterMatch r g
          ∧ (characterMatch r g).isSome = true) := by
  constructor
  · rintro ⟨ha, hH⟩
    rw [ha]
    rcases hH with e | e <;> rw [e]
    · exact singleComplement_H_asserts.1
    · exact singleComplement_H_asserts.2
  · intro hnot
    have hH : assertsEnabled = true → r ≠ 'H' ∧ r ≠ 'h' := by
      intro ha
      exact ⟨fun e => hnot ⟨ha, Or.inl e⟩, fun e => hnot ⟨ha, Or.inr e⟩⟩
    have ha : assertsEnabled ∈ [true, false] := by cases assertsEnabled <;> simp
    obtain ⟨h1, h2⟩ := singleComplement_match_all assertsEnabled ha r hr g hg hH
    cases hcr : singleComplement assertsEnabled r with
    | none =>
      rw [hcr] at h1
      rw [← h1] at h2
      simp at h2
    | some cr =>
      cases hcg : singleComplement assertsEnabled g with
      | none =>
        rw [hcr, hcg] at h1
        rw [← h1] at h2
        simp at h2
      | some cg =>
        rw [hcr, hcg] at h1
        exact ⟨cr, cg, rfl, rfl, h1, h2⟩

/-- C37 (witness): reverseComplement_match_unless_H for the read code H and the graph base
C: with assertions the complement of H does not exist, without assertions it is D and the
match is kept. -/
theorem reverseComplement_match_unless_H_witness :
    singleComplement true 'H' = none
      ∧ ∃ cr cg, singleComplement false 'H' = some cr ∧ singleComplement false 'C' = some cg
        ∧ characterMatch cr cg = characterMatch 'H' 'C'
        ∧ (characterMatch 'H' 'C').isSome = true :=
  ⟨(reverseComplement_match_unless_H true 'H' 'C' (by decide) (by decide)).1
      ⟨rfl, Or.inl rfl⟩,
    (reverseComplement_match_unless_H false 'H' 'C' (by decide) (by decide)).2 (by decide)⟩

/-- C33: getSamplingFrequency is the integer square root of the number of blocks, and for
a padded read of 64 to 255 base pairs (one to three blocks) it is 1, so the assertion
samplingFrequency > 1 of getTraceFromTable does not hold for such a read. -/
theorem getSamplingFrequency_short_read (n : Nat) (h1 : 64 ≤ n) (h2 : n < 256) :
    getSamplingFrequency n * getSamplingFrequency n ≤ n / 64
    ∧ n / 64 < (getSamplingFrequency n + 1) * (getSamplingFrequency n + 1)
    ∧ getSamplingFrequency n = 1 ∧ ¬ (1 < getSamplingFrequency n) := by
  have hs : getSamplingFrequency n = Nat.sqrt (n / 64) := rfl
  have hlo := Nat.sqrt_le (n / 64)
  have hhi := Nat.lt_succ_sqrt (n / 64)
  have hone : Nat.sqrt (n / 64) = 1 :=
    (Nat.eq_sqrt.mpr ⟨by omega, by omega⟩).symm
  rw [hs]
  refine ⟨hlo, hhi, hone, ?_⟩
  rw [hone]
  exact lt_irrefl 1

/-- C33 (witness): getSamplingFrequency_short_read for a read of one block, as the
padding makes it from a read of 1 to 64 base pairs. -/
theorem getSamplingFrequency_short_read_witness :
    (padSequence ['A', 'C']).length = 64 ∧ getSamplingFrequency 64 = 1
    ∧ ¬ (1 < getSamplingFrequency 64) :=
  ⟨by decide, (getSamplingFrequency_short_read 64 (by decide) (by decide)).2.2⟩

/-- C35: for parameters that main accepts with rampBandwidth = 0 (no ramp), the first
block of getSqrtSlices gets the bandwidth rampBandwidth = 0, not initialBandwidth, and
calculateSliceAlternate then makes one bucket only, so calculables[1] does not exist. -/
theorem getSqrtSlices_first_bandwidth (params : AlignerParams) (initialFullBand : Bool)
    (h : (mainChecks params initialFullBand).ending = MainEnd.alignReadsCalled)
    (hramp : params.rampBandwidth = 0) :
    2 ≤ params.initialBandwidth ∧ firstBandwidth params = 0
    ∧ alternateBuckets (firstBandwidth params) = 1 := by
  have h2 := ((main_proceeds_iff params initialFullBand).1.mp h).2.2.1
  have hb : firstBandwidth params = 0 := by
    unfold firstBandwidth sliceBandwidth
    rw [if_pos (le_refl 0)]
    exact hramp
  refine ⟨h2, hb, ?_⟩
  rw [hb]
  decide

/-- C35 (witness): getSqrtSlices_first_bandwidth for the command line -t 1 -b 2 -i. -/
theorem getSqrtSlices_first_bandwidth_witness :
    (mainChecks { initialParams with numThreads := 1, initialBandwidth := 2 } true).ending
      = MainEnd.alignReadsCalled
    ∧ firstBandwidth { initialParams with numThreads := 1, initialBandwidth := 2 } = 0
    ∧ alternateBuckets
        (firstBandwidth { initialParams with numThreads := 1, initialBandwidth := 2 }) = 1 :=
  ⟨by decide, (getSqrtSlices_first_bandwidth
    { initialParams with numThreads := 1, initialBandwidth := 2 } true (by decide)
    (by decide)).2⟩

theorem popWronglyAligned_spec {κ : Type} (FalseFromCorrect : κ → Bool) :
    ∀ (correctness : List κ) (bandwidths : List Int),
      correctness.length = bandwidths.length → correctness ≠ [] →
      ∃ kept keptBandwidths, popWronglyAligned FalseFromCorrect correctness bandwidths
          = some (kept, keptBandwidths)
        ∧ kept.length = keptBandwidths.length
        ∧ (∃ dropped, correctness = dropped ++ kept)
        ∧ (∃ dropped, bandwidths = dropped ++ keptBandwidths) := by
  intro correctness
  induction correctness with
  | nil => intro _ _ h; exact absurd rfl h
  | cons state rest ih =>
    intro bandwidths hlen _
    cases bandwidths with
    | nil => simp at hlen
    | cons b bs =>
      have hlen2 : rest.length = bs.length := by simpa using hlen
      cases rest with
      | nil =>
        refine ⟨[], bs, ?_, ?_, ⟨[state], rfl⟩, ⟨[b], rfl⟩⟩
        · simp [popWronglyAligned]
        · simpa using hlen2
      | cons next more =>
        by_cases hf : FalseFromCorrect next = true
        · refine ⟨next :: more, bs, ?_, hlen2, ⟨[state], rfl⟩, ⟨[b], rfl⟩⟩
          simp [popWronglyAligned, hf]
        · obtain ⟨kept, keptB, h1, h2, ⟨d1, h3⟩, ⟨d2, h4⟩⟩ :=
            ih bs hlen2 (List.cons_ne_nil _ _)
          refine ⟨kept, keptB, ?_, h2, ⟨state :: d1, ?_⟩, ⟨b :: d2, ?_⟩⟩
          · rw [popWronglyAligned]
            simp only [hf]
            exact h1
          · rw [h3]; rfl
          · rw [h4]; rfl

theorem popSlicesAbove_spec {κ : Type} (bound : Int) :
    ∀ slices : List (DPSlice κ), ∃ dropped, slices = dropped ++ popSlicesAbove bound slices := by
  intro slices
  induction slices with
  | nil => exact ⟨[], rfl⟩
  | cons slice rest ih =>
    cases rest with
    | nil => exact ⟨[], rfl⟩
    | cons next more =>
      have hunf : popSlicesAbove bound (slice :: next :: more)
          = if slice.j ≥ bound then popSlicesAbove bound (next :: more)
            else slice :: next :: more := rfl
      rw [hunf]
      by_cases h : slice.j ≥ bound
      · rw [if_pos h]
        obtain ⟨d, hd⟩ := ih
        exact ⟨slice :: d, by rw [List.cons_append, ← hd]⟩
      · rw [if_neg h]
        exact ⟨[], rfl⟩

/-- C34: removeWronglyAlignedEnd on a table with |correctness| = |bandwidthPerSlice|:
on the table without blocks it reads correctness.back() of an empty vector (none); on
every other table it returns, leaves the two vectors of the same length, keeps of each of
the three vectors a front part, and leaves slices empty whenever correctness ends up
empty. -/
theorem removeWronglyAlignedEnd_total_unless_empty {κ β α : Type}
    (calls : FullStartCalls κ β α) (table : DPTable κ β)
    (hlen : table.correctness.length = table.bandwidthPerSlice.length) :
    (table.correctness = [] → removeWronglyAlignedEnd calls table = none)
    ∧ (table.correctness ≠ [] → ∃ trimmed, removeWronglyAlignedEnd calls table = some trimmed
        ∧ trimmed.correctness.length = trimmed.bandwidthPerSlice.length
        ∧ (∃ dropped, table.correctness = trimmed.correctness ++ dropped)
        ∧ (∃ dropped, table.bandwidthPerSlice = trimmed.bandwidthPerSlice ++ dropped)
        ∧ (∃ dropped, table.slices = trimmed.slices ++ dropped)
        ∧ (trimmed.correctness = [] → trimmed.slices = [])) := by
  constructor
  · intro h
    unfold removeWronglyAlignedEnd
    rw [h]
    rfl
  · intro hne
    have hrev : table.correctness.reverse ≠ [] := by
      intro e; apply hne; simpa using e
    have hlenr : table.correctness.reverse.length = table.bandwidthPerSlice.reverse.length := by
      simp [hlen]
    have hpop : ∃ kept keptB,
        (match table.correctness.reverse with
          | [] => none
          | last :: earlier =>
            (if calls.CurrentlyCorrect last = true then
              some (last :: earlier, table.bandwidthPerSlice.reverse)
            else popWronglyAligned calls.FalseFromCorrect (last :: earlier)
              table.bandwidthPerSlice.reverse))
          = some (kept, keptB)
        ∧ kept.length = keptB.length
        ∧ (∃ dropped, table.correctness.reverse = dropped ++ kept)
        ∧ (∃ dropped, table.bandwidthPerSlice.reverse = dropped ++ keptB) := by
      cases hc : table.correctness.reverse with
      | nil => exact absurd hc hrev
      | cons last earlier =>
        rw [hc] at hlenr
        by_cases hcc : calls.CurrentlyCorrect last = true
        · exact ⟨last :: earlier, table.bandwidthPerSlice.reverse, by simp [hcc], hlenr,
            ⟨[], rfl⟩, ⟨[], rfl⟩⟩
        · obtain ⟨kept, keptB, h1, h2, h3, h4⟩ := popWronglyAligned_spec calls.FalseFromCorrect
            (last :: earlier) table.bandwidthPerSlice.reverse hlenr (List.cons_ne_nil _ _)
          exact ⟨kept, keptB, by simp [hcc, h1], h2, h3, h4⟩
    obtain ⟨kept, keptB, h1, h2, ⟨d1, h3⟩, ⟨d2, h4⟩⟩ := hpop
    obtain ⟨d3, h5⟩ := popSlicesAbove_spec ((kept.length : Int) * (WordSize : Int))
      (if kept.length = 0 then [] else table.slices).reverse
    refine ⟨{ table with
        correctness := kept.reverse, bandwidthPerSlice := keptB.reverse,
        slices := (popSlicesAbove ((kept.length : Int) * (WordSize : Int))
          (if kept.length = 0 then [] else table.slices).reverse).reverse }, ?_, ?_, ?_, ?_, ?_, ?_⟩
    · unfold removeWronglyAlignedEnd
      cases hc : table.correctness.reverse with
      | nil => exact absurd hc hrev
      | cons last earlier =>
        rw [hc] at h1
        simp only at h1 ⊢
        rw [h1]
    · simp [h2]
    · refine ⟨d1.reverse, ?_⟩
      have := congrArg List.reverse h3
      simpa using this
    · refine ⟨d2.reverse, ?_⟩
      have := congrArg List.reverse h4
      simpa using this
    · by_cases hk : kept.length = 0
      · rw [if_pos hk] at h5 ⊢
        refine ⟨table.slices, ?_⟩
        simp [popSlicesAbove]
      · rw [if_neg hk] at h5 ⊢
        refine ⟨d3.reverse, ?_⟩
        have := congrArg List.reverse h5
        simpa using this
    · intro hempty
      have hk : kept.length = 0 := by
        have : kept.reverse = [] := hempty
        simpa using this
      show (popSlicesAbove _ (if kept.length = 0 then [] else table.slices).reverse).reverse = []
      rw [if_pos hk]
      rfl

/-- C34 (witness): removeWronglyAlignedEnd_total_unless_empty on the table without
blocks, where the function does not return, for an estimator that accepts nothing. -/
theorem removeWronglyAlignedEnd_total_unless_empty_witness :
    removeWronglyAlignedEnd
      ({ CurrentlyCorrect := fun _ => false, FalseFromCorrect := fun _ => false
         getSqrtSlices := fun _ _ _ _ => DPTable.default
         traceFromSlices := fun _ _ => (0, [])
         traceToAlignment := fun _ _ _ _ _ =>
           { alignment := (), alignmentFailed := false, cellsProcessed := 0
             elapsedMilliseconds := 0, alignmentStart := none, alignmentEnd := none }
         emptyRecord := () } : FullStartCalls Unit Unit Unit)
      (DPTable.default : DPTable Unit Unit) = none :=
  (removeWronglyAlignedEnd_total_unless_empty _ (DPTable.default : DPTable Unit Unit) rfl).1 rfl


/-! ## The equality vector encodes characterMatch -/

section EqVectorProofs
open GraphAligner

theorem characterMatch_defined : ∀ c ∈ iupacReadCharacters, ∀ g ∈ graphCharacters,
    (characterMatch c g).isSome = true := by decide

theorem characterMatch_some_base : ∀ c ∈ iupacReadCharacters,
    (matchBit c 'A' || matchBit c 'C' || matchBit c 'T' || matchBit c 'G') = true := by
  decide

theorem orBit_step (x i k : Nat) (hi : i < 64) (b : Bool) (rest : Bool)
    (hx : x.testBit k = (decide (k < i) && rest)) (hb : k = i → rest = b) :
    (if b then x ||| wshl 1 (i : Int) else x).testBit k = (decide (k < i + 1) && rest) := by
  have hw : wshl 1 (i : Int) = 2 ^ i := wshl_one_nat i hi
  by_cases hk : k = i
  · subst hk
    have hr := hb rfl
    have h0 : x.testBit k = false := by rw [hx]; simp
    cases b
    · simp [h0, hr]
    · simp [hw, Nat.testBit_or, Nat.testBit_two_pow, hr]
  · have h2 : (2 ^ i).testBit k = false := by
      rw [Nat.testBit_two_pow]; simpa using Ne.symm hk
    have h3 : decide (k < i + 1) = decide (k < i) := by
      by_cases h : k < i
      · have : k < i + 1 := by omega
        simp [h, this]
      · have : ¬ k < i + 1 := by omega
        simp [h, this]
    cases b
    · simp [hx, h3]
    · simp [hw, Nat.testBit_or, h2, hx, h3]

theorem eqVectorLoop_spec (sequence : List Char) (j : Nat) (hlen : j + 64 ≤ sequence.length)
    (hchars : ∀ i < 64, sequence.getD (j + i) 'N' ∈ iupacReadCharacters) :
    ∀ (rounds i : Nat) (v : EqVector), rounds + i = 64 → EqVectorInv sequence j i v →
      ∃ w, eqVectorLoop sequence j rounds i v = some w ∧ EqVectorInv sequence j 64 w := by
  intro rounds
  induction rounds with
  | zero =>
    intro i v hi hinv
    have e : i = 64 := by omega
    subst e
    exact ⟨v, rfl, hinv⟩
  | succ rounds ih =>
    intro i v hi hinv
    have hi64 : i < 64 := by omega
    have hin : j + i < sequence.length := by omega
    have hget : sequence.get? (j + i) = some (sequence.getD (j + i) 'N') := by
      rw [List.getD_eq_getElem?_getD, List.get?_eq_getElem?, List.getElem?_eq_getElem hin]
      rfl
    have hc := hchars i hi64
    generalize sequence.getD (j + i) 'N' = c at hget hc
    have dA := characterMatch_defined c hc 'A' (by decide)
    have dC := characterMatch_defined c hc 'C' (by decide)
    have dT := characterMatch_defined c hc 'T' (by decide)
    have dG := characterMatch_defined c hc 'G' (by decide)
    obtain ⟨a, ea⟩ := Option.isSome_iff_exists.mp dA
    obtain ⟨cc, ec⟩ := Option.isSome_iff_exists.mp dC
    obtain ⟨t, et⟩ := Option.isSome_iff_exists.mp dT
    obtain ⟨g, eg⟩ := Option.isSome_iff_exists.mp dG
    rw [eqVectorLoop, if_pos hin, hget]
    simp only [ea, ec, et, eg]
    apply ih (i + 1) _ (by omega)
    intro k
    have hk := hinv k
    have hck : k = i → sequence.getD (j + k) 'N' = c := by
      intro e
      subst e
      have h1 : sequence.get? (j + k) = some (sequence.getD (j + k) 'N') := by
        rw [List.getD_eq_getElem?_getD, List.get?_eq_getElem?, List.getElem?_eq_getElem hin]
        rfl
      rw [h1] at hget
      exact Option.some.inj hget
    refine ⟨orBit_step _ i k hi64 a _ hk.1 ?_, orBit_step _ i k hi64 cc _ hk.2.1 ?_,
      orBit_step _ i k hi64 t _ hk.2.2.1 ?_, orBit_step _ i k hi64 g _ hk.2.2.2 ?_⟩
    · intro e; rw [hck e]; unfold matchBit; rw [ea]; cases a <;> simp
    · intro e; rw [hck e]; unfold matchBit; rw [ec]; cases cc <;> simp
    · intro e; rw [hck e]; unfold matchBit; rw [et]; cases t <;> simp
    · intro e; rw [hck e]; unfold matchBit; rw [eg]; cases g <;> simp

theorem calculateSliceEqVector_iupac (assertsEnabled : Bool) (sequence : List Char) (j : Nat)
    (hlen : j + 64 ≤ sequence.length)
    (hchars : ∀ i < 64, sequence.getD (j + i) 'N' ∈ iupacReadCharacters) :
    ∃ v, calculateSliceEqVector sequence j = some v
      ∧ (∀ i < 64, ∀ g ∈ graphCharacters, ∃ w, v.getEq assertsEnabled g = some w
          ∧ (w.testBit i = true ↔ characterMatch (sequence.getD (j + i) 'N') g = some true))
      ∧ v.BA ||| v.BC ||| v.BT ||| v.BG = AllOnes := by
  obtain ⟨v, hv, hinv⟩ := eqVectorLoop_spec sequence j hlen hchars 64 0
    { BA := AllZeros, BT := AllZeros, BC := AllZeros, BG := AllZeros } rfl
    (fun k => by
      have z : AllZeros.testBit k = false := Nat.zero_testBit k
      simp [z])
  refine ⟨v, hv, ?_, ?_⟩
  · intro i hi g hg
    have h := hinv i
    have hd : decide (i < 64) = true := by simpa using hi
    simp only [hd, Bool.true_and] at h
    simp only [graphCharacters, List.mem_cons, List.mem_singleton, List.not_mem_nil,
      or_false] at hg
    rcases hg with e | e | e | e <;> subst e
    · exact ⟨v.BA, rfl, by rw [h.1]; unfold matchBit; simp⟩
    · exact ⟨v.BC, rfl, by rw [h.2.1]; unfold matchBit; simp⟩
    · exact ⟨v.BG, rfl, by rw [h.2.2.2]; unfold matchBit; simp⟩
    · exact ⟨v.BT, rfl, by rw [h.2.2.1]; unfold matchBit; simp⟩
  · apply Nat.eq_of_testBit_eq
    intro k
    rw [Nat.testBit_or, Nat.testBit_or, Nat.testBit_or, testBit_allOnes]
    obtain ⟨h1, h2, h3, h4⟩ := hinv k
    rw [h1, h2, h3, h4]
    by_cases hk : k < 64
    · have hd : decide (k < 64) = true := by simpa using hk
      simp only [hd, Bool.true_and]
      exact characterMatch_some_base _ (hchars k hk)
    · have hd : decide (k < 64) = false := by simpa using hk
      simp [hd]

theorem characterMatch_outside (c g : Char) (h : c ∉ iupacReadCharacters) :
    characterMatch c g = none := by
  unfold characterMatch
  split <;> first | rfl | (exfalso; apply h; decide)

theorem eqVectorLoop_abort (sequence : List Char) (j : Nat) (hlen : j + 64 ≤ sequence.length) :
    ∀ (rounds i : Nat) (v : EqVector), rounds + i = 64 →
      (∃ k, i ≤ k ∧ k < 64 ∧ sequence.getD (j + k) 'N' ∉ iupacReadCharacters) →
      eqVectorLoop sequence j rounds i v = none := by
  intro rounds
  induction rounds with
  | zero =>
    intro i v hi hk
    obtain ⟨k, h1, h2, _⟩ := hk
    omega
  | succ rounds ih =>
    intro i v hi hk
    have hin : j + i < sequence.length := by omega
    have hget : sequence.get? (j + i) = some (sequence.getD (j + i) 'N') := by
      rw [List.getD_eq_getElem?_getD, List.get?_eq_getElem?, List.getElem?_eq_getElem hin]
      rfl
    rw [eqVectorLoop, if_pos hin, hget]
    by_cases hc : sequence.getD (j + i) 'N' ∈ iupacReadCharacters
    · obtain ⟨k, h1, h2, h3⟩ := hk
      have hne : k ≠ i := by
        intro e
        rw [e] at h3
        exact h3 hc
      have dA := characterMatch_defined _ hc 'A' (by decide)
      have dC := characterMatch_defined _ hc 'C' (by decide)
      have dT := characterMatch_defined _ hc 'T' (by decide)
      have dG := characterMatch_defined _ hc 'G' (by decide)
      obtain ⟨a, ea⟩ := Option.isSome_iff_exists.mp dA
      obtain ⟨cc, ec⟩ := Option.isSome_iff_exists.mp dC
      obtain ⟨t, et⟩ := Option.isSome_iff_exists.mp dT
      obtain ⟨g, eg⟩ := Option.isSome_iff_exists.mp dG
      simp only [ea, ec, et, eg]
      exact ih (i + 1) _ (by omega) ⟨k, by omega, h2, h3⟩
    · simp only [characterMatch_outside _ _ hc]

/-- C32: for a block start j with j + 64 <= |sequence|. When the 64 read characters of the
block are among the codes A, C, G, T, N, R, Y, K, M, S, W, B, D, H, V (upper or lower
case), calculateSlice builds its equality vector, for every row i of the block and every
graph character g among A, C, G, T bit i of EqV.getEq(g) is set exactly when
characterMatch(sequence[j+i], g) is true, and the word BA | BC | BT | BG is all ones. When
one of the 64 characters is any other character, calculateSlice builds no equality vector,
because the program ends inside characterMatch; this is so for the code U (and u) of the
read alphabet. -/
theorem calculateSlice_eqVector (assertsEnabled : Bool) (sequence : List Char) (j : Nat)
    (hlen : j + 64 ≤ sequence.length) :
    ((∀ i < 64, sequence.getD (j + i) 'N' ∈ iupacReadCharacters) →
      ∃ v, calculateSliceEqVector sequence j = some v
        ∧ (∀ i < 64, ∀ g ∈ graphCharacters, ∃ w, v.getEq assertsEnabled g = some w
            ∧ (w.testBit i = true
              ↔ characterMatch (sequence.getD (j + i) 'N') g = some true))
        ∧ v.BA ||| v.BC ||| v.BT ||| v.BG = AllOnes)
      ∧ ((∃ i < 64, sequence.getD (j + i) 'N' ∉ iupacReadCharacters) →
        calculateSliceEqVector sequence j = none)
      ∧ ((∃ i < 64, sequence.getD (j + i) 'N' = 'U' ∨ sequence.getD (j + i) 'N' = 'u') →
        calculateSliceEqVector sequence j = none) := by
  refine ⟨fun hchars => calculateSliceEqVector_iupac assertsEnabled sequence j hlen hchars,
    ?_, ?_⟩
  · rintro ⟨i, hi, hc⟩
    exact eqVectorLoop_abort sequence j hlen 64 0 _ rfl ⟨i, Nat.zero_le _, hi, hc⟩
  · rintro ⟨i, hi, hc⟩
    refine eqVectorLoop_abort sequence j hlen 64 0 _ rfl ⟨i, Nat.zero_le _, hi, ?_⟩
    rcases hc with e | e <;> rw [e] <;> decide

end EqVectorProofs

section EqVectorWitness
open GraphAligner

set_option maxRecDepth 100000 in
/-- C32 (witness): calculateSlice_eqVector at the first block of the read ACGTNR and at the
first block of the read ACGU, both padded with N to 64 characters: the first read gets its
equality vector, on the second one the program ends inside characterMatch. -/
theorem calculateSlice_eqVector_witness :
    (0 + 64 ≤ (padSequence ['A', 'C', 'G', 'T', 'N', 'R']).length
      ∧ ∃ v, calculateSliceEqVector (padSequence ['A', 'C', 'G', 'T', 'N', 'R']) 0 = some v
        ∧ (∀ i < 64, ∀ g ∈ graphCharacters, ∃ w, v.getEq true g = some w
            ∧ (w.testBit i = true ↔ characterMatch
              ((padSequence ['A', 'C', 'G', 'T', 'N', 'R']).getD (0 + i) 'N') g = some true))
        ∧ v.BA ||| v.BC ||| v.BT ||| v.BG = AllOnes)
      ∧ (0 + 64 ≤ (padSequence ['A', 'C', 'G', 'U']).length
        ∧ calculateSliceEqVector (padSequence ['A', 'C', 'G', 'U']) 0 = none) :=
  ⟨⟨by decide, (calculateSlice_eqVector true _ 0 (by decide)).1 (by decide)⟩,
    ⟨by decide, (calculateSlice_eqVector true (padSequence ['A', 'C', 'G', 'U']) 0
      (by decide)).2.2 ⟨3, by decide, Or.inl (by decide)⟩⟩⟩

end EqVectorWitness

/-! ## The edits of traceToAlignment -/

section TraceToAlignment
open GraphAligner

theorem toInt32_eq (x : Int) (h1 : -2147483648 ≤ x) (h2 : x < 2147483648) : toInt32 x = x := by
  unfold toInt32; omega

theorem sizeValue_eq (x : Int) (h1 : 0 ≤ x) (h2 : x < 2147483648) : sizeValue x = x.toNat := by
  unfold sizeValue wordMod
  omega

theorem traceEdit_run (sequence : List Char) (hseq : sequence.length < 2147483648)
    (before : Int × Int) (r : VertexRun) (h : RunOk sequence before r) (extra : Int)
    (h0 : 0 ≤ extra) (h1 : extra ≤ 1) :
    traceEdit sequence (r.last.1 - r.first.1 + extra) r.first r.last before
      = some (runEdit sequence before r extra) := by
  obtain ⟨a, b, c, d, e, f, g⟩ := h
  unfold traceEdit substr
  rw [sizeValue_eq _ (by omega) (by omega), sizeValue_eq _ (by omega) (by omega)]
  have hle : ¬ sequence.length < r.first.2.toNat := by omega
  rw [if_neg hle]
  simp only [runEdit]
  rw [toInt32_eq _ (by omega) (by omega), toInt32_eq _ (by omega) (by omega)]

theorem runEdit_length (sequence : List Char) (before : Int × Int) (r : VertexRun)
    (h : RunOk sequence before r) (extra : Int) :
    ((runEdit sequence before r extra).sequence.length : Int)
      = (runEdit sequence before r extra).to_length := by
  obtain ⟨a, b, c, d, e, f, g⟩ := h
  simp only [runEdit, List.length_take, List.length_drop]
  omega

theorem traceToAlignmentLoop_same (assertsEnabled : Bool) (graph : GraphIndex)
    (names : GraphNames) (sequence : List Char) (previous : Option (Int × Int))
    (p : Int × Int) (rest : List (Int × Int)) (st : TraceState)
    (hend : graph.IndexToNode p.1 ≠ names.dummyNodeEnd)
    (hold : graph.IndexToNode p.1 = st.oldNode) :
    traceToAlignmentLoop assertsEnabled graph names sequence previous (p :: rest) st
      = traceToAlignmentLoop assertsEnabled graph names sequence (some p) rest
          { st with btNodeEnd := p } := by
  conv_lhs => unfold traceToAlignmentLoop
  rw [if_neg hend, if_pos hold]

theorem traceToAlignmentLoop_run (assertsEnabled : Bool) (graph : GraphIndex)
    (names : GraphNames) (sequence : List Char) (v : Nat) (hv : v ≠ names.dummyNodeEnd)
    (tail : List (Int × Int)) :
    ∀ (others : List (Int × Int)) (x : Int × Int) (st : TraceState), st.oldNode = v →
      st.btNodeEnd = x → (∀ p ∈ others, graph.IndexToNode p.1 = v) →
      traceToAlignmentLoop assertsEnabled graph names sequence (some x) (others ++ tail) st
        = traceToAlignmentLoop assertsEnabled graph names sequence
            (some (others.getLastD x)) tail { st with btNodeEnd := others.getLastD x } := by
  intro others
  induction others with
  | nil =>
    intro x st _ hx _
    subst hx
    rfl
  | cons q qs ih =>
    intro x st hst _ hps
    have hp : graph.IndexToNode q.1 = v := hps q (List.mem_cons_self _ _)
    rw [List.cons_append, traceToAlignmentLoop_same _ _ _ _ _ _ _ _ (by rw [hp]; exact hv)
      (by rw [hp, hst]), ih q { st with btNodeEnd := q } hst rfl
      (fun y hy => hps y (List.mem_cons_of_mem _ hy)), List.getLastD_cons]

theorem vertexRun_last_mem (r : VertexRun) : r.last ∈ r.positions := by
  unfold VertexRun.last VertexRun.positions
  generalize r.first = x
  induction r.others generalizing x with
  | nil => simp
  | cons q qs ih =>
    rw [List.getLastD_cons]
    exact List.mem_cons_of_mem _ (ih q)

theorem traceMapping_some (names : GraphNames) (rank : Int) (v : Nat)
    (h1 : v < names.nodeIDs.length) (h2 : v < names.reverse.length) :
    traceMapping names rank v = some (runHeader names rank v) := by
  unfold traceMapping runHeader
  rw [List.get?_eq_getElem?, List.get?_eq_getElem?, List.getElem?_eq_getElem h1,
    List.getElem?_eq_getElem h2]
  simp [List.getD_eq_getElem?_getD, List.getElem?_eq_getElem h1, List.getElem?_eq_getElem h2]

theorem runsOk_head (graph : GraphIndex) (names : GraphNames) (sequence : List Char)
    (before : Int × Int) (cur : VertexRun) (rs : List VertexRun)
    (h : RunsOk graph names sequence before cur rs) : RunOk sequence before cur := by
  cases rs with
  | nil => exact h
  | cons r rs => exact h.1

theorem traceToAlignmentLoop_runs (assertsEnabled : Bool) (graph : GraphIndex)
    (names : GraphNames) (sequence : List Char) (hseq : sequence.length < 2147483648) :
    ∀ (rs : List VertexRun) (before : Int × Int) (cur : VertexRun) (m : Mapping)
      (done : List Mapping),
      (∀ p ∈ cur.positions, graph.IndexToNode p.1 = cur.vertex) →
      RunsOk graph names sequence before cur rs →
      (traceToAlignmentLoop assertsEnabled graph names sequence (some cur.last)
          (rs.flatMap VertexRun.positions)
          { oldNode := cur.vertex, btNodeStart := cur.first, btNodeEnd := cur.last,
            btBeforeNode := before, rank := m.rank, finished := done, vgmapping := m }).bind
        (traceToAlignmentEnd sequence)
        = some { alignmentFailed := false
                 mappings := done ++ runMappings names sequence before cur m rs } := by
  intro rs
  induction rs with
  | nil =>
    intro before cur m done _ hok
    have he := traceEdit_run sequence hseq before cur hok 0 (le_refl _) (by decide)
    rw [Int.add_zero] at he
    simp only [List.flatMap_nil, traceToAlignmentLoop, Option.bind, traceToAlignmentEnd, he,
      runMappings]
  | cons r rs ih =>
    intro before cur m done hcur hok
    obtain ⟨hrun, hne, hend, hids, hrev, hr, hrest⟩ := hok
    have he := traceEdit_run sequence hseq before cur hrun 1 (by decide) (le_refl _)
    have hm := traceMapping_some names (m.rank + 1) r.vertex hids hrev
    have hnext := runsOk_head _ _ _ _ _ _ hrest
    have hfirst : graph.IndexToNode r.first.1 = r.vertex := hr _ (List.mem_cons_self _ _)
    have hstep : traceToAlignmentLoop assertsEnabled graph names sequence (some cur.last)
        (r.first :: (r.others ++ rs.flatMap VertexRun.positions))
        { oldNode := cur.vertex, btNodeStart := cur.first, btNodeEnd := cur.last,
          btBeforeNode := before, rank := m.rank, finished := done, vgmapping := m }
        = traceToAlignmentLoop assertsEnabled graph names sequence (some r.first)
          (r.others ++ rs.flatMap VertexRun.positions)
          { oldNode := r.vertex, btNodeStart := r.first, btNodeEnd := r.first,
            btBeforeNode := cur.last, rank := m.rank + 1,
            finished := done ++ [{ m with edits := m.edits ++ [runEdit sequence before cur 1] }],
            vgmapping := runHeader names (m.rank + 1) r.vertex } := by
      conv_lhs => unfold traceToAlignmentLoop
      have h1 : decide (cur.last.2 ≤ r.first.2) = true := by simpa using hnext.rowFirst
      have h2 : decide (graph.IndexToNode cur.last.1 = graph.IndexToNode cur.first.1) = true := by
        rw [hcur _ (vertexRun_last_mem cur), hcur _ (List.mem_cons_self _ _)]
        simp
      have h3 : decide (cur.first.2 ≤ cur.last.2) = true := by simpa using hrun.rowLast
      have h4 : decide (cur.first.1 ≤ cur.last.1) = true := by simpa using hrun.column
      simp only [hfirst, if_neg hend, if_neg hne, h1, h2, h3, h4, Bool.not_true, Bool.and_false,
        Bool.false_eq_true, if_false, he, hm]
    have hflat : (r :: rs).flatMap VertexRun.positions
        = r.first :: (r.others ++ rs.flatMap VertexRun.positions) := by
      rw [List.flatMap_cons]; rfl
    rw [hflat, hstep, traceToAlignmentLoop_run assertsEnabled graph names sequence r.vertex hend
      _ r.others r.first _ rfl rfl (fun p hp => hr p (List.mem_cons_of_mem _ hp))]
    have := ih cur.last r (runHeader names (m.rank + 1) r.vertex)
      (done ++ [{ m with edits := m.edits ++ [runEdit sequence before cur 1] }]) hr hrest
    rw [List.append_assoc] at this
    exact this

theorem runMappings_getElem (graph : GraphIndex) (names : GraphNames) (sequence : List Char) :
    ∀ (rs : List VertexRun) (before : Int × Int) (cur : VertexRun) (m : Mapping),
      m.edits = [] → RunsOk graph names sequence before cur rs →
      (runMappings names sequence before cur m rs).length = rs.length + 1
        ∧ ∀ (i : Nat) (r : VertexRun), (cur :: rs)[i]? = some r →
          ∃ (mp : Mapping) (e : Edit),
            (runMappings names sequence before cur m rs)[i]? = some mp ∧ mp.edits = [e]
              ∧ e.from_length = r.last.1 - r.first.1 + (if i = rs.length then 0 else 1)
              ∧ (e.sequence.length : Int) = e.to_length := by
  intro rs
  induction rs with
  | nil =>
    intro before cur m hm hok
    refine ⟨rfl, ?_⟩
    intro i r hi
    cases i with
    | zero =>
      have e : cur = r := by simpa using hi
      subst e
      exact ⟨{ m with edits := m.edits ++ [runEdit sequence before cur 0] },
        runEdit sequence before cur 0, rfl, by rw [hm]; rfl, by simp [runEdit],
        runEdit_length _ _ _ hok _⟩
    | succ k => simp at hi
  | cons r0 rs ih =>
    intro before cur m hm hok
    obtain ⟨hrun, _, _, _, _, _, hrest⟩ := hok
    obtain ⟨hlen, hget⟩ := ih cur.last r0 (runHeader names (m.rank + 1) r0.vertex) rfl hrest
    refine ⟨by simp only [runMappings, List.length_cons, hlen], ?_⟩
    intro i r hi
    cases i with
    | zero =>
      have e : cur = r := by simpa using hi
      subst e
      exact ⟨{ m with edits := m.edits ++ [runEdit sequence before cur 1] },
        runEdit sequence before cur 1, by simp only [runMappings, List.getElem?_cons_zero],
        by rw [hm]; rfl, by simp [runEdit],
        runEdit_length _ _ _ hrun _⟩
    | succ k =>
      have hk : (r0 :: rs)[k]? = some r := by simpa using hi
      obtain ⟨mp, e, h1, h2, h3, h4⟩ := hget k r hk
      refine ⟨mp, e, by simpa [runMappings] using h1, h2, ?_, h4⟩
      rw [h3]
      simp only [List.length_cons, Nat.add_right_cancel_iff]

/-- C38: for a trace made of the runs cur :: rs of consecutive positions inside one vertex
each (rows of the read that rise by at most one per step, no dummy vertex, every vertex
with an entry in nodeIDs and reverse), traceToAlignment returns one mapping per run, every
mapping with exactly one edit whose sequence has to_length characters; the from_length of
the edit is last - first + 1 for every run but the last one, and last - first, one less
than the number of graph bases the run covers, for the last run. -/
theorem traceToAlignment_edits (assertsEnabled : Bool) (graph : GraphIndex)
    (names : GraphNames) (sequence : List Char) (cur : VertexRun) (rs : List VertexRun)
    (hseq : sequence.length < 2147483648)
    (hstart : cur.vertex ≠ names.dummyNodeStart) (hend : cur.vertex ≠ names.dummyNodeEnd)
    (hids : cur.vertex < names.nodeIDs.length) (hrev : cur.vertex < names.reverse.length)
    (hcur : ∀ p ∈ cur.positions, graph.IndexToNode p.1 = cur.vertex)
    (hruns : RunsOk graph names sequence cur.first cur rs) :
    ∃ mappings, traceToAlignment assertsEnabled graph names sequence
        ((cur :: rs).flatMap VertexRun.positions)
        = some { alignmentFailed := false, mappings := mappings }
      ∧ mappings.length = rs.length + 1
      ∧ ∀ (i : Nat) (r : VertexRun), (cur :: rs)[i]? = some r →
          ∃ (mp : Mapping) (e : Edit), mappings[i]? = some mp ∧ mp.edits = [e]
            ∧ e.from_length = r.last.1 - r.first.1 + (if i = rs.length then 0 else 1)
            ∧ (e.sequence.length : Int) = e.to_length := by
  have hfirst : graph.IndexToNode cur.first.1 = cur.vertex := hcur _ (List.mem_cons_self _ _)
  obtain ⟨hlen, hget⟩ := runMappings_getElem graph names sequence rs cur.first cur
    { runHeader names 0 cur.vertex with offset := cur.first.1 - graph.NodeStart cur.vertex }
    rfl hruns
  refine ⟨_, ?_, hlen, hget⟩
  have hflat : (cur :: rs).flatMap VertexRun.positions
      = cur.first :: (cur.others ++ rs.flatMap VertexRun.positions) := by
    rw [List.flatMap_cons]; rfl
  have hskip : skipDummyNodeStart assertsEnabled graph names none cur.first
      (cur.others ++ rs.flatMap VertexRun.positions)
      = some (some (none, cur.first, cur.others ++ rs.flatMap VertexRun.positions)) := by
    unfold skipDummyNodeStart
    rw [if_neg (by rw [hfirst]; exact hstart)]
  have hloop := traceToAlignmentLoop_runs assertsEnabled graph names sequence hseq rs cur.first
    cur { runHeader names 0 cur.vertex with
      offset := cur.first.1 - graph.NodeStart cur.vertex } [] hcur hruns
  rw [List.nil_append] at hloop
  rw [hflat]
  simp only [traceToAlignment, hskip, hfirst, if_neg hend,
    traceMapping_some names 0 cur.vertex hids hrev]
  rw [traceToAlignmentLoop_same _ _ _ _ _ _ _ _ (by rw [hfirst]; exact hend) hfirst,
    traceToAlignmentLoop_run assertsEnabled graph names sequence cur.vertex hend _ cur.others
      cur.first _ rfl rfl (fun p hp => hcur p (List.mem_cons_of_mem _ hp))]
  generalize hL : traceToAlignmentLoop assertsEnabled graph names sequence _ _ _ = L
  obtain ⟨st, hst, hEnd⟩ := Option.bind_eq_some.mp hloop
  have hLs : L = some st := hL.symm.trans hst
  rw [hLs]
  exact hEnd

/-- C38 (witness): traceToAlignment_edits at the trace (0,0), (1,1), (2,2), (3,3) of the
read ACGT through the two vertices of twoRunGraph. -/
theorem traceToAlignment_edits_witness :
    ∃ mappings, traceToAlignment true twoRunGraph twoRunNames ['A', 'C', 'G', 'T']
        ((twoRunFirst :: [twoRunSecond]).flatMap VertexRun.positions)
        = some { alignmentFailed := false, mappings := mappings }
      ∧ mappings.length = [twoRunSecond].length + 1
      ∧ ∀ (i : Nat) (r : VertexRun), (twoRunFirst :: [twoRunSecond])[i]? = some r →
          ∃ (mp : Mapping) (e : Edit), mappings[i]? = some mp ∧ mp.edits = [e]
            ∧ e.from_length
              = r.last.1 - r.first.1 + (if i = [twoRunSecond].length then 0 else 1)
            ∧ (e.sequence.length : Int) = e.to_length :=
  traceToAlignment_edits true twoRunGraph twoRunNames ['A', 'C', 'G', 'T'] twoRunFirst
    [twoRunSecond] (by decide) (by decide) (by decide) (by decide) (by decide) (by decide)
    ⟨⟨by decide, by decide, by decide, by decide, by decide, by decide, by decide⟩,
      by decide, by decide, by decide, by decide, by decide,
      ⟨by decide, by decide, by decide, by decide, by decide, by decide, by decide⟩⟩

/-- The mappings of the trace (0,0), (1,1), (2,2), (3,3) on twoRunGraph: the edit of the
first mapping has from_length 2 for its two bases, the edit of the last mapping has
from_length 1 for its two bases. -/
theorem traceToAlignment_twoRun :
    traceToAlignment true twoRunGraph twoRunNames ['A', 'C', 'G', 'T']
        [(0, 0), (1, 1), (2, 2), (3, 3)]
      = some { alignmentFailed := false
               mappings := [
                 { rank := 0, node_id := 2, is_reverse := false, offset := 0
                   edits := [{ from_length := 2, to_length := 1, sequence := ['A'] }] },
                 { rank := 1, node_id := 4, is_reverse := false, offset := 0
                   edits := [{ from_length := 1, to_length := 2, sequence := ['G', 'T'] }] }] } := by
  decide

end TraceToAlignment

/-! ## The backtrace loops end -/

section BacktraceLoops
open GraphAligner

theorem nodeSlice_node_absent (slice : NodeSlice) (node : Nat)
    (h : NodeSlice.hasNode slice node = false) : NodeSlice.node slice node = [] := by
  induction slice with
  | nil => rfl
  | cons item rest ih =>
    unfold NodeSlice.hasNode at h
    rw [List.any_cons, Bool.or_eq_false_iff] at h
    have h1 : ¬ item.node = node := by simpa using h.1
    rw [NodeSlice.node, if_neg h1]
    exact ih h.2

theorem getValue_absent {κ : Type} (graph : GraphIndex) (slice : DPSlice κ) (j w : Int)
    (h : NodeSlice.hasNode slice.scores (graph.IndexToNode w) = false) :
    GraphAligner.getValue graph slice j w = 0 := by
  unfold GraphAligner.getValue
  simp only [nodeSlice_node_absent _ _ h, List.getD_nil]
  simp [WordSlice.getValue, WordSlice.default, popcount]

theorem getValueOrMax_present {κ : Type} (graph : GraphIndex) (slice : DPSlice κ) (j w : Int)
    (max : Int) (h : NodeSlice.hasNode slice.scores (graph.IndexToNode w) = true) :
    getValueOrMax graph slice j w max = GraphAligner.getValue graph slice j w := by
  unfold getValueOrMax GraphAligner.getValue
  simp [h]

theorem pickDiagonal_row {κ : Type} (graph : GraphIndex) (sequence : List Char)
    (slice previousSlice : DPSlice κ) (pos : Int × Int) (scoreHere u : Int) (q : Int × Int)
    (h : pickDiagonal graph sequence slice previousSlice pos scoreHere u = some (some q)) :
    q.2 = pos.2 - 1 := by
  unfold pickDiagonal at h
  cases hc : sequence.get? pos.2.toNat with
  | none => rw [hc] at h; simp at h
  | some c =>
    rw [hc] at h
    simp only at h
    cases hm : characterMatch c (graph.NodeSequences pos.1) with
    | none => rw [hm] at h; simp at h
    | some b =>
      rw [hm] at h
      cases b <;> simp only at h <;> split_ifs at h <;> simp at h <;> rw [← h]

theorem pickFromNeighbors_row {κ : Type} (graph : GraphIndex) (sequence : List Char)
    (slice previousSlice : DPSlice κ) (pos : Int × Int) (scoreHere : Int) (q : Int × Int) :
    ∀ (neighbors : List Nat),
      pickFromNeighbors graph sequence slice previousSlice pos scoreHere neighbors
        = some (some q) →
      q.2 = pos.2 - 1 ∨ (q.2 = pos.2
        ∧ getValueOrMax graph slice (pos.2 - slice.j) q.1 sequence.length = scoreHere - 1) := by
  intro neighbors
  induction neighbors with
  | nil => intro h; rw [pickFromNeighbors] at h; cases h
  | cons neighbor rest ih =>
    intro h
    rw [pickFromNeighbors] at h
    split_ifs at h with hh
    · have e : q = (graph.NodeEnd neighbor - 1, pos.2) := by
        simpa using h.symm
      rw [e]
      exact Or.inr ⟨rfl, hh⟩
    · cases hd : pickDiagonal graph sequence slice previousSlice pos scoreHere
          (graph.NodeEnd neighbor - 1) with
      | none => rw [hd] at h; simp at h
      | some r =>
        cases r with
        | none => rw [hd] at h; exact ih h
        | some p =>
          rw [hd] at h
          have e : p = q := by simpa using h
          rw [e] at hd
          exact Or.inl (pickDiagonal_row _ _ _ _ _ _ _ _ hd)

theorem pickBacktracePredecessor_row {κ : Type} (graph : GraphIndex) (sequence : List Char)
    (slice previousSlice : DPSlice κ) (pos q : Int × Int)
    (h : pickBacktracePredecessor graph sequence slice pos previousSlice = some q) :
    q.2 = pos.2 - 1 ∨ (q.2 = pos.2
      ∧ getValueOrMax graph slice (pos.2 - slice.j) q.1 sequence.length
        = GraphAligner.getValue graph slice (pos.2 - slice.j) pos.1 - 1) := by
  unfold pickBacktracePredecessor at h
  simp only at h
  by_cases h0 : pos.2 = 0 ∧ NodeSlice.hasNode previousSlice.scores (graph.IndexToNode pos.1) = true
      ∧ (GraphAligner.getValue graph slice (pos.2 - slice.j) pos.1 = 0
        ∨ GraphAligner.getValue graph slice (pos.2 - slice.j) pos.1 = 1)
  · rw [if_pos h0] at h
    cases h
    exact Or.inl rfl
  · rw [if_neg h0] at h
    by_cases h1 : pos.1 = graph.NodeStart (graph.IndexToNode pos.1)
    · rw [if_pos h1] at h
      cases hs : pickFromNeighbors graph sequence slice previousSlice pos
          (GraphAligner.getValue graph slice (pos.2 - slice.j) pos.1)
          (graph.inNeighbors (graph.IndexToNode pos.1)) with
      | none => rw [hs] at h; cases h
      | some r =>
        rw [hs] at h
        cases r with
        | some p =>
          cases h
          exact pickFromNeighbors_row _ _ _ _ _ _ _ _ hs
        | none =>
          simp only at h
          split_ifs at h <;> cases h <;> exact Or.inl rfl
    · rw [if_neg h1] at h
      by_cases h2 : getValueOrMax graph slice (pos.2 - slice.j) (pos.1 - 1) sequence.length
          = GraphAligner.getValue graph slice (pos.2 - slice.j) pos.1 - 1
      · rw [if_pos h2] at h
        cases h
        exact Or.inr ⟨rfl, h2⟩
      · rw [if_neg h2] at h
        cases hd : pickDiagonal graph sequence slice previousSlice pos
            (GraphAligner.getValue graph slice (pos.2 - slice.j) pos.1) (pos.1 - 1) with
        | none => rw [hd] at h; cases h
        | some r =>
          rw [hd] at h
          cases r with
          | some p =>
            cases h
            exact Or.inl (pickDiagonal_row _ _ _ _ _ _ _ _ hd)
          | none =>
            simp only at h
            split_ifs at h <;> cases h <;> exact Or.inl rfl

theorem getValue_decreases {κ : Type} (graph : GraphIndex) (sequence : List Char)
    (slice : DPSlice κ) (row u scoreHere : Int)
    (h : getValueOrMax graph slice row u sequence.length = scoreHere - 1) :
    GraphAligner.getValue graph slice row u < scoreHere := by
  cases hn : NodeSlice.hasNode slice.scores (graph.IndexToNode u) with
  | true =>
    rw [getValueOrMax_present _ _ _ _ _ hn] at h
    omega
  | false =>
    rw [getValue_absent _ _ _ _ hn]
    have : getValueOrMax graph slice row u sequence.length = sequence.length := by
      unfold getValueOrMax
      simp [hn]
    omega

theorem getTraceFromSliceLoop_step {κ : Type} (assertsEnabled : Bool) (graph : GraphIndex)
    (sequence : List Char) (slice : DPSlice κ) (pos : Int × Int) (result : List (Int × Int))
    (h : pos.2 ≠ slice.j → ∀ q,
      pickBacktracePredecessor graph sequence slice pos slice = some q →
      ∃ (fuel : Nat) (out : TraceEnd), out ≠ TraceEnd.outOfFuel ∧ ∀ more,
        getTraceFromSliceLoop assertsEnabled graph sequence slice (fuel + more) q
          (result ++ [q]) = out) :
    ∃ (fuel : Nat) (out : TraceEnd), out ≠ TraceEnd.outOfFuel ∧ ∀ more,
      getTraceFromSliceLoop assertsEnabled graph sequence slice (fuel + more) pos result
        = out := by
  by_cases hrow : pos.2 = slice.j
  · by_cases ha : (assertsEnabled
        && !NodeSlice.hasNode slice.scores (graph.IndexToNode pos.1)) = true
    · refine ⟨1, TraceEnd.aborted, by decide, fun more => ?_⟩
      rw [Nat.add_comm, getTraceFromSliceLoop, if_pos hrow, if_pos ha]
    · refine ⟨1, TraceEnd.returned result, by simp, fun more => ?_⟩
      rw [Nat.add_comm, getTraceFromSliceLoop, if_pos hrow, if_neg ha]
  · by_cases ha : (assertsEnabled
        && !NodeSlice.hasNode slice.scores (graph.IndexToNode pos.1)) = true
    · refine ⟨1, TraceEnd.aborted, by decide, fun more => ?_⟩
      rw [Nat.add_comm, getTraceFromSliceLoop, if_neg hrow, if_pos ha]
    · cases hp : pickBacktracePredecessor graph sequence slice pos slice with
      | none =>
        refine ⟨1, TraceEnd.aborted, by decide, fun more => ?_⟩
        rw [Nat.add_comm, getTraceFromSliceLoop, if_neg hrow, if_neg ha, hp]
      | some q =>
        obtain ⟨fuel, out, hout, hrun⟩ := h hrow q hp
        refine ⟨fuel + 1, out, hout, fun more => ?_⟩
        rw [Nat.add_right_comm, getTraceFromSliceLoop, if_neg hrow, if_neg ha, hp]
        exact hrun more

theorem getTraceFromSliceLoop_terminates {κ : Type} (assertsEnabled : Bool)
    (graph : GraphIndex) (sequence : List Char) (slice : DPSlice κ)
    (hvalues : ∀ row w, 0 ≤ GraphAligner.getValue graph slice row w) :
    ∀ (rows : Nat) (value : Nat) (pos : Int × Int) (result : List (Int × Int)),
      slice.j ≤ pos.2 → pos.2 - slice.j ≤ rows →
      GraphAligner.getValue graph slice (pos.2 - slice.j) pos.1 ≤ value →
      ∃ (fuel : Nat) (out : TraceEnd), out ≠ TraceEnd.outOfFuel ∧ ∀ more,
        getTraceFromSliceLoop assertsEnabled graph sequence slice (fuel + more) pos result
          = out := by
  intro rows
  induction rows with
  | zero =>
    intro value pos result h1 h2 _
    apply getTraceFromSliceLoop_step
    intro hrow
    omega
  | succ rows ihRows =>
    intro value
    induction value with
    | zero =>
      intro pos result h1 h2 h3
      apply getTraceFromSliceLoop_step
      intro hrow q hq
      rcases pickBacktracePredecessor_row _ _ _ _ _ _ hq with hq2 | ⟨hq2, hv⟩
      · exact ihRows (GraphAligner.getValue graph slice (q.2 - slice.j) q.1).toNat q _
          (by omega) (by omega) (by have := hvalues (q.2 - slice.j) q.1; omega)
      · have hlt := getValue_decreases _ _ _ _ _ _ hv
        have := hvalues (pos.2 - slice.j) q.1
        omega
    | succ value ihValue =>
      intro pos result h1 h2 h3
      apply getTraceFromSliceLoop_step
      intro hrow q hq
      rcases pickBacktracePredecessor_row _ _ _ _ _ _ hq with hq2 | ⟨hq2, hv⟩
      · exact ihRows (GraphAligner.getValue graph slice (q.2 - slice.j) q.1).toNat q _
          (by omega) (by omega) (by have := hvalues (q.2 - slice.j) q.1; omega)
      · have hlt := getValue_decreases _ _ _ _ _ _ hv
        exact ihValue q _ (by omega) (by omega) (by rw [hq2]; omega)

theorem getSliceBoundaryTraceLoop_step {κ : Type} (assertsEnabled : Bool)
    (graph : GraphIndex) (sequence : List Char) (after before : DPSlice κ) (pos : Int × Int)
    (result : List (Int × Int))
    (h : pos.2 = after.j → ∀ q,
      pickBacktracePredecessor graph sequence after pos before = some q →
      ∃ (fuel : Nat) (out : TraceEnd), out ≠ TraceEnd.outOfFuel ∧ ∀ more,
        getSliceBoundaryTraceLoop assertsEnabled graph sequence after before (fuel + more) q
          (result ++ [q]) = out) :
    ∃ (fuel : Nat) (out : TraceEnd), out ≠ TraceEnd.outOfFuel ∧ ∀ more,
      getSliceBoundaryTraceLoop assertsEnabled graph sequence after before (fuel + more) pos
        result = out := by
  by_cases hrow : pos.2 = after.j
  · by_cases ha : (assertsEnabled
        && !NodeSlice.hasNode after.scores (graph.IndexToNode pos.1)) = true
    · refine ⟨1, TraceEnd.aborted, by decide, fun more => ?_⟩
      rw [Nat.add_comm, getSliceBoundaryTraceLoop, if_pos hrow, if_pos ha]
    · cases hp : pickBacktracePredecessor graph sequence after pos before with
      | none =>
        refine ⟨1, TraceEnd.aborted, by decide, fun more => ?_⟩
        rw [Nat.add_comm, getSliceBoundaryTraceLoop, if_pos hrow, if_neg ha, hp]
      | some q =>
        obtain ⟨fuel, out, hout, hrun⟩ := h hrow q hp
        refine ⟨fuel + 1, out, hout, fun more => ?_⟩
        rw [Nat.add_right_comm, getSliceBoundaryTraceLoop, if_pos hrow, if_neg ha, hp]
        exact hrun more
  · by_cases ha : (assertsEnabled
        && !NodeSlice.hasNode before.scores (graph.IndexToNode pos.1)) = true
    · refine ⟨1, TraceEnd.aborted, by decide, fun more => ?_⟩
      rw [Nat.add_comm, getSliceBoundaryTraceLoop, if_neg hrow, if_pos ha]
    · refine ⟨1, TraceEnd.returned result, by simp, fun more => ?_⟩
      rw [Nat.add_comm, getSliceBoundaryTraceLoop, if_neg hrow, if_neg ha]

theorem getSliceBoundaryTraceLoop_terminates {κ : Type} (assertsEnabled : Bool)
    (graph : GraphIndex) (sequence : List Char) (after before : DPSlice κ)
    (hvalues : ∀ row w, 0 ≤ GraphAligner.getValue graph after row w) :
    ∀ (value : Nat) (pos : Int × Int) (result : List (Int × Int)),
      GraphAligner.getValue graph after (pos.2 - after.j) pos.1 ≤ value →
      ∃ (fuel : Nat) (out : TraceEnd), out ≠ TraceEnd.outOfFuel ∧ ∀ more,
        getSliceBoundaryTraceLoop assertsEnabled graph sequence after before (fuel + more)
          pos result = out := by
  intro value
  induction value with
  | zero =>
    intro pos result h3
    apply getSliceBoundaryTraceLoop_step
    intro hrow q hq
    rcases pickBacktracePredecessor_row _ _ _ _ _ _ hq with hq2 | ⟨hq2, hv⟩
    · apply getSliceBoundaryTraceLoop_step
      intro hrow2
      omega
    · have hlt := getValue_decreases _ _ _ _ _ _ hv
      have := hvalues (pos.2 - after.j) q.1
      omega
  | succ value ihValue =>
    intro pos result h3
    apply getSliceBoundaryTraceLoop_step
    intro hrow q hq
    rcases pickBacktracePredecessor_row _ _ _ _ _ _ hq with hq2 | ⟨hq2, hv⟩
    · apply getSliceBoundaryTraceLoop_step
      intro hrow2
      omega
    · have hlt := getValue_decreases _ _ _ _ _ _ hv
      exact ihValue q _ (by rw [hq2]; omega)

/-- C36: every step of pickBacktracePredecessor moves to the previous row of the read, or
stays in the row and moves to a cell whose value (the read length for a vertex outside the
slice) is one less than the value of the cell it comes from; so, when the cells of the
slice hold no negative value, the while loop of getTraceFromSlice from a position at or
below the first row of the slice and the while loop of getSliceBoundaryTrace end after
finitely many steps: with enough fuel, and with any more, the function aborts or returns
its trace. -/
theorem backtrace_loops_terminate {κ : Type} (assertsEnabled : Bool) (graph : GraphIndex)
    (sequence : List Char) (slice before : DPSlice κ) (pos : Int × Int) (afterColumn : Int)
    (hrow : slice.j ≤ pos.2)
    (hvalues : ∀ row w, 0 ≤ GraphAligner.getValue graph slice row w) :
    (∀ (p q : Int × Int) (previousSlice : DPSlice κ),
        pickBacktracePredecessor graph sequence slice p previousSlice = some q →
        q.2 = p.2 - 1 ∨ (q.2 = p.2
          ∧ getValueOrMax graph slice (p.2 - slice.j) q.1 sequence.length
            = GraphAligner.getValue graph slice (p.2 - slice.j) p.1 - 1))
      ∧ (∃ (fuel : Nat) (out : TraceEnd), out ≠ TraceEnd.outOfFuel ∧ ∀ more,
          getTraceFromSlice assertsEnabled graph sequence slice (fuel + more) pos = out)
      ∧ (∃ (fuel : Nat) (out : TraceEnd), out ≠ TraceEnd.outOfFuel ∧ ∀ more,
          getSliceBoundaryTrace assertsEnabled graph sequence slice before (fuel + more)
            afterColumn = out) := by
  refine ⟨fun p q previousSlice h => pickBacktracePredecessor_row _ _ _ _ _ _ h, ?_, ?_⟩
  · unfold getTraceFromSlice
    split_ifs
    · exact ⟨0, TraceEnd.aborted, by decide, fun _ => rfl⟩
    · exact ⟨0, TraceEnd.aborted, by decide, fun _ => rfl⟩
    · exact getTraceFromSliceLoop_terminates assertsEnabled graph sequence slice hvalues
        (pos.2 - slice.j).toNat
        (GraphAligner.getValue graph slice (pos.2 - slice.j) pos.1).toNat pos [] hrow
        (by omega) (by have := hvalues (pos.2 - slice.j) pos.1; omega)
  · unfold getSliceBoundaryTrace
    split_ifs
    · exact ⟨0, TraceEnd.aborted, by decide, fun _ => rfl⟩
    · exact getSliceBoundaryTraceLoop_terminates assertsEnabled graph sequence slice before
        hvalues
        (GraphAligner.getValue graph slice ((afterColumn, slice.j).2 - slice.j)
          (afterColumn, slice.j).1).toNat (afterColumn, slice.j) []
        (by have := hvalues ((afterColumn, slice.j).2 - slice.j) (afterColumn, slice.j).1
            omega)

theorem wordSlice_getValue_nonneg (s : WordSlice) (row : Nat) (h1 : s.VN = 0)
    (h2 : 0 ≤ s.scoreBeforeStart) : 0 ≤ s.getValue row := by
  unfold WordSlice.getValue
  simp only [h1, Nat.zero_and]
  have : popcount 0 = 0 := by decide
  rw [this]
  omega

theorem twoBaseBlock_nonneg (row w : Int) :
    0 ≤ GraphAligner.getValue twoBaseGraph twoBaseBlock row w := by
  unfold GraphAligner.getValue
  simp only
  have hnode : NodeSlice.node twoBaseBlock.scores (twoBaseGraph.IndexToNode w)
      = [WordSlice.mk6 (AllOnes - 1) 0 63 0 64 false,
         WordSlice.mk6 (AllOnes - 2) 0 63 0 64 false] := rfl
  rw [hnode]
  generalize (w - twoBaseGraph.NodeStart (twoBaseGraph.IndexToNode w)).toNat = i
  generalize (row % (WordSize : Int)).toNat = r
  match i with
  | 0 => exact wordSlice_getValue_nonneg _ _ rfl (by decide)
  | 1 => exact wordSlice_getValue_nonneg _ _ rfl (by decide)
  | k + 2 => exact wordSlice_getValue_nonneg _ _ rfl (le_refl _)

/-- C36 (witness): backtrace_loops_terminate at the first block of twoBaseGraph for the read
of 64 times A, from the cell of the base C at row 2. -/
theorem backtrace_loops_terminate_witness :
    twoBaseBlock.j ≤ ((1, 2) : Int × Int).2
      ∧ (∀ (p q : Int × Int) (previousSlice : DPSlice Unit),
        pickBacktracePredecessor twoBaseGraph (List.replicate 64 'A') twoBaseBlock p
            previousSlice = some q →
        q.2 = p.2 - 1 ∨ (q.2 = p.2
          ∧ getValueOrMax twoBaseGraph twoBaseBlock (p.2 - twoBaseBlock.j) q.1
              (List.replicate 64 'A').length
            = GraphAligner.getValue twoBaseGraph twoBaseBlock (p.2 - twoBaseBlock.j) p.1 - 1))
      ∧ (∃ (fuel : Nat) (out : TraceEnd), out ≠ TraceEnd.outOfFuel ∧ ∀ more,
          getTraceFromSlice true twoBaseGraph (List.replicate 64 'A') twoBaseBlock
            (fuel + more) (1, 2) = out)
      ∧ (∃ (fuel : Nat) (out : TraceEnd), out ≠ TraceEnd.outOfFuel ∧ ∀ more,
          getSliceBoundaryTrace true twoBaseGraph (List.replicate 64 'A') twoBaseBlock
            twoBaseStart (fuel + more) 1 = out) :=
  ⟨by decide, backtrace_loops_terminate true twoBaseGraph (List.replicate 64 'A') twoBaseBlock
    twoBaseStart (1, 2) 1 (by decide) twoBaseBlock_nonneg⟩

/-- The two loops on the first block of twoBaseGraph: the trace from the cell of the base C
at row 2 to row 0, and the step over the upper boundary of the block. -/
theorem getTraceFromSlice_twoBase :
    getTraceFromSlice true twoBaseGraph (List.replicate 64 'A') twoBaseBlock 3 (1, 2)
        = TraceEnd.returned [(0, 1), (0, 0)]
      ∧ getSliceBoundaryTrace true twoBaseGraph (List.replicate 64 'A') twoBaseBlock
        twoBaseStart 2 1 = TraceEnd.returned [(1, -1)] := by
  decide

end BacktraceLoops

/-! ## The band function returns no vertex twice -/

section BandOrderProofs
open GraphAligner

theorem projectSeeds_order (graph : AlignmentGraph) (cutoff : Nat) (minScore bandwidth : Int)
    (rest : List BandEntry) :
    ∀ (done : List BandEntry) (s : ProjectState),
      ((done ++ rest).map BandEntry.node).Nodup →
      (∀ e ∈ rest, e.minScore ≤ minScore + bandwidth → minScore ≤ e.endScore) →
      BandOrder 0 s → (∀ v ∈ s.result, v ∈ done.map BandEntry.node) →
      BandOrder 0 (projectSeeds graph cutoff minScore bandwidth rest s).1 := by
  induction rest with
  | nil =>
    intro done s _ _ hinv _
    exact hinv
  | cons pair rest ih =>
    intro done s hnodup hscore hinv hres
    have hscore' : ∀ e ∈ rest, e.minScore ≤ minScore + bandwidth → minScore ≤ e.endScore :=
      fun e he => hscore e (List.mem_cons_of_mem _ he)
    have happ : done ++ pair :: rest = (done ++ [pair]) ++ rest := by simp
    rw [happ] at hnodup
    have hres' : ∀ v ∈ s.result, v ∈ (done ++ [pair]).map BandEntry.node := by
      intro v hv
      rw [List.map_append]
      exact List.mem_append_left _ (hres v hv)
    unfold projectSeeds
    by_cases hseed : pair.minScore ≤ minScore + bandwidth
    · rw [if_pos hseed]
      have hpair : minScore ≤ pair.endScore := hscore pair (List.mem_cons_self _ _) hseed
      have hfresh : pair.node ∉ s.result := by
        intro hin
        have h1 := hres _ hin
        have h2 : ((done.map BandEntry.node) ++ [pair.node]).Nodup := by
          have := hnodup
          rw [List.map_append, List.map_append] at this
          exact (List.nodup_append.mp this).1
        have h3 := (List.nodup_append.mp h2).2.2
        exact h3 h1 (List.mem_singleton_self _)
      have hnew : BandOrder 0
          { s with
            distances := setDistance s.distances pair.node 0
            result := s.result ++ [pair.node]
            currentWidth := s.currentWidth + graph.NodeLength pair.node } := by
        refine ⟨?_, ?_, ?_, hinv.above⟩
        · exact List.Nodup.append hinv.nodup (List.nodup_singleton _)
            (by
              intro a ha hb
              rw [List.mem_singleton] at hb
              exact hfresh (hb ▸ ha))
        · intro v hv
          by_cases e : v = pair.node
          · exact ⟨0, by simp [setDistance, e]⟩
          · rcases List.mem_append.mp hv with h | h
            · obtain ⟨d, hd⟩ := hinv.recorded v h
              exact ⟨d, by simp [setDistance, e, hd]⟩
            · exact absurd (List.mem_singleton.mp h) e
        · intro v d hd
          by_cases e : v = pair.node
          · have : d = 0 := by simpa [setDistance, e] using hd.symm
            omega
          · exact hinv.below v d (by simpa [setDistance, e] using hd)
      have hres2 : ∀ v ∈ s.result ++ [pair.node], v ∈ (done ++ [pair]).map BandEntry.node := by
        intro v hv
        rcases List.mem_append.mp hv with h | h
        · exact hres' v h
        · rw [List.mem_singleton.mp h]
          exact List.mem_map_of_mem _ (by simp)
      simp only
      split_ifs with hcut hend
      · exact hnew
      · exact ih (done ++ [pair]) _ hnodup hscore' hnew hres2
      · refine ih (done ++ [pair]) _ hnodup hscore' ?_ hres2
        refine ⟨hnew.nodup, hnew.recorded, hnew.below, ?_⟩
        intro e he
        rcases List.mem_append.mp he with h | h
        · exact hinv.above e h
        · obtain ⟨n, _, hn⟩ := List.mem_map.mp h
          rw [← hn]
          show (0 : Int) ≤ pair.endScore - minScore + 1
          omega
    · rw [if_neg hseed]
      exact ih (done ++ [pair]) s hnodup hscore' hinv hres'

theorem distance_none_of_not_atMost {lo : Int} {s : ProjectState} (hinv : BandOrder lo s)
    (t : Nat × Int) (ht : t ∈ s.queue)
    (hd : distanceAtMost s.distances t.1 t.2 = false) : s.distances t.1 = none := by
  cases h : s.distances t.1 with
  | none => rfl
  | some d =>
    have h1 := hinv.below _ _ h
    have h2 := hinv.above t ht
    have : distanceAtMost s.distances t.1 t.2 = true := by
      unfold distanceAtMost
      rw [h]
      simpa using (by omega : d ≤ t.2)
    rw [this] at hd
    cases hd

theorem bandOrder_skip {lo : Int} {s : ProjectState} (hinv : BandOrder lo s) (t : Nat × Int)
    (ht : t ∈ s.queue) (hleast : ∀ e ∈ s.queue, t.2 ≤ e.2) :
    BandOrder t.2 { s with queue := s.queue.erase t } := by
  have hlo := hinv.above t ht
  refine ⟨hinv.nodup, hinv.recorded, ?_, ?_⟩
  · intro v d hd
    have := hinv.below v d hd
    omega
  · intro e he
    exact hleast e (List.mem_of_mem_erase he)

theorem bandOrder_push (graph : AlignmentGraph) {lo : Int} {s : ProjectState}
    (hinv : BandOrder lo s) (t : Nat × Int)
    (ht : t ∈ s.queue) (hleast : ∀ e ∈ s.queue, t.2 ≤ e.2)
    (hnone : s.distances t.1 = none) (extra : List Nat) (width : Nat) :
    BandOrder t.2
      { distances := setDistance s.distances t.1 t.2
        result := s.result ++ [t.1]
        queue := s.queue.erase t ++
          extra.map (fun neighbor => (neighbor, t.2 + (graph.NodeLength t.1 : Int)))
        currentWidth := width } := by
  have hlo := hinv.above t ht
  have hfresh : t.1 ∉ s.result := by
    intro hin
    obtain ⟨d, hd⟩ := hinv.recorded _ hin
    rw [hnone] at hd
    cases hd
  refine ⟨?_, ?_, ?_, ?_⟩
  · exact List.Nodup.append hinv.nodup (List.nodup_singleton _)
      (by
        intro a ha hb
        rw [List.mem_singleton] at hb
        exact hfresh (hb ▸ ha))
  · intro v hv
    by_cases e : v = t.1
    · exact ⟨t.2, by simp [setDistance, e]⟩
    · rcases List.mem_append.mp hv with h | h
      · obtain ⟨d, hd⟩ := hinv.recorded v h
        exact ⟨d, by simp [setDistance, e, hd]⟩
      · exact absurd (List.mem_singleton.mp h) e
  · intro v d hd
    by_cases e : v = t.1
    · have : d = t.2 := by simpa [setDistance, e] using hd.symm
      omega
    · have := hinv.below v d (by simpa [setDistance, e] using hd)
      omega
  · intro e he
    rcases List.mem_append.mp he with h | h
    · exact hleast e (List.mem_of_mem_erase h)
    · obtain ⟨n, _, hn⟩ := List.mem_map.mp h
      rw [← hn]
      show t.2 ≤ t.2 + (graph.NodeLength t.1 : Int)
      omega

theorem projectLoop_order (graph : AlignmentGraph) (cutoff : Nat) (bandwidth : Int)
    (top : Nat → List (Nat × Int) → Nat × Int) (htop : TopIsLeast top) :
    ∀ (fuel round : Nat) (s : ProjectState) (lo : Int), BandOrder lo s →
      ∃ lo2, BandOrder lo2 (projectLoop graph cutoff bandwidth top fuel round s).state := by
  intro fuel
  induction fuel with
  | zero =>
    intro round s lo hinv
    exact ⟨lo, hinv⟩
  | succ fuel ih =>
    intro round s lo hinv
    rw [projectLoop_succ]
    by_cases hq : s.queue.isEmpty = true
    · rw [if_pos hq]
      exact ⟨lo, hinv⟩
    · rw [if_neg hq]
      have hne : s.queue ≠ [] := by
        intro h
        rw [h] at hq
        exact hq rfl
      obtain ⟨ht, hleast⟩ := htop round s.queue hne
      split_ifs with h1 h2 h3
      · exact ⟨lo, hinv⟩
      · exact ih _ _ _ (bandOrder_skip hinv _ ht hleast)
      · have h := bandOrder_push graph hinv _ ht hleast
          (distance_none_of_not_atMost hinv _ ht (by simpa using h2)) []
          (s.currentWidth + graph.NodeLength (top round s.queue).1)
        rw [List.map_nil, List.append_nil] at h
        exact ⟨_, h⟩
      · exact ih _ _ _ (bandOrder_push graph hinv _ ht hleast
          (distance_none_of_not_atMost hinv _ ht (by simpa using h2)) _ _)

theorem filter_length_le {α : Type} (p q : α → Bool)
    (hsub : ∀ x, q x = true → p x = true) :
    ∀ (l : List α), (l.filter q).length ≤ (l.filter p).length := by
  intro l
  induction l with
  | nil => exact le_refl _
  | cons a l ih =>
    cases hqa : q a with
    | true =>
      simp only [List.filter_cons, hqa, hsub a hqa, if_true, List.length_cons]
      omega
    | false =>
      cases hpa : p a with
      | true =>
        simp only [List.filter_cons, hqa, hpa, if_true, Bool.false_eq_true, if_false,
          List.length_cons]
        omega
      | false =>
        simp only [List.filter_cons, hqa, hpa, Bool.false_eq_true, if_false]
        exact ih

theorem filter_length_lt {α : Type} (p q : α → Bool) (v : α)
    (hp : p v = true) (hq : q v = false) (hsub : ∀ x, q x = true → p x = true) :
    ∀ (l : List α), v ∈ l → (l.filter q).length < (l.filter p).length := by
  intro l
  induction l with
  | nil => intro h; cases h
  | cons a l ih =>
    intro hv
    have hle := filter_length_le p q hsub l
    by_cases e : v = a
    · subst e
      simp only [List.filter_cons, hq, hp, if_true, Bool.false_eq_true, if_false,
        List.length_cons]
      omega
    · have hin : v ∈ l := by
        rcases List.mem_cons.mp hv with h | h
        · exact absurd h e
        · exact h
      have hlt := ih hin
      cases hqa : q a with
      | true =>
        simp only [List.filter_cons, hqa, hsub a hqa, if_true, List.length_cons]
        omega
      | false =>
        cases hpa : p a with
        | true =>
          simp only [List.filter_cons, hqa, hpa, if_true, Bool.false_eq_true, if_false,
            List.length_cons]
          omega
        | false =>
          simp only [List.filter_cons, hqa, hpa, Bool.false_eq_true, if_false]
          exact hlt

theorem unvisited_setDistance (graph : AlignmentGraph) (s s2 : ProjectState) (v : Nat)
    (p : Int) (hv : v < graph.nodeCount) (hnone : s.distances v = none)
    (hs2 : s2.distances = setDistance s.distances v p) :
    unvisited graph s2 < unvisited graph s := by
  unfold unvisited
  rw [hs2]
  apply filter_length_lt _ _ v _ _ _ _ (List.mem_range.mpr hv)
  · simp [hnone]
  · simp [setDistance]
  · intro x hx
    by_cases e : x = v
    · rw [e, hnone]; rfl
    · simpa [setDistance, e] using hx

theorem projectLoop_terminates (graph : AlignmentGraph) (cutoff : Nat) (bandwidth : Int)
    (top : Nat → List (Nat × Int) → Nat × Int) (htop : TopIsLeast top)
    (hgraph : ∀ v, ∀ n ∈ graph.outNeighbors v, n < graph.nodeCount) :
    ∀ (fresh size round : Nat) (s : ProjectState) (lo : Int), BandOrder lo s →
      (∀ e ∈ s.queue, e.1 < graph.nodeCount) → unvisited graph s ≤ fresh →
      s.queue.length ≤ size →
      ∃ fuel, ∀ more,
        (projectLoop graph cutoff bandwidth top (fuel + more) round s).ending
          ≠ ProjectEnd.outOfFuel := by
  have hround : ∀ (round : Nat) (s : ProjectState) (lo : Int), BandOrder lo s →
      (∀ e ∈ s.queue, e.1 < graph.nodeCount) →
      (∀ (s2 : ProjectState), BandOrder (top round s.queue).2 s2 →
        (∀ e ∈ s2.queue, e.1 < graph.nodeCount) →
        (unvisited graph s2 < unvisited graph s
          ∨ (unvisited graph s2 ≤ unvisited graph s ∧ s2.queue.length < s.queue.length)) →
        ∃ fuel, ∀ more,
          (projectLoop graph cutoff bandwidth top (fuel + more) (round + 1) s2).ending
            ≠ ProjectEnd.outOfFuel) →
      ∃ fuel, ∀ more,
        (projectLoop graph cutoff bandwidth top (fuel + more) round s).ending
          ≠ ProjectEnd.outOfFuel := by
    intro round s lo hinv hvert hnext
    by_cases hq : s.queue.isEmpty = true
    · refine ⟨1, fun more => ?_⟩
      rw [Nat.add_comm, projectLoop_succ, if_pos hq]
      exact fun h => ProjectEnd.noConfusion h
    · have hne : s.queue ≠ [] := by
        intro h
        rw [h] at hq
        exact hq rfl
      obtain ⟨ht, hleast⟩ := htop round s.queue hne
      by_cases h1 : (top round s.queue).2 > bandwidth + (WordSize : Int)
      · refine ⟨1, fun more => ?_⟩
        rw [Nat.add_comm, projectLoop_succ, if_neg hq, if_pos h1]
        exact fun h => ProjectEnd.noConfusion h
      · by_cases h2 : distanceAtMost s.distances (top round s.queue).1 (top round s.queue).2
            = true
        · obtain ⟨fuel, hfuel⟩ := hnext { s with queue := s.queue.erase (top round s.queue) }
            (bandOrder_skip hinv _ ht hleast)
            (fun e he => hvert e (List.mem_of_mem_erase he))
            (Or.inr ⟨le_refl _, by
              show (s.queue.erase (top round s.queue)).length < s.queue.length
              rw [List.length_erase_of_mem ht]
              have : 0 < s.queue.length := List.length_pos.mpr hne
              omega⟩)
          refine ⟨fuel + 1, fun more => ?_⟩
          rw [Nat.add_right_comm, projectLoop_succ, if_neg hq, if_neg h1, if_pos h2]
          exact hfuel more
        · have hnone := distance_none_of_not_atMost hinv _ ht (by simpa using h2)
          by_cases h3 : s.currentWidth + graph.NodeLength (top round s.queue).1 ≥ cutoff
          · refine ⟨1, fun more => ?_⟩
            rw [Nat.add_comm, projectLoop_succ, if_neg hq, if_neg h1, if_neg h2, if_pos h3]
            exact fun h => ProjectEnd.noConfusion h
          · obtain ⟨fuel, hfuel⟩ := hnext _
              (bandOrder_push graph hinv _ ht hleast hnone
                (graph.outNeighbors (top round s.queue).1)
                (s.currentWidth + graph.NodeLength (top round s.queue).1))
              (by
                intro e he
                rcases List.mem_append.mp he with h | h
                · exact hvert e (List.mem_of_mem_erase h)
                · obtain ⟨n, hn, hne2⟩ := List.mem_map.mp h
                  rw [← hne2]
                  exact hgraph _ n hn)
              (Or.inl (unvisited_setDistance graph s _ _ _ (hvert _ ht) hnone rfl))
            refine ⟨fuel + 1, fun more => ?_⟩
            rw [Nat.add_right_comm, projectLoop_succ, if_neg hq, if_neg h1, if_neg h2,
              if_neg h3]
            exact hfuel more
  intro fresh
  induction fresh with
  | zero =>
    intro size
    induction size with
    | zero =>
      intro round s lo hinv hvert hu hs
      apply hround round s lo hinv hvert
      intro s2 _ _ hdec
      omega
    | succ size ihSize =>
      intro round s lo hinv hvert hu hs
      apply hround round s lo hinv hvert
      intro s2 hinv2 hvert2 hdec
      rcases hdec with h | ⟨h1, h2⟩
      · omega
      · exact ihSize _ s2 _ hinv2 hvert2 (by omega) (by omega)
  | succ fresh ihFresh =>
    intro size
    induction size with
    | zero =>
      intro round s lo hinv hvert hu hs
      apply hround round s lo hinv hvert
      intro s2 hinv2 hvert2 hdec
      rcases hdec with h | ⟨h1, h2⟩
      · exact ihFresh s2.queue.length _ s2 _ hinv2 hvert2 (by omega) (le_refl _)
      · omega
    | succ size ihSize =>
      intro round s lo hinv hvert hu hs
      apply hround round s lo hinv hvert
      intro s2 hinv2 hvert2 hdec
      rcases hdec with h | ⟨h1, h2⟩
      · exact ihFresh s2.queue.length _ s2 _ hinv2 hvert2 (by omega) (le_refl _)
      · exact ihSize _ s2 _ hinv2 hvert2 (by omega) (by omega)

theorem projectSeeds_vertices (graph : AlignmentGraph) (cutoff : Nat)
    (minScore bandwidth : Int)
    (hgraph : ∀ v, ∀ n ∈ graph.outNeighbors v, n < graph.nodeCount) (rest : List BandEntry) :
    ∀ (s : ProjectState), (∀ e ∈ s.queue, e.1 < graph.nodeCount) →
      ∀ e ∈ (projectSeeds graph cutoff minScore bandwidth rest s).1.queue,
        e.1 < graph.nodeCount := by
  induction rest with
  | nil =>
    intro s hs
    exact hs
  | cons pair rest ih =>
    intro s hs
    unfold projectSeeds
    simp only
    split_ifs
    · exact hs
    · exact ih _ hs
    · apply ih
      intro e he
      rcases List.mem_append.mp he with h | h
      · exact hs e h
      · obtain ⟨n, hn, hne⟩ := List.mem_map.mp h
        rw [← hne]
        exact hgraph _ n hn
    · exact ih _ hs

theorem bandOrder_init : BandOrder 0
    { distances := fun _ => none, result := [], queue := [], currentWidth := 0 } :=
  ⟨List.nodup_nil, fun v hv => absurd hv (List.not_mem_nil _), fun v d hd => by simp at hd,
    fun e he => absurd he (List.not_mem_nil _)⟩

/-- C39: when the previous slice lists each vertex once (vertex lengths are natural
numbers), the end score of a start vertex is not below the minimum score, as the source
asserts, and the top of the priority queue is an entry of least priority, the vertex list
of projectForwardFromMinScore holds no vertex twice, whatever number of rounds the loop is
given; and on a graph whose out-neighbours are vertices below nodeCount the function
returns: with enough fuel, and with any more, the run ends at a return statement. -/
theorem projectForwardFromMinScore_nodup (graph : AlignmentGraph)
    (AlternateMethodCutoff : Nat) (top : Nat → List (Nat × Int) → Nat × Int)
    (minScore : Int) (previousSlice : List BandEntry) (bandwidth : Int)
    (htop : TopIsLeast top)
    (hnodes : (previousSlice.map BandEntry.node).Nodup)
    (hscore : ∀ e ∈ previousSlice, e.minScore ≤ minScore + bandwidth → minScore ≤ e.endScore) :
    (∀ fuel, (projectForwardFromMinScore graph AlternateMethodCutoff top fuel minScore
        previousSlice bandwidth).Nodup)
      ∧ ((∀ v, ∀ n ∈ graph.outNeighbors v, n < graph.nodeCount) →
        ∃ fuel, ∀ more, (projectForwardRun graph AlternateMethodCutoff top (fuel + more)
          minScore previousSlice bandwidth).ending ≠ ProjectEnd.outOfFuel) := by
  have hseeds := projectSeeds_order graph AlternateMethodCutoff minScore bandwidth
    previousSlice [] _ (by rw [List.nil_append]; exact hnodes) hscore bandOrder_init
    (fun v hv => absurd hv (List.not_mem_nil _))
  constructor
  · intro fuel
    unfold projectForwardFromMinScore projectForwardRun
    simp only
    split_ifs
    · exact hseeds.nodup
    · obtain ⟨lo, h⟩ := projectLoop_order graph AlternateMethodCutoff bandwidth top htop fuel
        0 _ 0 hseeds
      exact h.nodup
  · intro hgraph
    unfold projectForwardRun
    simp only
    split_ifs
    · exact ⟨0, fun _ h => ProjectEnd.noConfusion h⟩
    · exact projectLoop_terminates graph AlternateMethodCutoff bandwidth top htop hgraph _ _
        0 _ 0 hseeds
        (projectSeeds_vertices graph AlternateMethodCutoff minScore bandwidth hgraph
          previousSlice _ (fun e he => absurd he (List.not_mem_nil _)))
        (le_refl _) (le_refl _)

/-- C39 (witness): projectForwardFromMinScore_nodup on triangleGraph from the vertex 0, with
the first entry of least priority as the top of the queue. -/
theorem projectForwardFromMinScore_nodup_witness :
    (∀ fuel, (projectForwardFromMinScore triangleGraph 100 (fun _ => leastEntry) fuel 0
        [{ node := 0, minScore := 0, endScore := 0 }] 2).Nodup)
      ∧ ((∀ v, ∀ n ∈ triangleGraph.outNeighbors v, n < triangleGraph.nodeCount) →
        ∃ fuel, ∀ more, (projectForwardRun triangleGraph 100 (fun _ => leastEntry)
          (fuel + more) 0 [{ node := 0, minScore := 0, endScore := 0 }] 2).ending
            ≠ ProjectEnd.outOfFuel) :=
  projectForwardFromMinScore_nodup triangleGraph 100 (fun _ => leastEntry) 0
    [{ node := 0, minScore := 0, endScore := 0 }] 2 leastEntry_topIsLeast (by decide)
    (by decide)

/-- The band of triangleGraph from the vertex 0: each of the three vertices once, although
the vertex 2 is put into the queue twice and the vertex 0 comes back through the cycle. -/
theorem projectForwardFromMinScore_triangle :
    projectForwardFromMinScore triangleGraph 100 (fun _ => leastEntry) 10 0
        [{ node := 0, minScore := 0, endScore := 0 }] 2 = [0, 1, 2]
      ∧ (projectForwardRun triangleGraph 100 (fun _ => leastEntry) 10 0
        [{ node := 0, minScore := 0, endScore := 0 }] 2).ending = ProjectEnd.atEnd := by
  decide

end BandOrderProofs

/-! ## BitPosition is rank-select -/

theorem select8 (a : Nat → Nat) (h1 : ∀ j < 8, a j ≤ 1) (hm : ∀ j < 7, a j ≤ a (j + 1))
    (h7 : a 7 = 1) :
    8 - (a 0 + a 1 + a 2 + a 3 + a 4 + a 5 + a 6 + a 7) ≤ 7
      ∧ (∀ j < 8 - (a 0 + a 1 + a 2 + a 3 + a 4 + a 5 + a 6 + a 7), a j = 0)
      ∧ a (8 - (a 0 + a 1 + a 2 + a 3 + a 4 + a 5 + a 6 + a 7)) = 1 := by
  have b0 := h1 0 (by omega)
  have b1 := h1 1 (by omega)
  have b2 := h1 2 (by omega)
  have b3 := h1 3 (by omega)
  have b4 := h1 4 (by omega)
  have b5 := h1 5 (by omega)
  have b6 := h1 6 (by omega)
  have m0 := hm 0 (by omega)
  have m1 := hm 1 (by omega)
  have m2 := hm 2 (by omega)
  have m3 := hm 3 (by omega)
  have m4 := hm 4 (by omega)
  have m5 := hm 5 (by omega)
  have m6 := hm 6 (by omega)
  simp only [Nat.zero_add, Nat.reduceAdd] at m0 m1 m2 m3 m4 m5 m6
  generalize hS : 8 - (a 0 + a 1 + a 2 + a 3 + a 4 + a 5 + a 6 + a 7) = S
  refine ⟨by omega, ?_, ?_⟩
  · intro j hj
    have hc : j = 0 ∨ j = 1 ∨ j = 2 ∨ j = 3 ∨ j = 4 ∨ j = 5 ∨ j = 6 := by omega
    rcases hc with e | e | e | e | e | e | e <;> subst e <;> omega
  · have hc : S = 0 ∨ S = 1 ∨ S = 2 ∨ S = 3 ∨ S = 4 ∨ S = 5 ∨ S = 6 ∨ S = 7 := by omega
    rcases hc with e | e | e | e | e | e | e | e <;> rw [e] at hS ⊢ <;> omega

theorem swarSelect (C : Nat) (c : Nat → Nat) (hC : LaneWise C c) (hc : ∀ j < 8, c j < 128)
    (hmono : ∀ j < 7, c j ≤ c (j + 1)) (t : Nat) (ht : t ≤ 128) (h7 : t ≤ c 7) :
    wsub 8 ((wmul (((wsub (C ||| SignMask) (wmul t PrefixSumMultiplierConstant))
        &&& SignMask) >>> 7) PrefixSumMultiplierConstant) >>> 56) ≤ 7
      ∧ (∀ j < wsub 8 ((wmul (((wsub (C ||| SignMask) (wmul t PrefixSumMultiplierConstant))
        &&& SignMask) >>> 7) PrefixSumMultiplierConstant) >>> 56), c j < t)
      ∧ t ≤ c (wsub 8 ((wmul (((wsub (C ||| SignMask) (wmul t PrefixSumMultiplierConstant))
        &&& SignMask) >>> 7) PrefixSumMultiplierConstant) >>> 56)) := by
  rw [swarCount C c hC hc t ht]
  have hs := select8 (fun j => if t ≤ c j then 1 else 0)
    (fun j _ => by show (if t ≤ c j then 1 else 0) ≤ 1; split_ifs <;> omega)
    (fun j hj => by
      show (if t ≤ c j then 1 else 0) ≤ (if t ≤ c (j + 1) then 1 else 0)
      have := hmono j hj
      split_ifs <;> omega)
    (by show (if t ≤ c 7 then 1 else 0) = 1; rw [if_pos h7])
  simp only at hs
  have hw : ∀ n, n ≤ 8 → wsub 8 n = 8 - n := by
    intro n hn
    unfold wsub wordMod
    omega
  have hle : (if t ≤ c 0 then 1 else 0) + (if t ≤ c 1 then 1 else 0)
      + (if t ≤ c 2 then 1 else 0) + (if t ≤ c 3 then 1 else 0) + (if t ≤ c 4 then 1 else 0)
      + (if t ≤ c 5 then 1 else 0) + (if t ≤ c 6 then 1 else 0) + (if t ≤ c 7 then 1 else 0)
      ≤ 8 := by
    split_ifs <;> omega
  rw [hw _ hle]
  obtain ⟨s1, s2, s3⟩ := hs
  refine ⟨s1, ?_, ?_⟩
  · intro j hj
    have := s2 j hj
    by_contra hcon
    rw [if_pos (by omega)] at this
    cases this
  · by_contra hcon
    rw [if_neg hcon] at s3
    cases s3

theorem bitCount_lane_add (x S i : Nat) (hi : i ≤ 8) :
    bitCount x (8 * S + i) = bitCount x (8 * S) + bitCount (lane x S) i := by
  have h : (256 : Nat) = 2 ^ 8 := by norm_num
  rw [bitCount_add, lane, h, bitCount_mod, Nat.min_eq_left hi]

theorem cumulative_top (x : Nat) (hx : x < wordMod) :
    (wmul (ChunkPopcounts x) PrefixSumMultiplierConstant) >>> 56 = bitCount x 64 := by
  have hcum := cumulative_lanes x hx
  have h7 : lane _ 7 = bitCount x 64 := hcum.2 7 (by omega)
  have hlt := hcum.1
  rw [lane_eq_div] at h7
  rw [Nat.shiftRight_eq_div_pow, ← h7]
  unfold wordMod at hlt
  norm_num
  omega

theorem bitPosition1_beyond (x : Nat) (hx : x < wordMod) (rank : Int) (h0 : 0 ≤ rank)
    (h1 : rank < 2147483648) (hk : (bitCount x 64 : Int) ≤ rank) :
    BitPosition1 x rank = 64 + rank - bitCount x 64 := by
  unfold BitPosition1
  simp only [cumulative_top x hx]
  rw [if_pos (by unfold wordMod; omega)]
  omega

theorem bitPosition1_select (x : Nat) (hx : x < wordMod) (k : Nat) (hk : k < bitCount x 64) :
    ∃ p : Nat, p < 64 ∧ BitPosition1 x (k : Int) = (p : Int) ∧ x.testBit p = true
      ∧ bitCount x p = k := by
  have hcum := cumulative_lanes x hx
  have hcnt := bitCount_le x 64
  unfold BitPosition1
  simp only [cumulative_top x hx]
  have hkmod : ((k : Int) % (wordMod : Int)).toNat = k := by
    unfold wordMod; omega
  rw [hkmod, if_neg (by omega)]
  have ht : (((k : Int) + 1).toNat &&& 0xFF) = k + 1 := by
    rw [and_255]
    omega
  rw [ht]
  have hlanes : ∀ j < 8, bitCount x (8 * (j + 1)) < 128 := fun j hj => by
    have := bitCount_le x (8 * (j + 1)); omega
  obtain ⟨hS7, hSlow, hShigh⟩ := swarSelect _ _ hcum hlanes
    (fun j _ => bitCount_mono x (by omega)) (k + 1) (by omega) (by
      show k + 1 ≤ bitCount x (8 * (7 + 1))
      exact hk)
  generalize hSdef : wsub 8 ((wmul (((wsub (wmul (ChunkPopcounts x)
      PrefixSumMultiplierConstant ||| SignMask) (wmul (k + 1) PrefixSumMultiplierConstant))
      &&& SignMask) >>> 7) PrefixSumMultiplierConstant) >>> 56) = S at hS7 hSlow hShigh ⊢
  have hbelow : bitCount x (8 * S) ≤ k := by
    by_cases hpos : S = 0
    · rw [hpos]; simp [bitCount]
    · have := hSlow (S - 1) (by omega)
      have e : 8 * (S - 1 + 1) = 8 * S := by omega
      rw [e] at this
      omega
  have hrank : (if S > 0 then (k : Int) - (((wshr (wmul (ChunkPopcounts x)
      PrefixSumMultiplierConstant) (((S : Int) - 1) * 8)) &&& 0xFF : Nat) : Int)
      else (k : Int)) = ((k - bitCount x (8 * S) : Nat) : Int) := by
    split_ifs with hpos
    · have hsc : shiftCount (((S : Int) - 1) * 8) = 8 * (S - 1) := by
        unfold shiftCount; omega
      have hl : lane _ (S - 1) = bitCount x (8 * (S - 1 + 1)) := hcum.2 (S - 1) (by omega)
      have e : 8 * (S - 1 + 1) = 8 * S := by omega
      rw [e] at hl
      have : (wshr (wmul (ChunkPopcounts x) PrefixSumMultiplierConstant)
          (((S : Int) - 1) * 8)) &&& 0xFF = bitCount x (8 * S) := by
        rw [and_255, wshr, hsc]; exact hl
      rw [this]
      omega
    · have : S = 0 := by omega
      rw [this]
      simp [bitCount]
  simp only [hrank]
  have hib : (wshr x ((S * 8 : Nat) : Int)) &&& 0xFF = lane x S := by
    have hsc : shiftCount ((S * 8 : Nat) : Int) = 8 * S := by
      unfold shiftCount; omega
    rw [and_255, wshr, hsc]; rfl
  rw [hib]
  generalize hr : k - bitCount x (8 * S) = r
  have hsplit : ∀ i ≤ 8, bitCount x (8 * S + i) = bitCount x (8 * S) + bitCount (lane x S) i :=
    fun i hi => bitCount_lane_add x S i hi
  have hbyte : r + 1 ≤ bitCount (lane x S) 8 := by
    have h8 := hsplit 8 (le_refl _)
    have e : 8 * (S + 1) = 8 * S + 8 := by omega
    rw [e, h8] at hShigh
    omega
  have hble := bitCount_le (lane x S) 8
  have ht2 : (((r : Nat) : Int) + 1).toNat &&& 0xFF = r + 1 := by
    rw [and_255]
    omega
  rw [ht2]
  have hL : LaneWise (wmul ((wmul ((wmul (lane x S) 0x0000040010004001)
      &&& 0x0003000300030003) 0x0000000000000081) &&& 0x0101010101010101)
      PrefixSumMultiplierConstant) (fun j => bitCount (lane x S) (j + 1)) :=
    ⟨Nat.mod_lt _ (by decide), fun j hj => spreadBits_lanes _ (lane_lt _ _) j hj⟩
  obtain ⟨hT7, hTlow, hThigh⟩ := swarSelect _ _ hL
    (fun j hj => by
      have := bitCount_le (lane x S) (j + 1); show bitCount _ _ < 128; omega)
    (fun j _ => bitCount_mono _ (by omega)) (r + 1) (by omega) hbyte
  generalize hTdef : wsub 8 ((wmul (((wsub (wmul ((wmul ((wmul (lane x S) 0x0000040010004001)
      &&& 0x0003000300030003) 0x0000000000000081) &&& 0x0101010101010101)
      PrefixSumMultiplierConstant ||| SignMask) (wmul (r + 1) PrefixSumMultiplierConstant))
      &&& SignMask) >>> 7) PrefixSumMultiplierConstant) >>> 56) = T at hT7 hTlow hThigh ⊢
  have hTbelow : bitCount (lane x S) T ≤ r := by
    by_cases hpos : T = 0
    · rw [hpos]; simp [bitCount]
    · have := hTlow (T - 1) (by omega)
      have e : T - 1 + 1 = T := by omega
      rw [e] at this
      omega
  have hstep : bitCount (lane x S) (T + 1)
      = bitCount (lane x S) T + (if (lane x S).testBit T then 1 else 0) := rfl
  have hbit : (lane x S).testBit T = true := by
    by_contra hcon
    rw [if_neg hcon] at hstep
    omega
  have hval : bitCount (lane x S) T = r := by
    rw [if_pos hbit] at hstep
    omega
  refine ⟨S * 8 + T, by omega, by push_cast; ring, ?_, ?_⟩
  · rw [lane_testBit] at hbit
    have e : S * 8 + T = 8 * S + T := by omega
    rw [e]
    have hb2 : T < 8 ∧ x.testBit (8 * S + T) = true := by simpa using hbit
    exact hb2.2
  · have e : S * 8 + T = 8 * S + T := by omega
    rw [e, hsplit T (by omega), hval]
    omega

theorem testBit_two_words (low high : Nat) (hl : low < wordMod) (i : Nat) :
    (low + wordMod * high).testBit i
      = if i < 64 then low.testBit i else high.testBit (i - 64) := by
  have h := Nat.testBit_mul_pow_two_add high (wordMod_eq ▸ hl) i
  rw [← h, wordMod_eq, Nat.add_comm]

theorem bitCount_two_words_low (low high : Nat) (hl : low < wordMod) :
    ∀ p ≤ 64, bitCount (low + wordMod * high) p = bitCount low p := by
  intro p hp
  exact bitCount_congr _ _ p (fun i hi => by
    rw [testBit_two_words low high hl, if_pos (by omega)])

theorem bitCount_two_words_high (low high : Nat) (hl : low < wordMod) (q : Nat) :
    bitCount (low + wordMod * high) (64 + q) = bitCount low 64 + bitCount high q := by
  rw [bitCount_add, bitCount_two_words_low low high hl 64 (le_refl _)]
  have : (low + wordMod * high) >>> 64 = high := by
    rw [Nat.shiftRight_eq_div_pow]
    unfold wordMod at hl ⊢
    omega
  rw [this]

/-- C40: BitPosition is rank-select. For a 64 bit number x and a rank k of an int that is
below popcount(x), BitPosition(x, k) is the position p below 64 such that bit p of x is set
and exactly k bits of x below p are set; for a rank from popcount(x) on it is
64 + k - popcount(x). The form with two words is the same selection over the 128 bit value
high:low: the position p below 128 of the set bit with exactly k set bits below it, and
128 + k - popcount(low) - popcount(high) for a rank from the number of set bits on. -/
theorem bitPosition_rank_select (x low high k : Nat) (hx : x < wordMod) (hl : low < wordMod)
    (hh : high < wordMod) (hk : k < 2147483648) :
    (k < popcount x → ∃ p : Nat, p < 64 ∧ BitPosition1 x (k : Int) = (p : Int)
        ∧ x.testBit p = true ∧ bitCount x p = k)
      ∧ (popcount x ≤ k → BitPosition1 x (k : Int) = 64 + (k : Int) - (popcount x : Int))
      ∧ (k < popcount low + popcount high →
        ∃ p : Nat, p < 128 ∧ BitPosition low high (k : Int) = (p : Int)
          ∧ (low + wordMod * high).testBit p = true
          ∧ bitCount (low + wordMod * high) p = k)
      ∧ (popcount low + popcount high ≤ k →
        BitPosition low high (k : Int)
          = 128 + (k : Int) - ((popcount low : Int) + (popcount high : Int))) := by
  rw [popcount_eq_bitCount x hx, popcount_eq_bitCount low hl, popcount_eq_bitCount high hh]
  have hlow64 := bitCount_le low 64
  have hhigh64 := bitCount_le high 64
  refine ⟨fun h => bitPosition1_select x hx k h,
    fun h => bitPosition1_beyond x hx k (by omega) (by omega) (by omega), ?_, ?_⟩
  · intro h
    unfold BitPosition
    dsimp only
    by_cases h1 : k < bitCount low 64
    · obtain ⟨p, hp, hval, hbit, hcount⟩ := bitPosition1_select low hl k h1
      refine ⟨p, by omega, ?_, ?_, ?_⟩
      · rw [hval, if_pos (by omega)]
      · rw [testBit_two_words low high hl, if_pos hp]; exact hbit
      · rw [bitCount_two_words_low low high hl p (by omega)]; exact hcount
    · have hval := bitPosition1_beyond low hl k (by omega) (by omega) (by omega)
      rw [hval, if_neg (by omega)]
      have e : (64 + (k : Int) - (bitCount low 64 : Int) - 64)
          = ((k - bitCount low 64 : Nat) : Int) := by omega
      rw [e]
      obtain ⟨q, hq, hqval, hbit, hcount⟩ :=
        bitPosition1_select high hh (k - bitCount low 64) (by omega)
      refine ⟨64 + q, by omega, ?_, ?_, ?_⟩
      · rw [hqval]; push_cast; ring
      · rw [testBit_two_words low high hl, if_neg (by omega)]
        have : 64 + q - 64 = q := by omega
        rw [this]; exact hbit
      · rw [bitCount_two_words_high low high hl, hcount]; omega
  · intro h
    unfold BitPosition
    dsimp only
    have hval := bitPosition1_beyond low hl k (by omega) (by omega) (by omega)
    rw [hval, if_neg (by omega)]
    have e : (64 + (k : Int) - (bitCount low 64 : Int) - 64)
        = ((k - bitCount low 64 : Nat) : Int) := by omega
    rw [e, bitPosition1_beyond high hh _ (by omega) (by omega) (by omega)]
    omega

set_option maxRecDepth 100000 in
/-- C40 (witness): bitPosition_rank_select at the number 10110 (binary), the words low = 1
and high = 6, and the rank 2. -/
theorem bitPosition_rank_select_witness :
    (2 < popcount 0b10110 → ∃ p : Nat, p < 64 ∧ BitPosition1 0b10110 ((2 : Nat) : Int) = (p : Int)
        ∧ (0b10110 : Nat).testBit p = true ∧ bitCount 0b10110 p = 2)
      ∧ (popcount 0b10110 ≤ 2 →
        BitPosition1 0b10110 ((2 : Nat) : Int) = 64 + ((2 : Nat) : Int) - (popcount 0b10110 : Int))
      ∧ (2 < popcount 1 + popcount 6 →
        ∃ p : Nat, p < 128 ∧ BitPosition 1 6 ((2 : Nat) : Int) = (p : Int)
          ∧ (1 + wordMod * 6).testBit p = true
          ∧ bitCount (1 + wordMod * 6) p = 2)
      ∧ (popcount 1 + popcount 6 ≤ 2 →
        BitPosition 1 6 ((2 : Nat) : Int)
          = 128 + ((2 : Nat) : Int) - ((popcount 1 : Int) + (popcount 6 : Int))) :=
  bitPosition_rank_select 0b10110 1 6 2 (by decide) (by decide) (by decide) (by decide)

set_option maxRecDepth 100000 in
/-- BitPosition on the number 10110 (binary) and on the two words low = 1, high = 6, for
ranks below and from the number of set bits on. -/
theorem bitPosition_examples :
    BitPosition1 0b10110 0 = 1 ∧ BitPosition1 0b10110 1 = 2 ∧ BitPosition1 0b10110 2 = 4
      ∧ BitPosition1 0b10110 3 = 64 ∧ BitPosition1 0b10110 5 = 66
      ∧ BitPosition 1 6 0 = 0 ∧ BitPosition 1 6 1 = 65 ∧ BitPosition 1 6 2 = 66
      ∧ BitPosition 1 6 3 = 128 := by
  decide
